import Mathlib

/-!
Range sets of the range-based constraint solver.

A shallow embedding of the `RangeSet` part of
`clang/lib/StaticAnalyzer/Core/RangeConstraintManager.cpp`:
`RangeSet::pin`, `RangeSet::containsImpl` and the factory operations
`intersect` (three overloads), `negate` and `deletePoint`.

Conventions of the embedding.

* An `llvm::APSInt` of the set's type is the mathematical integer it denotes;
  the type itself (bit width and signedness, `APSIntType`) is passed
  explicitly as `T` wherever the source reads it off a sample value
  (`APSIntType Type(getMinValue())`, `ValueFactory.getMinValue(SampleValue)`).
  Arithmetic that can overflow (`-x`, `++x`, `--x`) is reduced modulo
  `2 ^ BitWidth` into the range of `T`.
* A `RangeSet` is the sequence of its ranges; the empty set is `[]`.
  `makePersistent` interns a container by its contents and is therefore the
  identity on sequences; `ValueFactory.getValue` interns a value and is the
  identity on integers.
* The file also embeds `OperatorRelationsTable` and the class registry
  `EquivalenceClass` (`find`, `merge`, `mergeImpl`, `markDisequal`,
  `addToDisequalityInfo`, `areEqual`, `isClassDataConsistent`).  A symbol and
  an equivalence class are known by their identity, a natural number; a
  program state is the record of its four registered maps, each the sequence
  of its bindings in key order; a null `ProgramStateRef` is `none`.  What the
  registry reads from outside it is passed explicitly: the type of a symbol
  (`getType`), the height of the tree of a member set (`getHeight`), and the
  range inferrer (`inferRange`, with the integer type `rangeType` of the range
  it gives for a symbol).
* The inferrer (`SymbolicRangeInferrer`), the assignor (`ConstraintAssignor`)
  and the manager (`assumeSym*`, `getSym*Range`, `removeDeadBindings`) read
  everything outside this file from one record, `Context`: the types of
  symbols and their integer types, the type tests, the height of a member set,
  the interning of symbol-symbol expressions, the expression of a symbol and
  the simplifier.  A symbolic expression is a tree (`SymExpr`) whose nodes
  carry the identity of their symbol, so that the inferrer recurses on the
  structure of the expression.  The theorems about whole states name the
  invariants they rely on: `Context.Coherent`, `RegistryConsistent`,
  `WellTyped`, `KeysOrdered`.
* The union `add(RangeSet, RangeSet)` is the `std::merge` of the two sequences
  by lower bound.  `intersectLoopTrace` is the loop of `intersect` once more,
  with a count of the iterations of its inner loop.
* The soundness of the rules for `|`, `&` and `%` is stated against reference
  operations on the values of a type: `bitwiseOr` and `bitwiseAnd` work on the
  bit patterns (`APSIntType.bits`, the value modulo `2 ^ BitWidth`), and the
  remainder is `Int.tmod`, truncated toward zero.
-/

namespace RangeConstraint

/-! ## Integer types -/

/-- The type of an integer value: its width in bits and its signedness. -/
structure APSIntType where
  BitWidth : Nat
  IsUnsigned : Bool
deriving DecidableEq, Repr

namespace APSIntType

/-- Modelled from the spec: the smallest value of a fixed-width, fixed-signedness
type (`getMinValue` of the value factory, declared outside the given sources). -/
def getMinValue (T : APSIntType) : Int :=
  if T.IsUnsigned then 0 else -(2 ^ (T.BitWidth - 1))

/-- Modelled from the spec: the largest value of a fixed-width, fixed-signedness
type (`getMaxValue` of the value factory, declared outside the given sources). -/
def getMaxValue (T : APSIntType) : Int :=
  if T.IsUnsigned then 2 ^ T.BitWidth - 1 else 2 ^ (T.BitWidth - 1) - 1

/-- Modelled from the spec: conversion of an integer to the type
(`APSIntType::apply`, declared outside the given sources), under modular
(wraparound) arithmetic: the value is reduced modulo `2 ^ BitWidth` into
`[getMinValue, getMaxValue]`. -/
def apply (T : APSIntType) (Value : Int) : Int :=
  (Value - T.getMinValue) % 2 ^ T.BitWidth + T.getMinValue

/-- Result of testing a value against the range of a type. -/
inductive RangeTestResultKind where
  | RTR_Below
  | RTR_Within
  | RTR_Above
deriving DecidableEq, Repr

/-- Modelled from the spec: `APSIntType::testInRange` is declared outside the
given sources; the spec says each bound is "classified as below/within/above
the representable range".  The value is compared with the range of the type as
the integer it denotes. -/
def testInRange (T : APSIntType) (Value : Int) : RangeTestResultKind :=
  if Value < T.getMinValue then RangeTestResultKind.RTR_Below
  else if T.getMaxValue < Value then RangeTestResultKind.RTR_Above
  else RangeTestResultKind.RTR_Within

end APSIntType

open APSIntType (RangeTestResultKind)

/-- Modelled from the spec: unary minus of a value of type `T` (`-x` on an
`APSInt`, declared outside the given sources), two's-complement, wrapping. -/
def neg (T : APSIntType) (x : Int) : Int := T.apply (-x)

/-! ## Ranges and range sets -/

/-- A closed interval `[From, To]`. -/
structure Range where
  From : Int
  To : Int
deriving DecidableEq, Repr

/-- Modelled from the spec: the test `Range::Includes` (declared in the header,
outside the given sources) of a closed interval: `From ≤ Point ≤ To`. -/
def Range.Includes (R : Range) (Point : Int) : Bool :=
  decide (R.From ≤ Point) && decide (Point ≤ R.To)

/-- A range set is the sequence of its ranges. -/
abbrev RangeSet := List Range

/-- The accessor `RangeSet::getMinValue`: `begin()->From()` (the source
asserts that the set is not empty). -/
def getMinValue (S : RangeSet) : Int :=
  match S with
  | [] => 0
  | r :: _ => r.From

/-- The accessor `RangeSet::getMaxValue`: `std::prev(end())->To()` (the source
asserts that the set is not empty). -/
def getMaxValue (S : RangeSet) : Int :=
  match S.getLast? with
  | none => 0
  | some r => r.To

/-- One-argument `RangeSet::pin`: fails unless the point is within the range
of the set's type, and converts it to that type otherwise. -/
def pinPoint (T : APSIntType) (Point : Int) : Option Int :=
  if T.testInRange Point ≠ RangeTestResultKind.RTR_Within then none
  else some (T.apply Point)

/-- Modelled from the spec: the position returned by
`llvm::upper_bound(*this, Dummy)`, the first range that compares greater than
`Dummy`; sets are "sorted by lower bound", so ranges compare by their `From`
(`Range::operator<` is declared in the header, outside the given sources). -/
def upperBound (S : RangeSet) (Point : Int) : Nat :=
  (S.takeWhile (fun r => !decide (Point < r.From))).length

/-- Membership test `RangeSet::containsImpl`. -/
def containsImpl (T : APSIntType) (S : RangeSet) (Point : Int) : Bool :=
  if S.isEmpty then false
  else
    match pinPoint T Point with
    | none => false
    | some P =>
      let It := upperBound S P
      if It = 0 then false
      else
        match S.get? (It - 1) with
        | none => false
        | some r => r.Includes P

/-- Two-argument `RangeSet::pin`: the nine cases of testing both bounds
against the set's type.  `none` is the source's `return false`; `some` carries
the updated `(Lower, Upper)`. -/
def pin (T : APSIntType) (Lower Upper : Int) : Option (Int × Int) :=
  match T.testInRange Lower, T.testInRange Upper with
  | .RTR_Below, .RTR_Below =>
    if Lower ≤ Upper then none else some (T.getMinValue, T.getMaxValue)
  | .RTR_Below, .RTR_Within => some (T.getMinValue, T.apply Upper)
  | .RTR_Below, .RTR_Above => some (T.getMinValue, T.getMaxValue)
  | .RTR_Within, .RTR_Below => some (T.apply Lower, T.getMaxValue)
  | .RTR_Within, .RTR_Within => some (T.apply Lower, T.apply Upper)
  | .RTR_Within, .RTR_Above => some (T.apply Lower, T.getMaxValue)
  | .RTR_Above, .RTR_Below => none
  | .RTR_Above, .RTR_Within => some (T.getMinValue, T.apply Upper)
  | .RTR_Above, .RTR_Above =>
    if Lower ≤ Upper then none else some (T.getMinValue, T.getMaxValue)

/-! ## Intersection -/

/-- The nested loops of `intersect(const ContainerType &, const ContainerType &)`.
`First` and `Second` are the ranges from the two iterators to their ends and
`Result` is the container built so far.  The flag is `false` at the head of the
outer `while` and `true` at the head of the body of the inner `do … while`.
Every transition consumes one unit of fuel; `none` means the fuel ran out. -/
def intersectLoop : Nat → Bool → List Range → List Range → List Range →
    Option (List Range)
  | 0, _, _, _, _ => none
  | fuel + 1, false, First, Second, Result =>
    match First, Second with
    | f :: _, s :: _ =>
      -- if (Second->From() < First->From()) SwapIterators();
      if s.From < f.From then intersectLoop fuel true Second First Result
      else intersectLoop fuel true First Second Result
    | _, _ => some Result
  | fuel + 1, true, First, Second, Result =>
    match First, Second with
    | f :: fs, s :: ss =>
      if s.From > f.To then
        -- ++First; break;
        intersectLoop fuel false fs (s :: ss) Result
      else if s.To > f.To then
        -- SwapIterators(); push_back(Range(IntersectionStart, Second->To())); ++Second;
        intersectLoop fuel (!fs.isEmpty) (s :: ss) fs (Result ++ [⟨s.From, f.To⟩])
      else
        -- push_back(Range(IntersectionStart, Second->To())); ++Second;
        intersectLoop fuel (!ss.isEmpty) (f :: fs) ss (Result ++ [⟨s.From, s.To⟩])
    | _, _ => some Result

/-- The overload `intersect(const ContainerType &LHS, const ContainerType &RHS)`. -/
def intersectContainers (LHS RHS : List Range) : RangeSet :=
  (intersectLoop (2 * (LHS.length + RHS.length) + 1) false LHS RHS []).getD []

/-- The overload `intersect(RangeSet LHS, RangeSet RHS)`. -/
def intersect (LHS RHS : RangeSet) : RangeSet :=
  if LHS.isEmpty || RHS.isEmpty || decide (getMaxValue LHS < getMinValue RHS) ||
      decide (getMaxValue RHS < getMinValue LHS) then []
  else intersectContainers LHS RHS

/-- The overload `intersect(RangeSet What, APSInt Lower, APSInt Upper)`. -/
def intersectBounds (T : APSIntType) (What : RangeSet) (Lower Upper : Int) : RangeSet :=
  if What.isEmpty then []
  else
    match pin T Lower Upper with
    | none => []
    | some (Lower, Upper) =>
      if Lower ≤ Upper then
        if getMaxValue What < Lower ∨ Upper < getMinValue What then []
        else intersectContainers What [⟨Lower, Upper⟩]
      else
        if getMaxValue What < Lower ∧ Upper < getMinValue What then []
        else intersectContainers What [⟨T.getMinValue, Upper⟩, ⟨Lower, T.getMaxValue⟩]

/-! ## Negation and point deletion -/

/-- Modelled from the spec: the call `llvm::sort(Result)`, which orders the
ranges by their lower bound (`Range::operator<` is declared in the header,
outside the given sources). -/
def sortRanges (Result : List Range) : List Range :=
  Result.insertionSort (fun a b => a.From ≤ b.From)

/-- The negated range that the final loop of `negate` appends for one range:
`Range(getValue(-It->To()), getValue(-It->From()))`. -/
def negateRange (T : APSIntType) (r : Range) : Range :=
  ⟨neg T r.To, neg T r.From⟩

/-- The operation `RangeSet::Factory::negate`. -/
def negate (T : APSIntType) (What : RangeSet) : RangeSet :=
  match What with
  | [] => []
  | first :: rest =>
    let MIN := T.getMinValue
    let MAX := T.getMaxValue
    if first.From = MIN then
      if first.To = MAX then What
      else
        let Last := (first :: rest).getLast (List.cons_ne_nil first rest)
        -- the ranges visited by the final loop: from `It + 1` up to `End`
        let Result0 : List Range :=
          if Last.To = MAX then [⟨MIN, neg T Last.From⟩] else [⟨MIN, MIN⟩]
        let Middle : List Range := if Last.To = MAX then rest.dropLast else rest
        let Result1 : List Range :=
          if first.To ≠ MIN then Result0 ++ [⟨neg T first.To, MAX⟩] else Result0
        sortRanges (Result1 ++ Middle.map (negateRange T))
    else
      sortRanges ((first :: rest).map (negateRange T))

/-- The operation `RangeSet::Factory::deletePoint`; `From.contains(Point)` is
`containsImpl` on a copy of the point, and `++`/`--` wrap in the point's type. -/
def deletePoint (T : APSIntType) (From : RangeSet) (Point : Int) : RangeSet :=
  if !containsImpl T From Point then From
  else
    let Upper := T.apply (Point + 1)
    let Lower := T.apply (Point - 1)
    -- Notice that the lower bound is greater than the upper bound.
    intersectBounds T From Upper Lower

/-! ## Well-formed range sets -/

/-- Every range of the set is a non-empty interval of values of the type. -/
def InType (T : APSIntType) (S : RangeSet) : Prop :=
  ∀ r ∈ S, T.getMinValue ≤ r.From ∧ r.To ≤ T.getMaxValue

/-- Well-formed: every range has `From ≤ To`, and the ranges are sorted by lower
bound and pairwise disjoint, that is, each range ends before every later range
starts. -/
def WellFormed (S : RangeSet) : Prop :=
  (∀ r ∈ S, r.From ≤ r.To) ∧ S.Pairwise (fun a b => a.To < b.From)

instance (T : APSIntType) (S : RangeSet) : Decidable (InType T S) :=
  inferInstanceAs (Decidable (∀ r ∈ S, T.getMinValue ≤ r.From ∧ r.To ≤ T.getMaxValue))

instance (S : RangeSet) : Decidable (WellFormed S) :=
  inferInstanceAs
    (Decidable ((∀ r ∈ S, r.From ≤ r.To) ∧ S.Pairwise (fun (a b : Range) => a.To < b.From)))

/-- The set starts with the range `[MIN, MIN]` directly followed by a range
that starts at `MIN + 1`: the two ranges that `negate` unites. -/
def UnitesAtMin (T : APSIntType) (S : RangeSet) : Prop :=
  match S with
  | a :: b :: _ =>
    a.From = T.getMinValue ∧ a.To = T.getMinValue ∧ b.From = T.getMinValue + 1
  | _ => False

instance (T : APSIntType) (S : RangeSet) : Decidable (UnitesAtMin T S) :=
  match S with
  | [] => isFalse (fun h => h)
  | [_] => isFalse (fun h => h)
  | a :: b :: _ =>
    inferInstanceAs (Decidable (a.From = T.getMinValue ∧ a.To = T.getMinValue ∧
      b.From = T.getMinValue + 1))

instance fromLt_antisymm : IsAntisymm Range (fun a b => a.From < b.From) :=
  ⟨fun a b h1 h2 => absurd h1 (by omega)⟩

instance fromLe_total : IsTotal Range (fun a b => a.From ≤ b.From) :=
  ⟨fun a b => le_total a.From b.From⟩

instance fromLe_trans : IsTrans Range (fun a b => a.From ≤ b.From) :=
  ⟨fun _ _ _ h1 h2 => le_trans h1 h2⟩

/-- The signed 8-bit type, used for concrete instances. -/
def int8 : APSIntType := ⟨8, false⟩

/-- A valid range of values of the type that lies above the type's minimum. -/
def Interior (T : APSIntType) (r : Range) : Prop :=
  T.getMinValue < r.From ∧ r.From ≤ r.To ∧ r.To ≤ T.getMaxValue

instance (T : APSIntType) (r : Range) : Decidable (Interior T r) :=
  inferInstanceAs
    (Decidable (T.getMinValue < r.From ∧ r.From ≤ r.To ∧ r.To ≤ T.getMaxValue))

/-- The range that `negate` appends for the rest of a first range `[MIN, A]`:
`[-A, MAX]`, unless `A` is `MIN`. -/
def upperPart (T : APSIntType) (A : Int) : List Range :=
  if A ≠ T.getMinValue then [⟨neg T A, T.getMaxValue⟩] else []

/-- The point `x` lies in one of the ranges of `S`. -/
def Covers (S : RangeSet) (x : Int) : Prop :=
  ∃ r ∈ S, r.From ≤ x ∧ x ≤ r.To

instance (S : RangeSet) (x : Int) : Decidable (Covers S x) :=
  inferInstanceAs (Decidable (∃ r ∈ S, r.From ≤ x ∧ x ≤ r.To))

/-- The overlap of two ranges, when they overlap. -/
def interRange (a b : Range) : Option Range :=
  if max a.From b.From ≤ min a.To b.To then
    some ⟨max a.From b.From, min a.To b.To⟩
  else none

/-- Every non-empty overlap of a range of `A` with a range of `B`, listed in
the order of `A` and, for one range of `A`, in the order of `B`. -/
def overlaps (A B : List Range) : List Range :=
  A.flatMap (fun a => B.filterMap (interRange a))

/-- The container `DummyContainer` that `intersect(What, Lower, Upper)` builds
from pinned bounds: one range, or the two ranges of an inverted pair. -/
def boundsContainer (T : APSIntType) (Lower Upper : Int) : List Range :=
  if Lower ≤ Upper then [⟨Lower, Upper⟩]
  else [⟨T.getMinValue, Upper⟩, ⟨Lower, T.getMaxValue⟩]

/-! ## Comparison operators and the relation table -/

/-- Modelled from the spec: the six comparison operators that index the
relation table, in the order `<, >, <=, >=, ==, !=` that the source asserts
(`BinaryOperatorKind` is declared outside the given sources). -/
inductive BinaryOperatorKind where
  | BO_LT
  | BO_GT
  | BO_LE
  | BO_GE
  | BO_EQ
  | BO_NE
deriving DecidableEq, Repr

/-- The three states of a table cell. -/
inductive TriStateKind where
  | False
  | True
  | Unknown
deriving DecidableEq, Repr

/-- The constant `CmpOpCount`: `BO_NE - BO_LT + 1`. -/
def CmpOpCount : Nat := 6

/-- The table `CmpOpTable`: rows are the current operator, columns the previous
operator, and a seventh column `UnknownX2`. -/
def CmpOpTable : List (List TriStateKind) :=
  [ [.True, .False, .Unknown, .False, .False, .Unknown, .True],   -- <
    [.False, .True, .False, .Unknown, .False, .Unknown, .True],   -- >
    [.True, .False, .True, .Unknown, .True, .Unknown, .False],    -- <=
    [.False, .True, .Unknown, .True, .True, .Unknown, .False],    -- >=
    [.False, .False, .Unknown, .Unknown, .True, .False, .True],   -- ==
    [.True, .True, .Unknown, .Unknown, .False, .True, .False] ]   -- !=

/-- The index `getIndexFromOp`: `OP - BO_LT`. -/
def getIndexFromOp (OP : BinaryOperatorKind) : Nat :=
  match OP with
  | .BO_LT => 0
  | .BO_GT => 1
  | .BO_LE => 2
  | .BO_GE => 3
  | .BO_EQ => 4
  | .BO_NE => 5

/-- The lookup `getCmpOpState`:
`CmpOpTable[getIndexFromOp(CurrentOP)][getIndexFromOp(QueriedOP)]`. -/
def getCmpOpState (CurrentOP QueriedOP : BinaryOperatorKind) : TriStateKind :=
  ((CmpOpTable.getD (getIndexFromOp CurrentOP) []).getD (getIndexFromOp QueriedOP)
    TriStateKind.Unknown)

/-- The lookup `getCmpOpStateForUnknownX2`:
`CmpOpTable[getIndexFromOp(CurrentOP)][CmpOpCount]`. -/
def getCmpOpStateForUnknownX2 (CurrentOP : BinaryOperatorKind) : TriStateKind :=
  ((CmpOpTable.getD (getIndexFromOp CurrentOP) []).getD CmpOpCount TriStateKind.Unknown)

/-- The meaning of a comparison operator on two integers. -/
def BinaryOperatorKind.holds (OP : BinaryOperatorKind) (x y : Int) : Prop :=
  match OP with
  | .BO_LT => x < y
  | .BO_GT => x > y
  | .BO_LE => x ≤ y
  | .BO_GE => x ≥ y
  | .BO_EQ => x = y
  | .BO_NE => x ≠ y

instance (OP : BinaryOperatorKind) (x y : Int) : Decidable (OP.holds x y) :=
  match OP with
  | .BO_LT => inferInstanceAs (Decidable (x < y))
  | .BO_GT => inferInstanceAs (Decidable (x > y))
  | .BO_LE => inferInstanceAs (Decidable (x ≤ y))
  | .BO_GE => inferInstanceAs (Decidable (x ≥ y))
  | .BO_EQ => inferInstanceAs (Decidable (x = y))
  | .BO_NE => inferInstanceAs (Decidable (x ≠ y))

/-! ## Persistent sets and maps -/

/-- Modelled from the spec: `ImmutableSet::add` of the persistent-set substrate
(outside the given sources); the set is the sequence of its elements in key
order, and adding an element that is present changes nothing. -/
def setAdd : List Nat → Nat → List Nat
  | [], x => [x]
  | y :: ys, x =>
    if x < y then x :: y :: ys
    else if x = y then y :: ys
    else y :: setAdd ys x

/-- Modelled from the spec: `ImmutableSet::remove` of the persistent-set substrate. -/
def setRemove (s : List Nat) (x : Nat) : List Nat :=
  s.filter (fun y => decide (y ≠ x))

/-- Modelled from the spec: `ImmutableSet::contains` of the persistent-set substrate. -/
def setContains (s : List Nat) (x : Nat) : Bool :=
  decide (x ∈ s)

/-- Modelled from the spec: `ImmutableMap::lookup` of the persistent-map
substrate ("get/set/remove of associative data"); the map is the sequence of
its bindings and `none` is the null pointer of a missing key. -/
def mapLookup {V : Type} (m : List (Nat × V)) (k : Nat) : Option V :=
  match m with
  | [] => none
  | (k', v) :: rest => if k = k' then some v else mapLookup rest k

/-- Modelled from the spec: `ImmutableMap::add` of the persistent-map substrate:
the binding of the key is set, replacing a previous one. -/
def mapAdd {V : Type} (m : List (Nat × V)) (k : Nat) (v : V) : List (Nat × V) :=
  match m with
  | [] => [(k, v)]
  | (k', v') :: rest =>
    if k < k' then (k, v) :: (k', v') :: rest
    else if k = k' then (k, v) :: rest
    else (k', v') :: mapAdd rest k v

/-- Modelled from the spec: `ImmutableMap::remove` of the persistent-map substrate. -/
def mapRemove {V : Type} (m : List (Nat × V)) (k : Nat) : List (Nat × V) :=
  m.filter (fun b => decide (b.1 ≠ k))

/-- The bindings of a map are in the order of their keys, one binding for a
key: the form that a persistent map has as a sequence. -/
def KeysOrdered {V : Type} (m : List (Nat × V)) : Prop :=
  m.Pairwise (fun a b => a.1 < b.1)

instance {V : Type} (m : List (Nat × V)) : Decidable (KeysOrdered m) :=
  inferInstanceAs (Decidable (m.Pairwise (fun (a b : Nat × V) => a.1 < b.1)))

/-! ## Equivalence classes and disequalities -/

/-- A symbol is known by its identity (`SymbolRef`, a pointer in the source). -/
abbrev SymbolRef := Nat

/-- An equivalence class is its `ID`, the identity of its representative
symbol; `getRepresentativeSymbol` reads the symbol back from the `ID`. -/
abbrev EquivalenceClass := Nat

/-- A static type of a symbol (`QualType`), known by its identity. -/
abbrev QualType := Nat

/-- A set of symbols (`SymbolSet`). -/
abbrev SymbolSet := List SymbolRef

/-- A set of classes (`ClassSet`). -/
abbrev ClassSet := List EquivalenceClass

/-- The part of a program state that the constraint manager registers: the
maps `ClassMap`, `ClassMembers`, `ConstraintRange` and `DisequalityMap`. -/
structure ProgramState where
  ClassMap : List (SymbolRef × EquivalenceClass)
  ClassMembers : List (EquivalenceClass × SymbolSet)
  ConstraintRange : List (EquivalenceClass × RangeSet)
  DisequalityMap : List (EquivalenceClass × ClassSet)
deriving DecidableEq, Repr

/-- Modelled from the spec: `RangeSet::getConcreteValue` (declared in the
header, outside the given sources): the value of a set that is "a single
concrete value", one range whose ends are the same value. -/
def getConcreteValue (S : RangeSet) : Option Int :=
  match S with
  | [r] => if r.From = r.To then some r.From else none
  | _ => none

/-- The function `getConstraint(State, Class)`. -/
def getConstraint (State : ProgramState) (Class : EquivalenceClass) : Option RangeSet :=
  mapLookup State.ConstraintRange Class

/-- The generic `intersect(F, Head, Second)` on two nullable range sets: absent
arguments are skipped, and the result is absent when both are. -/
def intersectOptional (Head Second : Option RangeSet) : Option RangeSet :=
  match Head, Second with
  | some H, some S => some (intersect H S)
  | some H, none => some H
  | none, some S => some S
  | none, none => none

/-- The function `EquivalenceClass::find`. -/
def find (State : ProgramState) (Sym : SymbolRef) : EquivalenceClass :=
  match mapLookup State.ClassMap Sym with
  | some NontrivialClass => NontrivialClass
  | none => Sym

/-- The function `EquivalenceClass::getClassMembers`. -/
def getClassMembers (State : ProgramState) (Class : EquivalenceClass) : SymbolSet :=
  match mapLookup State.ClassMembers Class with
  | some Members => Members
  | none => setAdd [] Class

/-- The function `EquivalenceClass::isTrivial`. -/
def isTrivial (State : ProgramState) (Class : EquivalenceClass) : Bool :=
  (mapLookup State.ClassMembers Class).isNone

/-- The overload `getDisequalClasses(DisequalityMapTy Map, ClassSet::Factory &)`. -/
def getDisequalClassesIn (Map : List (EquivalenceClass × ClassSet))
    (Class : EquivalenceClass) : ClassSet :=
  match mapLookup Map Class with
  | some DisequalClasses => DisequalClasses
  | none => []

/-- The overload `getDisequalClasses(ProgramStateRef State)` of a class. -/
def getDisequalClasses (State : ProgramState) (Class : EquivalenceClass) : ClassSet :=
  getDisequalClassesIn State.DisequalityMap Class

/-- Step 1 of `EquivalenceClass::mergeImpl`: the constraints of the two classes
are transferred to the class that is left.  `none` is the null state; `some`
carries the `ConstraintRange` map of the state after the step. -/
def mergeImplConstraints (State : ProgramState) (This Other : EquivalenceClass) :
    Option (List (EquivalenceClass × RangeSet)) :=
  match intersectOptional (getConstraint State This) (getConstraint State Other) with
  | some NewClassConstraint =>
    if NewClassConstraint.isEmpty then none
    else
      -- No need in tracking constraints of a now-dissolved class.
      -- Assign new constraints for this class.
      some (mapAdd (mapRemove State.ConstraintRange Other) This NewClassConstraint)
  | none => some State.ConstraintRange

/-- Step 4 of `EquivalenceClass::mergeImpl`, after its contradiction check: the
disequalities of `Other` are moved to this class.  The two variables that the
loop updates do not depend on one another and are folded separately; where the
source dereferences the lookup of a disequal class, a missing entry is read as
the empty set. -/
def mergeImplDisequalities (DisequalityInfo : List (EquivalenceClass × ClassSet))
    (This Other : EquivalenceClass) : List (EquivalenceClass × ClassSet) :=
  let DisequalToOther := getDisequalClassesIn DisequalityInfo Other
  if !DisequalToOther.isEmpty then
    let DisequalToThis := DisequalToOther.foldl setAdd
      (getDisequalClassesIn DisequalityInfo This)
    let Info := DisequalToOther.foldl
      (fun Info DisequalClass =>
        mapAdd Info DisequalClass
          (setAdd (setRemove ((mapLookup Info DisequalClass).getD []) Other) This))
      (mapRemove DisequalityInfo Other)
    mapAdd Info This DisequalToThis
  else DisequalityInfo

/-- The function `EquivalenceClass::mergeImpl`; `none` is the null state.  In
step 2 the two variables that the loop updates do not depend on one another and
are folded separately. -/
def mergeImpl (State : ProgramState) (This : EquivalenceClass) (MyMembers : SymbolSet)
    (Other : EquivalenceClass) (OtherMembers : SymbolSet) : Option ProgramState :=
  -- 1. transfer the constraints
  match mergeImplConstraints State This Other with
  | none => none
  | some Constraints =>
    -- 2. merge the members of Other into this class
    let NewClassMembers := OtherMembers.foldl setAdd MyMembers
    let Classes := OtherMembers.foldl (fun Classes Sym => mapAdd Classes Sym This)
      State.ClassMap
    -- 3. adjust the member mapping
    let Members := mapAdd (mapRemove State.ClassMembers Other) This NewClassMembers
    -- 4. update the disequality relations
    if setContains (getDisequalClassesIn State.DisequalityMap Other) This then none
    else
      -- 5. update the state
      some
        { ClassMap := Classes
          ClassMembers := Members
          ConstraintRange := Constraints
          DisequalityMap := mergeImplDisequalities State.DisequalityMap This Other }

/-- The overload `merge(F, State, Other)` of a class.  The type of a class is
the type of its representative symbol, and `getHeight` is the height of the
tree that holds a member set. -/
def mergeClasses (getType : SymbolRef → QualType) (getHeight : SymbolSet → Nat)
    (State : ProgramState) (This Other : EquivalenceClass) : Option ProgramState :=
  if This = Other then some State
  else if getType This ≠ getType Other then some State
  else
    let Members := getClassMembers State This
    let OtherMembers := getClassMembers State Other
    if getHeight Members ≥ getHeight OtherMembers then
      mergeImpl State This Members Other OtherMembers
    else mergeImpl State Other OtherMembers This Members

/-- The overload `merge(F, State, First, Second)` on two symbols. -/
def merge (getType : SymbolRef → QualType) (getHeight : SymbolSet → Nat)
    (State : ProgramState) (First Second : SymbolRef) : Option ProgramState :=
  mergeClasses getType getHeight State (find State First) (find State Second)

/-- The function `EquivalenceClass::addToDisequalityInfo`; `none` is the
source's `return false`, `some` carries the updated `Info` and `Constraints`.
`rangeType` gives the integer type of the range inferred for a symbol and
`inferRange` is `SymbolicRangeInferrer::inferRange`. -/
def addToDisequalityInfo (rangeType : SymbolRef → APSIntType)
    (inferRange : ProgramState → SymbolRef → RangeSet)
    (Info : List (EquivalenceClass × ClassSet))
    (Constraints : List (EquivalenceClass × RangeSet)) (State : ProgramState)
    (First Second : EquivalenceClass) :
    Option (List (EquivalenceClass × ClassSet) × List (EquivalenceClass × RangeSet)) :=
  -- 2. add Second to the set of classes disequal to First
  let NewSet := setAdd ((mapLookup Info First).getD []) Second
  let Info := mapAdd Info First NewSet
  -- 3. if Second is known to be a constant, delete this point from First
  match mapLookup Constraints Second with
  | some SecondConstraint =>
    match getConcreteValue SecondConstraint with
    | some Point =>
      let FirstConstraint := deletePoint (rangeType First) (inferRange State First) Point
      if FirstConstraint.isEmpty then none
      else some (Info, mapAdd Constraints First FirstConstraint)
    | none => some (Info, Constraints)
  | none => some (Info, Constraints)

/-- The overload `markDisequal(RF, State, Other)` of a class. -/
def markDisequalClasses (rangeType : SymbolRef → APSIntType)
    (inferRange : ProgramState → SymbolRef → RangeSet)
    (State : ProgramState) (This Other : EquivalenceClass) : Option ProgramState :=
  if This = Other then none
  else
    match addToDisequalityInfo rangeType inferRange State.DisequalityMap
        State.ConstraintRange State This Other with
    | none => none
    | some (DisequalityInfo, Constraints) =>
      match addToDisequalityInfo rangeType inferRange DisequalityInfo Constraints State
          Other This with
      | none => none
      | some (DisequalityInfo, Constraints) =>
        some { State with DisequalityMap := DisequalityInfo, ConstraintRange := Constraints }

/-- The overload `markDisequal(RF, State, First, Second)` on two symbols. -/
def markDisequal (rangeType : SymbolRef → APSIntType)
    (inferRange : ProgramState → SymbolRef → RangeSet)
    (State : ProgramState) (First Second : SymbolRef) : Option ProgramState :=
  markDisequalClasses rangeType inferRange State (find State First) (find State Second)

/-- The overload `areEqual(State, First, Second)` on two classes: `some true`,
`some false`, or `none` when it is not clear. -/
def areEqualClasses (State : ProgramState) (First Second : EquivalenceClass) :
    Option Bool :=
  if First = Second then some true
  else if setContains (getDisequalClasses State First) Second then some false
  else none

/-- The overload `areEqual(State, FirstSym, SecondSym)` on two symbols. -/
def areEqual (State : ProgramState) (FirstSym SecondSym : SymbolRef) : Option Bool :=
  areEqualClasses State (find State FirstSym) (find State SecondSym)

/-- The check `EquivalenceClass::isClassDataConsistent`. -/
def isClassDataConsistent (State : ProgramState) : Bool :=
  State.ClassMembers.all (fun ClassMembersPair =>
    ClassMembersPair.2.all (fun Member => decide (find State Member = ClassMembersPair.1)))
  &&
  State.DisequalityMap.all (fun DisequalityInfo =>
    !DisequalityInfo.2.isEmpty &&
    DisequalityInfo.2.all (fun DisequalClass =>
      match mapLookup State.DisequalityMap DisequalClass with
      | none => false
      | some DisequalToDisequalClasses =>
        setContains DisequalToDisequalClasses DisequalityInfo.1))

/-- The truth of `x OP y` when `x` compares to `y` as the given ordering. -/
def BinaryOperatorKind.holdsAt (OP : BinaryOperatorKind) (o : Ordering) : Bool :=
  match OP, o with
  | .BO_LT, .lt => true
  | .BO_LT, _ => false
  | .BO_GT, .gt => true
  | .BO_GT, _ => false
  | .BO_LE, .gt => false
  | .BO_LE, _ => true
  | .BO_GE, .lt => false
  | .BO_GE, _ => true
  | .BO_EQ, .eq => true
  | .BO_EQ, _ => false
  | .BO_NE, .eq => false
  | .BO_NE, _ => true

instance : Fintype BinaryOperatorKind :=
  ⟨{.BO_LT, .BO_GT, .BO_LE, .BO_GE, .BO_EQ, .BO_NE}, fun OP => by cases OP <;> simp⟩

instance : Fintype Ordering :=
  ⟨{Ordering.lt, Ordering.eq, Ordering.gt}, fun o => by cases o <;> simp⟩

/-- The index-to-operator map `getOpFromIndex`: `BO_LT + Index`. -/
def getOpFromIndex (Index : Nat) : BinaryOperatorKind :=
  match Index with
  | 0 => .BO_LT
  | 1 => .BO_GT
  | 2 => .BO_LE
  | 3 => .BO_GE
  | 4 => .BO_EQ
  | _ => .BO_NE

/-- Modelled from the spec: `BinaryOperator::reverseComparisonOp` (declared
outside the given sources), the operator of the same comparison with its
operands exchanged: "(x == y) and (y == x) are just reversed but the same". -/
def reverseComparisonOp (OP : BinaryOperatorKind) : BinaryOperatorKind :=
  match OP with
  | .BO_LT => .BO_GT
  | .BO_GT => .BO_LT
  | .BO_LE => .BO_GE
  | .BO_GE => .BO_LE
  | .BO_EQ => .BO_EQ
  | .BO_NE => .BO_NE

/-- Modelled from the spec: `BinaryOperator::negateComparisonOp` (declared
outside the given sources), the opposite operator: "when (x <= y) is false,
then (x > y) is true". -/
def negateComparisonOp (OP : BinaryOperatorKind) : BinaryOperatorKind :=
  match OP with
  | .BO_LT => .BO_GE
  | .BO_GT => .BO_LE
  | .BO_LE => .BO_GT
  | .BO_GE => .BO_LT
  | .BO_EQ => .BO_NE
  | .BO_NE => .BO_EQ

/-- Modelled from the spec: the opcode of a binary symbolic expression
(`BinaryOperator::Opcode`, declared outside the given sources), as far as the
solver tells opcodes apart: the six comparisons of the relation table,
subtraction, `<=>`, the three operators with a range rule, and any other. -/
inductive Opcode where
  | Comparison (OP : BinaryOperatorKind)
  | BO_Sub
  | BO_Cmp
  | BO_Or
  | BO_And
  | BO_Rem
  | BO_Other
deriving DecidableEq, Repr

/-- Modelled from the spec: a symbolic expression (`SymExpr` and its kinds are
declared outside the given sources) as the visitors of the solver see it.
Every node carries the identity `Sym` of the expression; `SymbolData` stands
for every kind that the visitors do not look into. -/
inductive SymExpr where
  | SymbolData (Sym : SymbolRef)
  | SymIntExpr (Sym : SymbolRef) (LHS : SymExpr) (Op : Opcode) (RHS : Int)
  | IntSymExpr (Sym : SymbolRef) (LHS : Int) (Op : Opcode) (RHS : SymExpr)
  | SymSymExpr (Sym : SymbolRef) (LHS : SymExpr) (Op : Opcode) (RHS : SymExpr)
deriving DecidableEq, Repr

/-- The identity of a symbolic expression. -/
def SymExpr.getSym (E : SymExpr) : SymbolRef :=
  match E with
  | .SymbolData Sym => Sym
  | .SymIntExpr Sym _ _ _ => Sym
  | .IntSymExpr Sym _ _ _ => Sym
  | .SymSymExpr Sym _ _ _ => Sym

/-- Modelled from the spec: what the solver reads from the rest of the analyzer
(symbol manager, value factory, type system and value builder, all outside the
given sources): the type of a symbol, the integer type of a type and the tests
on a type; the height of the tree of a member set; the interned symbol of a
symbol-symbol expression, the expression that a symbol stands for, and the
simplification `ento::simplify` of a symbol in a state (`none` is the null
symbol). -/
structure Context where
  getType : SymbolRef → QualType
  getAPSIntType : QualType → APSIntType
  isReferenceType : QualType → Bool
  isIntegralOrEnumerationType : QualType → Bool
  isLocType : QualType → Bool
  isUnsignedIntegerOrEnumerationType : QualType → Bool
  isSignedIntegerOrEnumerationType : QualType → Bool
  getHeight : SymbolSet → Nat
  getSymSymExpr : SymbolRef → Opcode → SymbolRef → QualType → SymbolRef
  getExpr : SymbolRef → SymExpr
  simplify : ProgramState → SymbolRef → Option SymbolRef

/-- The function `getConstraint(State, Sym)` on a symbol. -/
def getConstraintOfSym (State : ProgramState) (Sym : SymbolRef) : Option RangeSet :=
  getConstraint State (find State Sym)

/-- The function `meansEquality`, on the opcode of the expression. -/
def meansEquality (Op : Opcode) : Option Bool :=
  match Op with
  | .BO_Sub => some false
  | .Comparison .BO_EQ => some true
  | .Comparison .BO_NE => some false
  | _ => none

/-! ## The range inferrer -/

/-- The generic `intersect(F, Head, End)` on a nullable range set and a range
set: an absent head is skipped. -/
def intersectWith (Head : Option RangeSet) (End : RangeSet) : RangeSet :=
  match Head with
  | some H => intersect H End
  | none => End

/-- The helper `assumeNonZero`: the domain without zero. -/
def assumeNonZero (Ctx : Context) (Domain : RangeSet) (T : QualType) : RangeSet :=
  deletePoint (Ctx.getAPSIntType T) Domain 0

/-- The overload `infer(QualType T)`: the range of all values of the type;
references are known to be non-zero. -/
def inferType (Ctx : Context) (T : QualType) : RangeSet :=
  let Result : RangeSet :=
    [⟨(Ctx.getAPSIntType T).getMinValue, (Ctx.getAPSIntType T).getMaxValue⟩]
  if Ctx.isReferenceType T then assumeNonZero Ctx Result T else Result

/-- The overload `infer(EquivalenceClass Class)`. -/
def inferClass (Ctx : Context) (State : ProgramState) (Class : EquivalenceClass) :
    RangeSet :=
  match getConstraint State Class with
  | some AssociatedConstraint => AssociatedConstraint
  | none => inferType Ctx (Ctx.getType Class)

/-- The helper `getTrueRange`. -/
def getTrueRange (Ctx : Context) (T : QualType) : RangeSet :=
  assumeNonZero Ctx (inferType Ctx T) T

/-- The helper `getFalseRange`: the set of the single value zero. -/
def getFalseRange (_ : QualType) : RangeSet :=
  [⟨0, 0⟩]

/-- The helper `fillGaps`: the range `[x_0, y_N]` of a non-empty set. -/
def fillGaps (Origin : RangeSet) : Range :=
  ⟨getMinValue Origin, getMaxValue Origin⟩

/-- The helper `convert`: the range in the given type, or `none` when one of
its ends is not a value of that type. -/
def convert (Origin : Range) (To : APSIntType) : Option Range :=
  if To.testInRange Origin.From ≠ RangeTestResultKind.RTR_Within ∨
      To.testInRange Origin.To ≠ RangeTestResultKind.RTR_Within then none
  else some ⟨To.apply Origin.From, To.apply Origin.To⟩

/-- The rule `VisitBinaryOperator<BO_Or>` on two coarse ranges of the result
type; `--Zero` wraps in that type. -/
def VisitBinaryOperatorOr (Ctx : Context) (LHS RHS : Range) (T : QualType) : RangeSet :=
  let ResultType := Ctx.getAPSIntType T
  let Zero : Int := 0
  let IsLHSPositiveOrZero : Bool := decide (LHS.From ≥ Zero)
  let IsRHSPositiveOrZero : Bool := decide (RHS.From ≥ Zero)
  let IsLHSNegative : Bool := decide (LHS.To < Zero)
  let IsRHSNegative : Bool := decide (RHS.To < Zero)
  -- Check if both ranges have the same sign.
  if (IsLHSPositiveOrZero && IsRHSPositiveOrZero) || (IsLHSNegative && IsRHSNegative) then
    -- The result is definitely greater or equal than any of the operands.
    let Min := max LHS.From RHS.From
    let Max := if IsLHSNegative then ResultType.apply (Zero - 1) else ResultType.getMaxValue
    [⟨Min, Max⟩]
  -- Otherwise, let's check if at least one of the operands is negative.
  else if IsLHSNegative || IsRHSNegative then
    [⟨ResultType.getMinValue, ResultType.apply (Zero - 1)⟩]
  else
    let DefaultRange := inferType Ctx T
    if !LHS.Includes Zero || !RHS.Includes Zero then assumeNonZero Ctx DefaultRange T
    else DefaultRange

/-- The rule `VisitBinaryOperator<BO_And>` on two coarse ranges of the result
type. -/
def VisitBinaryOperatorAnd (Ctx : Context) (LHS RHS : Range) (T : QualType) : RangeSet :=
  let ResultType := Ctx.getAPSIntType T
  let Zero : Int := 0
  let IsLHSPositiveOrZero : Bool := decide (LHS.From ≥ Zero)
  let IsRHSPositiveOrZero : Bool := decide (RHS.From ≥ Zero)
  let IsLHSNegative : Bool := decide (LHS.To < Zero)
  let IsRHSNegative : Bool := decide (RHS.To < Zero)
  -- Check if both ranges have the same sign.
  if (IsLHSPositiveOrZero && IsRHSPositiveOrZero) || (IsLHSNegative && IsRHSNegative) then
    -- The result is definitely less or equal than any of the operands.
    let Max := min LHS.To RHS.To
    let Min := if IsLHSNegative then ResultType.getMinValue else Zero
    [⟨Min, Max⟩]
  -- Otherwise, let's check if at least one of the operands is positive.
  else if IsLHSPositiveOrZero || IsRHSPositiveOrZero then
    let Max := if IsLHSPositiveOrZero then LHS.To else RHS.To
    [⟨Zero, Max⟩]
  else inferType Ctx T

/-- The helper `getSymmetricalRange`; unary minus wraps in the type. -/
def getSymmetricalRange (Ctx : Context) (Origin : Range) (T : QualType) : Range :=
  let RangeType := Ctx.getAPSIntType T
  if RangeType.IsUnsigned then ⟨RangeType.getMinValue, Origin.To⟩
  else if Origin.From = RangeType.getMinValue then
    -- the minimal signed value: return the whole range
    ⟨RangeType.getMinValue, RangeType.getMaxValue⟩
  else
    let AbsMax := max (neg RangeType Origin.From) Origin.To
    ⟨neg RangeType AbsMax, AbsMax⟩

/-- The rule `VisitBinaryOperator<BO_Rem>` on two coarse ranges of the result
type; `++Min` and `--Max` wrap in that type. -/
def VisitBinaryOperatorRem (Ctx : Context) (LHS RHS : Range) (T : QualType) : RangeSet :=
  let ResultType := Ctx.getAPSIntType T
  let Zero : Int := 0
  let ConservativeRange := getSymmetricalRange Ctx RHS T
  let Max := ConservativeRange.To
  let Min := ConservativeRange.From
  if Max = Zero then []
  else
    -- If we are dealing with unsigned case, we shouldn't move the lower bound.
    let Min := if !ResultType.IsUnsigned then ResultType.apply (Min + 1) else Min
    let Max := ResultType.apply (Max - 1)
    let IsLHSPositiveOrZero : Bool := decide (LHS.From ≥ Zero)
    let IsRHSPositiveOrZero : Bool := decide (RHS.From ≥ Zero)
    if IsLHSPositiveOrZero && IsRHSPositiveOrZero then
      let Max := min LHS.To Max
      let Min := if LHS.To < RHS.From then LHS.From else Zero
      [⟨Min, Max⟩]
    else [⟨Min, Max⟩]

/-- The overload `VisitBinaryOperator<Op>(RangeSet LHS, RangeSet RHS, QualType T)`
for the rule `Rule` of the operator on coarse ranges. -/
def VisitBinaryOperatorSets (Ctx : Context) (Rule : Range → Range → QualType → RangeSet)
    (LHS RHS : RangeSet) (T : QualType) : RangeSet :=
  if LHS.isEmpty || RHS.isEmpty then []
  else
    let CoarseLHS := fillGaps LHS
    let CoarseRHS := fillGaps RHS
    let ResultType := Ctx.getAPSIntType T
    match convert CoarseLHS ResultType, convert CoarseRHS ResultType with
    | some ConvertedCoarseLHS, some ConvertedCoarseRHS =>
      Rule ConvertedCoarseLHS ConvertedCoarseRHS T
    | _, _ => inferType Ctx T

/-- The overload `VisitBinaryOperator(RangeSet LHS, Opcode Op, RangeSet RHS, QualType T)`. -/
def VisitBinaryOperator (Ctx : Context) (LHS : RangeSet) (Op : Opcode) (RHS : RangeSet)
    (T : QualType) : RangeSet :=
  match Op with
  | .BO_Or => VisitBinaryOperatorSets Ctx (VisitBinaryOperatorOr Ctx) LHS RHS T
  | .BO_And => VisitBinaryOperatorSets Ctx (VisitBinaryOperatorAnd Ctx) LHS RHS T
  | .BO_Rem => VisitBinaryOperatorSets Ctx (VisitBinaryOperatorRem Ctx) LHS RHS T
  | _ => inferType Ctx T

/-- The helper `getRangeForNegatedSub` on an expression. -/
def getRangeForNegatedSub (Ctx : Context) (State : ProgramState) (E : SymExpr) :
    Option RangeSet :=
  match E with
  | .SymSymExpr Sym LHS .BO_Sub RHS =>
    let T := Ctx.getType Sym
    if !Ctx.isUnsignedIntegerOrEnumerationType T &&
        !Ctx.isSignedIntegerOrEnumerationType T then none
    else
      let NegatedSym := Ctx.getSymSymExpr RHS.getSym .BO_Sub LHS.getSym T
      match getConstraintOfSym State NegatedSym with
      | some NegatedRange => some (negate (Ctx.getAPSIntType T) NegatedRange)
      | none => none
  | _ => none

/-- The loop of `getRangeForComparisonSymbol` over the columns that are left
(`Columns`), with the number `UnknownStates` of `Unknown` cells met so far. -/
def comparisonLoop (Ctx : Context) (State : ProgramState) (LHS RHS : SymbolRef)
    (T : QualType) (CurrentOP : BinaryOperatorKind) :
    List Nat → Nat → Option RangeSet
  | [], _ => none
  | i :: Columns, UnknownStates =>
    -- Let's find an expression e.g. (x < y).
    let QueriedOP := getOpFromIndex i
    let SymSym := Ctx.getSymSymExpr LHS (.Comparison QueriedOP) RHS T
    -- If ranges were not previously found, try to find a reversed expression (y > x).
    let QueriedRangeSet :=
      match getConstraintOfSym State SymSym with
      | some Q => some Q
      | none =>
        getConstraintOfSym State
          (Ctx.getSymSymExpr RHS (.Comparison (reverseComparisonOp QueriedOP)) LHS T)
    match QueriedRangeSet with
    | none => comparisonLoop Ctx State LHS RHS T CurrentOP Columns UnknownStates
    | some Q =>
      if Q.isEmpty then comparisonLoop Ctx State LHS RHS T CurrentOP Columns UnknownStates
      else
        let isInFalseBranch : Bool :=
          match getConcreteValue Q with
          | some ConcreteValue => decide (ConcreteValue = 0)
          | none => false
        let QueriedOP := if isInFalseBranch then negateComparisonOp QueriedOP else QueriedOP
        let BranchState := getCmpOpState CurrentOP QueriedOP
        if BranchState = TriStateKind.Unknown then
          if UnknownStates + 1 = 2 then
            -- Get a state from the UnknownX2 column.
            if getCmpOpStateForUnknownX2 CurrentOP = TriStateKind.True then
              some (getTrueRange Ctx T)
            else some (getFalseRange T)
          else comparisonLoop Ctx State LHS RHS T CurrentOP Columns (UnknownStates + 1)
        else if BranchState = TriStateKind.True then some (getTrueRange Ctx T)
        else some (getFalseRange T)

/-- The helper `getRangeForComparisonSymbol` on an expression. -/
def getRangeForComparisonSymbol (Ctx : Context) (State : ProgramState) (E : SymExpr) :
    Option RangeSet :=
  match E with
  | .SymSymExpr Sym LHS (.Comparison CurrentOP) RHS =>
    comparisonLoop Ctx State LHS.getSym RHS.getSym (Ctx.getType Sym) CurrentOP
      (List.range CmpOpCount) 0
  | _ => none

/-- The helper `getRangeForEqualities` on a symbol-symbol expression. -/
def getRangeForEqualities (Ctx : Context) (State : ProgramState) (Sym : SymbolRef)
    (LHS : SymbolRef) (Op : Opcode) (RHS : SymbolRef) : Option RangeSet :=
  match meansEquality Op with
  | none => none
  | some Equality =>
    match areEqual State LHS RHS with
    | some AreEqual =>
      if AreEqual = Equality then some (getTrueRange Ctx (Ctx.getType Sym))
      else some (getFalseRange (Ctx.getType Sym))
    | none => none

/-- The overload `inferAs(SymbolRef Sym, QualType DestType)`, given the range
`Inferred` that `infer(Sym)` gives for the operand. -/
def inferAs (Ctx : Context) (Sym : SymbolRef) (Inferred : RangeSet) (DestType : QualType) :
    RangeSet :=
  let ActualType := Ctx.getType Sym
  if Ctx.isIntegralOrEnumerationType ActualType || Ctx.isLocType ActualType then Inferred
  else inferType Ctx DestType

/-- The intersection at the end of `infer(SymbolRef Sym)`, given the range
`Visited` that `Visit(Sym)` gives. -/
def inferFrom (Ctx : Context) (State : ProgramState) (E : SymExpr) (Visited : RangeSet) :
    RangeSet :=
  intersectWith
    (intersectOptional
      (intersectOptional (getConstraintOfSym State E.getSym) (getRangeForNegatedSub Ctx State E))
      (getRangeForComparisonSymbol Ctx State E))
    Visited

/-- The overload `infer(SymbolRef Sym)` with the visitor `Visit` inlined by the
kind of the expression: `VisitSymExpr`, `VisitSymIntExpr`, `VisitIntSymExpr`
and `VisitSymSymExpr`. -/
def infer (Ctx : Context) (State : ProgramState) : SymExpr → RangeSet
  | .SymbolData Sym =>
    inferFrom Ctx State (.SymbolData Sym) (inferType Ctx (Ctx.getType Sym))
  | .SymIntExpr Sym LHS Op RHS =>
    let ResultType := Ctx.getType Sym
    inferFrom Ctx State (.SymIntExpr Sym LHS Op RHS)
      (VisitBinaryOperator Ctx (inferAs Ctx LHS.getSym (infer Ctx State LHS) ResultType) Op
        [⟨RHS, RHS⟩] ResultType)
  | .IntSymExpr Sym LHS Op RHS =>
    let ResultType := Ctx.getType Sym
    inferFrom Ctx State (.IntSymExpr Sym LHS Op RHS)
      (VisitBinaryOperator Ctx [⟨LHS, LHS⟩] Op
        (inferAs Ctx RHS.getSym (infer Ctx State RHS) ResultType) ResultType)
  | .SymSymExpr Sym LHS Op RHS =>
    let ResultType := Ctx.getType Sym
    inferFrom Ctx State (.SymSymExpr Sym LHS Op RHS)
      (intersectWith (getRangeForEqualities Ctx State Sym LHS.getSym Op RHS.getSym)
        (VisitBinaryOperator Ctx (inferAs Ctx LHS.getSym (infer Ctx State LHS) ResultType) Op
          (inferAs Ctx RHS.getSym (infer Ctx State RHS) ResultType) ResultType))

/-- The entry `SymbolicRangeInferrer::inferRange(F, State, Sym)` on a symbol. -/
def inferRange (Ctx : Context) (State : ProgramState) (Sym : SymbolRef) : RangeSet :=
  infer Ctx State (Ctx.getExpr Sym)

/-! ## The constraint assignor -/

/-- The function `setConstraint(State, Class, Constraint)`. -/
def setConstraint (State : ProgramState) (Class : EquivalenceClass)
    (Constraint : RangeSet) : ProgramState :=
  { State with ConstraintRange := mapAdd State.ConstraintRange Class Constraint }

/-- The function `setConstraints(State, Constraints)`. -/
def setConstraints (State : ProgramState)
    (Constraints : List (EquivalenceClass × RangeSet)) : ProgramState :=
  { State with ConstraintRange := Constraints }

/-- The check `areFeasible`: no class is mapped to the empty set. -/
def areFeasible (Constraints : List (EquivalenceClass × RangeSet)) : Bool :=
  !Constraints.any (fun ClassConstraint => ClassConstraint.2.isEmpty)

/-- The integer type of the range of a symbol or of a class, which the source
reads off the values of the range. -/
def rangeTypeOf (Ctx : Context) (Sym : SymbolRef) : APSIntType :=
  Ctx.getAPSIntType (Ctx.getType Sym)

/-- The loop of `ConstraintAssignor::assign(EquivalenceClass, RangeSet)` over
the classes that are disequal to the class; `none` is the null state. -/
def assignDisequalLoop (Ctx : Context) (State : ProgramState) (Point : Int) :
    List EquivalenceClass → List (EquivalenceClass × RangeSet) →
    Option (List (EquivalenceClass × RangeSet))
  | [], Constraints => some Constraints
  | DisequalClass :: Rest, Constraints =>
    let UpdatedConstraint :=
      deletePoint (rangeTypeOf Ctx DisequalClass) (inferClass Ctx State DisequalClass) Point
    -- If we end up with at least one of the disequal classes to be
    -- constrained with an empty range-set, the state is infeasible.
    if UpdatedConstraint.isEmpty then none
    else assignDisequalLoop Ctx State Point Rest (mapAdd Constraints DisequalClass UpdatedConstraint)

/-- The base method `ConstraintAssignor::assign(EquivalenceClass, RangeSet)`;
`none` is the null state. -/
def assignClass (Ctx : Context) (State : ProgramState) (Class : EquivalenceClass)
    (NewConstraint : RangeSet) : Option ProgramState :=
  match getConcreteValue NewConstraint with
  | some Point =>
    -- Add new constraint.
    let Constraints := mapAdd State.ConstraintRange Class NewConstraint
    match assignDisequalLoop Ctx State Point (getDisequalClasses State Class) Constraints with
    | none => none
    | some Constraints => some (setConstraints State Constraints)
  | none => some (setConstraint State Class NewConstraint)

/-- The helper `interpreteAsBool` on a set of values of type `T`. -/
def interpreteAsBool (T : APSIntType) (Constraint : RangeSet) : Option Bool :=
  match getConcreteValue Constraint with
  | some ConcreteValue => some (!decide (ConcreteValue = 0))
  | none => if !containsImpl T Constraint 0 then some true else none

/-- The helper `trackDisequality`. -/
def trackDisequality (Ctx : Context) (State : ProgramState) (LHS RHS : SymbolRef) :
    Option ProgramState :=
  markDisequal (rangeTypeOf Ctx) (inferRange Ctx) State LHS RHS

/-- The helper `trackEquality`. -/
def trackEquality (Ctx : Context) (State : ProgramState) (LHS RHS : SymbolRef) :
    Option ProgramState :=
  merge Ctx.getType Ctx.getHeight State LHS RHS

/-- The handler `assignSymSymExprToRangeSet` on the expression `LHS Op RHS` of
the symbol `Sym`; `none` is the source's `return false`, which it gives with
the state null, and `some` carries the state that is left with `return true`. -/
def assignSymSymExprToRangeSet (Ctx : Context) (State : ProgramState) (Sym : SymbolRef)
    (LHS : SymbolRef) (Op : Opcode) (RHS : SymbolRef) (Constraint : RangeSet) :
    Option ProgramState :=
  match interpreteAsBool (rangeTypeOf Ctx Sym) Constraint with
  | none => some State
  | some ConstraintAsBool =>
    match meansEquality Op with
    | some Equality =>
      if Equality = ConstraintAsBool then trackEquality Ctx State LHS RHS
      else trackDisequality Ctx State LHS RHS
    | none => some State

/-- The loop of `EquivalenceClass::simplify` over the members of the class. -/
def simplifyLoop (Ctx : Context) : List SymbolRef → ProgramState → Option ProgramState
  | [], State => some State
  | MemberSym :: Rest, State =>
    match Ctx.simplify State MemberSym with
    | some SimplifiedMemberSym =>
      if MemberSym ≠ SimplifiedMemberSym then
        match merge Ctx.getType Ctx.getHeight State MemberSym SimplifiedMemberSym with
        | none => none
        | some State => simplifyLoop Ctx Rest State
      else simplifyLoop Ctx Rest State
    | none => simplifyLoop Ctx Rest State

/-- The function `EquivalenceClass::simplify`; `none` is the null state. -/
def simplify (Ctx : Context) (State : ProgramState) (Class : EquivalenceClass) :
    Option ProgramState :=
  simplifyLoop Ctx (getClassMembers State Class) State

/-- A loop of `assignSymExprToConst` that simplifies the listed classes in turn. -/
def simplifyClasses (Ctx : Context) : List EquivalenceClass → ProgramState →
    Option ProgramState
  | [], State => some State
  | Class :: Rest, State =>
    match simplify Ctx State Class with
    | none => none
    | some State => simplifyClasses Ctx Rest State

/-- The handler `assignSymExprToConst`; `none` is the source's `return false`,
which it gives with the state null, and `some` carries the state that is left
with `return true`.  The second loop skips the classes of the first. -/
def assignSymExprToConst (Ctx : Context) (State : ProgramState) : Option ProgramState :=
  let SimplifiedClasses := State.ClassMembers.map Prod.fst
  -- Iterate over all equivalence classes and try to simplify them.
  match simplifyClasses Ctx SimplifiedClasses State with
  | none => none
  | some State =>
    -- Trivial equivalence classes are not stored in the State.  Thus, we must
    -- skim through the constraints as well.
    simplifyClasses Ctx
      ((State.ConstraintRange.map Prod.fst).filter
        (fun Class => !decide (Class ∈ SimplifiedClasses)))
      State

/-- The dispatch `Base::assign(Sym, NewConstraint)` of `ConstraintAssignorBase`
with the two handlers that the assignor defines: `assignSymSymExprToRangeSet`
for a symbol-symbol expression, then `assignSymExprToConst` when the constraint
is a constant.  Every other handler is the default, which changes nothing.
The result is the state of the assignor after the dispatch. -/
def assignBase (Ctx : Context) (State : ProgramState) (Sym : SymbolRef)
    (Constraint : RangeSet) : Option ProgramState :=
  let AfterSymSymExpr : Option ProgramState :=
    match Ctx.getExpr Sym with
    | .SymSymExpr _ LHS Op RHS =>
      assignSymSymExprToRangeSet Ctx State Sym LHS.getSym Op RHS.getSym Constraint
    | _ => some State
  match AfterSymSymExpr with
  | none => none
  | some State =>
    match getConcreteValue Constraint with
    | some _ => assignSymExprToConst Ctx State
    | none => some State

/-- The base method `ConstraintAssignor::assign(SymbolRef, RangeSet)`. -/
def assignSym (Ctx : Context) (State : ProgramState) (Sym : SymbolRef)
    (NewConstraint : RangeSet) : Option ProgramState :=
  -- All constraints are actually associated with equivalence classes.
  match assignClass Ctx State (find State Sym) NewConstraint with
  | none => none
  | some State =>
    -- And after that we can check what other things we can get from this constraint.
    assignBase Ctx State Sym NewConstraint

/-- The entry `ConstraintAssignor::assign(State, Builder, F, CoS, NewConstraint)`
for a symbol, on a state that is not null. -/
def assign (Ctx : Context) (State : ProgramState) (Sym : SymbolRef)
    (NewConstraint : RangeSet) : Option ProgramState :=
  if NewConstraint.isEmpty then none
  else assignSym Ctx State Sym NewConstraint

/-- The entry `ConstraintAssignor::assign(State, Builder, F, CoS, NewConstraint)`
for a class, on a state that is not null. -/
def assignToClass (Ctx : Context) (State : ProgramState) (Class : EquivalenceClass)
    (NewConstraint : RangeSet) : Option ProgramState :=
  if NewConstraint.isEmpty then none
  else assignClass Ctx State Class NewConstraint

/-! ## The constraint manager -/

/-- The overload `RangeSet::Factory::intersect(RangeSet LHS, APSInt Point)`;
`containsImpl` converts the point to the type of the set. -/
def intersectPoint (T : APSIntType) (LHS : RangeSet) (Point : Int) : RangeSet :=
  if containsImpl T LHS Point then [⟨T.apply Point, T.apply Point⟩]
  else []

/-- The function `RangeConstraintManager::getRange` on a symbol. -/
def getRange (Ctx : Context) (State : ProgramState) (Sym : SymbolRef) : RangeSet :=
  inferRange Ctx State Sym

/-- The function `RangeConstraintManager::setRange` on a symbol. -/
def setRange (Ctx : Context) (State : ProgramState) (Sym : SymbolRef) (Range : RangeSet) :
    Option ProgramState :=
  assign Ctx State Sym Range

/-- The function `assumeSymNE`.  `AdjustmentType` is the type of `Adjustment`,
which is the type of the values of the range of the symbol; the subtraction
wraps in that type. -/
def assumeSymNE (Ctx : Context) (AdjustmentType : APSIntType) (St : ProgramState)
    (Sym : SymbolRef) (Int Adjustment : ℤ) : Option ProgramState :=
  -- Before we do any real work, see if the value can even show up.
  if AdjustmentType.testInRange Int ≠ RangeTestResultKind.RTR_Within then some St
  else
    let Point := AdjustmentType.apply (AdjustmentType.apply Int - Adjustment)
    let New := getRange Ctx St Sym
    let New := deletePoint AdjustmentType New Point
    setRange Ctx St Sym New

/-- The function `assumeSymEQ`. -/
def assumeSymEQ (Ctx : Context) (AdjustmentType : APSIntType) (St : ProgramState)
    (Sym : SymbolRef) (Int Adjustment : ℤ) : Option ProgramState :=
  -- Before we do any real work, see if the value can even show up.
  if AdjustmentType.testInRange Int ≠ RangeTestResultKind.RTR_Within then none
  else
    -- [Int-Adjustment, Int-Adjustment]
    let AdjInt := AdjustmentType.apply (AdjustmentType.apply Int - Adjustment)
    let New := getRange Ctx St Sym
    let New := intersectPoint AdjustmentType New AdjInt
    setRange Ctx St Sym New

/-- The function `getSymLTRange`. -/
def getSymLTRange (Ctx : Context) (AdjustmentType : APSIntType) (St : ProgramState)
    (Sym : SymbolRef) (Int Adjustment : ℤ) : RangeSet :=
  match AdjustmentType.testInRange Int with
  | .RTR_Below => []
  | .RTR_Above => getRange Ctx St Sym
  | .RTR_Within =>
    -- Special case for Int == Min. This is always false.
    let ComparisonVal := AdjustmentType.apply Int
    let Min := AdjustmentType.getMinValue
    if ComparisonVal = Min then []
    else
      let Lower := AdjustmentType.apply (Min - Adjustment)
      let Upper := AdjustmentType.apply (ComparisonVal - Adjustment)
      let Upper := AdjustmentType.apply (Upper - 1)
      let Result := getRange Ctx St Sym
      intersectBounds AdjustmentType Result Lower Upper

/-- The function `assumeSymLT`. -/
def assumeSymLT (Ctx : Context) (AdjustmentType : APSIntType) (St : ProgramState)
    (Sym : SymbolRef) (Int Adjustment : ℤ) : Option ProgramState :=
  setRange Ctx St Sym (getSymLTRange Ctx AdjustmentType St Sym Int Adjustment)

/-- The function `getSymGTRange`. -/
def getSymGTRange (Ctx : Context) (AdjustmentType : APSIntType) (St : ProgramState)
    (Sym : SymbolRef) (Int Adjustment : ℤ) : RangeSet :=
  match AdjustmentType.testInRange Int with
  | .RTR_Below => getRange Ctx St Sym
  | .RTR_Above => []
  | .RTR_Within =>
    -- Special case for Int == Max. This is always false.
    let ComparisonVal := AdjustmentType.apply Int
    let Max := AdjustmentType.getMaxValue
    if ComparisonVal = Max then []
    else
      let Lower := AdjustmentType.apply (ComparisonVal - Adjustment)
      let Upper := AdjustmentType.apply (Max - Adjustment)
      let Lower := AdjustmentType.apply (Lower + 1)
      let SymRange := getRange Ctx St Sym
      intersectBounds AdjustmentType SymRange Lower Upper

/-- The function `assumeSymGT`. -/
def assumeSymGT (Ctx : Context) (AdjustmentType : APSIntType) (St : ProgramState)
    (Sym : SymbolRef) (Int Adjustment : ℤ) : Option ProgramState :=
  setRange Ctx St Sym (getSymGTRange Ctx AdjustmentType St Sym Int Adjustment)

/-- The function `getSymGERange`. -/
def getSymGERange (Ctx : Context) (AdjustmentType : APSIntType) (St : ProgramState)
    (Sym : SymbolRef) (Int Adjustment : ℤ) : RangeSet :=
  match AdjustmentType.testInRange Int with
  | .RTR_Below => getRange Ctx St Sym
  | .RTR_Above => []
  | .RTR_Within =>
    -- Special case for Int == Min. This is always feasible.
    let ComparisonVal := AdjustmentType.apply Int
    let Min := AdjustmentType.getMinValue
    if ComparisonVal = Min then getRange Ctx St Sym
    else
      let Max := AdjustmentType.getMaxValue
      let Lower := AdjustmentType.apply (ComparisonVal - Adjustment)
      let Upper := AdjustmentType.apply (Max - Adjustment)
      let SymRange := getRange Ctx St Sym
      intersectBounds AdjustmentType SymRange Lower Upper

/-- The function `assumeSymGE`. -/
def assumeSymGE (Ctx : Context) (AdjustmentType : APSIntType) (St : ProgramState)
    (Sym : SymbolRef) (Int Adjustment : ℤ) : Option ProgramState :=
  setRange Ctx St Sym (getSymGERange Ctx AdjustmentType St Sym Int Adjustment)

/-- The overload `getSymLERange(function_ref<RangeSet()> RS, Int, Adjustment)`;
`RS` is the range set that the callback gives. -/
def getSymLERangeOf (AdjustmentType : APSIntType) (RS : RangeSet) (Int Adjustment : ℤ) :
    RangeSet :=
  match AdjustmentType.testInRange Int with
  | .RTR_Below => []
  | .RTR_Above => RS
  | .RTR_Within =>
    -- Special case for Int == Max. This is always feasible.
    let ComparisonVal := AdjustmentType.apply Int
    let Max := AdjustmentType.getMaxValue
    if ComparisonVal = Max then RS
    else
      let Min := AdjustmentType.getMinValue
      let Lower := AdjustmentType.apply (Min - Adjustment)
      let Upper := AdjustmentType.apply (ComparisonVal - Adjustment)
      let Default := RS
      intersectBounds AdjustmentType Default Lower Upper

/-- The overload `getSymLERange(St, Sym, Int, Adjustment)`. -/
def getSymLERange (Ctx : Context) (AdjustmentType : APSIntType) (St : ProgramState)
    (Sym : SymbolRef) (Int Adjustment : ℤ) : RangeSet :=
  getSymLERangeOf AdjustmentType (getRange Ctx St Sym) Int Adjustment

/-- The function `assumeSymLE`. -/
def assumeSymLE (Ctx : Context) (AdjustmentType : APSIntType) (St : ProgramState)
    (Sym : SymbolRef) (Int Adjustment : ℤ) : Option ProgramState :=
  setRange Ctx St Sym (getSymLERange Ctx AdjustmentType St Sym Int Adjustment)

/-! ## Removing dead symbols -/

/-- The function `EquivalenceClass::isTriviallyDead`; `isDead` is the test
`SymbolReaper::isDead`. -/
def isTriviallyDead (isDead : SymbolRef → Bool) (State : ProgramState)
    (Class : EquivalenceClass) : Bool :=
  isTrivial State Class && isDead Class

/-- The loop of `removeDeadClass` over the classes disequal to the removed
class: the class is taken out of the set of each of them. -/
def removeFromDisequalSets (Class : EquivalenceClass) :
    List EquivalenceClass → List (EquivalenceClass × ClassSet) →
    List (EquivalenceClass × ClassSet)
  | [], Disequalities => Disequalities
  | DisequalClass :: Rest, Disequalities =>
    let DisequalToDisequalSet := getDisequalClassesIn Disequalities DisequalClass
    let NewSet := setRemove DisequalToDisequalSet Class
    -- No need in keeping an empty set.
    if NewSet.isEmpty then
      removeFromDisequalSets Class Rest (mapRemove Disequalities DisequalClass)
    else removeFromDisequalSets Class Rest (mapAdd Disequalities DisequalClass NewSet)

/-- The local function `removeDeadClass` of `removeDeadBindings`, on the two
maps `Constraints` and `Disequalities` that it updates. -/
def removeDeadClass
    (Maps : List (EquivalenceClass × RangeSet) × List (EquivalenceClass × ClassSet))
    (Class : EquivalenceClass) :
    List (EquivalenceClass × RangeSet) × List (EquivalenceClass × ClassSet) :=
  -- Remove associated constraint ranges.
  let Constraints := mapRemove Maps.1 Class
  -- Update disequality information to not hold any information on the removed class.
  let DisequalClasses := getDisequalClassesIn Maps.2 Class
  if !DisequalClasses.isEmpty then
    let Disequalities := removeFromDisequalSets Class DisequalClasses Maps.2
    -- Remove the data for the class
    (Constraints, mapRemove Disequalities Class)
  else (Constraints, Maps.2)

/-- The inner loop of step 3 of `removeDeadBindings`: the set `LiveMembers`
after every dead member has been removed from the members of a class. -/
def liveMembers (isDead : SymbolRef → Bool) (Members : SymbolSet) : SymbolSet :=
  Members.foldl
    (fun LiveMembers Member => if isDead Member then setRemove LiveMembers Member
      else LiveMembers)
    Members

/-- Step 3 of `removeDeadBindings` for one entry of the members map: dead
members are removed from the class, and a class without live members is wiped
out.  The state carries `NewClassMembersMap` and the two maps of
`removeDeadClass`. -/
def removeDeadMembers (isDead : SymbolRef → Bool)
    (Acc : List (EquivalenceClass × SymbolSet) ×
      (List (EquivalenceClass × RangeSet) × List (EquivalenceClass × ClassSet)))
    (ClassMembersPair : EquivalenceClass × SymbolSet) :
    List (EquivalenceClass × SymbolSet) ×
      (List (EquivalenceClass × RangeSet) × List (EquivalenceClass × ClassSet)) :=
  let Class := ClassMembersPair.1
  let LiveMembers := liveMembers isDead ClassMembersPair.2
  let MembersChanged := ClassMembersPair.2.any isDead
  -- Check if the class changed.
  if !MembersChanged then Acc
  else if LiveMembers.isEmpty then
    -- The class is dead now, we need to wipe it out of the members map
    -- and remove all of its constraints.
    (mapRemove Acc.1 Class, removeDeadClass Acc.2 Class)
  else
    -- We need to change the members associated with the class.
    (mapAdd Acc.1 Class LiveMembers, Acc.2)

/-- The function `RangeConstraintManager::removeDeadBindings`; `isDead` is the
test `SymbolReaper::isDead`.  The source sets each of the four maps only if it
changed; a map that did not change is the map of the state. -/
def removeDeadBindings (isDead : SymbolRef → Bool) (State : ProgramState) : ProgramState :=
  -- 1. Let's see if dead symbols are trivial and have associated constraints.
  let Maps := State.ConstraintRange.foldl
    (fun Maps ClassConstraintPair =>
      if isTriviallyDead isDead State ClassConstraintPair.1 then
        removeDeadClass Maps ClassConstraintPair.1
      else Maps)
    (State.ConstraintRange, State.DisequalityMap)
  -- 2. We don't need to track classes for dead symbols.
  let NewMap := State.ClassMap.foldl
    (fun NewMap SymbolClassPair =>
      if isDead SymbolClassPair.1 then mapRemove NewMap SymbolClassPair.1 else NewMap)
    State.ClassMap
  -- 3. Remove dead members from classes and remove dead non-trivial classes
  --    and their constraints.
  let Acc := State.ClassMembers.foldl (removeDeadMembers isDead) (State.ClassMembers, Maps)
  -- 4. Update the state with new maps.
  { ClassMap := NewMap
    ClassMembers := Acc.1
    ConstraintRange := Acc.2.1
    DisequalityMap := Acc.2.2 }

/-! ## A sample context for concrete instances -/

/-- A numbering of the opcodes, for the sample symbol manager. -/
def Opcode.index (Op : Opcode) : Nat :=
  match Op with
  | .Comparison OP => getIndexFromOp OP
  | .BO_Sub => 6
  | .BO_Cmp => 7
  | .BO_Or => 8
  | .BO_And => 9
  | .BO_Rem => 10
  | .BO_Other => 11

/-- The opcode of a number, for the sample symbol manager. -/
def Opcode.ofIndex (Index : Nat) : Opcode :=
  if Index < 6 then .Comparison (getOpFromIndex Index)
  else
    match Index with
    | 6 => .BO_Sub
    | 7 => .BO_Cmp
    | 8 => .BO_Or
    | 9 => .BO_And
    | 10 => .BO_Rem
    | _ => .BO_Other

/-- A sample context for concrete instances.  Every symbol has the one type
`0`, the signed 8-bit integer type.  The symbols below 1000 are not looked
into; the symbol `1000 + 100 * k + 10 * l + r` is the symbol-symbol expression
of the operands `l` and `r` (below 10) with the opcode of number `k`.  A member
set is as high as it is long, and no symbol simplifies to another. -/
def sampleContext : Context where
  getType := fun _ => 0
  getAPSIntType := fun _ => int8
  isReferenceType := fun _ => false
  isIntegralOrEnumerationType := fun _ => true
  isLocType := fun _ => false
  isUnsignedIntegerOrEnumerationType := fun _ => false
  isSignedIntegerOrEnumerationType := fun _ => true
  getHeight := List.length
  getSymSymExpr := fun LHS Op RHS _ => 1000 + 100 * Op.index + 10 * LHS + RHS
  getExpr := fun Sym =>
    if Sym < 1000 then .SymbolData Sym
    else
      .SymSymExpr Sym (.SymbolData ((Sym - 1000) % 100 / 10))
        (Opcode.ofIndex ((Sym - 1000) / 100)) (.SymbolData ((Sym - 1000) % 10))
  simplify := fun _ Sym => some Sym

/-- The second half of the consistency check on a disequality map, by lookups:
no disequality set is empty, and the edges are symmetric. -/
def SymmetricDisequalities (Disequalities : List (EquivalenceClass × ClassSet)) : Prop :=
  ∀ K Ds, mapLookup Disequalities K = some Ds →
    Ds ≠ [] ∧ ∀ D ∈ Ds, ∃ Ds', mapLookup Disequalities D = some Ds' ∧ K ∈ Ds'

/-! ## Well-formed contexts and states -/

/-- What is taken for granted of the context of the solver: a symbol stands for
the expression of that symbol, an interned symbol-symbol expression has the
integer type of the type it was made with, and every integer type has at least
one bit. -/
def Context.Coherent (Ctx : Context) : Prop :=
  (∀ Sym, (Ctx.getExpr Sym).getSym = Sym) ∧
  (∀ LHS Op RHS T,
    Ctx.getAPSIntType (Ctx.getType (Ctx.getSymSymExpr LHS Op RHS T)) = Ctx.getAPSIntType T) ∧
  (∀ T, 0 < (Ctx.getAPSIntType T).BitWidth)

/-- The stored constraints of a state are well-formed sets of values of the
type of their class, and every symbol has the type of its class (classes of
different types are never merged). -/
def WellTyped (Ctx : Context) (State : ProgramState) : Prop :=
  (∀ K C, getConstraint State K = some C → WellFormed C ∧ InType (rangeTypeOf Ctx K) C) ∧
  (∀ Sym, Ctx.getType (find State Sym) = Ctx.getType Sym)

/-- The class registry of a state is consistent: a symbol that is mapped to a
class is a member of that class, every listed member of a class maps back to
the class, and the class of a symbol is its own class. -/
def RegistryConsistent (State : ProgramState) : Prop :=
  (∀ Sym K, mapLookup State.ClassMap Sym = some K → Sym ∈ getClassMembers State K) ∧
  (∀ K M, mapLookup State.ClassMembers K = some M → ∀ m ∈ M, find State m = K) ∧
  (∀ Sym, find State (find State Sym) = find State Sym)

/-- The set of the single value `v` is stored for the class of the symbol, and
the symbol is a member of its class. -/
def HoldsValue (State : ProgramState) (Sym : SymbolRef) (v : Int) : Prop :=
  Sym ∈ getClassMembers State (find State Sym) ∧
    getConstraintOfSym State Sym = some [⟨v, v⟩]

/-- The function `RangeConstraintManager::checkNull`; `none` is the unknown
truth value `ConditionTruthVal()`. -/
def checkNull (Ctx : Context) (State : ProgramState) (Sym : SymbolRef) : Option Bool :=
  match getConstraintOfSym State Sym with
  -- If we don't have any information about this symbol, it's underconstrained.
  | none => none
  | some Ranges =>
    -- If we have a concrete value, see if it's zero.
    match getConcreteValue Ranges with
    | some Value => some (decide (Value = 0))
    | none =>
      let IntType := Ctx.getAPSIntType (Ctx.getType Sym)
      -- Check if zero is in the set of possible values.
      if !containsImpl IntType Ranges 0 then some false
      -- Zero is a possible value, but it is not the only possible value.
      else none

/-- The nested loops of `intersect(const ContainerType &, const ContainerType &)`
as in `intersectLoop`, with a count of the iterations of the inner
`do … while` loop.  At the exit it gives the container, the count, and the
ranges from the two iterators to their ends. -/
def intersectLoopTrace : Nat → Bool → List Range → List Range → List Range → Nat →
    Option (List Range × Nat × List Range × List Range)
  | 0, _, _, _, _, _ => none
  | fuel + 1, false, First, Second, Result, Iterations =>
    match First, Second with
    | f :: _, s :: _ =>
      -- if (Second->From() < First->From()) SwapIterators();
      if s.From < f.From then intersectLoopTrace fuel true Second First Result Iterations
      else intersectLoopTrace fuel true First Second Result Iterations
    | _, _ => some (Result, Iterations, First, Second)
  | fuel + 1, true, First, Second, Result, Iterations =>
    match First, Second with
    | f :: fs, s :: ss =>
      if s.From > f.To then
        -- ++First; break;
        intersectLoopTrace fuel false fs (s :: ss) Result (Iterations + 1)
      else if s.To > f.To then
        -- push_back(Range(IntersectionStart, First->To())); ++First; SwapIterators();
        intersectLoopTrace fuel (!fs.isEmpty) (s :: ss) fs (Result ++ [⟨s.From, f.To⟩])
          (Iterations + 1)
      else
        -- push_back(Range(IntersectionStart, Second->To())); ++Second;
        intersectLoopTrace fuel (!ss.isEmpty) (f :: fs) ss (Result ++ [⟨s.From, s.To⟩])
          (Iterations + 1)
    | _, _ => some (Result, Iterations, First, Second)

/-- Modelled from the spec: the loop of `std::merge` on two sorted sequences of
ranges while the first sequence has a range `l` left and `Rest` gives the
result for what follows `l`: a range of the second sequence goes first when it
compares less than `l`, that is, when its lower bound is smaller
(`Range::operator<` is declared in the header, outside the given sources). -/
def mergeRanges (l : Range) (Rest : List Range → List Range) : List Range → List Range
  | [] => l :: Rest []
  | r :: RHS => if r.From < l.From then r :: mergeRanges l Rest RHS else l :: Rest (r :: RHS)

/-- The overload `RangeSet::Factory::add(RangeSet LHS, RangeSet RHS)`: the
`std::merge` of the two sequences. -/
def add : RangeSet → RangeSet → RangeSet
  | [], RHS => RHS
  | l :: LHS, RHS => mergeRanges l (add LHS) RHS

/-- The function `assumeSymOutsideInclusiveRange`. -/
def assumeSymOutsideInclusiveRange (Ctx : Context) (AdjustmentType : APSIntType)
    (State : ProgramState) (Sym : SymbolRef) (From To Adjustment : ℤ) : Option ProgramState :=
  let RangeLT := getSymLTRange Ctx AdjustmentType State Sym From Adjustment
  let RangeGT := getSymGTRange Ctx AdjustmentType State Sym To Adjustment
  let New := add RangeLT RangeGT
  setRange Ctx State Sym New

/-! ## Reference operations on the values of a type -/

/-- The bit pattern of a value in a type of `BitWidth` bits: the value modulo
`2 ^ BitWidth`, a natural number below `2 ^ BitWidth` (two's complement for a
negative value). -/
def APSIntType.bits (T : APSIntType) (Value : Int) : Nat :=
  (Value % 2 ^ T.BitWidth).toNat

/-- The reference for the bitwise OR of two values of a type: the OR of the two
bit patterns, read as a value of the type. -/
def bitwiseOr (T : APSIntType) (a b : Int) : Int :=
  T.apply ((T.bits a ||| T.bits b : Nat) : Int)

/-- The reference for the bitwise AND of two values of a type: the AND of the
two bit patterns, read as a value of the type. -/
def bitwiseAnd (T : APSIntType) (a b : Int) : Int :=
  T.apply ((T.bits a &&& T.bits b : Nat) : Int)

/-! ## Overlap lists -/

theorem interRange_eq_some {a b r : Range} :
    interRange a b = some r ↔
      max a.From b.From ≤ min a.To b.To ∧ r = ⟨max a.From b.From, min a.To b.To⟩ := by
  unfold interRange
  split_ifs with h
  · simp only [Option.some.injEq, h, true_and]
    exact eq_comm
  · simp [h]

theorem interRange_comm (a b : Range) : interRange a b = interRange b a := by
  unfold interRange
  rw [max_comm a.From, min_comm a.To]

theorem mem_overlaps {A B : List Range} {r : Range} :
    r ∈ overlaps A B ↔ ∃ a ∈ A, ∃ b ∈ B, interRange a b = some r := by
  simp [overlaps, List.mem_flatMap, List.mem_filterMap]

theorem overlaps_nil_left (B : List Range) : overlaps [] B = [] := rfl

theorem overlaps_nil_right (A : List Range) : overlaps A [] = [] := by
  simp [overlaps]

theorem overlaps_cons (a : Range) (A B : List Range) :
    overlaps (a :: A) B = B.filterMap (interRange a) ++ overlaps A B := by
  simp [overlaps, List.flatMap_cons]

theorem WellFormed.tail {a : Range} {S : List Range} (h : WellFormed (a :: S)) :
    WellFormed S :=
  ⟨fun r hr => h.1 r (List.mem_cons_of_mem _ hr), (List.pairwise_cons.mp h.2).2⟩

theorem WellFormed.head_lt {a : Range} {S : List Range} (h : WellFormed (a :: S)) :
    ∀ b ∈ S, a.To < b.From :=
  (List.pairwise_cons.mp h.2).1

theorem WellFormed.head_valid {a : Range} {S : List Range} (h : WellFormed (a :: S)) :
    a.From ≤ a.To :=
  h.1 a (List.mem_cons_self _ _)

/-- Well-formedness in the words "valid, sorted by lower bound and pairwise
disjoint": no value lies in two ranges of the set. -/
theorem wellFormed_iff_sorted_disjoint (S : List Range) :
    WellFormed S ↔
      (∀ r ∈ S, r.From ≤ r.To) ∧ S.Pairwise (fun a b => a.From ≤ b.From) ∧
        S.Pairwise (fun a b => ∀ x : Int,
          ¬((a.From ≤ x ∧ x ≤ a.To) ∧ (b.From ≤ x ∧ x ≤ b.To))) := by
  constructor
  · rintro ⟨hv, hp⟩
    refine ⟨hv, hp.imp_of_mem ?_, hp.imp ?_⟩
    · intro a b ha _ hab
      have := hv a ha
      omega
    · intro a b hab x hx
      omega
  · rintro ⟨hv, hs, hd⟩
    refine ⟨hv, (hs.and hd).imp_of_mem ?_⟩
    intro a b ha hb hab
    have h1 := hv a ha
    have h2 := hv b hb
    have h3 := hab.2 b.From
    omega

theorem wellFormed_nil : WellFormed [] :=
  ⟨fun _ h => absurd h (List.not_mem_nil _), List.Pairwise.nil⟩

theorem overlaps_wellFormed {A B : List Range} (hA : WellFormed A) (hB : WellFormed B) :
    WellFormed (overlaps A B) := by
  refine ⟨?_, ?_⟩
  · intro r hr
    obtain ⟨a, _, b, _, hab⟩ := mem_overlaps.mp hr
    obtain ⟨hle, rfl⟩ := interRange_eq_some.mp hab
    exact hle
  · unfold overlaps
    rw [List.pairwise_flatMap]
    refine ⟨?_, ?_⟩
    · intro a _
      rw [List.pairwise_filterMap]
      refine hB.2.imp ?_
      intro b b' hbb x hx y hy
      obtain ⟨_, rfl⟩ := interRange_eq_some.mp hx
      obtain ⟨_, rfl⟩ := interRange_eq_some.mp hy
      simp only
      have h1 : min a.To b.To ≤ b.To := min_le_right _ _
      have h2 : b'.From ≤ max a.From b'.From := le_max_right _ _
      omega
    · refine hA.2.imp ?_
      intro a a' haa x hx y hy
      obtain ⟨b, _, hxb⟩ := List.mem_filterMap.mp hx
      obtain ⟨b', _, hyb⟩ := List.mem_filterMap.mp hy
      obtain ⟨_, rfl⟩ := interRange_eq_some.mp hxb
      obtain ⟨_, rfl⟩ := interRange_eq_some.mp hyb
      simp only
      have h1 : min a.To b.To ≤ a.To := min_le_left _ _
      have h2 : a'.From ≤ max a'.From b'.From := le_max_left _ _
      omega

theorem WellFormed.pairwise_from {S : List Range} (h : WellFormed S) :
    S.Pairwise (fun a b => a.From < b.From) := by
  obtain ⟨hv, hp⟩ := h
  induction S with
  | nil => exact List.Pairwise.nil
  | cons a S ih =>
    rw [List.pairwise_cons] at hp ⊢
    refine ⟨fun b hb => ?_, ih (fun r hr => hv r (List.mem_cons_of_mem _ hr)) hp.2⟩
    have h1 := hp.1 b hb
    have h2 := hv a (List.mem_cons_self _ _)
    omega

/-- Two well-formed range sets with the same ranges are the same sequence. -/
theorem wellFormed_ext {X Y : List Range} (hX : WellFormed X) (hY : WellFormed Y)
    (h : ∀ r, r ∈ X ↔ r ∈ Y) : X = Y := by
  have sX := hX.pairwise_from
  have sY := hY.pairwise_from
  have nX : X.Nodup := sX.imp (fun hab => by intro e; rw [e] at hab; omega)
  have nY : Y.Nodup := sY.imp (fun hab => by intro e; rw [e] at hab; omega)
  exact List.eq_of_perm_of_sorted ((List.perm_ext_iff_of_nodup nX nY).mpr h) sX sY

theorem overlaps_comm {A B : List Range} (hA : WellFormed A) (hB : WellFormed B) :
    overlaps A B = overlaps B A := by
  apply wellFormed_ext (overlaps_wellFormed hA hB) (overlaps_wellFormed hB hA)
  intro r
  rw [mem_overlaps, mem_overlaps]
  constructor
  · rintro ⟨a, ha, b, hb, h⟩
    exact ⟨b, hb, a, ha, by rw [interRange_comm]; exact h⟩
  · rintro ⟨a, ha, b, hb, h⟩
    exact ⟨b, hb, a, ha, by rw [interRange_comm]; exact h⟩

theorem covers_overlaps {A B : List Range} (x : Int) :
    Covers (overlaps A B) x ↔ Covers A x ∧ Covers B x := by
  unfold Covers
  constructor
  · rintro ⟨r, hr, h1, h2⟩
    obtain ⟨a, ha, b, hb, hab⟩ := mem_overlaps.mp hr
    obtain ⟨_, rfl⟩ := interRange_eq_some.mp hab
    simp only at h1 h2
    rw [max_le_iff] at h1
    rw [le_min_iff] at h2
    exact ⟨⟨a, ha, h1.1, h2.1⟩, ⟨b, hb, h1.2, h2.2⟩⟩
  · rintro ⟨⟨a, ha, h1, h2⟩, ⟨b, hb, h3, h4⟩⟩
    refine ⟨⟨max a.From b.From, min a.To b.To⟩, ?_, max_le h1 h3, le_min h2 h4⟩
    refine mem_overlaps.mpr ⟨a, ha, b, hb, interRange_eq_some.mpr ⟨?_, rfl⟩⟩
    exact le_trans (max_le h1 h3) (le_min h2 h4)

/-! ## The intersection loop computes the overlap list -/

theorem filterMap_interRange_nil {a : Range} {B : List Range}
    (h : ∀ b ∈ B, a.To < b.From ∨ b.To < a.From) : B.filterMap (interRange a) = [] := by
  rw [List.filterMap_eq_nil_iff]
  intro b hb
  unfold interRange
  rw [if_neg]
  intro hc
  have h1 := le_trans (le_max_right a.From b.From) (le_trans hc (min_le_left _ _))
  have h2 := le_trans (le_max_left a.From b.From) (le_trans hc (min_le_right _ _))
  rcases h b hb with h | h <;> omega

theorem interRange_of_le {a b : Range} (h1 : a.From ≤ b.From) (h2 : b.From ≤ a.To)
    (h3 : a.To ≤ b.To) : interRange a b = some ⟨b.From, a.To⟩ := by
  unfold interRange
  rw [max_eq_right h1, min_eq_left h3, if_pos h2]

theorem interRange_of_inside {a b : Range} (h1 : a.From ≤ b.From) (h2 : b.From ≤ b.To)
    (h3 : b.To ≤ a.To) : interRange a b = some ⟨b.From, b.To⟩ := by
  unfold interRange
  rw [max_eq_right h1, min_eq_right h3, if_pos h2]

/-- The first range ends before the second set starts: it has no overlap. -/
theorem overlaps_drop_first {f s : Range} {fs ss : List Range}
    (hS : WellFormed (s :: ss)) (h : f.To < s.From) :
    overlaps (f :: fs) (s :: ss) = overlaps fs (s :: ss) := by
  rw [overlaps_cons, filterMap_interRange_nil, List.nil_append]
  intro b hb
  left
  rcases List.mem_cons.mp hb with rfl | hb
  · exact h
  · have h1 := hS.head_lt b hb
    have h2 := hS.head_valid
    omega

/-- The first range ends first: the overlap is emitted and the roles swap. -/
theorem overlaps_push_swap {f s : Range} {fs ss : List Range}
    (hF : WellFormed (f :: fs)) (hS : WellFormed (s :: ss))
    (h1 : f.From ≤ s.From) (h2 : s.From ≤ f.To) (h3 : f.To < s.To) :
    overlaps (f :: fs) (s :: ss) = ⟨s.From, f.To⟩ :: overlaps (s :: ss) fs := by
  rw [overlaps_cons, List.filterMap_cons, interRange_of_le h1 h2 (le_of_lt h3),
    filterMap_interRange_nil, overlaps_comm hF.tail hS]
  · rfl
  · intro b hb
    left
    have := hS.head_lt b hb
    omega

/-- The second range ends first: the overlap is emitted and the second set advances. -/
theorem overlaps_push_keep {f s : Range} {fs ss : List Range}
    (hF : WellFormed (f :: fs)) (hS : WellFormed (s :: ss))
    (h1 : f.From ≤ s.From) (h3 : s.To ≤ f.To) :
    overlaps (f :: fs) (s :: ss) = ⟨s.From, s.To⟩ :: overlaps (f :: fs) ss := by
  rw [overlaps_comm hF hS, overlaps_cons, List.filterMap_cons, interRange_comm,
    interRange_of_inside h1 hS.head_valid h3, filterMap_interRange_nil,
    overlaps_comm hS.tail hF]
  · rfl
  · intro b hb
    left
    have := hF.head_lt b hb
    omega

/-- With enough fuel the loop returns, and what it returns is the container it
started from followed by the overlaps of the ranges not yet visited. -/
theorem intersectLoop_eq (fuel : Nat) :
    ∀ (inner : Bool) (F S R : List Range), WellFormed F → WellFormed S →
      (inner = true → ∃ f fs s ss, F = f :: fs ∧ S = s :: ss ∧ f.From ≤ s.From) →
      2 * (F.length + S.length) + (if inner then 0 else 1) ≤ fuel →
      intersectLoop fuel inner F S R = some (R ++ overlaps F S) := by
  induction fuel with
  | zero =>
    intro inner F S R _ _ hinv hfuel
    cases inner with
    | false => simp at hfuel
    | true =>
      obtain ⟨f, fs, s, ss, rfl, rfl, _⟩ := hinv rfl
      simp at hfuel
  | succ fuel ih =>
    intro inner F S R hF hS hinv hfuel
    cases inner with
    | false =>
      match F, S with
      | [], S => simp [intersectLoop, overlaps_nil_left]
      | f :: fs, [] => simp [intersectLoop, overlaps_nil_right]
      | f :: fs, s :: ss =>
        simp only [intersectLoop]
        simp only [List.length_cons, Bool.false_eq_true, if_false] at hfuel
        split_ifs with hlt
        · rw [ih true (s :: ss) (f :: fs) R hS hF
            (fun _ => ⟨s, ss, f, fs, rfl, rfl, le_of_lt hlt⟩)
            (by simp only [List.length_cons, if_true]; omega),
            overlaps_comm hS hF]
        · rw [ih true (f :: fs) (s :: ss) R hF hS
            (fun _ => ⟨f, fs, s, ss, rfl, rfl, not_lt.mp hlt⟩)
            (by simp only [List.length_cons, if_true]; omega)]
    | true =>
      obtain ⟨f, fs, s, ss, rfl, rfl, hfs⟩ := hinv rfl
      simp only [intersectLoop]
      simp only [List.length_cons, if_true] at hfuel
      have hmeasure : ∀ (b : Bool) (X Y : List Range),
          X.length + Y.length = fs.length + ss.length + 1 →
          2 * (X.length + Y.length) + (if b then 0 else 1) ≤ fuel := by
        intro b X Y hXY
        rw [hXY]
        cases b <;> simp <;> omega
      split_ifs with hgt hto
      · rw [ih false fs (s :: ss) R hF.tail hS (fun h => absurd h (by simp))
          (hmeasure false _ _ (by simp only [List.length_cons]; omega)),
          overlaps_drop_first hS hgt]
      · have hle : s.From ≤ f.To := not_lt.mp hgt
        rw [ih (!fs.isEmpty) (s :: ss) fs (R ++ [(⟨s.From, f.To⟩ : Range)]) hS hF.tail ?_
          (hmeasure _ _ _ (by simp only [List.length_cons]; omega)),
          overlaps_push_swap hF hS hfs hle hto, List.append_assoc]
        · rfl
        · intro hne
          match fs, hF with
          | [], _ => simp at hne
          | f' :: fs', hF =>
            refine ⟨s, ss, f', fs', rfl, rfl, ?_⟩
            have := hF.head_lt f' (List.mem_cons_self _ _)
            omega
      · have hle : s.To ≤ f.To := not_lt.mp hto
        rw [ih (!ss.isEmpty) (f :: fs) ss (R ++ [(⟨s.From, s.To⟩ : Range)]) hF hS.tail ?_
          (hmeasure _ _ _ (by simp only [List.length_cons]; omega)),
          overlaps_push_keep hF hS hfs hle, List.append_assoc]
        · rfl
        · intro hne
          match ss, hS with
          | [], _ => simp at hne
          | s' :: ss', hS =>
            refine ⟨f, fs, s', ss', rfl, rfl, ?_⟩
            have h1 := hS.head_lt s' (List.mem_cons_self _ _)
            have h2 := hS.head_valid
            omega

/-- The fuel that `intersectContainers` passes is enough for any two containers:
every transition removes a range or moves from the head of the outer loop into
the inner loop. -/
theorem intersectLoop_isSome (fuel : Nat) :
    ∀ (inner : Bool) (F S R : List Range),
      2 * (F.length + S.length) + (if inner then 0 else 1) ≤ fuel →
      (inner = true → F ≠ [] ∧ S ≠ []) →
      (intersectLoop fuel inner F S R).isSome = true := by
  induction fuel with
  | zero =>
    intro inner F S R hfuel hinv
    cases inner with
    | false => simp at hfuel
    | true =>
      obtain ⟨h1, h2⟩ := hinv rfl
      match F, h1 with
      | f :: fs, _ => simp at hfuel
  | succ fuel ih =>
    intro inner F S R hfuel hinv
    cases inner with
    | false =>
      match F, S with
      | [], S => simp [intersectLoop]
      | f :: fs, [] => simp [intersectLoop]
      | f :: fs, s :: ss =>
        simp only [intersectLoop]
        simp only [List.length_cons, Bool.false_eq_true, if_false] at hfuel
        split_ifs
        · exact ih true _ _ R (by simp only [List.length_cons, if_true]; omega)
            (fun _ => ⟨List.cons_ne_nil _ _, List.cons_ne_nil _ _⟩)
        · exact ih true _ _ R (by simp only [List.length_cons, if_true]; omega)
            (fun _ => ⟨List.cons_ne_nil _ _, List.cons_ne_nil _ _⟩)
    | true =>
      obtain ⟨h1, h2⟩ := hinv rfl
      match F, S, h1, h2 with
      | f :: fs, s :: ss, _, _ =>
        simp only [intersectLoop]
        simp only [List.length_cons, if_true] at hfuel
        have hmeasure : ∀ (b : Bool) (X Y : List Range),
            X.length + Y.length = fs.length + ss.length + 1 →
            2 * (X.length + Y.length) + (if b then 0 else 1) ≤ fuel := by
          intro b X Y hXY
          rw [hXY]
          cases b <;> simp <;> omega
        split_ifs
        · exact ih false _ _ R (hmeasure false _ _ (by simp only [List.length_cons]; omega))
            (fun h => absurd h (by simp))
        · refine ih _ _ _ _ (hmeasure _ _ _ (by simp only [List.length_cons]; omega)) ?_
          intro h
          refine ⟨List.cons_ne_nil _ _, ?_⟩
          intro hnil
          simp [hnil] at h
        · refine ih _ _ _ _ (hmeasure _ _ _ (by simp only [List.length_cons]; omega)) ?_
          intro h
          refine ⟨List.cons_ne_nil _ _, ?_⟩
          intro hnil
          simp [hnil] at h

theorem intersectContainers_returns (A B : List Range) :
    ∃ R, intersectLoop (2 * (A.length + B.length) + 1) false A B [] = some R ∧
      intersectContainers A B = R := by
  have h := intersectLoop_isSome (2 * (A.length + B.length) + 1) false A B []
    (by simp) (fun h => absurd h (by simp))
  obtain ⟨R, hR⟩ := Option.isSome_iff_exists.mp h
  exact ⟨R, hR, by simp [intersectContainers, hR]⟩

theorem intersectContainers_eq {A B : List Range} (hA : WellFormed A) (hB : WellFormed B) :
    intersectContainers A B = overlaps A B := by
  unfold intersectContainers
  rw [intersectLoop_eq _ false A B [] hA hB (fun h => absurd h (by simp)) (by simp)]
  simp

theorem getMinValue_le {S : List Range} (hS : WellFormed S) :
    ∀ r ∈ S, getMinValue S ≤ r.From := by
  intro r hr
  match S, hS, hr with
  | a :: S, hS, hr =>
    rcases List.mem_cons.mp hr with rfl | hr
    · exact le_refl _
    · have h1 := hS.head_lt r hr
      have h2 := hS.head_valid
      simp only [getMinValue]
      omega

theorem le_getMaxValue {S : List Range} (hS : WellFormed S) :
    ∀ r ∈ S, r.To ≤ getMaxValue S := by
  induction S with
  | nil => intro r hr; exact absurd hr (List.not_mem_nil _)
  | cons a S ih =>
    match S, hS, ih with
    | [], _, _ =>
      intro r hr
      rw [List.mem_singleton] at hr
      subst hr
      simp [getMaxValue]
    | b :: S, hS, ih =>
      have hmax : getMaxValue (a :: b :: S) = getMaxValue (b :: S) := by
        simp [getMaxValue, List.getLast?_cons_cons]
      intro r hr
      rw [hmax]
      rcases List.mem_cons.mp hr with rfl | hr
      · have h1 := hS.head_lt b (List.mem_cons_self _ _)
        have h2 := hS.tail.head_valid
        have h3 := ih hS.tail b (List.mem_cons_self _ _)
        omega
      · exact ih hS.tail r hr

theorem overlaps_eq_nil_of_lt {A B : List Range} (hA : WellFormed A) (hB : WellFormed B)
    (h : getMaxValue A < getMinValue B) : overlaps A B = [] := by
  rw [List.eq_nil_iff_forall_not_mem]
  intro r hr
  obtain ⟨a, ha, b, hb, hab⟩ := mem_overlaps.mp hr
  obtain ⟨hle, _⟩ := interRange_eq_some.mp hab
  have h1 := le_getMaxValue hA a ha
  have h2 := getMinValue_le hB b hb
  have h3 := le_trans (le_max_right a.From b.From) (le_trans hle (min_le_left _ _))
  omega

theorem intersect_eq {A B : List Range} (hA : WellFormed A) (hB : WellFormed B) :
    intersect A B = overlaps A B := by
  unfold intersect
  split_ifs with h
  · simp only [Bool.or_eq_true, decide_eq_true_eq, List.isEmpty_iff] at h
    rcases h with ((h | h) | h) | h
    · subst h; rfl
    · subst h; exact (overlaps_nil_right A).symm
    · exact (overlaps_eq_nil_of_lt hA hB h).symm
    · rw [overlaps_comm hA hB]; exact (overlaps_eq_nil_of_lt hB hA h).symm
  · exact intersectContainers_eq hA hB

/-! ## Arithmetic of a type -/

theorem APSIntType.pow_eq (T : APSIntType) (hT : 0 < T.BitWidth) :
    (2 : Int) ^ T.BitWidth = T.getMaxValue - T.getMinValue + 1 := by
  obtain ⟨w, hw⟩ : ∃ w, T.BitWidth = w + 1 := ⟨T.BitWidth - 1, by omega⟩
  unfold APSIntType.getMaxValue APSIntType.getMinValue
  rw [hw, Nat.add_sub_cancel, pow_succ]
  split_ifs <;> ring

theorem APSIntType.two_min (T : APSIntType) (hT : 0 < T.BitWidth) :
    2 * T.getMinValue = 0 ∨ 2 * T.getMinValue = -(2 : Int) ^ T.BitWidth := by
  obtain ⟨w, hw⟩ : ∃ w, T.BitWidth = w + 1 := ⟨T.BitWidth - 1, by omega⟩
  unfold APSIntType.getMinValue
  rw [hw, Nat.add_sub_cancel, pow_succ]
  split_ifs
  · left; ring
  · right; ring

theorem APSIntType.min_lt_max (T : APSIntType) (hT : 0 < T.BitWidth) :
    T.getMinValue < T.getMaxValue := by
  have h1 := T.pow_eq hT
  have h2 : (2 : Int) ^ 1 ≤ 2 ^ T.BitWidth :=
    pow_le_pow_right₀ (by norm_num) hT
  omega

theorem emod_shift {a M : Int} (k : Int) (h1 : 0 ≤ a + k * M) (h2 : a + k * M < M) :
    a % M = a + k * M := by
  rw [← Int.add_mul_emod_self (a := a) (b := k) (c := M)]
  exact Int.emod_eq_of_lt h1 h2

theorem APSIntType.apply_of_inRange (T : APSIntType) (hT : 0 < T.BitWidth) {v : Int}
    (h1 : T.getMinValue ≤ v) (h2 : v ≤ T.getMaxValue) : T.apply v = v := by
  unfold APSIntType.apply
  have hp := T.pow_eq hT
  rw [Int.emod_eq_of_lt (by omega) (by omega)]
  omega

theorem APSIntType.apply_inRange (T : APSIntType) (hT : 0 < T.BitWidth) (v : Int) :
    T.getMinValue ≤ T.apply v ∧ T.apply v ≤ T.getMaxValue := by
  unfold APSIntType.apply
  have hp := T.pow_eq hT
  have hlt := T.min_lt_max hT
  have hpos : (0 : Int) < 2 ^ T.BitWidth := by omega
  have h1 := Int.emod_nonneg (v - T.getMinValue) (ne_of_gt hpos)
  have h2 := Int.emod_lt_of_pos (v - T.getMinValue) hpos
  omega

theorem neg_min (T : APSIntType) (hT : 0 < T.BitWidth) : neg T T.getMinValue = T.getMinValue := by
  unfold neg APSIntType.apply
  have hp := T.pow_eq hT
  have hlt := T.min_lt_max hT
  rcases T.two_min hT with h | h
  · rw [emod_shift 0 (by omega) (by omega)]; omega
  · rw [emod_shift (-1) (by omega) (by omega)]; omega

theorem neg_eq (T : APSIntType) (hT : 0 < T.BitWidth) {x : Int}
    (h1 : T.getMinValue < x) (h2 : x ≤ T.getMaxValue) :
    neg T x = T.getMinValue + T.getMaxValue + 1 - x := by
  unfold neg APSIntType.apply
  have hp := T.pow_eq hT
  rcases T.two_min hT with h | h
  · rw [emod_shift 1 (by omega) (by omega)]; omega
  · rw [emod_shift 0 (by omega) (by omega)]; omega

/-! ## Membership -/

theorem testInRange_within (T : APSIntType) {x : Int}
    (h1 : T.getMinValue ≤ x) (h2 : x ≤ T.getMaxValue) :
    T.testInRange x = RangeTestResultKind.RTR_Within := by
  unfold APSIntType.testInRange
  rw [if_neg (by omega), if_neg (by omega)]

theorem testInRange_below_iff (T : APSIntType) (x : Int) :
    T.testInRange x = RangeTestResultKind.RTR_Below ↔ x < T.getMinValue := by
  unfold APSIntType.testInRange
  split_ifs with h1 h2 <;> simp [h1]

theorem testInRange_above_iff (T : APSIntType) (hT : 0 < T.BitWidth) (x : Int) :
    T.testInRange x = RangeTestResultKind.RTR_Above ↔ T.getMaxValue < x := by
  unfold APSIntType.testInRange
  have := T.min_lt_max hT
  by_cases h1 : x < T.getMinValue
  · simp only [h1, if_true]
    constructor
    · intro h; cases h
    · intro h; omega
  · by_cases h2 : T.getMaxValue < x <;> simp [h1, h2]

theorem pinPoint_of_inRange (T : APSIntType) (hT : 0 < T.BitWidth) {x : Int}
    (h1 : T.getMinValue ≤ x) (h2 : x ≤ T.getMaxValue) : pinPoint T x = some x := by
  unfold pinPoint
  rw [testInRange_within T h1 h2, if_neg (by simp), T.apply_of_inRange hT h1 h2]

theorem pinPoint_eq_none (T : APSIntType) {x : Int}
    (h : x < T.getMinValue ∨ T.getMaxValue < x) : pinPoint T x = none := by
  unfold pinPoint APSIntType.testInRange
  by_cases hlt : x < T.getMinValue
  · simp [hlt]
  · have hgt : T.getMaxValue < x := by omega
    simp [hlt, hgt]

theorem upperBound_cons (r : Range) (S : List Range) (x : Int) :
    upperBound (r :: S) x = if x < r.From then 0 else upperBound S x + 1 := by
  unfold upperBound
  rw [List.takeWhile_cons]
  by_cases h : x < r.From <;> simp [h]

/-- On a well-formed set the search of `containsImpl` finds the range that
holds the point, if there is one. -/
theorem search_iff {S : List Range} (hS : WellFormed S) (x : Int) :
    (if upperBound S x = 0 then false
      else
        match S.get? (upperBound S x - 1) with
        | none => false
        | some r => r.Includes x) = true ↔ Covers S x := by
  induction S with
  | nil => simp [upperBound, Covers]
  | cons a S ih =>
    have ih := ih hS.tail
    rw [upperBound_cons]
    by_cases hlt : x < a.From
    · simp only [hlt, if_true, Bool.false_eq_true, false_iff]
      rintro ⟨r, hr, h1, h2⟩
      have := getMinValue_le hS r hr
      simp only [getMinValue] at this
      omega
    · simp only [hlt, if_false, Nat.add_sub_cancel, Nat.add_one_ne_zero]
      have hcov : Covers (a :: S) x ↔ (x ≤ a.To ∨ Covers S x) := by
        unfold Covers
        constructor
        · rintro ⟨r, hr, h1, h2⟩
          rcases List.mem_cons.mp hr with rfl | hr
          · exact Or.inl h2
          · exact Or.inr ⟨r, hr, h1, h2⟩
        · rintro (h | ⟨r, hr, h1, h2⟩)
          · exact ⟨a, List.mem_cons_self _ _, not_lt.mp hlt, h⟩
          · exact ⟨r, List.mem_cons_of_mem _ hr, h1, h2⟩
      rw [hcov]
      cases hk : upperBound S x with
      | zero =>
        rw [hk] at ih
        simp only [if_true, Bool.false_eq_true, false_iff] at ih
        simp [Range.Includes, not_lt.mp hlt, ih]
      | succ k =>
        rw [hk] at ih
        simp only [Nat.add_one_ne_zero, if_false, Nat.add_sub_cancel] at ih
        simp only [List.get?_cons_succ]
        rw [ih]
        constructor
        · exact Or.inr
        · rintro (h | h)
          · exfalso
            match S, hS, hk with
            | [], _, hk => simp [upperBound] at hk
            | b :: S, hS, hk =>
              rw [upperBound_cons] at hk
              by_cases hb : x < b.From
              · simp [hb] at hk
              · have := hS.head_lt b (List.mem_cons_self _ _)
                omega
          · exact h

theorem containsImpl_iff {T : APSIntType} (hT : 0 < T.BitWidth) {S : RangeSet}
    (hS : WellFormed S) {x : Int} (h1 : T.getMinValue ≤ x) (h2 : x ≤ T.getMaxValue) :
    containsImpl T S x = true ↔ Covers S x := by
  unfold containsImpl
  rw [pinPoint_of_inRange T hT h1 h2]
  match S, hS with
  | [], _ => simp [Covers]
  | a :: S, hS =>
    simp only [List.isEmpty_cons, Bool.false_eq_true, if_false]
    exact search_iff hS x

/-! ## Intersection with a pair of bounds -/

theorem pin_within (T : APSIntType) (hT : 0 < T.BitWidth) {l u : Int}
    (hl1 : T.getMinValue ≤ l) (hl2 : l ≤ T.getMaxValue)
    (hu1 : T.getMinValue ≤ u) (hu2 : u ≤ T.getMaxValue) : pin T l u = some (l, u) := by
  unfold pin
  rw [testInRange_within T hl1 hl2, testInRange_within T hu1 hu2]
  simp only
  rw [T.apply_of_inRange hT hl1 hl2, T.apply_of_inRange hT hu1 hu2]

/-- Whatever the bounds, the bounds that `pin` leaves are values of the type. -/
theorem pin_inRange {T : APSIntType} (hT : 0 < T.BitWidth) {l u l' u' : Int}
    (h : pin T l u = some (l', u')) :
    (T.getMinValue ≤ l' ∧ l' ≤ T.getMaxValue) ∧ (T.getMinValue ≤ u' ∧ u' ≤ T.getMaxValue) := by
  have hlt := le_of_lt (T.min_lt_max hT)
  have hl := T.apply_inRange hT l
  have hu := T.apply_inRange hT u
  unfold pin at h
  split at h <;> (try split_ifs at h) <;>
    simp only [Option.some.injEq, Prod.mk.injEq, reduceCtorEq] at h <;>
    obtain ⟨rfl, rfl⟩ := h <;>
    exact ⟨⟨by omega, by omega⟩, ⟨by omega, by omega⟩⟩

theorem boundsContainer_wellFormed (T : APSIntType) {l u : Int}
    (hl : l ≤ T.getMaxValue) (hu : T.getMinValue ≤ u) :
    WellFormed (boundsContainer T l u) := by
  unfold boundsContainer WellFormed
  split_ifs with h
  · simp [h]
  · simp only [List.mem_cons, List.mem_singleton, List.not_mem_nil, or_false,
      List.pairwise_cons, List.Pairwise.nil, and_true, forall_eq_or_imp, forall_eq,
      IsEmpty.forall_iff, implies_true]
    omega

theorem covers_boundsContainer (T : APSIntType) (l u x : Int)
    (h1 : T.getMinValue ≤ x) (h2 : x ≤ T.getMaxValue) :
    Covers (boundsContainer T l u) x ↔
      if l ≤ u then l ≤ x ∧ x ≤ u else x ≤ u ∨ l ≤ x := by
  unfold boundsContainer Covers
  split_ifs with h
  · simp
  · simp only [List.mem_cons, List.mem_singleton, List.not_mem_nil, or_false,
      exists_eq_or_imp, exists_eq_left]
    constructor
    · rintro (h | h)
      · exact Or.inl h.2
      · exact Or.inr h.1
    · rintro (h | h)
      · exact Or.inl ⟨h1, h⟩
      · exact Or.inr ⟨h, h2⟩

theorem getMaxValue_singleton (r : Range) : getMaxValue [r] = r.To := by
  simp [getMaxValue]

/-- On a well-formed set, `intersect(What, Lower, Upper)` is the overlap list
of the set with the container of the pinned bounds. -/
theorem intersectBounds_eq {T : APSIntType} (hT : 0 < T.BitWidth) {S : RangeSet}
    (hS : WellFormed S) (l u : Int) :
    intersectBounds T S l u =
      match pin T l u with
      | none => []
      | some (l', u') => overlaps S (boundsContainer T l' u') := by
  unfold intersectBounds
  split_ifs with hemp
  · rw [List.isEmpty_iff] at hemp
    subst hemp
    split <;> rfl
  · split
    · rfl
    · rename_i l' u' hpin
      obtain ⟨⟨hl1, hl2⟩, ⟨hu1, hu2⟩⟩ := pin_inRange hT hpin
      have hB := boundsContainer_wellFormed T hl2 hu1
      split_ifs with hle hcut hcut
      · symm
        unfold boundsContainer
        rw [if_pos hle]
        rcases hcut with hcut | hcut
        · exact overlaps_eq_nil_of_lt hS (by simpa [boundsContainer, hle] using hB)
            (by simpa [getMinValue] using hcut)
        · rw [overlaps_comm hS (by simpa [boundsContainer, hle] using hB)]
          exact overlaps_eq_nil_of_lt (by simpa [boundsContainer, hle] using hB) hS
            (by simpa [getMaxValue] using hcut)
      · rw [intersectContainers_eq hS (by simpa [boundsContainer, hle] using hB)]
        unfold boundsContainer
        rw [if_pos hle]
      · symm
        rw [List.eq_nil_iff_forall_not_mem]
        intro r hr
        obtain ⟨a, ha, b, hb, hab⟩ := mem_overlaps.mp hr
        obtain ⟨hov, _⟩ := interRange_eq_some.mp hab
        have h1 := le_getMaxValue hS a ha
        have h2 := getMinValue_le hS a ha
        have h3 := le_trans (le_max_right a.From b.From) (le_trans hov (min_le_left _ _))
        have h4 := le_trans (le_max_left a.From b.From) (le_trans hov (min_le_right _ _))
        unfold boundsContainer at hb
        rw [if_neg hle] at hb
        simp only [List.mem_cons, List.mem_singleton, List.not_mem_nil, or_false] at hb
        rcases hb with rfl | rfl
        · simp only at h3 h4; omega
        · simp only at h3 h4; omega
      · rw [intersectContainers_eq hS (by simpa [boundsContainer, hle] using hB)]
        unfold boundsContainer
        rw [if_neg hle]

theorem intersectBounds_wellFormed {T : APSIntType} (hT : 0 < T.BitWidth) {S : RangeSet}
    (hS : WellFormed S) (l u : Int) : WellFormed (intersectBounds T S l u) := by
  rw [intersectBounds_eq hT hS]
  split
  · exact wellFormed_nil
  · rename_i l' u' hpin
    obtain ⟨⟨_, hl2⟩, ⟨hu1, _⟩⟩ := pin_inRange hT hpin
    exact overlaps_wellFormed hS (boundsContainer_wellFormed T hl2 hu1)

/-! ## Point deletion -/

theorem APSIntType.apply_succ_max (T : APSIntType) (hT : 0 < T.BitWidth) :
    T.apply (T.getMaxValue + 1) = T.getMinValue := by
  unfold APSIntType.apply
  have hp := T.pow_eq hT
  have hlt := T.min_lt_max hT
  rw [emod_shift (-1) (by omega) (by omega)]; omega

theorem APSIntType.apply_pred_min (T : APSIntType) (hT : 0 < T.BitWidth) :
    T.apply (T.getMinValue - 1) = T.getMaxValue := by
  unfold APSIntType.apply
  have hp := T.pow_eq hT
  have hlt := T.min_lt_max hT
  rw [emod_shift 1 (by omega) (by omega)]; omega

/-- The bounds that `deletePoint` passes on describe every value but the point. -/
theorem covers_deleteBounds (T : APSIntType) (hT : 0 < T.BitWidth) {p x : Int}
    (hp1 : T.getMinValue ≤ p) (hp2 : p ≤ T.getMaxValue)
    (hx1 : T.getMinValue ≤ x) (hx2 : x ≤ T.getMaxValue) :
    Covers (boundsContainer T (T.apply (p + 1)) (T.apply (p - 1))) x ↔ x ≠ p := by
  rw [covers_boundsContainer T _ _ x hx1 hx2]
  have hlt := T.min_lt_max hT
  have hup : T.apply (p + 1) = if p = T.getMaxValue then T.getMinValue else p + 1 := by
    split_ifs with h
    · rw [h, T.apply_succ_max hT]
    · exact T.apply_of_inRange hT (by omega) (by omega)
  have hlo : T.apply (p - 1) = if p = T.getMinValue then T.getMaxValue else p - 1 := by
    split_ifs with h
    · rw [h, T.apply_pred_min hT]
    · exact T.apply_of_inRange hT (by omega) (by omega)
  rw [hup, hlo]
  split_ifs <;> omega

theorem containsImpl_outside (T : APSIntType) (S : RangeSet) {p : Int}
    (h : p < T.getMinValue ∨ T.getMaxValue < p) : containsImpl T S p = false := by
  unfold containsImpl
  rw [pinPoint_eq_none T h]
  split_ifs <;> rfl

theorem deletePoint_covers {T : APSIntType} (hT : 0 < T.BitWidth) {S : RangeSet}
    (hS : WellFormed S) (p : Int) {x : Int}
    (hx1 : T.getMinValue ≤ x) (hx2 : x ≤ T.getMaxValue) :
    Covers (deletePoint T S p) x ↔ Covers S x ∧ x ≠ p := by
  unfold deletePoint
  by_cases hp : T.getMinValue ≤ p ∧ p ≤ T.getMaxValue
  · obtain ⟨hp1, hp2⟩ := hp
    by_cases hc : containsImpl T S p = true
    · simp only [hc, Bool.not_true, Bool.false_eq_true, if_false]
      have h1 := T.apply_inRange hT (p + 1)
      have h2 := T.apply_inRange hT (p - 1)
      rw [intersectBounds_eq hT hS, pin_within T hT h1.1 h1.2 h2.1 h2.2]
      simp only
      rw [covers_overlaps, covers_deleteBounds T hT hp1 hp2 hx1 hx2]
    · simp only [hc, Bool.not_false, Bool.true_eq_false, if_true]
      simp only [Bool.not_eq_true] at hc
      constructor
      · intro h
        refine ⟨h, ?_⟩
        rintro rfl
        have := (containsImpl_iff hT hS hx1 hx2).mpr h
        rw [hc] at this
        cases this
      · exact fun h => h.1
  · have hout : p < T.getMinValue ∨ T.getMaxValue < p := by omega
    rw [containsImpl_outside T S hout]
    simp only [Bool.not_false, if_true]
    constructor
    · intro h
      exact ⟨h, by omega⟩
    · exact fun h => h.1

theorem deletePoint_wellFormed {T : APSIntType} (hT : 0 < T.BitWidth) {S : RangeSet}
    (hS : WellFormed S) (p : Int) : WellFormed (deletePoint T S p) := by
  unfold deletePoint
  split_ifs
  · exact hS
  · exact intersectBounds_wellFormed hT hS _ _

theorem deletePoint_not_contains {T : APSIntType} (hT : 0 < T.BitWidth) {S : RangeSet}
    (hS : WellFormed S) (p : Int) : containsImpl T (deletePoint T S p) p = false := by
  by_cases hp : T.getMinValue ≤ p ∧ p ≤ T.getMaxValue
  · rw [← Bool.not_eq_true, containsImpl_iff hT (deletePoint_wellFormed hT hS p) hp.1 hp.2,
      deletePoint_covers hT hS p hp.1 hp.2]
    exact fun h => h.2 rfl
  · exact containsImpl_outside T _ (by omega)

/-! ## Sorting a container of disjoint ranges -/

theorem sortRanges_perm (R : List Range) : (sortRanges R).Perm R :=
  List.perm_insertionSort _ R

theorem mem_sortRanges {R : List Range} {r : Range} : r ∈ sortRanges R ↔ r ∈ R :=
  (sortRanges_perm R).mem_iff

theorem WellFormed.pairwise_disjoint {L : List Range} (h : WellFormed L) :
    L.Pairwise (fun a b => a.To < b.From ∨ b.To < a.From) :=
  h.2.imp Or.inl

/-- Sorting valid, pairwise disjoint ranges by their lower bound gives a
well-formed set. -/
theorem sortRanges_wellFormed {R : List Range} (hv : ∀ r ∈ R, r.From ≤ r.To)
    (hd : R.Pairwise (fun a b => a.To < b.From ∨ b.To < a.From)) :
    WellFormed (sortRanges R) := by
  have hperm := sortRanges_perm R
  have hv' : ∀ r ∈ sortRanges R, r.From ≤ r.To := fun r hr => hv r (mem_sortRanges.mp hr)
  refine ⟨hv', ?_⟩
  have hs : (sortRanges R).Pairwise (fun a b => a.From ≤ b.From) :=
    List.sorted_insertionSort _ R
  have hd' : (sortRanges R).Pairwise (fun a b => a.To < b.From ∨ b.To < a.From) :=
    (hperm.pairwise_iff (fun h => h.symm)).mpr hd
  refine (hs.and hd').imp_of_mem ?_
  intro a b ha hb hab
  have h1 := hv' a ha
  have h2 := hv' b hb
  omega

/-- A container that is a rearrangement of a well-formed set is sorted into it. -/
theorem sortRanges_eq_of_perm {R L : List Range} (hp : R.Perm L) (hL : WellFormed L) :
    sortRanges R = L := by
  have hv : ∀ r ∈ R, r.From ≤ r.To := fun r hr => hL.1 r (hp.mem_iff.mp hr)
  have hd : R.Pairwise (fun a b => a.To < b.From ∨ b.To < a.From) :=
    (hp.pairwise_iff (fun h => h.symm)).mpr hL.pairwise_disjoint
  apply wellFormed_ext (sortRanges_wellFormed hv hd) hL
  intro r
  rw [mem_sortRanges]
  exact hp.mem_iff

/-! ## Negation: the sorted result, case by case -/

theorem negateRange_of_interior {T : APSIntType} (hT : 0 < T.BitWidth) {r : Range}
    (h : Interior T r) :
    negateRange T r =
      ⟨T.getMinValue + T.getMaxValue + 1 - r.To, T.getMinValue + T.getMaxValue + 1 - r.From⟩ := by
  obtain ⟨h1, h2, h3⟩ := h
  unfold negateRange
  rw [neg_eq T hT (by omega) h3, neg_eq T hT h1 (by omega)]

theorem negateRange_interior {T : APSIntType} (hT : 0 < T.BitWidth) {r : Range}
    (h : Interior T r) : Interior T (negateRange T r) := by
  rw [negateRange_of_interior hT h]
  obtain ⟨h1, h2, h3⟩ := h
  exact ⟨by simp only; omega, by simp only; omega, by simp only; omega⟩

theorem negateRange_negateRange {T : APSIntType} (hT : 0 < T.BitWidth) {r : Range}
    (h : Interior T r) : negateRange T (negateRange T r) = r := by
  rw [negateRange_of_interior hT (negateRange_interior hT h), negateRange_of_interior hT h]
  cases r
  simp only [Range.mk.injEq]
  omega

theorem neg_neg_of_interior {T : APSIntType} (hT : 0 < T.BitWidth) {x : Int}
    (h1 : T.getMinValue < x) (h2 : x ≤ T.getMaxValue) : neg T (neg T x) = x := by
  rw [neg_eq T hT h1 h2, neg_eq T hT (by omega) (by omega)]
  omega

theorem neg_inRange (T : APSIntType) (hT : 0 < T.BitWidth) (x : Int) :
    T.getMinValue ≤ neg T x ∧ neg T x ≤ T.getMaxValue :=
  T.apply_inRange hT (-x)

theorem neg_neg (T : APSIntType) (hT : 0 < T.BitWidth) {x : Int}
    (h1 : T.getMinValue ≤ x) (h2 : x ≤ T.getMaxValue) : neg T (neg T x) = x := by
  by_cases h : x = T.getMinValue
  · rw [h, neg_min T hT, neg_min T hT]
  · exact neg_neg_of_interior hT (by omega) h2

theorem mem_flipped {T : APSIntType} {X : List Range} {r : Range} :
    r ∈ (X.map (negateRange T)).reverse ↔ ∃ a ∈ X, negateRange T a = r := by
  simp [List.mem_reverse, List.mem_map]

/-- Negating interior ranges one by one and reversing their order keeps a set
well-formed. -/
theorem flipped_wellFormed {T : APSIntType} (hT : 0 < T.BitWidth) {X : List Range}
    (hX : WellFormed X) (hI : ∀ r ∈ X, Interior T r) :
    WellFormed ((X.map (negateRange T)).reverse) := by
  refine ⟨?_, ?_⟩
  · intro r hr
    obtain ⟨a, ha, rfl⟩ := mem_flipped.mp hr
    exact (negateRange_interior hT (hI a ha)).2.1
  · rw [List.pairwise_reverse, List.pairwise_map]
    refine hX.2.imp_of_mem ?_
    intro a b ha hb hab
    rw [negateRange_of_interior hT (hI a ha), negateRange_of_interior hT (hI b hb)]
    simp only
    omega

theorem flipped_interior {T : APSIntType} (hT : 0 < T.BitWidth) {X : List Range}
    (hI : ∀ r ∈ X, Interior T r) : ∀ r ∈ (X.map (negateRange T)).reverse, Interior T r := by
  intro r hr
  obtain ⟨a, ha, rfl⟩ := mem_flipped.mp hr
  exact negateRange_interior hT (hI a ha)

theorem flipped_flipped {T : APSIntType} (hT : 0 < T.BitWidth) {X : List Range}
    (hI : ∀ r ∈ X, Interior T r) :
    (((X.map (negateRange T)).reverse).map (negateRange T)).reverse = X := by
  rw [List.map_reverse, List.reverse_reverse, List.map_map]
  conv_rhs => rw [← List.map_id X]
  apply List.map_congr_left
  intro r hr
  exact negateRange_negateRange hT (hI r hr)

theorem rest_interior {T : APSIntType} {first : Range} {rest : List Range}
    (hS : WellFormed (first :: rest)) (hI : InType T (first :: rest)) :
    ∀ r ∈ rest, Interior T r := by
  intro r hr
  have h1 := hS.head_lt r hr
  have h2 := hS.head_valid
  have h3 := hI first (List.mem_cons_self _ _)
  have h4 := hI r (List.mem_cons_of_mem _ hr)
  have h5 := hS.1 r (List.mem_cons_of_mem _ hr)
  exact ⟨by omega, h5, h4.2⟩

theorem all_interior {T : APSIntType} {S : List Range}
    (hS : WellFormed S) (hI : InType T S) (hmin : getMinValue S ≠ T.getMinValue) :
    ∀ r ∈ S, Interior T r := by
  match S, hS, hI, hmin with
  | [], _, _, _ => intro r hr; exact absurd hr (List.not_mem_nil _)
  | first :: rest, hS, hI, hmin =>
    intro r hr
    rcases List.mem_cons.mp hr with rfl | hr
    · have h3 := hI r (List.mem_cons_self _ _)
      simp only [getMinValue] at hmin
      exact ⟨by omega, hS.head_valid, h3.2⟩
    · exact rest_interior hS hI r hr

theorem wellFormed_assemble {h : Range} {M t : List Range} (hh : h.From ≤ h.To)
    (hM : WellFormed M) (ht : WellFormed t) (h1 : ∀ m ∈ M, h.To < m.From)
    (h2 : ∀ x ∈ t, h.To < x.From) (h3 : ∀ m ∈ M, ∀ x ∈ t, m.To < x.From) :
    WellFormed (h :: (M ++ t)) := by
  refine ⟨?_, ?_⟩
  · intro r hr
    rcases List.mem_cons.mp hr with rfl | hr
    · exact hh
    · rcases List.mem_append.mp hr with hr | hr
      · exact hM.1 r hr
      · exact ht.1 r hr
  · rw [List.pairwise_cons, List.pairwise_append]
    refine ⟨?_, hM.2, ht.2, h3⟩
    intro r hr
    rcases List.mem_append.mp hr with hr | hr
    · exact h1 r hr
    · exact h2 r hr

theorem upperPart_wellFormed (T : APSIntType) (hT : 0 < T.BitWidth) (A : Int) :
    WellFormed (upperPart T A) := by
  unfold upperPart
  split_ifs
  · refine ⟨?_, List.pairwise_singleton _ _⟩
    intro r hr
    rw [List.mem_singleton] at hr
    subst hr
    exact (neg_inRange T hT A).2
  · exact wellFormed_nil

theorem mem_upperPart {T : APSIntType} {A : Int} {r : Range} :
    r ∈ upperPart T A ↔ A ≠ T.getMinValue ∧ r = ⟨neg T A, T.getMaxValue⟩ := by
  unfold upperPart
  split_ifs with h
  · simp [h]
  · simp [h]

theorem getLast_To (a : Range) (l : List Range) (h : a :: l ≠ []) :
    ((a :: l).getLast h).To = getMaxValue (a :: l) := by
  simp [getMaxValue, List.getLast?_eq_getLast _ h]

/-- Negation of a set without the minimum: every range is negated and the order
is reversed. -/
theorem negate_interior {T : APSIntType} (hT : 0 < T.BitWidth) {S : RangeSet}
    (hS : WellFormed S) (hI : ∀ r ∈ S, Interior T r) :
    negate T S = (S.map (negateRange T)).reverse := by
  match S, hS, hI with
  | [], _, _ => rfl
  | first :: rest, hS, hI =>
    have hne : first.From ≠ T.getMinValue := ne_of_gt (hI first (List.mem_cons_self _ _)).1
    simp only [negate, hne, if_false]
    exact sortRanges_eq_of_perm (List.reverse_perm _).symm (flipped_wellFormed hT hS hI)

/-- Negation of a set that is the whole type. -/
theorem negate_full (T : APSIntType) (rest : List Range) :
    negate T (⟨T.getMinValue, T.getMaxValue⟩ :: rest) =
      ⟨T.getMinValue, T.getMaxValue⟩ :: rest := by
  simp [negate]

/-- Negation of a set that starts at the minimum and does not reach the maximum. -/
theorem negate_min_open {T : APSIntType} (hT : 0 < T.BitWidth) {A : Int} {rest : List Range}
    (hS : WellFormed (⟨T.getMinValue, A⟩ :: rest)) (hI : InType T (⟨T.getMinValue, A⟩ :: rest))
    (hA : A ≠ T.getMaxValue)
    (hmax : getMaxValue (⟨T.getMinValue, A⟩ :: rest) ≠ T.getMaxValue) :
    negate T (⟨T.getMinValue, A⟩ :: rest) =
        ⟨T.getMinValue, T.getMinValue⟩ ::
          ((rest.map (negateRange T)).reverse ++ upperPart T A) ∧
      WellFormed (⟨T.getMinValue, T.getMinValue⟩ ::
          ((rest.map (negateRange T)).reverse ++ upperPart T A)) := by
  have hrest := rest_interior hS hI
  have hA1 : T.getMinValue ≤ A := hS.head_valid
  have hA2 : A ≤ T.getMaxValue := (hI _ (List.mem_cons_self _ _)).2
  refine and_iff_right_of_imp (fun h => ?_) |>.mpr ?_
  · simp only [negate, if_true, hA, if_false, getLast_To, hmax]
    apply sortRanges_eq_of_perm _ h
    have hup : (if A ≠ T.getMinValue then
          [(⟨T.getMinValue, T.getMinValue⟩ : Range)] ++ [⟨neg T A, T.getMaxValue⟩]
        else [⟨T.getMinValue, T.getMinValue⟩]) =
        ⟨T.getMinValue, T.getMinValue⟩ :: upperPart T A := by
      unfold upperPart
      split_ifs <;> rfl
    rw [hup, List.cons_append]
    exact List.Perm.cons _
      (List.perm_append_comm.trans (List.Perm.append_right _ (List.reverse_perm _).symm))
  · refine wellFormed_assemble (le_refl _) (flipped_wellFormed hT hS.tail hrest)
      (upperPart_wellFormed T hT A) ?_ ?_ ?_
    · intro m hm
      exact (flipped_interior hT hrest m hm).1
    · intro x hx
      obtain ⟨hne, rfl⟩ := mem_upperPart.mp hx
      simp only
      rw [neg_eq T hT (by omega) hA2]
      omega
    · intro m hm x hx
      obtain ⟨hne, rfl⟩ := mem_upperPart.mp hx
      obtain ⟨r, hr, rfl⟩ := mem_flipped.mp hm
      rw [negateRange_of_interior hT (hrest r hr)]
      simp only
      rw [neg_eq T hT (by omega) hA2]
      have := hS.head_lt r hr
      simp only at this
      omega

/-- Negation of a set that starts at the minimum and ends at the maximum. -/
theorem negate_min_closed {T : APSIntType} (hT : 0 < T.BitWidth) {A B : Int}
    {mid : List Range}
    (hS : WellFormed (⟨T.getMinValue, A⟩ :: (mid ++ [⟨B, T.getMaxValue⟩])))
    (hI : InType T (⟨T.getMinValue, A⟩ :: (mid ++ [⟨B, T.getMaxValue⟩]))) :
    negate T (⟨T.getMinValue, A⟩ :: (mid ++ [⟨B, T.getMaxValue⟩])) =
        ⟨T.getMinValue, neg T B⟩ ::
          ((mid.map (negateRange T)).reverse ++ upperPart T A) ∧
      WellFormed (⟨T.getMinValue, neg T B⟩ ::
          ((mid.map (negateRange T)).reverse ++ upperPart T A)) := by
  have hrest := rest_interior hS hI
  have hmid : ∀ r ∈ mid, Interior T r := fun r hr => hrest r (List.mem_append_left _ hr)
  have hA1 : T.getMinValue ≤ A := hS.head_valid
  have hAB : A < B := hS.head_lt ⟨B, T.getMaxValue⟩ (by simp)
  have hB : B ≤ T.getMaxValue := (hrest ⟨B, T.getMaxValue⟩ (by simp)).2.1
  have hA : A ≠ T.getMaxValue := by omega
  have hmidB : ∀ r ∈ mid, r.To < B := by
    intro r hr
    have := (List.pairwise_append.mp hS.tail.2).2.2 r hr ⟨B, T.getMaxValue⟩ (by simp)
    exact this
  have hmax : getMaxValue (⟨T.getMinValue, A⟩ :: (mid ++ [⟨B, T.getMaxValue⟩])) =
      T.getMaxValue := by
    simp [getMaxValue, List.getLast?_cons]
  have hlast : ∀ h, (((⟨T.getMinValue, A⟩ : Range) ::
      (mid ++ [(⟨B, T.getMaxValue⟩ : Range)])).getLast h).From = B := by
    intro h
    simp [List.getLast_cons, List.getLast_append]
  refine and_iff_right_of_imp (fun h => ?_) |>.mpr ?_
  · simp only [negate, if_true, hA, if_false, getLast_To, hmax, hlast,
      List.dropLast_concat]
    apply sortRanges_eq_of_perm _ h
    have hup : (if A ≠ T.getMinValue then
          [(⟨T.getMinValue, neg T B⟩ : Range)] ++ [⟨neg T A, T.getMaxValue⟩]
        else [⟨T.getMinValue, neg T B⟩]) =
        ⟨T.getMinValue, neg T B⟩ :: upperPart T A := by
      unfold upperPart
      split_ifs <;> rfl
    rw [hup, List.cons_append]
    exact List.Perm.cons _
      (List.perm_append_comm.trans (List.Perm.append_right _ (List.reverse_perm _).symm))
  · have hnB : neg T B = T.getMinValue + T.getMaxValue + 1 - B :=
      neg_eq T hT (by omega) hB
    refine wellFormed_assemble (by simp only; omega) (flipped_wellFormed hT ?_ hmid)
      (upperPart_wellFormed T hT A) ?_ ?_ ?_
    · exact ⟨fun r hr => hS.tail.1 r (List.mem_append_left _ hr),
        (List.pairwise_append.mp hS.tail.2).1⟩
    · intro m hm
      obtain ⟨r, hr, rfl⟩ := mem_flipped.mp hm
      rw [negateRange_of_interior hT (hmid r hr)]
      have := hmidB r hr
      simp only
      omega
    · intro x hx
      obtain ⟨hne, rfl⟩ := mem_upperPart.mp hx
      have hnA : neg T A = T.getMinValue + T.getMaxValue + 1 - A :=
        neg_eq T hT (by omega) (by omega)
      simp only
      omega
    · intro m hm x hx
      obtain ⟨hne, rfl⟩ := mem_upperPart.mp hx
      obtain ⟨r, hr, rfl⟩ := mem_flipped.mp hm
      have hnA : neg T A = T.getMinValue + T.getMaxValue + 1 - A :=
        neg_eq T hT (by omega) (by omega)
      rw [negateRange_of_interior hT (hmid r hr)]
      have := hS.head_lt r (List.mem_append_left _ hr)
      simp only at this ⊢
      omega

theorem getMaxValue_mem {S : List Range} (h : S ≠ []) : ∃ r ∈ S, getMaxValue S = r.To := by
  refine ⟨S.getLast h, List.getLast_mem h, ?_⟩
  simp [getMaxValue, List.getLast?_eq_getLast _ h]

/-- The four ways a well-formed set of values of the type meets `negate`. -/
theorem negate_shape {T : APSIntType} {S : RangeSet}
    (hS : WellFormed S) (hI : InType T S) :
    (∀ r ∈ S, Interior T r) ∨
    (∃ rest, S = ⟨T.getMinValue, T.getMaxValue⟩ :: rest) ∨
    (∃ A rest, S = ⟨T.getMinValue, A⟩ :: rest ∧ A ≠ T.getMaxValue ∧
      getMaxValue S ≠ T.getMaxValue) ∨
    (∃ A mid B, S = ⟨T.getMinValue, A⟩ :: (mid ++ [⟨B, T.getMaxValue⟩])) := by
  match S, hS, hI with
  | [], _, _ => exact Or.inl (fun r hr => absurd hr (List.not_mem_nil _))
  | ⟨F, A⟩ :: rest, hS, hI =>
    by_cases hmin : F = T.getMinValue
    · subst hmin
      by_cases hA : A = T.getMaxValue
      · subst hA
        exact Or.inr (Or.inl ⟨rest, rfl⟩)
      · by_cases hmax : getMaxValue (⟨T.getMinValue, A⟩ :: rest) = T.getMaxValue
        · right; right; right
          rcases List.eq_nil_or_concat rest with hnil | ⟨mid, l, hl⟩
          · subst hnil
            simp [getMaxValue] at hmax
            exact absurd hmax hA
          · subst hl
            have : l.To = T.getMaxValue := by
              simpa [getMaxValue, List.getLast?_cons] using hmax
            refine ⟨A, mid, l.From, ?_⟩
            rw [← this, List.concat_eq_append]
        · exact Or.inr (Or.inr (Or.inl ⟨A, rest, rfl, hA, hmax⟩))
    · exact Or.inl (all_interior hS hI (by simpa [getMinValue] using hmin))

theorem upperPart_inType (T : APSIntType) (hT : 0 < T.BitWidth) (A : Int) :
    InType T (upperPart T A) := by
  intro r hr
  obtain ⟨_, rfl⟩ := mem_upperPart.mp hr
  exact ⟨(neg_inRange T hT A).1, le_refl _⟩

theorem interior_inType {T : APSIntType} {X : List Range} (h : ∀ r ∈ X, Interior T r) :
    InType T X := by
  intro r hr
  obtain ⟨h1, h2, h3⟩ := h r hr
  exact ⟨by omega, h3⟩

theorem inType_assemble {T : APSIntType} {h : Range} {M t : List Range}
    (hh : T.getMinValue ≤ h.From ∧ h.To ≤ T.getMaxValue) (hM : InType T M) (ht : InType T t) :
    InType T (h :: (M ++ t)) := by
  intro r hr
  rcases List.mem_cons.mp hr with rfl | hr
  · exact hh
  · rcases List.mem_append.mp hr with hr | hr
    · exact hM r hr
    · exact ht r hr

/-- The result of `negate` is well-formed and consists of values of the type. -/
theorem negate_wellFormed_inType {T : APSIntType} (hT : 0 < T.BitWidth) {S : RangeSet}
    (hS : WellFormed S) (hI : InType T S) :
    WellFormed (negate T S) ∧ InType T (negate T S) := by
  have hlt := T.min_lt_max hT
  rcases negate_shape hS hI with hA | ⟨rest, rfl⟩ | ⟨A, rest, rfl, hA, hmax⟩ | ⟨A, mid, B, rfl⟩
  · rw [negate_interior hT hS hA]
    exact ⟨flipped_wellFormed hT hS hA, interior_inType (flipped_interior hT hA)⟩
  · rw [negate_full]
    exact ⟨hS, hI⟩
  · obtain ⟨heq, hL⟩ := negate_min_open hT hS hI hA hmax
    rw [heq]
    refine ⟨hL, inType_assemble ⟨le_refl _, le_of_lt hlt⟩
      (interior_inType (flipped_interior hT (rest_interior hS hI))) (upperPart_inType T hT A)⟩
  · obtain ⟨heq, hL⟩ := negate_min_closed hT hS hI
    rw [heq]
    refine ⟨hL, inType_assemble ⟨le_refl _, (neg_inRange T hT B).2⟩
      (interior_inType (flipped_interior hT
        (fun r hr => rest_interior hS hI r (List.mem_append_left _ hr))))
      (upperPart_inType T hT A)⟩

/-! ## Negation, point by point -/

theorem or_shuffle {P Q C R : Prop} (key : (P ∨ Q) ↔ R) : (P ∨ C ∨ Q) ↔ (R ∨ C) := by
  tauto

theorem or_shuffle_last {P Q C R L : Prop} (key : (P ∨ Q) ↔ (R ∨ L)) :
    (P ∨ C ∨ Q) ↔ (R ∨ C ∨ L ∨ False) := by
  tauto

theorem covers_cons (a : Range) (S : List Range) (x : Int) :
    Covers (a :: S) x ↔ (a.From ≤ x ∧ x ≤ a.To) ∨ Covers S x := by
  simp [Covers]

theorem covers_append (A B : List Range) (x : Int) :
    Covers (A ++ B) x ↔ Covers A x ∨ Covers B x := by
  simp only [Covers, List.mem_append]
  constructor
  · rintro ⟨r, hr | hr, h⟩
    · exact Or.inl ⟨r, hr, h⟩
    · exact Or.inr ⟨r, hr, h⟩
  · rintro (⟨r, hr, h⟩ | ⟨r, hr, h⟩)
    · exact ⟨r, Or.inl hr, h⟩
    · exact ⟨r, Or.inr hr, h⟩

theorem covers_nil (x : Int) : Covers [] x ↔ False := by
  simp [Covers]

theorem covers_upperPart (T : APSIntType) (A x : Int) :
    Covers (upperPart T A) x ↔ A ≠ T.getMinValue ∧ neg T A ≤ x ∧ x ≤ T.getMaxValue := by
  unfold upperPart
  split_ifs with h
  · simp [Covers, h]
  · simp [Covers, h]

theorem covers_flipped {T : APSIntType} (hT : 0 < T.BitWidth) {X : List Range}
    (hI : ∀ r ∈ X, Interior T r) {x : Int}
    (hx1 : T.getMinValue ≤ x) (hx2 : x ≤ T.getMaxValue) :
    Covers ((X.map (negateRange T)).reverse) x ↔ Covers X (neg T x) := by
  unfold Covers
  constructor
  · rintro ⟨r, hr, h1, h2⟩
    obtain ⟨a, ha, rfl⟩ := mem_flipped.mp hr
    rw [negateRange_of_interior hT (hI a ha)] at h1 h2
    simp only at h1 h2
    obtain ⟨i1, i2, i3⟩ := hI a ha
    refine ⟨a, ha, ?_⟩
    rw [neg_eq T hT (by omega) hx2]
    omega
  · rintro ⟨a, ha, h1, h2⟩
    obtain ⟨i1, i2, i3⟩ := hI a ha
    have hne : x ≠ T.getMinValue := by
      rintro rfl
      rw [neg_min T hT] at h1
      omega
    rw [neg_eq T hT (by omega) hx2] at h1 h2
    refine ⟨negateRange T a, mem_flipped.mpr ⟨a, ha, rfl⟩, ?_⟩
    rw [negateRange_of_interior hT (hI a ha)]
    simp only
    omega

/-- The result of `negate` holds exactly the negations of the points of the set. -/
theorem negate_covers {T : APSIntType} (hT : 0 < T.BitWidth) {S : RangeSet}
    (hS : WellFormed S) (hI : InType T S) {x : Int}
    (hx1 : T.getMinValue ≤ x) (hx2 : x ≤ T.getMaxValue) :
    Covers (negate T S) x ↔ Covers S (neg T x) := by
  have hlt := T.min_lt_max hT
  have hnx := neg_inRange T hT x
  have hnx' : x ≠ T.getMinValue → neg T x = T.getMinValue + T.getMaxValue + 1 - x :=
    fun h => neg_eq T hT (by omega) hx2
  have hnmin := neg_min T hT
  rcases negate_shape hS hI with hA | ⟨rest, rfl⟩ | ⟨A, rest, rfl, hA, hmax⟩ | ⟨A, mid, B, rfl⟩
  · rw [negate_interior hT hS hA]
    exact covers_flipped hT hA hx1 hx2
  · rw [negate_full]
    exact iff_of_true ⟨_, List.mem_cons_self _ _, hx1, hx2⟩
      ⟨_, List.mem_cons_self _ _, hnx.1, hnx.2⟩
  · obtain ⟨heq, _⟩ := negate_min_open hT hS hI hA hmax
    have hA1 : T.getMinValue ≤ A := hS.head_valid
    have hA2 : A ≤ T.getMaxValue := (hI _ (List.mem_cons_self _ _)).2
    have hnA : A ≠ T.getMinValue → neg T A = T.getMinValue + T.getMaxValue + 1 - A :=
      fun h => neg_eq T hT (by omega) hA2
    rw [heq, covers_cons, covers_append, covers_flipped hT (rest_interior hS hI) hx1 hx2,
      covers_upperPart, covers_cons]
    have key : ((T.getMinValue ≤ x ∧ x ≤ T.getMinValue) ∨
        (A ≠ T.getMinValue ∧ neg T A ≤ x ∧ x ≤ T.getMaxValue)) ↔
        (T.getMinValue ≤ neg T x ∧ neg T x ≤ A) := by
      by_cases hx : x = T.getMinValue
      · subst hx
        rw [hnmin]
        constructor
        · intro _; exact ⟨le_refl _, hA1⟩
        · intro _; exact Or.inl ⟨le_refl _, le_refl _⟩
      · rw [hnx' hx]
        by_cases hA0 : A = T.getMinValue
        · subst hA0; omega
        · rw [hnA hA0]; omega
    exact or_shuffle key
  · obtain ⟨heq, _⟩ := negate_min_closed hT hS hI
    have hrest := rest_interior hS hI
    have hmid : ∀ r ∈ mid, Interior T r := fun r hr => hrest r (List.mem_append_left _ hr)
    have hA1 : T.getMinValue ≤ A := hS.head_valid
    have hAB : A < B := hS.head_lt ⟨B, T.getMaxValue⟩ (by simp)
    have hB : B ≤ T.getMaxValue := (hrest ⟨B, T.getMaxValue⟩ (by simp)).2.1
    have hnA : A ≠ T.getMinValue → neg T A = T.getMinValue + T.getMaxValue + 1 - A :=
      fun h => neg_eq T hT (by omega) (by omega)
    have hnB : neg T B = T.getMinValue + T.getMaxValue + 1 - B :=
      neg_eq T hT (by omega) hB
    rw [heq, covers_cons, covers_append, covers_flipped hT hmid hx1 hx2,
      covers_upperPart, covers_cons, covers_append, covers_cons, covers_nil]
    have key : ((T.getMinValue ≤ x ∧ x ≤ neg T B) ∨
        (A ≠ T.getMinValue ∧ neg T A ≤ x ∧ x ≤ T.getMaxValue)) ↔
        ((T.getMinValue ≤ neg T x ∧ neg T x ≤ A) ∨
          (B ≤ neg T x ∧ neg T x ≤ T.getMaxValue)) := by
      rw [hnB]
      by_cases hx : x = T.getMinValue
      · subst hx
        rw [hnmin]
        constructor
        · intro _; exact Or.inl ⟨le_refl _, hA1⟩
        · intro _; exact Or.inl ⟨le_refl _, by omega⟩
      · rw [hnx' hx]
        by_cases hA0 : A = T.getMinValue
        · subst hA0; omega
        · rw [hnA hA0]; omega
    exact or_shuffle_last key

/-! ## Negating twice -/

theorem upperPart_min (T : APSIntType) : upperPart T T.getMinValue = [] := by
  simp [upperPart]

theorem upperPart_of_ne {T : APSIntType} {A : Int} (h : A ≠ T.getMinValue) :
    upperPart T A = [⟨neg T A, T.getMaxValue⟩] := by
  simp [upperPart, h]

/-- Unless the set unites at the minimum, every range after a first range
`[MIN, MIN]` starts above `MIN + 1`. -/
theorem rest_above_of_not_unites {T : APSIntType} {rest : List Range}
    (hS : WellFormed (⟨T.getMinValue, T.getMinValue⟩ :: rest))
    (hU : ¬UnitesAtMin T (⟨T.getMinValue, T.getMinValue⟩ :: rest)) :
    ∀ r ∈ rest, T.getMinValue + 1 < r.From := by
  match rest, hS, hU with
  | [], _, _ => intro r hr; exact absurd hr (List.not_mem_nil _)
  | b :: rest, hS, hU =>
    have hb : T.getMinValue < b.From := hS.head_lt b (List.mem_cons_self _ _)
    have hb2 : b.From ≠ T.getMinValue + 1 := by
      intro h
      exact hU ⟨rfl, rfl, h⟩
    intro r hr
    rcases List.mem_cons.mp hr with rfl | hr
    · omega
    · have h1 := hS.tail.head_lt r hr
      have h2 := hS.tail.head_valid
      omega

/-- Negating twice gives the set back, unless the set unites at the minimum. -/
theorem negate_negate {T : APSIntType} (hT : 0 < T.BitWidth) {S : RangeSet}
    (hS : WellFormed S) (hI : InType T S) (hU : ¬UnitesAtMin T S) :
    negate T (negate T S) = S := by
  have hlt := T.min_lt_max hT
  obtain ⟨hW, hIn⟩ := negate_wellFormed_inType hT hS hI
  rcases negate_shape hS hI with hA | ⟨rest, rfl⟩ | ⟨A, rest, rfl, hA, hmax⟩ | ⟨A, mid, B, rfl⟩
  · rw [negate_interior hT hS hA,
      negate_interior hT (flipped_wellFormed hT hS hA) (flipped_interior hT hA),
      flipped_flipped hT hA]
  · rw [negate_full, negate_full]
  · have hrest := rest_interior hS hI
    have hA1 : T.getMinValue ≤ A := hS.head_valid
    have hA2 : A ≤ T.getMaxValue := (hI _ (List.mem_cons_self _ _)).2
    obtain ⟨heq, _⟩ := negate_min_open hT hS hI hA hmax
    rw [heq] at hW hIn ⊢
    by_cases hA0 : A = T.getMinValue
    · subst hA0
      have habove := rest_above_of_not_unites hS hU
      rw [upperPart_min, List.append_nil] at hW hIn ⊢
      have hmax' : getMaxValue (⟨T.getMinValue, T.getMinValue⟩ ::
          (rest.map (negateRange T)).reverse) ≠ T.getMaxValue := by
        obtain ⟨r, hr, hr2⟩ := getMaxValue_mem
          (List.cons_ne_nil (⟨T.getMinValue, T.getMinValue⟩ : Range)
            (rest.map (negateRange T)).reverse)
        rw [hr2]
        rcases List.mem_cons.mp hr with rfl | hr
        · simp only; omega
        · obtain ⟨a, ha, rfl⟩ := mem_flipped.mp hr
          rw [negateRange_of_interior hT (hrest a ha)]
          have := habove a ha
          simp only
          omega
      obtain ⟨heq2, _⟩ := negate_min_open hT hW hIn (by omega) hmax'
      rw [heq2, flipped_flipped hT hrest, upperPart_min, List.append_nil]
    · rw [upperPart_of_ne hA0] at hW hIn ⊢
      obtain ⟨heq2, _⟩ := negate_min_closed hT hW hIn
      rw [heq2, flipped_flipped hT hrest, upperPart_min, List.append_nil,
        neg_neg T hT hA1 hA2]
  · have hrest := rest_interior hS hI
    have hmid : ∀ r ∈ mid, Interior T r := fun r hr => hrest r (List.mem_append_left _ hr)
    have hA1 : T.getMinValue ≤ A := hS.head_valid
    have hAB : A < B := hS.head_lt ⟨B, T.getMaxValue⟩ (by simp)
    have hB : B ≤ T.getMaxValue := (hrest ⟨B, T.getMaxValue⟩ (by simp)).2.1
    have hnB : neg T B = T.getMinValue + T.getMaxValue + 1 - B :=
      neg_eq T hT (by omega) hB
    have hnnB : neg T (neg T B) = B := neg_neg T hT (by omega) hB
    have hnB0 : neg T B ≠ T.getMinValue := by omega
    obtain ⟨heq, _⟩ := negate_min_closed hT hS hI
    rw [heq] at hW hIn ⊢
    by_cases hA0 : A = T.getMinValue
    · subst hA0
      have habove := rest_above_of_not_unites hS hU
      have hB2 := habove ⟨B, T.getMaxValue⟩ (by simp)
      simp only at hB2
      rw [upperPart_min, List.append_nil] at hW hIn ⊢
      have hmax' : getMaxValue (⟨T.getMinValue, neg T B⟩ ::
          (mid.map (negateRange T)).reverse) ≠ T.getMaxValue := by
        obtain ⟨r, hr, hr2⟩ := getMaxValue_mem
          (List.cons_ne_nil (⟨T.getMinValue, neg T B⟩ : Range)
            (mid.map (negateRange T)).reverse)
        rw [hr2]
        rcases List.mem_cons.mp hr with rfl | hr
        · simp only; omega
        · obtain ⟨a, ha, rfl⟩ := mem_flipped.mp hr
          rw [negateRange_of_interior hT (hmid a ha)]
          have := habove a (List.mem_append_left _ ha)
          simp only
          omega
      obtain ⟨heq2, _⟩ := negate_min_open hT hW hIn (by omega) hmax'
      rw [heq2, flipped_flipped hT hmid, upperPart_of_ne hnB0, hnnB]
    · rw [upperPart_of_ne hA0] at hW hIn ⊢
      obtain ⟨heq2, _⟩ := negate_min_closed hT hW hIn
      rw [heq2, flipped_flipped hT hmid, upperPart_of_ne hnB0, hnnB,
        neg_neg T hT hA1 (by omega)]

/-- The result of `negate` never starts with `[MIN, MIN]` directly followed by
a range that starts at `MIN + 1`. -/
theorem negate_not_unites {T : APSIntType} (hT : 0 < T.BitWidth) {S : RangeSet}
    (hS : WellFormed S) (hI : InType T S) : ¬UnitesAtMin T (negate T S) := by
  have hlt := T.min_lt_max hT
  have hcons : ∀ (a : Range) (l : List Range), UnitesAtMin T (a :: l) →
      a.From = T.getMinValue ∧ a.To = T.getMinValue ∧
        ∃ b ∈ l, b.From = T.getMinValue + 1 := by
    intro a l h
    match l, h with
    | b :: l, h => exact ⟨h.1, h.2.1, b, List.mem_cons_self _ _, h.2.2⟩
  rcases negate_shape hS hI with hA | ⟨rest, rfl⟩ | ⟨A, rest, rfl, hA, hmax⟩ | ⟨A, mid, B, rfl⟩
  · rw [negate_interior hT hS hA]
    intro hU
    match hL : (S.map (negateRange T)).reverse, hU with
    | a :: l, hU =>
      have ha : a ∈ (S.map (negateRange T)).reverse := by rw [hL]; exact List.mem_cons_self _ _
      have h1 := (flipped_interior hT hA a ha).1
      have h2 := (hcons a l hU).1
      omega
  · rw [negate_full]
    intro hU
    have := (hcons _ _ hU).2.1
    simp only at this
    omega
  · obtain ⟨heq, _⟩ := negate_min_open hT hS hI hA hmax
    have hrest := rest_interior hS hI
    have hA1 : T.getMinValue ≤ A := hS.head_valid
    have hA2 : A ≤ T.getMaxValue := (hI _ (List.mem_cons_self _ _)).2
    rw [heq]
    intro hU
    obtain ⟨_, _, b, hb, hb2⟩ := hcons _ _ hU
    rcases List.mem_append.mp hb with hb | hb
    · obtain ⟨r, hr, rfl⟩ := mem_flipped.mp hb
      rw [negateRange_of_interior hT (hrest r hr)] at hb2
      simp only at hb2
      have h1 := le_getMaxValue hS r (List.mem_cons_of_mem _ hr)
      obtain ⟨r', hr', hr2⟩ := getMaxValue_mem
        (List.cons_ne_nil (⟨T.getMinValue, A⟩ : Range) rest)
      have h2 := (hI r' hr').2
      omega
    · obtain ⟨hne, rfl⟩ := mem_upperPart.mp hb
      simp only at hb2
      rw [neg_eq T hT (by omega) hA2] at hb2
      omega
  · obtain ⟨heq, _⟩ := negate_min_closed hT hS hI
    have hrest := rest_interior hS hI
    have hB := hrest ⟨B, T.getMaxValue⟩ (by simp)
    rw [heq]
    intro hU
    have hB1 : T.getMinValue < B := hB.1
    have hB2 : B ≤ T.getMaxValue := hB.2.1
    have h1 := (hcons _ _ hU).2.1
    simp only at h1
    rw [neg_eq T hT hB1 hB2] at h1
    omega

/-! ## Overlaps of three sets -/

theorem mem_overlaps_left {A B C : List Range} {r : Range} :
    r ∈ overlaps (overlaps A B) C ↔
      ∃ a ∈ A, ∃ b ∈ B, ∃ c ∈ C,
        r.From = max a.From (max b.From c.From) ∧ r.To = min a.To (min b.To c.To) ∧
          r.From ≤ r.To := by
  rw [mem_overlaps]
  constructor
  · rintro ⟨ab, hab, c, hc, h⟩
    obtain ⟨a, ha, b, hb, h2⟩ := mem_overlaps.mp hab
    obtain ⟨_, rfl⟩ := interRange_eq_some.mp h2
    obtain ⟨hle, rfl⟩ := interRange_eq_some.mp h
    simp only at hle ⊢
    exact ⟨a, ha, b, hb, c, hc, by omega, by omega, by omega⟩
  · rintro ⟨a, ha, b, hb, c, hc, h1, h2, h3⟩
    refine ⟨⟨max a.From b.From, min a.To b.To⟩,
      mem_overlaps.mpr ⟨a, ha, b, hb, interRange_eq_some.mpr ⟨by omega, rfl⟩⟩, c, hc,
      interRange_eq_some.mpr ⟨by simp only; omega, ?_⟩⟩
    cases r
    simp only [Range.mk.injEq] at *
    constructor <;> omega

theorem mem_overlaps_right {A B C : List Range} {r : Range} :
    r ∈ overlaps A (overlaps B C) ↔
      ∃ a ∈ A, ∃ b ∈ B, ∃ c ∈ C,
        r.From = max a.From (max b.From c.From) ∧ r.To = min a.To (min b.To c.To) ∧
          r.From ≤ r.To := by
  rw [mem_overlaps]
  constructor
  · rintro ⟨a, ha, bc, hbc, h⟩
    obtain ⟨b, hb, c, hc, h2⟩ := mem_overlaps.mp hbc
    obtain ⟨_, rfl⟩ := interRange_eq_some.mp h2
    obtain ⟨hle, rfl⟩ := interRange_eq_some.mp h
    simp only at hle ⊢
    exact ⟨a, ha, b, hb, c, hc, rfl, rfl, hle⟩
  · rintro ⟨a, ha, b, hb, c, hc, h1, h2, h3⟩
    refine ⟨a, ha, ⟨max b.From c.From, min b.To c.To⟩,
      mem_overlaps.mpr ⟨b, hb, c, hc, interRange_eq_some.mpr ⟨by omega, rfl⟩⟩,
      interRange_eq_some.mpr ⟨by simp only; omega, ?_⟩⟩
    cases r
    simp only [Range.mk.injEq] at *
    constructor <;> omega

theorem overlaps_assoc {A B C : List Range} (hA : WellFormed A) (hB : WellFormed B)
    (hC : WellFormed C) : overlaps (overlaps A B) C = overlaps A (overlaps B C) := by
  apply wellFormed_ext (overlaps_wellFormed (overlaps_wellFormed hA hB) hC)
    (overlaps_wellFormed hA (overlaps_wellFormed hB hC))
  intro r
  rw [mem_overlaps_left, mem_overlaps_right]

/-! ## The claims -/

/-- C1: for well-formed range sets `A` and `B` over one type and every value `x`
of that type, `x` is contained in `intersect(A, B)` exactly when it is contained
in `A` and in `B`; this holds for the overload on range sets and for the overload
on containers. -/
theorem intersect_pointwise (T : APSIntType) (hT : 0 < T.BitWidth) (A B : RangeSet)
    (hA : WellFormed A) (hB : WellFormed B) (x : Int)
    (hx1 : T.getMinValue ≤ x) (hx2 : x ≤ T.getMaxValue) :
    (containsImpl T (intersect A B) x = true ↔
      containsImpl T A x = true ∧ containsImpl T B x = true) ∧
    (containsImpl T (intersectContainers A B) x = true ↔
      containsImpl T A x = true ∧ containsImpl T B x = true) := by
  have hW := overlaps_wellFormed hA hB
  rw [intersect_eq hA hB, intersectContainers_eq hA hB, containsImpl_iff hT hW hx1 hx2,
    containsImpl_iff hT hA hx1 hx2, containsImpl_iff hT hB hx1 hx2, covers_overlaps]
  exact ⟨Iff.rfl, Iff.rfl⟩

theorem intersect_pointwise_witness :
    WellFormed [⟨-128, -100⟩, ⟨0, 10⟩] ∧ WellFormed [⟨-110, 5⟩] ∧
    ((containsImpl int8 (intersect [⟨-128, -100⟩, ⟨0, 10⟩] [⟨-110, 5⟩]) 3 = true ↔
      containsImpl int8 [⟨-128, -100⟩, ⟨0, 10⟩] 3 = true ∧
        containsImpl int8 [⟨-110, 5⟩] 3 = true) ∧
    (containsImpl int8 (intersectContainers [⟨-128, -100⟩, ⟨0, 10⟩] [⟨-110, 5⟩]) 3 = true ↔
      containsImpl int8 [⟨-128, -100⟩, ⟨0, 10⟩] 3 = true ∧
        containsImpl int8 [⟨-110, 5⟩] 3 = true)) :=
  ⟨by decide, by decide,
    intersect_pointwise int8 (by decide) [⟨-128, -100⟩, ⟨0, 10⟩] [⟨-110, 5⟩]
      (by decide) (by decide) 3 (by decide) (by decide)⟩

/-- C2: intersection is commutative as a sequence of ranges: for well-formed
`A` and `B`, which may hold touching but unmerged ranges, `intersect(A, B)` and
`intersect(B, A)` are the same sequence, for both overloads. -/
theorem intersect_commutative (A B : RangeSet) (hA : WellFormed A) (hB : WellFormed B) :
    intersect A B = intersect B A ∧
      intersectContainers A B = intersectContainers B A := by
  rw [intersect_eq hA hB, intersect_eq hB hA, intersectContainers_eq hA hB,
    intersectContainers_eq hB hA]
  exact ⟨overlaps_comm hA hB, overlaps_comm hA hB⟩

theorem intersect_commutative_witness :
    WellFormed [⟨0, 1⟩, ⟨2, 3⟩, ⟨7, 9⟩] ∧ WellFormed [⟨1, 2⟩, ⟨3, 8⟩] ∧
    intersect [⟨0, 1⟩, ⟨2, 3⟩, ⟨7, 9⟩] [⟨1, 2⟩, ⟨3, 8⟩] =
      [⟨1, 1⟩, ⟨2, 2⟩, ⟨3, 3⟩, ⟨7, 8⟩] ∧
    (intersect [⟨0, 1⟩, ⟨2, 3⟩, ⟨7, 9⟩] [⟨1, 2⟩, ⟨3, 8⟩] =
        intersect [⟨1, 2⟩, ⟨3, 8⟩] [⟨0, 1⟩, ⟨2, 3⟩, ⟨7, 9⟩] ∧
      intersectContainers [⟨0, 1⟩, ⟨2, 3⟩, ⟨7, 9⟩] [⟨1, 2⟩, ⟨3, 8⟩] =
        intersectContainers [⟨1, 2⟩, ⟨3, 8⟩] [⟨0, 1⟩, ⟨2, 3⟩, ⟨7, 9⟩]) :=
  ⟨by decide, by decide, by decide,
    intersect_commutative [⟨0, 1⟩, ⟨2, 3⟩, ⟨7, 9⟩] [⟨1, 2⟩, ⟨3, 8⟩] (by decide) (by decide)⟩

/-- C3: intersection is associative as a sequence of ranges: for well-formed
`A`, `B` and `C`, `intersect(intersect(A, B), C)` and
`intersect(A, intersect(B, C))` are the same sequence, for both overloads. -/
theorem intersect_associative (A B C : RangeSet) (hA : WellFormed A) (hB : WellFormed B)
    (hC : WellFormed C) :
    intersect (intersect A B) C = intersect A (intersect B C) ∧
      intersectContainers (intersectContainers A B) C =
        intersectContainers A (intersectContainers B C) := by
  have hAB := overlaps_wellFormed hA hB
  have hBC := overlaps_wellFormed hB hC
  rw [intersect_eq hA hB, intersect_eq hB hC, intersect_eq hAB hC, intersect_eq hA hBC,
    intersectContainers_eq hA hB, intersectContainers_eq hB hC,
    intersectContainers_eq hAB hC, intersectContainers_eq hA hBC]
  exact ⟨overlaps_assoc hA hB hC, overlaps_assoc hA hB hC⟩

theorem intersect_associative_witness :
    WellFormed [⟨0, 1⟩, ⟨2, 3⟩, ⟨7, 9⟩] ∧ WellFormed [⟨1, 2⟩, ⟨3, 8⟩] ∧
    WellFormed [⟨-5, 1⟩, ⟨3, 7⟩] ∧
    intersect (intersect [⟨0, 1⟩, ⟨2, 3⟩, ⟨7, 9⟩] [⟨1, 2⟩, ⟨3, 8⟩]) [⟨-5, 1⟩, ⟨3, 7⟩] =
      [⟨1, 1⟩, ⟨3, 3⟩, ⟨7, 7⟩] ∧
    (intersect (intersect [⟨0, 1⟩, ⟨2, 3⟩, ⟨7, 9⟩] [⟨1, 2⟩, ⟨3, 8⟩]) [⟨-5, 1⟩, ⟨3, 7⟩] =
        intersect [⟨0, 1⟩, ⟨2, 3⟩, ⟨7, 9⟩] (intersect [⟨1, 2⟩, ⟨3, 8⟩] [⟨-5, 1⟩, ⟨3, 7⟩]) ∧
      intersectContainers (intersectContainers [⟨0, 1⟩, ⟨2, 3⟩, ⟨7, 9⟩] [⟨1, 2⟩, ⟨3, 8⟩])
          [⟨-5, 1⟩, ⟨3, 7⟩] =
        intersectContainers [⟨0, 1⟩, ⟨2, 3⟩, ⟨7, 9⟩]
          (intersectContainers [⟨1, 2⟩, ⟨3, 8⟩] [⟨-5, 1⟩, ⟨3, 7⟩])) :=
  ⟨by decide, by decide, by decide, by decide,
    intersect_associative [⟨0, 1⟩, ⟨2, 3⟩, ⟨7, 9⟩] [⟨1, 2⟩, ⟨3, 8⟩] [⟨-5, 1⟩, ⟨3, 7⟩]
      (by decide) (by decide) (by decide)⟩

/-- C4: the set operations keep range sets well-formed: for well-formed inputs
over the type, the results of `intersect(A, B)` (both overloads),
`intersect(S, Lower, Upper)` for any bounds, `negate(S)` and `deletePoint(S, p)`
are well-formed again. -/
theorem operations_keep_wellFormed (T : APSIntType) (hT : 0 < T.BitWidth)
    (A B S : RangeSet) (hA : WellFormed A) (hB : WellFormed B) (hS : WellFormed S)
    (hI : InType T S) (Lower Upper p : Int) :
    WellFormed (intersect A B) ∧ WellFormed (intersectContainers A B) ∧
      WellFormed (intersectBounds T S Lower Upper) ∧ WellFormed (negate T S) ∧
      WellFormed (deletePoint T S p) := by
  refine ⟨?_, ?_, intersectBounds_wellFormed hT hS _ _,
    (negate_wellFormed_inType hT hS hI).1, deletePoint_wellFormed hT hS p⟩
  · rw [intersect_eq hA hB]; exact overlaps_wellFormed hA hB
  · rw [intersectContainers_eq hA hB]; exact overlaps_wellFormed hA hB

theorem operations_keep_wellFormed_witness :
    WellFormed [⟨-128, -100⟩, ⟨0, 10⟩] ∧ WellFormed [⟨-110, 5⟩] ∧
    WellFormed [⟨-128, -128⟩, ⟨-127, 5⟩, ⟨7, 127⟩] ∧
    InType int8 [⟨-128, -128⟩, ⟨-127, 5⟩, ⟨7, 127⟩] ∧
    negate int8 [⟨-128, -128⟩, ⟨-127, 5⟩, ⟨7, 127⟩] = [⟨-128, -7⟩, ⟨-5, 127⟩] ∧
    (WellFormed (intersect [⟨-128, -100⟩, ⟨0, 10⟩] [⟨-110, 5⟩]) ∧
      WellFormed (intersectContainers [⟨-128, -100⟩, ⟨0, 10⟩] [⟨-110, 5⟩]) ∧
      WellFormed (intersectBounds int8 [⟨-128, -128⟩, ⟨-127, 5⟩, ⟨7, 127⟩] 100 (-100)) ∧
      WellFormed (negate int8 [⟨-128, -128⟩, ⟨-127, 5⟩, ⟨7, 127⟩]) ∧
      WellFormed (deletePoint int8 [⟨-128, -128⟩, ⟨-127, 5⟩, ⟨7, 127⟩] 3)) :=
  ⟨by decide, by decide, by decide, by decide, by decide,
    operations_keep_wellFormed int8 (by decide) [⟨-128, -100⟩, ⟨0, 10⟩] [⟨-110, 5⟩]
      [⟨-128, -128⟩, ⟨-127, 5⟩, ⟨7, 127⟩] (by decide) (by decide) (by decide) (by decide)
      100 (-100) 3⟩

/-- C5, as stated, fails: over the signed 8-bit type the well-formed set
`{[-128, -128], [-127, 5]}` is negated to `{[-128, -128], [-5, 127]}` and that
is negated to `{[-128, 5]}`, which is not the sequence the set started as. -/
theorem negate_twice_counterexample :
    WellFormed [⟨-128, -128⟩, ⟨-127, 5⟩] ∧ InType int8 [⟨-128, -128⟩, ⟨-127, 5⟩] ∧
    negate int8 [⟨-128, -128⟩, ⟨-127, 5⟩] = [⟨-128, -128⟩, ⟨-5, 127⟩] ∧
    negate int8 (negate int8 [⟨-128, -128⟩, ⟨-127, 5⟩]) = [⟨-128, 5⟩] ∧
    negate int8 (negate int8 [⟨-128, -128⟩, ⟨-127, 5⟩]) ≠ [⟨-128, -128⟩, ⟨-127, 5⟩] := by
  decide

/-- C5, amended: for a well-formed set `S` of values of the type (sets that
contain the minimum included), `negate(negate(S))` is the sequence `S` exactly
when `S` does not start with `[MIN, MIN]` directly followed by a range that
starts at `MIN + 1`, the two ranges that `negate` unites. -/
theorem negate_twice_iff (T : APSIntType) (hT : 0 < T.BitWidth) (S : RangeSet)
    (hS : WellFormed S) (hI : InType T S) :
    negate T (negate T S) = S ↔ ¬UnitesAtMin T S := by
  constructor
  · intro h
    obtain ⟨hW, hIn⟩ := negate_wellFormed_inType hT hS hI
    have := negate_not_unites hT hW hIn
    rwa [h] at this
  · exact negate_negate hT hS hI

theorem negate_twice_iff_witness :
    WellFormed [⟨-128, -120⟩, ⟨-118, 5⟩, ⟨7, 127⟩] ∧
    InType int8 [⟨-128, -120⟩, ⟨-118, 5⟩, ⟨7, 127⟩] ∧
    ¬UnitesAtMin int8 [⟨-128, -120⟩, ⟨-118, 5⟩, ⟨7, 127⟩] ∧
    negate int8 [⟨-128, -120⟩, ⟨-118, 5⟩, ⟨7, 127⟩] =
      [⟨-128, -7⟩, ⟨-5, 118⟩, ⟨120, 127⟩] ∧
    (negate int8 (negate int8 [⟨-128, -120⟩, ⟨-118, 5⟩, ⟨7, 127⟩]) =
        [⟨-128, -120⟩, ⟨-118, 5⟩, ⟨7, 127⟩] ↔
      ¬UnitesAtMin int8 [⟨-128, -120⟩, ⟨-118, 5⟩, ⟨7, 127⟩]) :=
  ⟨by decide, by decide, by decide, by decide,
    negate_twice_iff int8 (by decide) [⟨-128, -120⟩, ⟨-118, 5⟩, ⟨7, 127⟩]
      (by decide) (by decide)⟩

/-- C6: `negate` is pointwise two's-complement negation: for a well-formed set
`S` of values of a type and every value `x` of that type, `x` is contained in
`negate(S)` exactly when the wrapped negation of `x` is contained in `S`. -/
theorem negate_pointwise (T : APSIntType) (hT : 0 < T.BitWidth) (S : RangeSet)
    (hS : WellFormed S) (hI : InType T S) (x : Int)
    (hx1 : T.getMinValue ≤ x) (hx2 : x ≤ T.getMaxValue) :
    containsImpl T (negate T S) x = true ↔ containsImpl T S (neg T x) = true := by
  have hn := neg_inRange T hT x
  rw [containsImpl_iff hT (negate_wellFormed_inType hT hS hI).1 hx1 hx2,
    containsImpl_iff hT hS hn.1 hn.2]
  exact negate_covers hT hS hI hx1 hx2

theorem negate_pointwise_witness :
    WellFormed [⟨-128, -120⟩, ⟨-118, 5⟩] ∧ InType int8 [⟨-128, -120⟩, ⟨-118, 5⟩] ∧
    neg int8 (-128) = -128 ∧ containsImpl int8 [⟨-128, -120⟩, ⟨-118, 5⟩] (-128) = true ∧
    (containsImpl int8 (negate int8 [⟨-128, -120⟩, ⟨-118, 5⟩]) (-128) = true ↔
      containsImpl int8 [⟨-128, -120⟩, ⟨-118, 5⟩] (neg int8 (-128)) = true) :=
  ⟨by decide, by decide, by decide, by decide,
    negate_pointwise int8 (by decide) [⟨-128, -120⟩, ⟨-118, 5⟩] (by decide) (by decide)
      (-128) (by decide) (by decide)⟩

/-- C7: `deletePoint` removes exactly one point: for a well-formed set `S`, a
point `p` and every value `x` of the set's type, `x` is contained in
`deletePoint(S, p)` exactly when it is contained in `S` and is not `p`; the
result never contains `p`, also when `p` is the minimum or the maximum of the
type; and when `S` does not contain `p` the result is `S` itself. -/
theorem deletePoint_removes_one (T : APSIntType) (hT : 0 < T.BitWidth) (S : RangeSet)
    (hS : WellFormed S) (p : Int) :
    (∀ x, T.getMinValue ≤ x → x ≤ T.getMaxValue →
      (containsImpl T (deletePoint T S p) x = true ↔
        containsImpl T S x = true ∧ x ≠ p)) ∧
    containsImpl T (deletePoint T S p) p = false ∧
    (containsImpl T S p = false → deletePoint T S p = S) := by
  refine ⟨?_, deletePoint_not_contains hT hS p, ?_⟩
  · intro x hx1 hx2
    rw [containsImpl_iff hT (deletePoint_wellFormed hT hS p) hx1 hx2,
      containsImpl_iff hT hS hx1 hx2]
    exact deletePoint_covers hT hS p hx1 hx2
  · intro h
    unfold deletePoint
    rw [h]
    rfl

theorem deletePoint_removes_one_witness :
    WellFormed [⟨-128, -120⟩, ⟨5, 127⟩] ∧
    deletePoint int8 [⟨-128, -120⟩, ⟨5, 127⟩] (-128) = [⟨-127, -120⟩, ⟨5, 127⟩] ∧
    deletePoint int8 [⟨-128, -120⟩, ⟨5, 127⟩] 127 = [⟨-128, -120⟩, ⟨5, 126⟩] ∧
    ((∀ x, int8.getMinValue ≤ x → x ≤ int8.getMaxValue →
      (containsImpl int8 (deletePoint int8 [⟨-128, -120⟩, ⟨5, 127⟩] (-128)) x = true ↔
        containsImpl int8 [⟨-128, -120⟩, ⟨5, 127⟩] x = true ∧ x ≠ -128)) ∧
    containsImpl int8 (deletePoint int8 [⟨-128, -120⟩, ⟨5, 127⟩] (-128)) (-128) = false ∧
    (containsImpl int8 [⟨-128, -120⟩, ⟨5, 127⟩] (-128) = false →
      deletePoint int8 [⟨-128, -120⟩, ⟨5, 127⟩] (-128) = [⟨-128, -120⟩, ⟨5, 127⟩])) :=
  ⟨by decide, by decide, by decide,
    deletePoint_removes_one int8 (by decide) [⟨-128, -120⟩, ⟨5, 127⟩] (by decide) (-128)⟩

/-- C8: `deletePoint` is idempotent: for a well-formed set `S` and a point `p`,
deleting `p` from `deletePoint(S, p)` changes nothing. -/
theorem deletePoint_twice (T : APSIntType) (hT : 0 < T.BitWidth) (S : RangeSet)
    (hS : WellFormed S) (p : Int) :
    deletePoint T (deletePoint T S p) p = deletePoint T S p := by
  have h := deletePoint_not_contains hT hS p
  generalize deletePoint T S p = R at h
  unfold deletePoint
  rw [h]
  rfl

theorem deletePoint_twice_witness :
    WellFormed [⟨-128, -120⟩, ⟨5, 127⟩] ∧
    deletePoint int8 [⟨-128, -120⟩, ⟨5, 127⟩] 7 = [⟨-128, -120⟩, ⟨5, 6⟩, ⟨8, 127⟩] ∧
    deletePoint int8 (deletePoint int8 [⟨-128, -120⟩, ⟨5, 127⟩] 7) 7 =
      deletePoint int8 [⟨-128, -120⟩, ⟨5, 127⟩] 7 :=
  ⟨by decide, by decide,
    deletePoint_twice int8 (by decide) [⟨-128, -120⟩, ⟨5, 127⟩] (by decide) 7⟩

/-- C9: an inverted pair of bounds means wrap-around: for a well-formed set `S`
over a type and bounds `Lower > Upper` that are values of the type, a value `x`
of the type is contained in `intersect(S, Lower, Upper)` exactly when it is
contained in `S` and `x ≤ Upper` or `x ≥ Lower`.  Over the signed 8-bit type,
`intersect({[-128, 127]}, 100, -100)` is `{[-128, -100], [100, 127]}`. -/
theorem intersectBounds_inverted (T : APSIntType) (hT : 0 < T.BitWidth) (S : RangeSet)
    (hS : WellFormed S) (Lower Upper : Int)
    (hl1 : T.getMinValue ≤ Lower) (hl2 : Lower ≤ T.getMaxValue)
    (hu1 : T.getMinValue ≤ Upper) (hu2 : Upper ≤ T.getMaxValue) (hinv : Upper < Lower)
    (x : Int) (hx1 : T.getMinValue ≤ x) (hx2 : x ≤ T.getMaxValue) :
    (containsImpl T (intersectBounds T S Lower Upper) x = true ↔
      containsImpl T S x = true ∧ (x ≤ Upper ∨ Lower ≤ x)) ∧
    intersectBounds int8 [⟨-128, 127⟩] 100 (-100) = [⟨-128, -100⟩, ⟨100, 127⟩] := by
  refine ⟨?_, by decide⟩
  rw [containsImpl_iff hT (intersectBounds_wellFormed hT hS _ _) hx1 hx2,
    containsImpl_iff hT hS hx1 hx2, intersectBounds_eq hT hS,
    pin_within T hT hl1 hl2 hu1 hu2]
  simp only
  rw [covers_overlaps, covers_boundsContainer T _ _ x hx1 hx2, if_neg (not_le.mpr hinv)]

theorem intersectBounds_inverted_witness :
    WellFormed [⟨-128, 127⟩] ∧ (-100 : Int) < 100 ∧
    ((containsImpl int8 (intersectBounds int8 [⟨-128, 127⟩] 100 (-100)) (-100) = true ↔
      containsImpl int8 [⟨-128, 127⟩] (-100) = true ∧ ((-100 : Int) ≤ -100 ∨ (100 : Int) ≤ -100)) ∧
    intersectBounds int8 [⟨-128, 127⟩] 100 (-100) = [⟨-128, -100⟩, ⟨100, 127⟩]) :=
  ⟨by decide, by decide,
    intersectBounds_inverted int8 (by decide) [⟨-128, 127⟩] (by decide) 100 (-100)
      (by decide) (by decide) (by decide) (by decide) (by decide) (-100)
      (by decide) (by decide)⟩

/-- C10: `pin(Lower, Upper)` on bounds that are both below, or both above, the
range of the set's type: if `Lower ≤ Upper` it fails, so that
`intersect(S, Lower, Upper)` is the empty set; if `Lower > Upper` it succeeds
and replaces the bounds by the minimum and the maximum of the type, so that
`intersect(S, Lower, Upper)` contains exactly the points of `S`. -/
theorem pin_same_side (T : APSIntType) (hT : 0 < T.BitWidth) (S : RangeSet)
    (hS : WellFormed S) (Lower Upper : Int)
    (hside :
      (T.testInRange Lower = RangeTestResultKind.RTR_Below ∧
        T.testInRange Upper = RangeTestResultKind.RTR_Below) ∨
      (T.testInRange Lower = RangeTestResultKind.RTR_Above ∧
        T.testInRange Upper = RangeTestResultKind.RTR_Above)) :
    (Lower ≤ Upper → pin T Lower Upper = none ∧ intersectBounds T S Lower Upper = []) ∧
    (Upper < Lower →
      pin T Lower Upper = some (T.getMinValue, T.getMaxValue) ∧
      ∀ x, T.getMinValue ≤ x → x ≤ T.getMaxValue →
        (containsImpl T (intersectBounds T S Lower Upper) x = true ↔
          containsImpl T S x = true)) := by
  have hlt := T.min_lt_max hT
  constructor
  · intro hle
    have hpin : pin T Lower Upper = none := by
      unfold pin
      rcases hside with ⟨h1, h2⟩ | ⟨h1, h2⟩ <;> rw [h1, h2] <;> simp [hle]
    refine ⟨hpin, ?_⟩
    unfold intersectBounds
    rw [hpin]
    split_ifs <;> rfl
  · intro hgt
    have hpin : pin T Lower Upper = some (T.getMinValue, T.getMaxValue) := by
      unfold pin
      rcases hside with ⟨h1, h2⟩ | ⟨h1, h2⟩ <;> rw [h1, h2] <;> simp [not_le.mpr hgt]
    refine ⟨hpin, ?_⟩
    intro x hx1 hx2
    rw [containsImpl_iff hT (intersectBounds_wellFormed hT hS _ _) hx1 hx2,
      containsImpl_iff hT hS hx1 hx2, intersectBounds_eq hT hS, hpin]
    simp only
    rw [covers_overlaps, covers_boundsContainer T _ _ x hx1 hx2, if_pos (le_of_lt hlt)]
    exact and_iff_left ⟨hx1, hx2⟩

theorem pin_same_side_witness :
    WellFormed [⟨0, 10⟩] ∧
    int8.testInRange 300 = RangeTestResultKind.RTR_Above ∧
    int8.testInRange 200 = RangeTestResultKind.RTR_Above ∧
    pin int8 200 300 = none ∧ pin int8 300 200 = some (-128, 127) ∧
    intersectBounds int8 [⟨0, 10⟩] 300 200 = [⟨0, 10⟩] ∧
    (((300 : Int) ≤ 200 → pin int8 300 200 = none ∧ intersectBounds int8 [⟨0, 10⟩] 300 200 = []) ∧
    ((200 : Int) < 300 →
      pin int8 300 200 = some (int8.getMinValue, int8.getMaxValue) ∧
      ∀ x, int8.getMinValue ≤ x → x ≤ int8.getMaxValue →
        (containsImpl int8 (intersectBounds int8 [⟨0, 10⟩] 300 200) x = true ↔
          containsImpl int8 [⟨0, 10⟩] x = true))) :=
  ⟨by decide, by decide, by decide, by decide, by decide, by decide,
    pin_same_side int8 (by decide) [⟨0, 10⟩] (by decide) 300 200
      (Or.inr ⟨by decide, by decide⟩)⟩

/-! ## The relation table over the integers -/

theorem holds_iff_holdsAt (OP : BinaryOperatorKind) (x y : Int) :
    OP.holds x y ↔ OP.holdsAt (compare x y) = true := by
  rcases lt_trichotomy x y with h | h | h
  · have hc : compare x y = Ordering.lt := compare_lt_iff_lt.mpr h
    rw [hc]
    cases OP <;> simp [BinaryOperatorKind.holds, BinaryOperatorKind.holdsAt] <;> omega
  · have hc : compare x y = Ordering.eq := compare_eq_iff_eq.mpr h
    rw [hc]
    cases OP <;> simp [BinaryOperatorKind.holds, BinaryOperatorKind.holdsAt] <;> omega
  · have hc : compare x y = Ordering.gt := compare_gt_iff_gt.mpr h
    rw [hc]
    cases OP <;> simp [BinaryOperatorKind.holds, BinaryOperatorKind.holdsAt] <;> omega

theorem forall_compare_iff (Q : Ordering → Prop) :
    (∀ x y : Int, Q (compare x y)) ↔ Q Ordering.lt ∧ Q Ordering.eq ∧ Q Ordering.gt := by
  constructor
  · intro h
    refine ⟨?_, ?_, ?_⟩
    · have := h 0 1
      rwa [show compare (0 : Int) 1 = Ordering.lt from by decide] at this
    · have := h 0 0
      rwa [show compare (0 : Int) 0 = Ordering.eq from by decide] at this
    · have := h 1 0
      rwa [show compare (1 : Int) 0 = Ordering.gt from by decide] at this
  · rintro ⟨h1, h2, h3⟩ x y
    cases compare x y
    · exact h1
    · exact h2
    · exact h3

theorem implies_iff_holdsAt (cur prev : BinaryOperatorKind) :
    (∀ x y : Int, prev.holds x y → cur.holds x y) ↔
      ∀ o : Ordering, prev.holdsAt o = true → cur.holdsAt o = true := by
  simp only [holds_iff_holdsAt]
  rw [forall_compare_iff (fun o => prev.holdsAt o = true → cur.holdsAt o = true)]
  constructor
  · rintro ⟨h1, h2, h3⟩ o
    cases o
    · exact h1
    · exact h2
    · exact h3
  · intro h
    exact ⟨h _, h _, h _⟩

theorem excludes_iff_holdsAt (cur prev : BinaryOperatorKind) :
    (∀ x y : Int, prev.holds x y → ¬cur.holds x y) ↔
      ∀ o : Ordering, prev.holdsAt o = true → ¬(cur.holdsAt o = true) := by
  simp only [holds_iff_holdsAt]
  rw [forall_compare_iff (fun o => prev.holdsAt o = true → ¬(cur.holdsAt o = true))]
  constructor
  · rintro ⟨h1, h2, h3⟩ o
    cases o
    · exact h1
    · exact h2
    · exact h3
  · intro h
    exact ⟨h _, h _, h _⟩

/-- C20: the first six columns of the table are exact over the integers: the
cell of the current operator `cur` and the previous operator `prev` is `True`
exactly when `x prev y` implies `x cur y` for all integers, `False` exactly
when `x prev y` implies the negation of `x cur y` for all integers, and
`Unknown` exactly when neither holds. -/
theorem cmpOpTable_exact (cur prev : BinaryOperatorKind) :
    (getCmpOpState cur prev = TriStateKind.True ↔
      ∀ x y : Int, prev.holds x y → cur.holds x y) ∧
    (getCmpOpState cur prev = TriStateKind.False ↔
      ∀ x y : Int, prev.holds x y → ¬cur.holds x y) ∧
    (getCmpOpState cur prev = TriStateKind.Unknown ↔
      ¬(∀ x y : Int, prev.holds x y → cur.holds x y) ∧
        ¬(∀ x y : Int, prev.holds x y → ¬cur.holds x y)) := by
  rw [implies_iff_holdsAt, excludes_iff_holdsAt]
  cases cur <;> cases prev <;> decide

/-! ## Persistent sets and maps: lookups after updates -/

theorem mem_setAdd {s : List Nat} {x y : Nat} : y ∈ setAdd s x ↔ y = x ∨ y ∈ s := by
  induction s with
  | nil => simp [setAdd]
  | cons a s ih =>
    unfold setAdd
    split_ifs with h1 h2
    · simp
    · subst h2
      simp
    · simp only [List.mem_cons, ih]
      tauto

theorem mem_setRemove {s : List Nat} {x y : Nat} : y ∈ setRemove s x ↔ y ∈ s ∧ y ≠ x := by
  simp [setRemove]

theorem setContains_iff {s : List Nat} {x : Nat} : setContains s x = true ↔ x ∈ s := by
  simp [setContains]

theorem mem_foldl_setAdd {l s : List Nat} {y : Nat} :
    y ∈ l.foldl setAdd s ↔ y ∈ s ∨ y ∈ l := by
  induction l generalizing s with
  | nil => simp
  | cons a l ih =>
    rw [List.foldl_cons, ih, mem_setAdd, List.mem_cons]
    tauto

theorem mapLookup_mapAdd {V : Type} (m : List (Nat × V)) (k k' : Nat) (v : V) :
    mapLookup (mapAdd m k v) k' = if k' = k then some v else mapLookup m k' := by
  induction m with
  | nil =>
    simp [mapAdd, mapLookup]
  | cons b m ih =>
    obtain ⟨kb, vb⟩ := b
    unfold mapAdd
    by_cases h1 : k < kb
    · rw [if_pos h1]
      by_cases h3 : k' = k
      · simp [mapLookup, h3]
      · simp only [mapLookup, if_neg h3]
    · rw [if_neg h1]
      by_cases h2 : k = kb
      · rw [if_pos h2]
        subst h2
        by_cases h3 : k' = k
        · simp [mapLookup, h3]
        · simp only [mapLookup, if_neg h3]
      · rw [if_neg h2]
        by_cases h3 : k' = k
        · subst h3
          simp only [mapLookup, if_neg h2, ih, if_true]
        · simp only [mapLookup, ih, if_neg h3]

theorem mapLookup_mapAdd_self {V : Type} (m : List (Nat × V)) (k : Nat) (v : V) :
    mapLookup (mapAdd m k v) k = some v := by
  rw [mapLookup_mapAdd, if_pos rfl]

theorem mapLookup_mapAdd_of_ne {V : Type} (m : List (Nat × V)) {k k' : Nat} (v : V)
    (h : k' ≠ k) : mapLookup (mapAdd m k v) k' = mapLookup m k' := by
  rw [mapLookup_mapAdd, if_neg h]

theorem mapLookup_mapRemove {V : Type} (m : List (Nat × V)) (k k' : Nat) :
    mapLookup (mapRemove m k) k' = if k' = k then none else mapLookup m k' := by
  induction m with
  | nil => simp [mapRemove, mapLookup]
  | cons b m ih =>
    obtain ⟨kb, vb⟩ := b
    unfold mapRemove at ih ⊢
    rw [List.filter_cons]
    by_cases hb : kb = k
    · subst hb
      simp only [ne_eq, not_true_eq_false, decide_False, Bool.false_eq_true, if_false, ih]
      by_cases hk : k' = kb
      · simp [hk]
      · simp [mapLookup, hk]
    · simp only [ne_eq, hb, not_false_eq_true, decide_True, if_true, mapLookup, ih]
      by_cases hk : k' = k
      · subst hk
        simp [Ne.symm hb]
      · simp [hk]

theorem mapLookup_mapRemove_self {V : Type} (m : List (Nat × V)) (k : Nat) :
    mapLookup (mapRemove m k) k = none := by
  rw [mapLookup_mapRemove, if_pos rfl]

theorem mapLookup_mapRemove_of_ne {V : Type} (m : List (Nat × V)) {k k' : Nat}
    (h : k' ≠ k) : mapLookup (mapRemove m k) k' = mapLookup m k' := by
  rw [mapLookup_mapRemove, if_neg h]

theorem mem_of_mapLookup {V : Type} {m : List (Nat × V)} {k : Nat} {v : V}
    (h : mapLookup m k = some v) : (k, v) ∈ m := by
  induction m with
  | nil => simp [mapLookup] at h
  | cons b m ih =>
    obtain ⟨kb, vb⟩ := b
    unfold mapLookup at h
    split_ifs at h with hk
    · subst hk
      simp only [Option.some.injEq] at h
      subst h
      exact List.mem_cons_self _ _
    · exact List.mem_cons_of_mem _ (ih h)

theorem mapLookup_foldl_mapAdd {V : Type} (l : List Nat) (m : List (Nat × V)) (v : V)
    (k : Nat) :
    mapLookup (l.foldl (fun Classes Sym => mapAdd Classes Sym v) m) k =
      if k ∈ l then some v else mapLookup m k := by
  induction l generalizing m with
  | nil => simp
  | cons a l ih =>
    rw [List.foldl_cons, ih, mapLookup_mapAdd]
    by_cases h1 : k ∈ l
    · simp [h1]
    · by_cases h2 : k = a
      · simp [h2]
      · simp [h1, h2]

theorem getDisequalClassesIn_eq (Map : List (EquivalenceClass × ClassSet))
    (Class : EquivalenceClass) :
    getDisequalClassesIn Map Class = (mapLookup Map Class).getD [] := by
  unfold getDisequalClassesIn
  cases mapLookup Map Class <;> rfl

/-! ## The claims on `pin`, `merge`, `markDisequal` and `areEqual` -/

/-- C11, as stated, fails: over the signed 8-bit type, with `Lower = 200` above
the type and `Upper = -200` below it, `pin` reports infeasible instead of
clamping to the minimum and the maximum of the type. -/
theorem pin_reversed_counterexample :
    int8.testInRange 200 = RangeTestResultKind.RTR_Above ∧
    int8.testInRange (-200) = RangeTestResultKind.RTR_Below ∧
    pin int8 200 (-200) = none ∧
    pin int8 200 (-200) ≠ some (int8.getMinValue, int8.getMaxValue) := by
  decide

/-- C11, amended: on mixed out-of-range bounds `pin` clamps only in one order:
when `Lower` is below the range of the set's type and `Upper` is above it, `pin`
reports feasible and sets `Lower` to the minimum and `Upper` to the maximum of
the type; when `Lower` is above the range and `Upper` is below it, `pin` reports
infeasible. -/
theorem pin_mixed (T : APSIntType) (Lower Upper : Int)
    (hmixed :
      (T.testInRange Lower = RangeTestResultKind.RTR_Below ∧
        T.testInRange Upper = RangeTestResultKind.RTR_Above) ∨
      (T.testInRange Lower = RangeTestResultKind.RTR_Above ∧
        T.testInRange Upper = RangeTestResultKind.RTR_Below)) :
    pin T Lower Upper =
      if T.testInRange Lower = RangeTestResultKind.RTR_Below then
        some (T.getMinValue, T.getMaxValue)
      else none := by
  unfold pin
  rcases hmixed with ⟨h1, h2⟩ | ⟨h1, h2⟩ <;> rw [h1, h2] <;> simp

theorem pin_mixed_witness :
    int8.testInRange (-200) = RangeTestResultKind.RTR_Below ∧
    int8.testInRange 200 = RangeTestResultKind.RTR_Above ∧
    pin int8 (-200) 200 = some (-128, 127) ∧
    pin int8 (-200) 200 =
      (if int8.testInRange (-200) = RangeTestResultKind.RTR_Below then
        some (int8.getMinValue, int8.getMaxValue)
      else none) :=
  ⟨by decide, by decide, by decide,
    pin_mixed int8 (-200) 200 (Or.inl ⟨by decide, by decide⟩)⟩

/-- C14: merging two classes already marked disequal is infeasible: when the
classes of `A` and `B` are distinct, have the same type, and each is in the
disequality set of the other, `merge(State, A, B)` is the null state, whichever
class the height heuristic keeps. -/
theorem merge_of_disequal (getType : SymbolRef → QualType) (getHeight : SymbolSet → Nat)
    (State : ProgramState) (A B : SymbolRef)
    (hne : find State A ≠ find State B)
    (hty : getType (find State A) = getType (find State B))
    (hAB : find State B ∈ getDisequalClasses State (find State A))
    (hBA : find State A ∈ getDisequalClasses State (find State B)) :
    merge getType getHeight State A B = none := by
  have key : ∀ (This Other : EquivalenceClass) (M OM : SymbolSet),
      This ∈ getDisequalClasses State Other → mergeImpl State This M Other OM = none := by
    intro This Other M OM h
    have h' : setContains (getDisequalClassesIn State.DisequalityMap Other) This = true :=
      setContains_iff.mpr h
    unfold mergeImpl
    cases mergeImplConstraints State This Other with
    | none => rfl
    | some Constraints =>
      simp only
      rw [if_pos h']
  unfold merge mergeClasses
  rw [if_neg hne, if_neg (not_not.mpr hty)]
  simp only
  split_ifs
  · exact key _ _ _ _ hBA
  · exact key _ _ _ _ hAB

theorem merge_of_disequal_witness :
    find ⟨[], [], [], [(1, [2]), (2, [1])]⟩ 1 ≠ find ⟨[], [], [], [(1, [2]), (2, [1])]⟩ 2 ∧
    merge (fun _ => 0) List.length ⟨[], [], [], [(1, [2]), (2, [1])]⟩ 1 2 = none :=
  ⟨by decide,
    merge_of_disequal (fun _ => 0) List.length ⟨[], [], [], [(1, [2]), (2, [1])]⟩ 1 2
      (by decide) rfl (by decide) (by decide)⟩

/-- C16: `markDisequal` on symbols of one class is infeasible: when
`find(State, A)` is `find(State, B)`, in particular when `A` is `B`,
`markDisequal(State, A, B)` is the null state. -/
theorem markDisequal_of_same_class (rangeType : SymbolRef → APSIntType)
    (inferRange : ProgramState → SymbolRef → RangeSet)
    (State : ProgramState) (A B : SymbolRef) (h : find State A = find State B) :
    markDisequal rangeType inferRange State A B = none := by
  unfold markDisequal markDisequalClasses
  rw [if_pos h]

theorem markDisequal_of_same_class_witness :
    find ⟨[(2, 1)], [(1, [1, 2])], [], []⟩ 1 = find ⟨[(2, 1)], [(1, [1, 2])], [], []⟩ 2 ∧
    markDisequal (fun _ => int8) (fun _ _ => [⟨-128, 127⟩])
      ⟨[(2, 1)], [(1, [1, 2])], [], []⟩ 1 2 = none ∧
    markDisequal (fun _ => int8) (fun _ _ => [⟨-128, 127⟩])
      ⟨[(2, 1)], [(1, [1, 2])], [], []⟩ 1 1 = none :=
  ⟨by decide,
    markDisequal_of_same_class (fun _ => int8) (fun _ _ => [⟨-128, 127⟩])
      ⟨[(2, 1)], [(1, [1, 2])], [], []⟩ 1 2 (by decide),
    by decide⟩

/-- C18: `merge` is a no-op in two cases: when `A` and `B` are already in one
class, and when their classes have different types, `merge(State, A, B)` is
`State` itself, all four maps unchanged, whatever the disequalities and the
constraints of the two classes are. -/
theorem merge_noop (getType : SymbolRef → QualType) (getHeight : SymbolSet → Nat)
    (State : ProgramState) (A B : SymbolRef)
    (h : find State A = find State B ∨
      getType (find State A) ≠ getType (find State B)) :
    merge getType getHeight State A B = some State := by
  unfold merge mergeClasses
  rcases h with h | h
  · rw [if_pos h]
  · split_ifs <;> rfl

theorem merge_noop_witness :
    (fun s : SymbolRef => s) (find ⟨[], [], [(1, [⟨0, 1⟩]), (2, [⟨5, 6⟩])],
        [(1, [2]), (2, [1])]⟩ 1) ≠
      (fun s : SymbolRef => s) (find ⟨[], [], [(1, [⟨0, 1⟩]), (2, [⟨5, 6⟩])],
        [(1, [2]), (2, [1])]⟩ 2) ∧
    merge (fun s => s) List.length
      ⟨[], [], [(1, [⟨0, 1⟩]), (2, [⟨5, 6⟩])], [(1, [2]), (2, [1])]⟩ 1 2 =
      some ⟨[], [], [(1, [⟨0, 1⟩]), (2, [⟨5, 6⟩])], [(1, [2]), (2, [1])]⟩ :=
  ⟨by decide,
    merge_noop (fun s => s) List.length
      ⟨[], [], [(1, [⟨0, 1⟩]), (2, [⟨5, 6⟩])], [(1, [2]), (2, [1])]⟩ 1 2
      (Or.inr (by decide))⟩

/-- C19: `areEqual` is three-valued: `areEqual(State, A, B)` is true when
`find(A)` is `find(B)`; otherwise false when `find(B)` is in the disequality
set of `find(A)`; otherwise unknown. -/
theorem areEqual_three_valued (State : ProgramState) (A B : SymbolRef) :
    areEqual State A B =
      if find State A = find State B then some true
      else if find State B ∈ getDisequalClasses State (find State A) then some false
      else none := by
  unfold areEqual areEqualClasses
  by_cases h1 : find State A = find State B
  · rw [if_pos h1, if_pos h1]
  · rw [if_neg h1, if_neg h1]
    by_cases h2 : find State B ∈ getDisequalClasses State (find State A)
    · rw [if_pos (setContains_iff.mpr h2), if_pos h2]
    · rw [if_neg (fun h => h2 (setContains_iff.mp h)), if_neg h2]

/-! ## Marking two classes disequal -/

/-- What `addToDisequalityInfo` does, by the constant that is known for `Second`. -/
theorem addToDisequalityInfo_eq (rangeType : SymbolRef → APSIntType)
    (inferRange : ProgramState → SymbolRef → RangeSet)
    (Info : List (EquivalenceClass × ClassSet))
    (Constraints : List (EquivalenceClass × RangeSet)) (State : ProgramState)
    (First Second : EquivalenceClass) :
    addToDisequalityInfo rangeType inferRange Info Constraints State First Second =
      match (mapLookup Constraints Second).bind getConcreteValue with
      | some Point =>
        if (deletePoint (rangeType First) (inferRange State First) Point).isEmpty then none
        else
          some (mapAdd Info First (setAdd ((mapLookup Info First).getD []) Second),
            mapAdd Constraints First
              (deletePoint (rangeType First) (inferRange State First) Point))
      | none =>
        some (mapAdd Info First (setAdd ((mapLookup Info First).getD []) Second),
          Constraints) := by
  unfold addToDisequalityInfo
  cases h1 : mapLookup Constraints Second with
  | none => rfl
  | some K =>
    rw [Option.some_bind]

theorem addToDisequalityInfo_info {rangeType : SymbolRef → APSIntType}
    {inferRange : ProgramState → SymbolRef → RangeSet}
    {Info I : List (EquivalenceClass × ClassSet)}
    {Constraints C : List (EquivalenceClass × RangeSet)} {State : ProgramState}
    {First Second : EquivalenceClass}
    (h : addToDisequalityInfo rangeType inferRange Info Constraints State First Second =
      some (I, C)) :
    I = mapAdd Info First (setAdd ((mapLookup Info First).getD []) Second) := by
  rw [addToDisequalityInfo_eq] at h
  split at h
  · split_ifs at h
    simp only [Option.some.injEq, Prod.mk.injEq] at h
    exact h.1.symm
  · simp only [Option.some.injEq, Prod.mk.injEq] at h
    exact h.1.symm

theorem addToDisequalityInfo_constraints {rangeType : SymbolRef → APSIntType}
    {inferRange : ProgramState → SymbolRef → RangeSet}
    {Info I : List (EquivalenceClass × ClassSet)}
    {Constraints C : List (EquivalenceClass × RangeSet)} {State : ProgramState}
    {First Second : EquivalenceClass}
    (h : addToDisequalityInfo rangeType inferRange Info Constraints State First Second =
      some (I, C)) :
    (∀ Point, (mapLookup Constraints Second).bind getConcreteValue = some Point →
      deletePoint (rangeType First) (inferRange State First) Point ≠ [] ∧
      C = mapAdd Constraints First
        (deletePoint (rangeType First) (inferRange State First) Point)) ∧
    ((mapLookup Constraints Second).bind getConcreteValue = none → C = Constraints) := by
  rw [addToDisequalityInfo_eq] at h
  split at h
  · rename_i Point hP
    split_ifs at h with hemp
    simp only [Option.some.injEq, Prod.mk.injEq] at h
    refine ⟨?_, fun hn => absurd (hP.symm.trans hn) (by simp)⟩
    intro P hP'
    rw [hP] at hP'
    simp only [Option.some.injEq] at hP'
    subst hP'
    refine ⟨?_, h.2.symm⟩
    intro hnil
    rw [hnil] at hemp
    exact hemp rfl
  · rename_i hP
    simp only [Option.some.injEq, Prod.mk.injEq] at h
    refine ⟨fun P hP' => ?_, fun _ => h.2.symm⟩
    rw [hP] at hP'
    cases hP'

/-- A state returned by `markDisequal` on two classes comes from two successful
steps, the second of which starts from what the first left. -/
theorem markDisequalClasses_some {rangeType : SymbolRef → APSIntType}
    {inferRange : ProgramState → SymbolRef → RangeSet}
    {State S' : ProgramState} {This Other : EquivalenceClass}
    (h : markDisequalClasses rangeType inferRange State This Other = some S') :
    This ≠ Other ∧ ∃ I1 C1 I2 C2,
      addToDisequalityInfo rangeType inferRange State.DisequalityMap State.ConstraintRange
        State This Other = some (I1, C1) ∧
      addToDisequalityInfo rangeType inferRange I1 C1 State Other This = some (I2, C2) ∧
      S' = { State with DisequalityMap := I2, ConstraintRange := C2 } := by
  unfold markDisequalClasses at h
  split_ifs at h with hne
  refine ⟨hne, ?_⟩
  cases h1 : addToDisequalityInfo rangeType inferRange State.DisequalityMap
      State.ConstraintRange State This Other with
  | none => rw [h1] at h; cases h
  | some p1 =>
    obtain ⟨I1, C1⟩ := p1
    rw [h1] at h
    simp only at h
    cases h2 : addToDisequalityInfo rangeType inferRange I1 C1 State Other This with
    | none => rw [h2] at h; cases h
    | some p2 =>
      obtain ⟨I2, C2⟩ := p2
      rw [h2] at h
      simp only [Option.some.injEq] at h
      exact ⟨I1, C1, I2, C2, rfl, h2, h.symm⟩

/-- C15: disequality is recorded symmetrically: in a state `S'` returned by
`markDisequal(State, A, B)` the classes of the symbols are as in `State`, the
class of `B` is in the disequality set of the class of `A`, the class of `A` is
in the disequality set of the class of `B`, and every disequality edge of
`State` is still present. -/
theorem markDisequal_symmetric (rangeType : SymbolRef → APSIntType)
    (inferRange : ProgramState → SymbolRef → RangeSet)
    (State S' : ProgramState) (A B : SymbolRef)
    (h : markDisequal rangeType inferRange State A B = some S') :
    (∀ Sym, find S' Sym = find State Sym) ∧
    find S' B ∈ getDisequalClasses S' (find S' A) ∧
    find S' A ∈ getDisequalClasses S' (find S' B) ∧
    (∀ C D, D ∈ getDisequalClasses State C → D ∈ getDisequalClasses S' C) := by
  unfold markDisequal at h
  obtain ⟨hne, I1, C1, I2, C2, h1, h2, rfl⟩ := markDisequalClasses_some h
  have e1 := addToDisequalityInfo_info h1
  have e2 := addToDisequalityInfo_info h2
  have hfind : ∀ Sym, find { State with DisequalityMap := I2, ConstraintRange := C2 } Sym =
      find State Sym := fun _ => rfl
  have hOther : mapLookup I1 (find State B) = mapLookup State.DisequalityMap (find State B) := by
    rw [e1, mapLookup_mapAdd_of_ne _ _ (Ne.symm hne)]
  refine ⟨hfind, ?_, ?_, ?_⟩
  · rw [hfind, hfind]
    show find State B ∈ getDisequalClassesIn I2 (find State A)
    rw [getDisequalClassesIn_eq, e2, mapLookup_mapAdd_of_ne _ _ hne, e1,
      mapLookup_mapAdd_self]
    exact mem_setAdd.mpr (Or.inl rfl)
  · rw [hfind, hfind]
    show find State A ∈ getDisequalClassesIn I2 (find State B)
    rw [getDisequalClassesIn_eq, e2, mapLookup_mapAdd_self]
    exact mem_setAdd.mpr (Or.inl rfl)
  · intro C D hD
    show D ∈ getDisequalClassesIn I2 C
    have hD' : D ∈ (mapLookup State.DisequalityMap C).getD [] := by
      rw [← getDisequalClassesIn_eq]; exact hD
    rw [getDisequalClassesIn_eq, e2]
    by_cases hC : C = find State B
    · subst hC
      rw [mapLookup_mapAdd_self, hOther]
      exact mem_setAdd.mpr (Or.inr hD')
    · rw [mapLookup_mapAdd_of_ne _ _ hC, e1]
      by_cases hC2 : C = find State A
      · subst hC2
        rw [mapLookup_mapAdd_self]
        exact mem_setAdd.mpr (Or.inr hD')
      · rw [mapLookup_mapAdd_of_ne _ _ hC2]
        exact hD'

theorem markDisequal_symmetric_witness :
    markDisequal (fun _ => int8) (fun _ _ => [⟨-128, 127⟩])
        ⟨[(3, 1)], [(1, [1, 3])], [], [(1, [7]), (7, [1])]⟩ 3 2 =
      some ⟨[(3, 1)], [(1, [1, 3])], [], [(1, [2, 7]), (2, [1]), (7, [1])]⟩ ∧
    ((∀ Sym, find ⟨[(3, 1)], [(1, [1, 3])], [], [(1, [2, 7]), (2, [1]), (7, [1])]⟩ Sym =
        find ⟨[(3, 1)], [(1, [1, 3])], [], [(1, [7]), (7, [1])]⟩ Sym) ∧
    find ⟨[(3, 1)], [(1, [1, 3])], [], [(1, [2, 7]), (2, [1]), (7, [1])]⟩ 2 ∈
      getDisequalClasses ⟨[(3, 1)], [(1, [1, 3])], [], [(1, [2, 7]), (2, [1]), (7, [1])]⟩
        (find ⟨[(3, 1)], [(1, [1, 3])], [], [(1, [2, 7]), (2, [1]), (7, [1])]⟩ 3) ∧
    find ⟨[(3, 1)], [(1, [1, 3])], [], [(1, [2, 7]), (2, [1]), (7, [1])]⟩ 3 ∈
      getDisequalClasses ⟨[(3, 1)], [(1, [1, 3])], [], [(1, [2, 7]), (2, [1]), (7, [1])]⟩
        (find ⟨[(3, 1)], [(1, [1, 3])], [], [(1, [2, 7]), (2, [1]), (7, [1])]⟩ 2) ∧
    (∀ C D, D ∈ getDisequalClasses ⟨[(3, 1)], [(1, [1, 3])], [], [(1, [7]), (7, [1])]⟩ C →
      D ∈ getDisequalClasses
        ⟨[(3, 1)], [(1, [1, 3])], [], [(1, [2, 7]), (2, [1]), (7, [1])]⟩ C)) :=
  ⟨by decide,
    markDisequal_symmetric (fun _ => int8) (fun _ _ => [⟨-128, 127⟩])
      ⟨[(3, 1)], [(1, [1, 3])], [], [(1, [7]), (7, [1])]⟩
      ⟨[(3, 1)], [(1, [1, 3])], [], [(1, [2, 7]), (2, [1]), (7, [1])]⟩ 3 2 (by decide)⟩

/-- Every range of `deletePoint(S, p)` lies inside a range of `S`. -/
theorem deletePoint_subranges {T : APSIntType} (hT : 0 < T.BitWidth) {S : RangeSet}
    (hS : WellFormed S) (p : Int) :
    ∀ r ∈ deletePoint T S p, ∃ a ∈ S, a.From ≤ r.From ∧ r.To ≤ a.To := by
  intro r hr
  unfold deletePoint at hr
  split_ifs at hr with hc
  · exact ⟨r, hr, le_refl _, le_refl _⟩
  · rw [intersectBounds_eq hT hS] at hr
    split at hr
    · exact absurd hr (List.not_mem_nil _)
    · obtain ⟨a, ha, b, _, hab⟩ := mem_overlaps.mp hr
      obtain ⟨_, rfl⟩ := interRange_eq_some.mp hab
      exact ⟨a, ha, le_max_left _ _, min_le_left _ _⟩

theorem wellFormed_singleton (c : Int) : WellFormed [⟨c, c⟩] := by
  simp [WellFormed]

/-- Deleting a point from a single value leaves the single value or nothing. -/
theorem deletePoint_singleton {T : APSIntType} (hT : 0 < T.BitWidth) (c b : Int)
    (hne : deletePoint T [⟨c, c⟩] b ≠ []) : deletePoint T [⟨c, c⟩] b = [⟨c, c⟩] := by
  by_cases hc : containsImpl T [⟨c, c⟩] b = true
  · exfalso
    have hb : T.getMinValue ≤ b ∧ b ≤ T.getMaxValue := by
      by_contra hout
      have := containsImpl_outside T [⟨c, c⟩] (p := b) (by omega)
      rw [hc] at this
      cases this
    have hcov := (containsImpl_iff hT (wellFormed_singleton c) hb.1 hb.2).mp hc
    obtain ⟨a, ha, h1, h2⟩ := hcov
    rw [List.mem_singleton] at ha
    subst ha
    have hbc : b = c := by simp only at h1 h2; omega
    subst hbc
    obtain ⟨r, hr⟩ := List.exists_mem_of_ne_nil _ hne
    obtain ⟨a, ha, h3, h4⟩ := deletePoint_subranges hT (wellFormed_singleton b) b r hr
    rw [List.mem_singleton] at ha
    subst ha
    have h5 := (deletePoint_wellFormed hT (wellFormed_singleton b) b).1 r hr
    simp only at h3 h4
    have hcov2 : Covers (deletePoint T [⟨b, b⟩] b) b := ⟨r, hr, by omega, by omega⟩
    exact ((deletePoint_covers hT (wellFormed_singleton b) b hb.1 hb.2).mp hcov2).2 rfl
  · unfold deletePoint
    simp [hc]

theorem deletePoint_nil (T : APSIntType) (b : Int) : deletePoint T [] b = [] := by
  simp [deletePoint, containsImpl]

/-- Whichever class the height heuristic keeps, `merge` on two distinct classes
of one type is `mergeImpl` on the class that is kept and the class that is
dissolved. -/
theorem merge_eq_mergeImpl (getType : SymbolRef → QualType) (getHeight : SymbolSet → Nat)
    (State : ProgramState) (X Y : SymbolRef)
    (hne : find State X ≠ find State Y)
    (hty : getType (find State X) = getType (find State Y)) :
    ∃ K D, ((K = find State X ∧ D = find State Y) ∨ (K = find State Y ∧ D = find State X)) ∧
      merge getType getHeight State X Y =
        mergeImpl State K (getClassMembers State K) D (getClassMembers State D) := by
  unfold merge mergeClasses
  rw [if_neg hne, if_neg (not_not.mpr hty)]
  simp only
  split_ifs
  · exact ⟨_, _, Or.inl ⟨rfl, rfl⟩, rfl⟩
  · exact ⟨_, _, Or.inr ⟨rfl, rfl⟩, rfl⟩

/-- The state that `mergeImpl` returns, when it returns one. -/
theorem mergeImpl_eq_some {State S' : ProgramState} {This Other : EquivalenceClass}
    {M OM : SymbolSet} :
    mergeImpl State This M Other OM = some S' ↔
      ∃ Constraints, mergeImplConstraints State This Other = some Constraints ∧
        This ∉ getDisequalClasses State Other ∧
        S' =
          { ClassMap := OM.foldl (fun Classes Sym => mapAdd Classes Sym This) State.ClassMap
            ClassMembers :=
              mapAdd (mapRemove State.ClassMembers Other) This (OM.foldl setAdd M)
            ConstraintRange := Constraints
            DisequalityMap := mergeImplDisequalities State.DisequalityMap This Other } := by
  unfold mergeImpl
  cases mergeImplConstraints State This Other with
  | none => simp
  | some Constraints =>
    simp only
    by_cases h : This ∈ getDisequalClasses State Other
    · have h' : setContains (getDisequalClassesIn State.DisequalityMap Other) This = true :=
        setContains_iff.mpr h
      rw [if_pos h']
      simp [h]
    · have h' : ¬setContains (getDisequalClassesIn State.DisequalityMap Other) This = true :=
        fun hc => h (setContains_iff.mp hc)
      rw [if_neg h']
      constructor
      · intro hs
        exact ⟨Constraints, rfl, h, (Option.some.inj hs).symm⟩
      · rintro ⟨C, hC, _, rfl⟩
        rw [Option.some.inj hC]

theorem mergeImplConstraints_of_some {State : ProgramState} {This Other : EquivalenceClass}
    {I : RangeSet}
    (h : intersectOptional (getConstraint State This) (getConstraint State Other) = some I) :
    mergeImplConstraints State This Other =
      if I.isEmpty then none
      else some (mapAdd (mapRemove State.ConstraintRange Other) This I) := by
  unfold mergeImplConstraints
  rw [h]

theorem mergeImplConstraints_of_none {State : ProgramState} {This Other : EquivalenceClass}
    (h : intersectOptional (getConstraint State This) (getConstraint State Other) = none) :
    mergeImplConstraints State This Other = some State.ConstraintRange := by
  unfold mergeImplConstraints
  rw [h]

/-- In a state returned by `mergeImpl` the class that is kept stores the
combined constraint and the dissolved class stores none. -/
theorem mergeImpl_constraints {State S' : ProgramState} {This Other : EquivalenceClass}
    {M OM : SymbolSet} {I : RangeSet} (hne : This ≠ Other)
    (h : mergeImpl State This M Other OM = some S')
    (hI : intersectOptional (getConstraint State This) (getConstraint State Other) = some I) :
    getConstraint S' This = some I ∧ getConstraint S' Other = none := by
  obtain ⟨C, hC, _, rfl⟩ := mergeImpl_eq_some.mp h
  rw [mergeImplConstraints_of_some hI] at hC
  split_ifs at hC
  simp only [Option.some.injEq] at hC
  subst hC
  unfold getConstraint
  simp only
  rw [mapLookup_mapAdd_self, mapLookup_mapAdd_of_ne _ _ (Ne.symm hne), mapLookup_mapRemove_self]
  exact ⟨rfl, rfl⟩

/-- In a state returned by `mergeImpl` the class that is kept lists the members
of both classes and the dissolved class has no entry. -/
theorem mergeImpl_members {State S' : ProgramState} {This Other : EquivalenceClass}
    {M OM : SymbolSet} (hne : This ≠ Other)
    (h : mergeImpl State This M Other OM = some S') :
    mapLookup S'.ClassMembers This = some (OM.foldl setAdd M) ∧
      mapLookup S'.ClassMembers Other = none ∧
      (∀ m, find S' m = if m ∈ OM then This else find State m) ∧
      (∀ m ∈ OM, mapLookup S'.ClassMap m = some This) := by
  obtain ⟨C, _, _, rfl⟩ := mergeImpl_eq_some.mp h
  simp only
  refine ⟨mapLookup_mapAdd_self _ _ _, ?_, ?_, ?_⟩
  · rw [mapLookup_mapAdd_of_ne _ _ (Ne.symm hne), mapLookup_mapRemove_self]
  · intro m
    unfold find
    simp only
    rw [mapLookup_foldl_mapAdd]
    split_ifs <;> rfl
  · intro m hm
    rw [mapLookup_foldl_mapAdd, if_pos hm]

theorem isEmpty_eq_false_of_ne_nil {I : RangeSet} (h : I ≠ []) : I.isEmpty = false := by
  cases I with
  | nil => exact absurd rfl h
  | cons a l => rfl

/-- C13: merge transfers constraints as their intersection.  For symbols `X`
and `Y` whose classes are distinct and have the same type: when both classes
have well-formed stored constraints `C1` and `C2`, the merge is the null state
if `intersect(C1, C2)` is empty, it returns a state if the intersection is not
empty and the classes are not marked disequal, and in every state it returns
the class that is kept stores `intersect(C1, C2)` and the dissolved class has no
constraint entry; when only one class has a stored constraint, the class that
is kept gets it. -/
theorem merge_transfers_constraints (getType : SymbolRef → QualType)
    (getHeight : SymbolSet → Nat) (State : ProgramState) (X Y : SymbolRef)
    (hne : find State X ≠ find State Y)
    (hty : getType (find State X) = getType (find State Y)) :
    (∀ C1 C2, getConstraint State (find State X) = some C1 →
      getConstraint State (find State Y) = some C2 → WellFormed C1 → WellFormed C2 →
      (intersect C1 C2 = [] → merge getType getHeight State X Y = none) ∧
      (intersect C1 C2 ≠ [] → find State X ∉ getDisequalClasses State (find State Y) →
        find State Y ∉ getDisequalClasses State (find State X) →
        ∃ S', merge getType getHeight State X Y = some S') ∧
      (∀ S', merge getType getHeight State X Y = some S' →
        ∃ K D, ((K = find State X ∧ D = find State Y) ∨
            (K = find State Y ∧ D = find State X)) ∧
          (mapLookup S'.ClassMembers K).isSome = true ∧
          mapLookup S'.ClassMembers D = none ∧
          getConstraint S' K = some (intersect C1 C2) ∧ getConstraint S' D = none)) ∧
    (∀ C1, (getConstraint State (find State X) = some C1 ∧
          getConstraint State (find State Y) = none) ∨
        (getConstraint State (find State X) = none ∧
          getConstraint State (find State Y) = some C1) →
      ∀ S', merge getType getHeight State X Y = some S' →
        ∃ K D, ((K = find State X ∧ D = find State Y) ∨
            (K = find State Y ∧ D = find State X)) ∧
          (mapLookup S'.ClassMembers K).isSome = true ∧
          mapLookup S'.ClassMembers D = none ∧
          getConstraint S' K = some C1 ∧ getConstraint S' D = none) := by
  obtain ⟨K, D, hor, heq⟩ := merge_eq_mergeImpl getType getHeight State X Y hne hty
  have hKD : K ≠ D := by
    rcases hor with ⟨rfl, rfl⟩ | ⟨rfl, rfl⟩
    · exact hne
    · exact Ne.symm hne
  constructor
  · intro C1 C2 h1 h2 w1 w2
    have hI : intersectOptional (getConstraint State K) (getConstraint State D) =
        some (intersect C1 C2) := by
      rcases hor with ⟨rfl, rfl⟩ | ⟨rfl, rfl⟩
      · rw [h1, h2]; rfl
      · rw [h1, h2]
        show some (intersect C2 C1) = _
        rw [intersect_eq w2 w1, intersect_eq w1 w2, overlaps_comm w2 w1]
    refine ⟨?_, ?_, ?_⟩
    · intro hemp
      rw [heq]
      unfold mergeImpl
      rw [mergeImplConstraints_of_some hI, hemp]
      rfl
    · intro hnemp hd1 hd2
      rw [heq]
      refine ⟨_, mergeImpl_eq_some.mpr
        ⟨mapAdd (mapRemove State.ConstraintRange D) K (intersect C1 C2), ?_, ?_, rfl⟩⟩
      · rw [mergeImplConstraints_of_some hI, isEmpty_eq_false_of_ne_nil hnemp]
        rfl
      · rcases hor with ⟨rfl, rfl⟩ | ⟨rfl, rfl⟩
        · exact hd1
        · exact hd2
    · intro S' hS'
      rw [heq] at hS'
      obtain ⟨m1, m2, _, _⟩ := mergeImpl_members hKD hS'
      obtain ⟨c1, c2⟩ := mergeImpl_constraints hKD hS' hI
      exact ⟨K, D, hor, by rw [m1]; rfl, m2, c1, c2⟩
  · intro C1 hC1 S' hS'
    have hI : intersectOptional (getConstraint State K) (getConstraint State D) =
        some C1 := by
      rcases hor with ⟨rfl, rfl⟩ | ⟨rfl, rfl⟩ <;> rcases hC1 with ⟨h1, h2⟩ | ⟨h1, h2⟩ <;>
        rw [h1, h2] <;> rfl
    rw [heq] at hS'
    obtain ⟨m1, m2, _, _⟩ := mergeImpl_members hKD hS'
    obtain ⟨c1, c2⟩ := mergeImpl_constraints hKD hS' hI
    exact ⟨K, D, hor, by rw [m1]; rfl, m2, c1, c2⟩

theorem merge_transfers_constraints_witness :
    find ⟨[], [], [(1, [⟨0, 10⟩]), (2, [⟨5, 20⟩])], []⟩ 1 ≠
      find ⟨[], [], [(1, [⟨0, 10⟩]), (2, [⟨5, 20⟩])], []⟩ 2 ∧
    intersect [⟨0, 10⟩] [⟨5, 20⟩] = [⟨5, 10⟩] ∧
    merge (fun _ => 0) List.length ⟨[], [], [(1, [⟨0, 10⟩]), (2, [⟨5, 20⟩])], []⟩ 1 2 =
      some ⟨[(2, 1)], [(1, [1, 2])], [(1, [⟨5, 10⟩])], []⟩ ∧
    merge (fun _ => 0) List.length ⟨[], [], [(1, [⟨0, 4⟩]), (2, [⟨5, 20⟩])], []⟩ 1 2 = none ∧
    ((intersect [⟨0, 10⟩] [⟨5, 20⟩] = [] →
        merge (fun _ => 0) List.length
          ⟨[], [], [(1, [⟨0, 10⟩]), (2, [⟨5, 20⟩])], []⟩ 1 2 = none) ∧
      (intersect [⟨0, 10⟩] [⟨5, 20⟩] ≠ [] →
        find ⟨[], [], [(1, [⟨0, 10⟩]), (2, [⟨5, 20⟩])], []⟩ 1 ∉
          getDisequalClasses ⟨[], [], [(1, [⟨0, 10⟩]), (2, [⟨5, 20⟩])], []⟩
            (find ⟨[], [], [(1, [⟨0, 10⟩]), (2, [⟨5, 20⟩])], []⟩ 2) →
        find ⟨[], [], [(1, [⟨0, 10⟩]), (2, [⟨5, 20⟩])], []⟩ 2 ∉
          getDisequalClasses ⟨[], [], [(1, [⟨0, 10⟩]), (2, [⟨5, 20⟩])], []⟩
            (find ⟨[], [], [(1, [⟨0, 10⟩]), (2, [⟨5, 20⟩])], []⟩ 1) →
        ∃ S', merge (fun _ => 0) List.length
          ⟨[], [], [(1, [⟨0, 10⟩]), (2, [⟨5, 20⟩])], []⟩ 1 2 = some S') ∧
      (∀ S', merge (fun _ => 0) List.length
          ⟨[], [], [(1, [⟨0, 10⟩]), (2, [⟨5, 20⟩])], []⟩ 1 2 = some S' →
        ∃ K D, ((K = find ⟨[], [], [(1, [⟨0, 10⟩]), (2, [⟨5, 20⟩])], []⟩ 1 ∧
              D = find ⟨[], [], [(1, [⟨0, 10⟩]), (2, [⟨5, 20⟩])], []⟩ 2) ∨
            (K = find ⟨[], [], [(1, [⟨0, 10⟩]), (2, [⟨5, 20⟩])], []⟩ 2 ∧
              D = find ⟨[], [], [(1, [⟨0, 10⟩]), (2, [⟨5, 20⟩])], []⟩ 1)) ∧
          (mapLookup S'.ClassMembers K).isSome = true ∧
          mapLookup S'.ClassMembers D = none ∧
          getConstraint S' K = some (intersect [⟨0, 10⟩] [⟨5, 20⟩]) ∧
          getConstraint S' D = none)) :=
  ⟨by decide, by decide, by decide, by decide,
    (merge_transfers_constraints (fun _ => 0) List.length
      ⟨[], [], [(1, [⟨0, 10⟩]), (2, [⟨5, 20⟩])], []⟩ 1 2 (by decide) rfl).1
      [⟨0, 10⟩] [⟨5, 20⟩] (by decide) (by decide) (by decide) (by decide)⟩

/-- The first half of `isClassDataConsistent`: every listed member of a class
resolves to the class. -/
theorem members_find_of_consistent {State : ProgramState}
    (h : isClassDataConsistent State = true) :
    ∀ C M, mapLookup State.ClassMembers C = some M → ∀ m ∈ M, find State m = C := by
  intro C M hM m hm
  unfold isClassDataConsistent at h
  rw [Bool.and_eq_true] at h
  have h1 := List.all_eq_true.mp h.1 (C, M) (mem_of_mapLookup hM)
  have h2 := List.all_eq_true.mp h1 m hm
  exact of_decide_eq_true h2

/-- In a consistent state, when a symbol is a member of its class, every member
of that class resolves to it. -/
theorem class_members_find {State : ProgramState}
    (h : isClassDataConsistent State = true) {X : SymbolRef}
    (hX : X ∈ getClassMembers State (find State X)) :
    ∀ m ∈ getClassMembers State (find State X), find State m = find State X := by
  intro m hm
  unfold getClassMembers at hX hm
  cases hl : mapLookup State.ClassMembers (find State X) with
  | some M =>
    rw [hl] at hm
    exact members_find_of_consistent h _ M hl m hm
  | none =>
    rw [hl] at hX hm
    simp only [setAdd, List.mem_singleton] at hX hm
    rw [hm, ← hX]
    exact hX.symm

/-- C12, as stated, fails in two ways.  Merging two fresh symbols `1` and `2` in
the empty state keeps the class of `1`, whose former member `1` gets no
`ClassMap` entry: only `find` resolves it, through the trivial default.  And a
state can pass `isClassDataConsistent` while a symbol (`1`) is mapped to a class
(`10`) that does not list it; merging it with the larger class of `2` dissolves
class `10` and leaves `find(1)` different from `find(2)`. -/
theorem merge_literal_counterexample :
    (isClassDataConsistent ⟨[], [], [], []⟩ = true ∧
      merge (fun _ => 0) List.length ⟨[], [], [], []⟩ 1 2 =
        some ⟨[(2, 1)], [(1, [1, 2])], [], []⟩ ∧
      1 ∈ getClassMembers ⟨[], [], [], []⟩ (find ⟨[], [], [], []⟩ 1) ∧
      find ⟨[(2, 1)], [(1, [1, 2])], [], []⟩ 1 = 1 ∧
      mapLookup (ProgramState.ClassMap ⟨[(2, 1)], [(1, [1, 2])], [], []⟩) 1 = none) ∧
    (isClassDataConsistent ⟨[(1, 10), (3, 2)], [(2, [2, 3])], [], []⟩ = true ∧
      merge (fun _ => 0) List.length ⟨[(1, 10), (3, 2)], [(2, [2, 3])], [], []⟩ 1 2 =
        some ⟨[(1, 10), (3, 2), (10, 2)], [(2, [2, 3, 10])], [], []⟩ ∧
      find ⟨[(1, 10), (3, 2), (10, 2)], [(2, [2, 3, 10])], [], []⟩ 1 ≠
        find ⟨[(1, 10), (3, 2), (10, 2)], [(2, [2, 3, 10])], [], []⟩ 2) := by
  decide

/-- C12, amended: merge unites the classes.  For a state that passes
`isClassDataConsistent` and symbols `X` and `Y` that are members of their
classes, whose classes differ, have the same type, are not marked disequal and
whose constraints, if any, intersect, `merge(State, X, Y)` returns a state in
which `find` resolves `X` and `Y` to the class that is kept, the member set of
that class is exactly the union of the two former member sets, `find` resolves
every former member to that class, every member of the dissolved class has a
`ClassMap` entry for it, and the dissolved class has no `ClassMembers` entry. -/
theorem merge_unites (getType : SymbolRef → QualType) (getHeight : SymbolSet → Nat)
    (State : ProgramState) (X Y : SymbolRef)
    (hcons : isClassDataConsistent State = true)
    (hX : X ∈ getClassMembers State (find State X))
    (hY : Y ∈ getClassMembers State (find State Y))
    (hne : find State X ≠ find State Y)
    (hty : getType (find State X) = getType (find State Y))
    (hd1 : find State X ∉ getDisequalClasses State (find State Y))
    (hd2 : find State Y ∉ getDisequalClasses State (find State X))
    (hc1 : intersectOptional (getConstraint State (find State X))
      (getConstraint State (find State Y)) ≠ some [])
    (hc2 : intersectOptional (getConstraint State (find State Y))
      (getConstraint State (find State X)) ≠ some []) :
    ∃ S' K D, merge getType getHeight State X Y = some S' ∧
      ((K = find State X ∧ D = find State Y) ∨ (K = find State Y ∧ D = find State X)) ∧
      find S' X = K ∧ find S' Y = K ∧
      (∀ m, m ∈ getClassMembers S' K ↔
        m ∈ getClassMembers State (find State X) ∨
          m ∈ getClassMembers State (find State Y)) ∧
      (∀ m, m ∈ getClassMembers State (find State X) ∨
          m ∈ getClassMembers State (find State Y) → find S' m = K) ∧
      (∀ m ∈ getClassMembers State D, mapLookup S'.ClassMap m = some K) ∧
      mapLookup S'.ClassMembers D = none := by
  obtain ⟨K, D, hor, heq⟩ := merge_eq_mergeImpl getType getHeight State X Y hne hty
  have hKD : K ≠ D := by
    rcases hor with ⟨rfl, rfl⟩ | ⟨rfl, rfl⟩
    · exact hne
    · exact Ne.symm hne
  have hnd : K ∉ getDisequalClasses State D := by
    rcases hor with ⟨rfl, rfl⟩ | ⟨rfl, rfl⟩
    · exact hd1
    · exact hd2
  have hc : intersectOptional (getConstraint State K) (getConstraint State D) ≠ some [] := by
    rcases hor with ⟨rfl, rfl⟩ | ⟨rfl, rfl⟩
    · exact hc1
    · exact hc2
  have hCons : ∃ C, mergeImplConstraints State K D = some C := by
    cases hI : intersectOptional (getConstraint State K) (getConstraint State D) with
    | none => exact ⟨_, mergeImplConstraints_of_none hI⟩
    | some I =>
      have hIne : I ≠ [] := by
        intro hnil
        rw [hnil] at hI
        exact hc hI
      refine ⟨mapAdd (mapRemove State.ConstraintRange D) K I, ?_⟩
      rw [mergeImplConstraints_of_some hI, isEmpty_eq_false_of_ne_nil hIne]
      rfl
  obtain ⟨C, hC⟩ := hCons
  have hex : ∃ S', mergeImpl State K (getClassMembers State K) D
      (getClassMembers State D) = some S' :=
    ⟨_, mergeImpl_eq_some.mpr ⟨C, hC, hnd, rfl⟩⟩
  obtain ⟨S', hS'⟩ := hex
  obtain ⟨m1, m2, m3, m4⟩ := mergeImpl_members hKD hS'
  have hfX := class_members_find hcons hX
  have hfY := class_members_find hcons hY
  have hmemK : ∀ m ∈ getClassMembers State K, find State m = K := by
    rcases hor with ⟨rfl, rfl⟩ | ⟨rfl, rfl⟩
    · exact hfX
    · exact hfY
  have hres : ∀ m, m ∈ getClassMembers State K ∨ m ∈ getClassMembers State D →
      find S' m = K := by
    intro m hm
    rw [m3 m]
    split_ifs with hOM
    · rfl
    · rcases hm with hm | hm
      · exact hmemK m hm
      · exact absurd hm hOM
  have hXin : X ∈ getClassMembers State K ∨ X ∈ getClassMembers State D := by
    rcases hor with ⟨rfl, rfl⟩ | ⟨rfl, rfl⟩
    · exact Or.inl hX
    · exact Or.inr hX
  have hYin : Y ∈ getClassMembers State K ∨ Y ∈ getClassMembers State D := by
    rcases hor with ⟨rfl, rfl⟩ | ⟨rfl, rfl⟩
    · exact Or.inr hY
    · exact Or.inl hY
  refine ⟨S', K, D, heq.trans hS', hor, hres X hXin, hres Y hYin, ?_, ?_, m4, m2⟩
  · intro m
    have : getClassMembers S' K =
        (getClassMembers State D).foldl setAdd (getClassMembers State K) := by
      conv_lhs => unfold getClassMembers
      rw [m1]
    rw [this, mem_foldl_setAdd]
    rcases hor with ⟨rfl, rfl⟩ | ⟨rfl, rfl⟩
    · exact Iff.rfl
    · exact or_comm
  · intro m hm
    apply hres
    rcases hor with ⟨rfl, rfl⟩ | ⟨rfl, rfl⟩
    · exact hm
    · exact hm.symm

theorem merge_unites_witness :
    isClassDataConsistent ⟨[(3, 1)], [(1, [1, 3])], [(1, [⟨0, 10⟩]), (2, [⟨5, 20⟩])], []⟩ =
      true ∧
    merge (fun _ => 0) List.length
        ⟨[(3, 1)], [(1, [1, 3])], [(1, [⟨0, 10⟩]), (2, [⟨5, 20⟩])], []⟩ 3 2 =
      some ⟨[(2, 1), (3, 1)], [(1, [1, 2, 3])], [(1, [⟨5, 10⟩])], []⟩ ∧
    (∃ S' K D,
      merge (fun _ => 0) List.length
        ⟨[(3, 1)], [(1, [1, 3])], [(1, [⟨0, 10⟩]), (2, [⟨5, 20⟩])], []⟩ 3 2 = some S' ∧
      ((K = find ⟨[(3, 1)], [(1, [1, 3])], [(1, [⟨0, 10⟩]), (2, [⟨5, 20⟩])], []⟩ 3 ∧
          D = find ⟨[(3, 1)], [(1, [1, 3])], [(1, [⟨0, 10⟩]), (2, [⟨5, 20⟩])], []⟩ 2) ∨
        (K = find ⟨[(3, 1)], [(1, [1, 3])], [(1, [⟨0, 10⟩]), (2, [⟨5, 20⟩])], []⟩ 2 ∧
          D = find ⟨[(3, 1)], [(1, [1, 3])], [(1, [⟨0, 10⟩]), (2, [⟨5, 20⟩])], []⟩ 3)) ∧
      find S' 3 = K ∧ find S' 2 = K ∧
      (∀ m, m ∈ getClassMembers S' K ↔
        m ∈ getClassMembers
            ⟨[(3, 1)], [(1, [1, 3])], [(1, [⟨0, 10⟩]), (2, [⟨5, 20⟩])], []⟩
            (find ⟨[(3, 1)], [(1, [1, 3])], [(1, [⟨0, 10⟩]), (2, [⟨5, 20⟩])], []⟩ 3) ∨
          m ∈ getClassMembers
            ⟨[(3, 1)], [(1, [1, 3])], [(1, [⟨0, 10⟩]), (2, [⟨5, 20⟩])], []⟩
            (find ⟨[(3, 1)], [(1, [1, 3])], [(1, [⟨0, 10⟩]), (2, [⟨5, 20⟩])], []⟩ 2)) ∧
      (∀ m, m ∈ getClassMembers
            ⟨[(3, 1)], [(1, [1, 3])], [(1, [⟨0, 10⟩]), (2, [⟨5, 20⟩])], []⟩
            (find ⟨[(3, 1)], [(1, [1, 3])], [(1, [⟨0, 10⟩]), (2, [⟨5, 20⟩])], []⟩ 3) ∨
          m ∈ getClassMembers
            ⟨[(3, 1)], [(1, [1, 3])], [(1, [⟨0, 10⟩]), (2, [⟨5, 20⟩])], []⟩
            (find ⟨[(3, 1)], [(1, [1, 3])], [(1, [⟨0, 10⟩]), (2, [⟨5, 20⟩])], []⟩ 2) →
        find S' m = K) ∧
      (∀ m ∈ getClassMembers
          ⟨[(3, 1)], [(1, [1, 3])], [(1, [⟨0, 10⟩]), (2, [⟨5, 20⟩])], []⟩ D,
        mapLookup S'.ClassMap m = some K) ∧
      mapLookup S'.ClassMembers D = none) :=
  ⟨by decide, by decide,
    merge_unites (fun _ => 0) List.length
      ⟨[(3, 1)], [(1, [1, 3])], [(1, [⟨0, 10⟩]), (2, [⟨5, 20⟩])], []⟩ 3 2
      (by decide) (by decide) (by decide) (by decide) rfl (by decide) (by decide)
      (by decide) (by decide)⟩

/-! ## The `UnknownX2` column of the relation table -/

theorem implies2_iff_holdsAt (cur p1 p2 : BinaryOperatorKind) :
    (∀ x y : Int, p1.holds x y ∧ p2.holds x y → cur.holds x y) ↔
      ∀ o : Ordering, p1.holdsAt o = true ∧ p2.holdsAt o = true → cur.holdsAt o = true := by
  simp only [holds_iff_holdsAt]
  rw [forall_compare_iff
    (fun o => p1.holdsAt o = true ∧ p2.holdsAt o = true → cur.holdsAt o = true)]
  constructor
  · rintro ⟨h1, h2, h3⟩ o
    cases o
    · exact h1
    · exact h2
    · exact h3
  · intro h
    exact ⟨h _, h _, h _⟩

theorem excludes2_iff_holdsAt (cur p1 p2 : BinaryOperatorKind) :
    (∀ x y : Int, p1.holds x y ∧ p2.holds x y → ¬cur.holds x y) ↔
      ∀ o : Ordering, p1.holdsAt o = true ∧ p2.holdsAt o = true →
        ¬(cur.holdsAt o = true) := by
  simp only [holds_iff_holdsAt]
  rw [forall_compare_iff
    (fun o => p1.holdsAt o = true ∧ p2.holdsAt o = true → ¬(cur.holdsAt o = true))]
  constructor
  · rintro ⟨h1, h2, h3⟩ o
    cases o
    · exact h1
    · exact h2
    · exact h3
  · intro h
    exact ⟨h _, h _, h _⟩

/-- C21: the `UnknownX2` column is the conjunction of a row's two `Unknown`
facts: the row of every current operator `cur` has exactly two `Unknown` cells
among its first six columns, at two different operators `p1` and `p2`; its
`UnknownX2` cell is `True` exactly when `x p1 y` and `x p2 y` together imply
`x cur y` for all integers, `False` exactly when together they imply the
negation of `x cur y`; and the cell is one of the two in every row. -/
theorem unknownX2_is_conjunction (cur : BinaryOperatorKind) :
    ∃ p1 p2 : BinaryOperatorKind, p1 ≠ p2 ∧
      (∀ q : BinaryOperatorKind,
        getCmpOpState cur q = TriStateKind.Unknown ↔ q = p1 ∨ q = p2) ∧
      (getCmpOpStateForUnknownX2 cur = TriStateKind.True ↔
        ∀ x y : Int, p1.holds x y ∧ p2.holds x y → cur.holds x y) ∧
      (getCmpOpStateForUnknownX2 cur = TriStateKind.False ↔
        ∀ x y : Int, p1.holds x y ∧ p2.holds x y → ¬cur.holds x y) ∧
      (getCmpOpStateForUnknownX2 cur = TriStateKind.True ∨
        getCmpOpStateForUnknownX2 cur = TriStateKind.False) := by
  cases cur
  · refine ⟨.BO_LE, .BO_NE, by decide, fun q => by cases q <;> decide, ?_, ?_, by decide⟩
    · rw [implies2_iff_holdsAt]; decide
    · rw [excludes2_iff_holdsAt]; decide
  · refine ⟨.BO_GE, .BO_NE, by decide, fun q => by cases q <;> decide, ?_, ?_, by decide⟩
    · rw [implies2_iff_holdsAt]; decide
    · rw [excludes2_iff_holdsAt]; decide
  · refine ⟨.BO_GE, .BO_NE, by decide, fun q => by cases q <;> decide, ?_, ?_, by decide⟩
    · rw [implies2_iff_holdsAt]; decide
    · rw [excludes2_iff_holdsAt]; decide
  · refine ⟨.BO_LE, .BO_NE, by decide, fun q => by cases q <;> decide, ?_, ?_, by decide⟩
    · rw [implies2_iff_holdsAt]; decide
    · rw [excludes2_iff_holdsAt]; decide
  · refine ⟨.BO_LE, .BO_GE, by decide, fun q => by cases q <;> decide, ?_, ?_, by decide⟩
    · rw [implies2_iff_holdsAt]; decide
    · rw [excludes2_iff_holdsAt]; decide
  · refine ⟨.BO_LE, .BO_GE, by decide, fun q => by cases q <;> decide, ?_, ?_, by decide⟩
    · rw [implies2_iff_holdsAt]; decide
    · rw [excludes2_iff_holdsAt]; decide

/-! ## The directional helpers of the constraint manager -/

theorem APSIntType.min_nonpos_max_nonneg (T : APSIntType) (hT : 0 < T.BitWidth) :
    T.getMinValue ≤ 0 ∧ 0 ≤ T.getMaxValue := by
  have hp := T.pow_eq hT
  have hlt := T.min_lt_max hT
  have h2 := T.two_min hT
  omega

/-- Conversion to the type of a value that is at most one period away from the
range of the type. -/
theorem APSIntType.apply_cases (T : APSIntType) (hT : 0 < T.BitWidth) (v : Int)
    (h1 : T.getMinValue - (T.getMaxValue - T.getMinValue + 1) ≤ v)
    (h2 : v ≤ T.getMaxValue + (T.getMaxValue - T.getMinValue + 1)) :
    (v < T.getMinValue ∧ T.apply v = v + (T.getMaxValue - T.getMinValue + 1)) ∨
    (T.getMinValue ≤ v ∧ v ≤ T.getMaxValue ∧ T.apply v = v) ∨
    (T.getMaxValue < v ∧ T.apply v = v - (T.getMaxValue - T.getMinValue + 1)) := by
  have hp := T.pow_eq hT
  by_cases ha : v < T.getMinValue
  · left
    refine ⟨ha, ?_⟩
    unfold APSIntType.apply
    rw [emod_shift 1 (by omega) (by omega)]; omega
  · by_cases hb : v ≤ T.getMaxValue
    · right; left
      exact ⟨by omega, hb, T.apply_of_inRange hT (by omega) hb⟩
    · right; right
      refine ⟨by omega, ?_⟩
      unfold APSIntType.apply
      rw [emod_shift (-1) (by omega) (by omega)]; omega

theorem containsImpl_intersectBounds {T : APSIntType} (hT : 0 < T.BitWidth) {S : RangeSet}
    (hS : WellFormed S) {l u : Int}
    (hl1 : T.getMinValue ≤ l) (hl2 : l ≤ T.getMaxValue)
    (hu1 : T.getMinValue ≤ u) (hu2 : u ≤ T.getMaxValue) (x : Int) :
    containsImpl T (intersectBounds T S l u) x = true ↔
      containsImpl T S x = true ∧
        ((l ≤ u ∧ l ≤ x ∧ x ≤ u) ∨ (u < l ∧ (x ≤ u ∨ l ≤ x))) := by
  by_cases hx : T.getMinValue ≤ x ∧ x ≤ T.getMaxValue
  · rw [containsImpl_iff hT (intersectBounds_wellFormed hT hS l u) hx.1 hx.2,
      containsImpl_iff hT hS hx.1 hx.2, intersectBounds_eq hT hS,
      pin_within T hT hl1 hl2 hu1 hu2]
    simp only []
    rw [covers_overlaps, covers_boundsContainer T l u x hx.1 hx.2]
    by_cases hlu : l ≤ u
    · rw [if_pos hlu]
      constructor
      · rintro ⟨h1, h2⟩
        exact ⟨h1, Or.inl ⟨hlu, h2⟩⟩
      · rintro ⟨h1, h2 | h2⟩
        · exact ⟨h1, h2.2⟩
        · omega
    · rw [if_neg hlu]
      constructor
      · rintro ⟨h1, h2⟩
        exact ⟨h1, Or.inr ⟨by omega, h2⟩⟩
      · rintro ⟨h1, h2 | h2⟩
        · omega
        · exact ⟨h1, h2.2⟩
  · have hout : x < T.getMinValue ∨ T.getMaxValue < x := by omega
    rw [containsImpl_outside T _ hout, containsImpl_outside T _ hout]
    simp

theorem containsImpl_nil (T : APSIntType) (x : Int) : containsImpl T [] x = false := by
  simp [containsImpl]

theorem getSymLTRange_contains (Ctx : Context) {T : APSIntType} (hT : 0 < T.BitWidth)
    (St : ProgramState) (Sym : SymbolRef) {Int Adjustment : ℤ}
    (hI1 : T.getMinValue ≤ Int) (hI2 : Int ≤ T.getMaxValue)
    (hA1 : T.getMinValue ≤ Adjustment) (hA2 : Adjustment ≤ T.getMaxValue)
    (hR : WellFormed (getRange Ctx St Sym)) (x : ℤ) :
    containsImpl T (getSymLTRange Ctx T St Sym Int Adjustment) x = true ↔
      containsImpl T (getRange Ctx St Sym) x = true ∧ T.apply (x + Adjustment) < Int := by
  have hmm := T.min_nonpos_max_nonneg hT
  by_cases hx : T.getMinValue ≤ x ∧ x ≤ T.getMaxValue
  · have c4 := T.apply_cases hT (x + Adjustment) (by omega) (by omega)
    unfold getSymLTRange
    rw [testInRange_within T hI1 hI2]
    simp only [T.apply_of_inRange hT hI1 hI2]
    by_cases hmin : Int = T.getMinValue
    · rw [if_pos hmin, containsImpl_nil]
      have := T.apply_inRange hT (x + Adjustment)
      constructor
      · intro h; cases h
      · rintro ⟨_, h⟩; omega
    · have c1 := T.apply_cases hT (T.getMinValue - Adjustment) (by omega) (by omega)
      have c2 := T.apply_cases hT (Int - Adjustment) (by omega) (by omega)
      have b2 := T.apply_inRange hT (Int - Adjustment)
      have c3 := T.apply_cases hT (T.apply (Int - Adjustment) - 1) (by omega) (by omega)
      rw [if_neg hmin, containsImpl_intersectBounds hT hR
        (T.apply_inRange hT _).1 (T.apply_inRange hT _).2
        (T.apply_inRange hT _).1 (T.apply_inRange hT _).2]
      constructor
      · rintro ⟨h, h'⟩
        exact ⟨h, by omega⟩
      · rintro ⟨h, h'⟩
        exact ⟨h, by omega⟩
  · have hout : x < T.getMinValue ∨ T.getMaxValue < x := by omega
    rw [containsImpl_outside T (getRange Ctx St Sym) hout]
    have : containsImpl T (getSymLTRange Ctx T St Sym Int Adjustment) x = false :=
      containsImpl_outside T _ hout
    rw [this]
    simp
theorem getSymGTRange_contains (Ctx : Context) {T : APSIntType} (hT : 0 < T.BitWidth)
    (St : ProgramState) (Sym : SymbolRef) {Int Adjustment : ℤ}
    (hI1 : T.getMinValue ≤ Int) (hI2 : Int ≤ T.getMaxValue)
    (hA1 : T.getMinValue ≤ Adjustment) (hA2 : Adjustment ≤ T.getMaxValue)
    (hR : WellFormed (getRange Ctx St Sym)) (x : ℤ) :
    containsImpl T (getSymGTRange Ctx T St Sym Int Adjustment) x = true ↔
      containsImpl T (getRange Ctx St Sym) x = true ∧ T.apply (x + Adjustment) > Int := by
  have hmm := T.min_nonpos_max_nonneg hT
  by_cases hx : T.getMinValue ≤ x ∧ x ≤ T.getMaxValue
  · have c4 := T.apply_cases hT (x + Adjustment) (by omega) (by omega)
    unfold getSymGTRange
    rw [testInRange_within T hI1 hI2]
    simp only [T.apply_of_inRange hT hI1 hI2]
    by_cases hmax : Int = T.getMaxValue
    · rw [if_pos hmax, containsImpl_nil]
      have := T.apply_inRange hT (x + Adjustment)
      constructor
      · intro h; cases h
      · rintro ⟨_, h⟩; omega
    · have c1 := T.apply_cases hT (T.getMaxValue - Adjustment) (by omega) (by omega)
      have c2 := T.apply_cases hT (Int - Adjustment) (by omega) (by omega)
      have b2 := T.apply_inRange hT (Int - Adjustment)
      have c3 := T.apply_cases hT (T.apply (Int - Adjustment) + 1) (by omega) (by omega)
      rw [if_neg hmax, containsImpl_intersectBounds hT hR
        (T.apply_inRange hT _).1 (T.apply_inRange hT _).2
        (T.apply_inRange hT _).1 (T.apply_inRange hT _).2]
      constructor
      · rintro ⟨h, h'⟩
        exact ⟨h, by omega⟩
      · rintro ⟨h, h'⟩
        exact ⟨h, by omega⟩
  · have hout : x < T.getMinValue ∨ T.getMaxValue < x := by omega
    rw [containsImpl_outside T (getRange Ctx St Sym) hout]
    have : containsImpl T (getSymGTRange Ctx T St Sym Int Adjustment) x = false :=
      containsImpl_outside T _ hout
    rw [this]
    simp

theorem getSymGERange_contains (Ctx : Context) {T : APSIntType} (hT : 0 < T.BitWidth)
    (St : ProgramState) (Sym : SymbolRef) {Int Adjustment : ℤ}
    (hI1 : T.getMinValue ≤ Int) (hI2 : Int ≤ T.getMaxValue)
    (hA1 : T.getMinValue ≤ Adjustment) (hA2 : Adjustment ≤ T.getMaxValue)
    (hR : WellFormed (getRange Ctx St Sym)) (x : ℤ) :
    containsImpl T (getSymGERange Ctx T St Sym Int Adjustment) x = true ↔
      containsImpl T (getRange Ctx St Sym) x = true ∧ T.apply (x + Adjustment) ≥ Int := by
  have hmm := T.min_nonpos_max_nonneg hT
  by_cases hx : T.getMinValue ≤ x ∧ x ≤ T.getMaxValue
  · have c4 := T.apply_cases hT (x + Adjustment) (by omega) (by omega)
    unfold getSymGERange
    rw [testInRange_within T hI1 hI2]
    simp only [T.apply_of_inRange hT hI1 hI2]
    by_cases hmin : Int = T.getMinValue
    · rw [if_pos hmin]
      have := T.apply_inRange hT (x + Adjustment)
      constructor
      · intro h; exact ⟨h, by omega⟩
      · rintro ⟨h, _⟩; exact h
    · have c1 := T.apply_cases hT (T.getMaxValue - Adjustment) (by omega) (by omega)
      have c2 := T.apply_cases hT (Int - Adjustment) (by omega) (by omega)
      rw [if_neg hmin, containsImpl_intersectBounds hT hR
        (T.apply_inRange hT _).1 (T.apply_inRange hT _).2
        (T.apply_inRange hT _).1 (T.apply_inRange hT _).2]
      constructor
      · rintro ⟨h, h'⟩
        exact ⟨h, by omega⟩
      · rintro ⟨h, h'⟩
        exact ⟨h, by omega⟩
  · have hout : x < T.getMinValue ∨ T.getMaxValue < x := by omega
    rw [containsImpl_outside T (getRange Ctx St Sym) hout]
    have : containsImpl T (getSymGERange Ctx T St Sym Int Adjustment) x = false :=
      containsImpl_outside T _ hout
    rw [this]
    simp

theorem getSymLERange_contains (Ctx : Context) {T : APSIntType} (hT : 0 < T.BitWidth)
    (St : ProgramState) (Sym : SymbolRef) {Int Adjustment : ℤ}
    (hI1 : T.getMinValue ≤ Int) (hI2 : Int ≤ T.getMaxValue)
    (hA1 : T.getMinValue ≤ Adjustment) (hA2 : Adjustment ≤ T.getMaxValue)
    (hR : WellFormed (getRange Ctx St Sym)) (x : ℤ) :
    containsImpl T (getSymLERange Ctx T St Sym Int Adjustment) x = true ↔
      containsImpl T (getRange Ctx St Sym) x = true ∧ T.apply (x + Adjustment) ≤ Int := by
  have hmm := T.min_nonpos_max_nonneg hT
  by_cases hx : T.getMinValue ≤ x ∧ x ≤ T.getMaxValue
  · have c4 := T.apply_cases hT (x + Adjustment) (by omega) (by omega)
    unfold getSymLERange getSymLERangeOf
    rw [testInRange_within T hI1 hI2]
    simp only [T.apply_of_inRange hT hI1 hI2]
    by_cases hmax : Int = T.getMaxValue
    · rw [if_pos hmax]
      have := T.apply_inRange hT (x + Adjustment)
      constructor
      · intro h; exact ⟨h, by omega⟩
      · rintro ⟨h, _⟩; exact h
    · have c1 := T.apply_cases hT (T.getMinValue - Adjustment) (by omega) (by omega)
      have c2 := T.apply_cases hT (Int - Adjustment) (by omega) (by omega)
      rw [if_neg hmax, containsImpl_intersectBounds hT hR
        (T.apply_inRange hT _).1 (T.apply_inRange hT _).2
        (T.apply_inRange hT _).1 (T.apply_inRange hT _).2]
      constructor
      · rintro ⟨h, h'⟩
        exact ⟨h, by omega⟩
      · rintro ⟨h, h'⟩
        exact ⟨h, by omega⟩
  · have hout : x < T.getMinValue ∨ T.getMaxValue < x := by omega
    rw [containsImpl_outside T (getRange Ctx St Sym) hout]
    have : containsImpl T (getSymLERange Ctx T St Sym Int Adjustment) x = false :=
      containsImpl_outside T _ hout
    rw [this]
    simp
/-- C27: the directional helpers compute the modular solution set: for a type
of at least one bit, `Int` and `Adjustment` values of the type and the current
range `R = getRange(State, Sym)`, a well-formed set, a value `x` is contained
in `getSymLTRange` (respectively `getSymGTRange`, `getSymLERange`,
`getSymGERange`) exactly when `x` is contained in `R` and the sum
`x + Adjustment`, wrapped into the type, is `< Int` (respectively `> Int`,
`<= Int`, `>= Int`). -/
theorem getSymRange_modular (Ctx : Context) (T : APSIntType) (hT : 0 < T.BitWidth)
    (St : ProgramState) (Sym : SymbolRef) (Int Adjustment : ℤ)
    (hI1 : T.getMinValue ≤ Int) (hI2 : Int ≤ T.getMaxValue)
    (hA1 : T.getMinValue ≤ Adjustment) (hA2 : Adjustment ≤ T.getMaxValue)
    (hR : WellFormed (getRange Ctx St Sym)) (x : ℤ) :
    (containsImpl T (getSymLTRange Ctx T St Sym Int Adjustment) x = true ↔
      containsImpl T (getRange Ctx St Sym) x = true ∧ T.apply (x + Adjustment) < Int) ∧
    (containsImpl T (getSymGTRange Ctx T St Sym Int Adjustment) x = true ↔
      containsImpl T (getRange Ctx St Sym) x = true ∧ T.apply (x + Adjustment) > Int) ∧
    (containsImpl T (getSymLERange Ctx T St Sym Int Adjustment) x = true ↔
      containsImpl T (getRange Ctx St Sym) x = true ∧ T.apply (x + Adjustment) ≤ Int) ∧
    (containsImpl T (getSymGERange Ctx T St Sym Int Adjustment) x = true ↔
      containsImpl T (getRange Ctx St Sym) x = true ∧ T.apply (x + Adjustment) ≥ Int) :=
  ⟨getSymLTRange_contains Ctx hT St Sym hI1 hI2 hA1 hA2 hR x,
    getSymGTRange_contains Ctx hT St Sym hI1 hI2 hA1 hA2 hR x,
    getSymLERange_contains Ctx hT St Sym hI1 hI2 hA1 hA2 hR x,
    getSymGERange_contains Ctx hT St Sym hI1 hI2 hA1 hA2 hR x⟩

theorem getSymRange_modular_witness :
    getRange sampleContext ⟨[], [], [(1, [⟨-100, 100⟩])], []⟩ 1 = [⟨-100, 100⟩] ∧
    getSymLTRange sampleContext int8 ⟨[], [], [(1, [⟨-100, 100⟩])], []⟩ 1 0 100 =
      [⟨28, 100⟩] ∧
    int8.apply (50 + 100) = -106 ∧
    ((containsImpl int8
        (getSymLTRange sampleContext int8 ⟨[], [], [(1, [⟨-100, 100⟩])], []⟩ 1 0 100) 50 = true ↔
      containsImpl int8 (getRange sampleContext ⟨[], [], [(1, [⟨-100, 100⟩])], []⟩ 1) 50 = true ∧
        int8.apply (50 + 100) < 0) ∧
    (containsImpl int8
        (getSymGTRange sampleContext int8 ⟨[], [], [(1, [⟨-100, 100⟩])], []⟩ 1 0 100) 50 = true ↔
      containsImpl int8 (getRange sampleContext ⟨[], [], [(1, [⟨-100, 100⟩])], []⟩ 1) 50 = true ∧
        int8.apply (50 + 100) > 0) ∧
    (containsImpl int8
        (getSymLERange sampleContext int8 ⟨[], [], [(1, [⟨-100, 100⟩])], []⟩ 1 0 100) 50 = true ↔
      containsImpl int8 (getRange sampleContext ⟨[], [], [(1, [⟨-100, 100⟩])], []⟩ 1) 50 = true ∧
        int8.apply (50 + 100) ≤ 0) ∧
    (containsImpl int8
        (getSymGERange sampleContext int8 ⟨[], [], [(1, [⟨-100, 100⟩])], []⟩ 1 0 100) 50 = true ↔
      containsImpl int8 (getRange sampleContext ⟨[], [], [(1, [⟨-100, 100⟩])], []⟩ 1) 50 = true ∧
        int8.apply (50 + 100) ≥ 0)) :=
  ⟨by decide, by decide, by decide,
    getSymRange_modular sampleContext int8 (by decide) ⟨[], [], [(1, [⟨-100, 100⟩])], []⟩ 1 0 100
      (by decide) (by decide) (by decide) (by decide) (by decide) 50⟩

theorem assign_nil (Ctx : Context) (State : ProgramState) (Sym : SymbolRef) :
    assign Ctx State Sym [] = none := by
  simp [assign]

/-- C28: bounds at the edge of the type do not wrap: for every state, symbol
and adjustment, `getSymLTRange` with `Int` the minimum of the type returns the
empty set and `getSymGTRange` with `Int` the maximum of the type returns the
empty set, so `assumeSymLT` and `assumeSymGT` return the null state there. -/
theorem edge_bounds_do_not_wrap (Ctx : Context) (T : APSIntType) (hT : 0 < T.BitWidth)
    (St : ProgramState) (Sym : SymbolRef) (Adjustment : ℤ) :
    getSymLTRange Ctx T St Sym T.getMinValue Adjustment = [] ∧
    getSymGTRange Ctx T St Sym T.getMaxValue Adjustment = [] ∧
    assumeSymLT Ctx T St Sym T.getMinValue Adjustment = none ∧
    assumeSymGT Ctx T St Sym T.getMaxValue Adjustment = none := by
  have hlt := T.min_lt_max hT
  have h1 : getSymLTRange Ctx T St Sym T.getMinValue Adjustment = [] := by
    unfold getSymLTRange
    rw [testInRange_within T (le_refl _) (le_of_lt hlt)]
    simp only [T.apply_of_inRange hT (le_refl _) (le_of_lt hlt)]
    rw [if_pos trivial]
  have h2 : getSymGTRange Ctx T St Sym T.getMaxValue Adjustment = [] := by
    unfold getSymGTRange
    rw [testInRange_within T (le_of_lt hlt) (le_refl _)]
    simp only [T.apply_of_inRange hT (le_of_lt hlt) (le_refl _)]
    rw [if_pos trivial]
  refine ⟨h1, h2, ?_, ?_⟩
  · unfold assumeSymLT setRange
    rw [h1, assign_nil]
  · unfold assumeSymGT setRange
    rw [h2, assign_nil]

theorem edge_bounds_do_not_wrap_witness :
    getRange sampleContext ⟨[], [], [(1, [⟨-100, 100⟩])], []⟩ 1 = [⟨-100, 100⟩] ∧
    (getSymLTRange sampleContext int8 ⟨[], [], [(1, [⟨-100, 100⟩])], []⟩ 1
        int8.getMinValue 100 = [] ∧
      getSymGTRange sampleContext int8 ⟨[], [], [(1, [⟨-100, 100⟩])], []⟩ 1
        int8.getMaxValue 100 = [] ∧
      assumeSymLT sampleContext int8 ⟨[], [], [(1, [⟨-100, 100⟩])], []⟩ 1
        int8.getMinValue 100 = none ∧
      assumeSymGT sampleContext int8 ⟨[], [], [(1, [⟨-100, 100⟩])], []⟩ 1
        int8.getMaxValue 100 = none) :=
  ⟨by decide,
    edge_bounds_do_not_wrap sampleContext int8 (by decide)
      ⟨[], [], [(1, [⟨-100, 100⟩])], []⟩ 1 100⟩

/-- C29, as stated, fails: over the signed 8-bit type the value 200 is not
within the type, and yet `assumeSymNE` returns the state unchanged, and
`assumeSymLT` and `assumeSymLE` (the value is above the type) and `assumeSymGT`
and `assumeSymGE` (the value -200 is below the type) return a state. -/
theorem assumeSym_unrepresentable_counterexample :
    int8.testInRange 200 ≠ RangeTestResultKind.RTR_Within ∧
    int8.testInRange (-200) ≠ RangeTestResultKind.RTR_Within ∧
    assumeSymNE sampleContext int8 ⟨[], [], [(1, [⟨-100, 100⟩])], []⟩ 1 200 0 =
      some ⟨[], [], [(1, [⟨-100, 100⟩])], []⟩ ∧
    assumeSymLT sampleContext int8 ⟨[], [], [(1, [⟨-100, 100⟩])], []⟩ 1 200 0 =
      some ⟨[], [], [(1, [⟨-100, 100⟩])], []⟩ ∧
    assumeSymLE sampleContext int8 ⟨[], [], [(1, [⟨-100, 100⟩])], []⟩ 1 200 0 =
      some ⟨[], [], [(1, [⟨-100, 100⟩])], []⟩ ∧
    assumeSymGT sampleContext int8 ⟨[], [], [(1, [⟨-100, 100⟩])], []⟩ 1 (-200) 0 =
      some ⟨[], [], [(1, [⟨-100, 100⟩])], []⟩ ∧
    assumeSymGE sampleContext int8 ⟨[], [], [(1, [⟨-100, 100⟩])], []⟩ 1 (-200) 0 =
      some ⟨[], [], [(1, [⟨-100, 100⟩])], []⟩ := by
  decide

/-- C29, amended: for a value that is not within the type of the adjustment,
`assumeSymEQ` returns the null state and `assumeSymNE` returns the state
unchanged; when the value is below the type, `assumeSymLT` and `assumeSymLE`
return the null state while `assumeSymGT` and `assumeSymGE` set the current
range of the symbol again; when the value is above the type, `assumeSymGT` and
`assumeSymGE` return the null state while `assumeSymLT` and `assumeSymLE` set
the current range of the symbol again. -/
theorem assumeSym_unrepresentable (Ctx : Context) (T : APSIntType) (St : ProgramState)
    (Sym : SymbolRef) (Int Adjustment : ℤ)
    (h : T.testInRange Int ≠ RangeTestResultKind.RTR_Within) :
    assumeSymEQ Ctx T St Sym Int Adjustment = none ∧
    assumeSymNE Ctx T St Sym Int Adjustment = some St ∧
    (T.testInRange Int = RangeTestResultKind.RTR_Below →
      assumeSymLT Ctx T St Sym Int Adjustment = none ∧
      assumeSymLE Ctx T St Sym Int Adjustment = none ∧
      assumeSymGT Ctx T St Sym Int Adjustment = setRange Ctx St Sym (getRange Ctx St Sym) ∧
      assumeSymGE Ctx T St Sym Int Adjustment = setRange Ctx St Sym (getRange Ctx St Sym)) ∧
    (T.testInRange Int = RangeTestResultKind.RTR_Above →
      assumeSymGT Ctx T St Sym Int Adjustment = none ∧
      assumeSymGE Ctx T St Sym Int Adjustment = none ∧
      assumeSymLT Ctx T St Sym Int Adjustment = setRange Ctx St Sym (getRange Ctx St Sym) ∧
      assumeSymLE Ctx T St Sym Int Adjustment = setRange Ctx St Sym (getRange Ctx St Sym)) := by
  refine ⟨?_, ?_, ?_, ?_⟩
  · unfold assumeSymEQ
    rw [if_pos h]
  · unfold assumeSymNE
    rw [if_pos h]
  · intro hb
    unfold assumeSymLT assumeSymLE assumeSymGT assumeSymGE getSymLTRange getSymLERange
      getSymLERangeOf getSymGTRange getSymGERange
    rw [hb]
    exact ⟨assign_nil Ctx St Sym, assign_nil Ctx St Sym, rfl, rfl⟩
  · intro ha
    unfold assumeSymLT assumeSymLE assumeSymGT assumeSymGE getSymLTRange getSymLERange
      getSymLERangeOf getSymGTRange getSymGERange
    rw [ha]
    exact ⟨assign_nil Ctx St Sym, assign_nil Ctx St Sym, rfl, rfl⟩

theorem assumeSym_unrepresentable_witness :
    int8.testInRange 200 ≠ RangeTestResultKind.RTR_Within ∧
    (assumeSymEQ sampleContext int8 ⟨[], [], [(1, [⟨-100, 100⟩])], []⟩ 1 200 0 = none ∧
    assumeSymNE sampleContext int8 ⟨[], [], [(1, [⟨-100, 100⟩])], []⟩ 1 200 0 =
      some ⟨[], [], [(1, [⟨-100, 100⟩])], []⟩ ∧
    (int8.testInRange 200 = RangeTestResultKind.RTR_Below →
      assumeSymLT sampleContext int8 ⟨[], [], [(1, [⟨-100, 100⟩])], []⟩ 1 200 0 = none ∧
      assumeSymLE sampleContext int8 ⟨[], [], [(1, [⟨-100, 100⟩])], []⟩ 1 200 0 = none ∧
      assumeSymGT sampleContext int8 ⟨[], [], [(1, [⟨-100, 100⟩])], []⟩ 1 200 0 =
        setRange sampleContext ⟨[], [], [(1, [⟨-100, 100⟩])], []⟩ 1
          (getRange sampleContext ⟨[], [], [(1, [⟨-100, 100⟩])], []⟩ 1) ∧
      assumeSymGE sampleContext int8 ⟨[], [], [(1, [⟨-100, 100⟩])], []⟩ 1 200 0 =
        setRange sampleContext ⟨[], [], [(1, [⟨-100, 100⟩])], []⟩ 1
          (getRange sampleContext ⟨[], [], [(1, [⟨-100, 100⟩])], []⟩ 1)) ∧
    (int8.testInRange 200 = RangeTestResultKind.RTR_Above →
      assumeSymGT sampleContext int8 ⟨[], [], [(1, [⟨-100, 100⟩])], []⟩ 1 200 0 = none ∧
      assumeSymGE sampleContext int8 ⟨[], [], [(1, [⟨-100, 100⟩])], []⟩ 1 200 0 = none ∧
      assumeSymLT sampleContext int8 ⟨[], [], [(1, [⟨-100, 100⟩])], []⟩ 1 200 0 =
        setRange sampleContext ⟨[], [], [(1, [⟨-100, 100⟩])], []⟩ 1
          (getRange sampleContext ⟨[], [], [(1, [⟨-100, 100⟩])], []⟩ 1) ∧
      assumeSymLE sampleContext int8 ⟨[], [], [(1, [⟨-100, 100⟩])], []⟩ 1 200 0 =
        setRange sampleContext ⟨[], [], [(1, [⟨-100, 100⟩])], []⟩ 1
          (getRange sampleContext ⟨[], [], [(1, [⟨-100, 100⟩])], []⟩ 1))) :=
  ⟨by decide,
    assumeSym_unrepresentable sampleContext int8 ⟨[], [], [(1, [⟨-100, 100⟩])], []⟩ 1 200 0
      (by decide)⟩

/-! ## Assigning a constraint to a class -/

theorem mapLookup_foldl_mapAdd_fun {V : Type} (f : Nat → V) (l : List Nat)
    (m : List (Nat × V)) (k : Nat) :
    mapLookup (l.foldl (fun C D => mapAdd C D (f D)) m) k =
      if k ∈ l then some (f k) else mapLookup m k := by
  induction l using List.reverseRecOn with
  | nil => simp
  | append_singleton l a ih =>
    rw [List.foldl_append, List.foldl_cons, List.foldl_nil, mapLookup_mapAdd]
    by_cases hk : k = a
    · subst hk
      simp
    · rw [if_neg hk, ih]
      by_cases hl : k ∈ l
      · rw [if_pos hl, if_pos (List.mem_append.mpr (Or.inl hl))]
      · rw [if_neg hl, if_neg]
        intro h
        rcases List.mem_append.mp h with h | h
        · exact hl h
        · exact hk (List.mem_singleton.mp h)

/-- The loop over the disequal classes: null when one of the updated
constraints is empty, and otherwise every updated constraint is added. -/
theorem assignDisequalLoop_eq (Ctx : Context) (State : ProgramState) (Point : Int)
    (Ds : List EquivalenceClass) (C : List (EquivalenceClass × RangeSet)) :
    assignDisequalLoop Ctx State Point Ds C =
      if ∃ D ∈ Ds, deletePoint (rangeTypeOf Ctx D) (inferClass Ctx State D) Point = [] then none
      else
        some (Ds.foldl
          (fun C D => mapAdd C D (deletePoint (rangeTypeOf Ctx D) (inferClass Ctx State D) Point))
          C) := by
  induction Ds generalizing C with
  | nil => simp [assignDisequalLoop]
  | cons D Ds ih =>
    unfold assignDisequalLoop
    by_cases hD : deletePoint (rangeTypeOf Ctx D) (inferClass Ctx State D) Point = []
    · simp only [hD, List.isEmpty_nil, if_true]
      rw [if_pos ⟨D, List.mem_cons_self _ _, hD⟩]
    · simp only [isEmpty_eq_false_of_ne_nil hD, Bool.false_eq_true, if_false]
      rw [ih, List.foldl_cons]
      by_cases hex : ∃ D' ∈ Ds,
          deletePoint (rangeTypeOf Ctx D') (inferClass Ctx State D') Point = []
      · obtain ⟨D', hD', he⟩ := hex
        rw [if_pos ⟨D', hD', he⟩, if_pos ⟨D', List.mem_cons_of_mem _ hD', he⟩]
      · rw [if_neg hex, if_neg]
        rintro ⟨D', hD', he⟩
        rcases List.mem_cons.mp hD' with rfl | hD'
        · exact hD he
        · exact hex ⟨D', hD', he⟩

theorem getConcreteValue_singleton (c : Int) : getConcreteValue [⟨c, c⟩] = some c := by
  simp [getConcreteValue]

theorem mem_mapAdd {V : Type} {m : List (Nat × V)} {k : Nat} {v : V} {p : Nat × V}
    (h : p ∈ mapAdd m k v) : p = (k, v) ∨ p ∈ m := by
  induction m with
  | nil =>
    simp only [mapAdd, List.mem_singleton] at h
    exact Or.inl h
  | cons a m ih =>
    obtain ⟨k', v'⟩ := a
    unfold mapAdd at h
    by_cases h1 : k < k'
    · rw [if_pos h1] at h
      rcases List.mem_cons.mp h with h | h
      · exact Or.inl h
      · exact Or.inr h
    · rw [if_neg h1] at h
      by_cases h2 : k = k'
      · rw [if_pos h2] at h
        rcases List.mem_cons.mp h with h | h
        · exact Or.inl h
        · exact Or.inr (List.mem_cons_of_mem _ h)
      · rw [if_neg h2] at h
        rcases List.mem_cons.mp h with h | h
        · exact Or.inr (h ▸ List.mem_cons_self _ _)
        · rcases ih h with h | h
          · exact Or.inl h
          · exact Or.inr (List.mem_cons_of_mem _ h)

theorem mem_mapRemove {V : Type} {m : List (Nat × V)} {k : Nat} {p : Nat × V}
    (h : p ∈ mapRemove m k) : p ∈ m ∧ p.1 ≠ k := by
  unfold mapRemove at h
  have := List.mem_filter.mp h
  exact ⟨this.1, by simpa using this.2⟩

theorem areFeasible_iff {Constraints : List (EquivalenceClass × RangeSet)} :
    areFeasible Constraints = true ↔ ∀ p ∈ Constraints, p.2 ≠ [] := by
  unfold areFeasible
  simp only [Bool.not_eq_true', List.any_eq_false, List.isEmpty_iff]

theorem areFeasible_mapAdd {Constraints : List (EquivalenceClass × RangeSet)}
    {K : EquivalenceClass} {C : RangeSet}
    (h : areFeasible Constraints = true) (hC : C ≠ []) :
    areFeasible (mapAdd Constraints K C) = true := by
  rw [areFeasible_iff] at h ⊢
  intro p hp
  rcases mem_mapAdd hp with rfl | hp
  · exact hC
  · exact h p hp

theorem areFeasible_mapRemove {Constraints : List (EquivalenceClass × RangeSet)}
    {K : EquivalenceClass} (h : areFeasible Constraints = true) :
    areFeasible (mapRemove Constraints K) = true := by
  rw [areFeasible_iff] at h ⊢
  intro p hp
  exact h p (mem_mapRemove hp).1

theorem mergeImplConstraints_feasible {State : ProgramState} {This Other : EquivalenceClass}
    {Constraints : List (EquivalenceClass × RangeSet)}
    (hF : areFeasible State.ConstraintRange = true)
    (h : mergeImplConstraints State This Other = some Constraints) :
    areFeasible Constraints = true := by
  unfold mergeImplConstraints at h
  cases hI : intersectOptional (getConstraint State This) (getConstraint State Other) with
  | none =>
    rw [hI] at h
    cases h
    exact hF
  | some I =>
    rw [hI] at h
    simp only at h
    by_cases hemp : I.isEmpty = true
    · rw [if_pos hemp] at h
      cases h
    · rw [if_neg hemp] at h
      cases h
      exact areFeasible_mapAdd (areFeasible_mapRemove hF)
        (fun hn => hemp (by rw [hn]; rfl))

theorem mergeClasses_feasible {getType : SymbolRef → QualType} {getHeight : SymbolSet → Nat}
    {State S' : ProgramState} {This Other : EquivalenceClass}
    (hF : areFeasible State.ConstraintRange = true)
    (h : mergeClasses getType getHeight State This Other = some S') :
    areFeasible S'.ConstraintRange = true := by
  unfold mergeClasses at h
  by_cases h1 : This = Other
  · rw [if_pos h1] at h
    cases h
    exact hF
  · rw [if_neg h1] at h
    by_cases h2 : getType This ≠ getType Other
    · rw [if_pos h2] at h
      cases h
      exact hF
    · rw [if_neg h2] at h
      simp only at h
      by_cases h3 : getHeight (getClassMembers State This) ≥
          getHeight (getClassMembers State Other)
      · rw [if_pos h3] at h
        obtain ⟨C, hC, _, rfl⟩ := mergeImpl_eq_some.mp h
        exact mergeImplConstraints_feasible hF hC
      · rw [if_neg h3] at h
        obtain ⟨C, hC, _, rfl⟩ := mergeImpl_eq_some.mp h
        exact mergeImplConstraints_feasible hF hC

theorem addToDisequalityInfo_feasible {rangeType : SymbolRef → APSIntType}
    {inferRange : ProgramState → SymbolRef → RangeSet}
    {Info I : List (EquivalenceClass × ClassSet)}
    {Constraints C : List (EquivalenceClass × RangeSet)} {State : ProgramState}
    {First Second : EquivalenceClass}
    (hF : areFeasible Constraints = true)
    (h : addToDisequalityInfo rangeType inferRange Info Constraints State First Second =
      some (I, C)) :
    areFeasible C = true := by
  obtain ⟨h1, h2⟩ := addToDisequalityInfo_constraints h
  cases hP : (mapLookup Constraints Second).bind getConcreteValue with
  | none =>
    rw [h2 hP]
    exact hF
  | some Point =>
    obtain ⟨hne, hC⟩ := h1 Point hP
    rw [hC]
    exact areFeasible_mapAdd hF hne

theorem markDisequal_feasible {rangeType : SymbolRef → APSIntType}
    {inferRange : ProgramState → SymbolRef → RangeSet}
    {State S' : ProgramState} {First Second : SymbolRef}
    (hF : areFeasible State.ConstraintRange = true)
    (h : markDisequal rangeType inferRange State First Second = some S') :
    areFeasible S'.ConstraintRange = true := by
  unfold markDisequal at h
  obtain ⟨_, I1, C1, I2, C2, h1, h2, rfl⟩ := markDisequalClasses_some h
  exact addToDisequalityInfo_feasible (addToDisequalityInfo_feasible hF h1) h2

/-- What every merge keeps true, the loop of `simplify` keeps true. -/
theorem simplifyLoop_preserves (Ctx : Context) (P : ProgramState → Prop)
    (hmerge : ∀ S A B S', P S → merge Ctx.getType Ctx.getHeight S A B = some S' → P S')
    (l : List SymbolRef) (S S' : ProgramState) (hP : P S)
    (h : simplifyLoop Ctx l S = some S') : P S' := by
  induction l generalizing S with
  | nil =>
    simp only [simplifyLoop, Option.some.injEq] at h
    exact h ▸ hP
  | cons m l ih =>
    unfold simplifyLoop at h
    cases hs : Ctx.simplify S m with
    | none =>
      rw [hs] at h
      exact ih S hP h
    | some m' =>
      rw [hs] at h
      simp only at h
      by_cases hne : m ≠ m'
      · rw [if_pos hne] at h
        cases hm : merge Ctx.getType Ctx.getHeight S m m' with
        | none => rw [hm] at h; cases h
        | some S1 =>
          rw [hm] at h
          exact ih S1 (hmerge S m m' S1 hP hm) h
      · rw [if_neg hne] at h
        exact ih S hP h

theorem simplifyClasses_preserves (Ctx : Context) (P : ProgramState → Prop)
    (hmerge : ∀ S A B S', P S → merge Ctx.getType Ctx.getHeight S A B = some S' → P S')
    (l : List EquivalenceClass) (S S' : ProgramState) (hP : P S)
    (h : simplifyClasses Ctx l S = some S') : P S' := by
  induction l generalizing S with
  | nil =>
    simp only [simplifyClasses, Option.some.injEq] at h
    exact h ▸ hP
  | cons K l ih =>
    unfold simplifyClasses at h
    cases hs : simplify Ctx S K with
    | none => rw [hs] at h; cases h
    | some S1 =>
      rw [hs] at h
      exact ih S1 (simplifyLoop_preserves Ctx P hmerge _ S S1 hP hs) h

theorem assignSymExprToConst_preserves (Ctx : Context) (P : ProgramState → Prop)
    (hmerge : ∀ S A B S', P S → merge Ctx.getType Ctx.getHeight S A B = some S' → P S')
    (S S' : ProgramState) (hP : P S)
    (h : assignSymExprToConst Ctx S = some S') : P S' := by
  unfold assignSymExprToConst at h
  simp only at h
  cases h1 : simplifyClasses Ctx (List.map Prod.fst S.ClassMembers) S with
  | none => rw [h1] at h; cases h
  | some S1 =>
    rw [h1] at h
    exact simplifyClasses_preserves Ctx P hmerge _ S1 S'
      (simplifyClasses_preserves Ctx P hmerge _ S S1 hP h1) h

theorem assignSymSymExprToRangeSet_preserves (Ctx : Context) (P : ProgramState → Prop)
    (hmerge : ∀ S A B S', P S → merge Ctx.getType Ctx.getHeight S A B = some S' → P S')
    (hmark : ∀ S A B S', P S →
      markDisequal (rangeTypeOf Ctx) (inferRange Ctx) S A B = some S' → P S')
    (S S' : ProgramState) (Sym LHS : SymbolRef) (Op : Opcode) (RHS : SymbolRef)
    (C : RangeSet) (hP : P S)
    (h : assignSymSymExprToRangeSet Ctx S Sym LHS Op RHS C = some S') : P S' := by
  unfold assignSymSymExprToRangeSet at h
  cases hb : interpreteAsBool (rangeTypeOf Ctx Sym) C with
  | none =>
    rw [hb] at h
    cases h
    exact hP
  | some b =>
    rw [hb] at h
    simp only at h
    cases he : meansEquality Op with
    | none =>
      rw [he] at h
      cases h
      exact hP
    | some e =>
      rw [he] at h
      simp only at h
      by_cases heq : e = b
      · rw [if_pos heq] at h
        exact hmerge S LHS RHS S' hP h
      · rw [if_neg heq] at h
        exact hmark S LHS RHS S' hP h

theorem assignBase_preserves (Ctx : Context) (P : ProgramState → Prop)
    (hmerge : ∀ S A B S', P S → merge Ctx.getType Ctx.getHeight S A B = some S' → P S')
    (hmark : ∀ S A B S', P S →
      markDisequal (rangeTypeOf Ctx) (inferRange Ctx) S A B = some S' → P S')
    (S S' : ProgramState) (Sym : SymbolRef) (C : RangeSet) (hP : P S)
    (h : assignBase Ctx S Sym C = some S') : P S' := by
  unfold assignBase at h
  simp only at h
  have key : ∀ S1, P S1 →
      (match getConcreteValue C with
        | some _ => assignSymExprToConst Ctx S1
        | none => some S1) = some S' → P S' := by
    intro S1 hP1 h1
    cases hc : getConcreteValue C with
    | none =>
      rw [hc] at h1
      cases h1
      exact hP1
    | some c =>
      rw [hc] at h1
      exact assignSymExprToConst_preserves Ctx P hmerge S1 S' hP1 h1
  cases hE : Ctx.getExpr Sym with
  | SymbolData s =>
    rw [hE] at h
    exact key S hP h
  | SymIntExpr s L Op R =>
    rw [hE] at h
    exact key S hP h
  | IntSymExpr s L Op R =>
    rw [hE] at h
    exact key S hP h
  | SymSymExpr s L Op R =>
    rw [hE] at h
    simp only at h
    cases h2 : assignSymSymExprToRangeSet Ctx S Sym L.getSym Op R.getSym C with
    | none => rw [h2] at h; cases h
    | some S1 =>
      rw [h2] at h
      exact key S1
        (assignSymSymExprToRangeSet_preserves Ctx P hmerge hmark S S1 Sym _ Op _ C hP h2) h

theorem assignDisequalLoop_feasible (Ctx : Context) (State : ProgramState) (Point : Int)
    (Ds : List EquivalenceClass) (C C' : List (EquivalenceClass × RangeSet))
    (hF : areFeasible C = true)
    (h : assignDisequalLoop Ctx State Point Ds C = some C') : areFeasible C' = true := by
  induction Ds generalizing C with
  | nil =>
    simp only [assignDisequalLoop, Option.some.injEq] at h
    exact h ▸ hF
  | cons D Ds ih =>
    unfold assignDisequalLoop at h
    simp only at h
    by_cases he : (deletePoint (rangeTypeOf Ctx D) (inferClass Ctx State D) Point).isEmpty = true
    · rw [if_pos he] at h
      cases h
    · rw [if_neg he] at h
      exact ih _ (areFeasible_mapAdd hF (fun hn => he (by rw [hn]; rfl))) h

theorem assignClass_feasible (Ctx : Context) (State S' : ProgramState)
    (Class : EquivalenceClass) (NewConstraint : RangeSet)
    (hF : areFeasible State.ConstraintRange = true) (hN : NewConstraint ≠ [])
    (h : assignClass Ctx State Class NewConstraint = some S') :
    areFeasible S'.ConstraintRange = true := by
  unfold assignClass at h
  cases hc : getConcreteValue NewConstraint with
  | none =>
    rw [hc] at h
    cases h
    exact areFeasible_mapAdd hF hN
  | some Point =>
    rw [hc] at h
    simp only at h
    cases hl : assignDisequalLoop Ctx State Point (getDisequalClasses State Class)
        (mapAdd State.ConstraintRange Class NewConstraint) with
    | none => rw [hl] at h; cases h
    | some C' =>
      rw [hl] at h
      cases h
      exact assignDisequalLoop_feasible Ctx State Point _ _ C' (areFeasible_mapAdd hF hN) hl

/-- C24: no stored constraint is ever empty: for every state whose
`ConstraintRange` map has no empty range set, every non-null state returned by
`ConstraintAssignor::assign` (for a symbol or for a class),
`EquivalenceClass::merge` and `EquivalenceClass::markDisequal` again has no
class mapped to an empty range set; and `assign` returns the null state
whenever the new constraint is empty. -/
theorem stored_constraints_never_empty (Ctx : Context) (State : ProgramState)
    (hF : areFeasible State.ConstraintRange = true) :
    (∀ Sym C S', assign Ctx State Sym C = some S' → areFeasible S'.ConstraintRange = true) ∧
    (∀ K C S', assignToClass Ctx State K C = some S' →
      areFeasible S'.ConstraintRange = true) ∧
    (∀ A B S', merge Ctx.getType Ctx.getHeight State A B = some S' →
      areFeasible S'.ConstraintRange = true) ∧
    (∀ A B S', markDisequal (rangeTypeOf Ctx) (inferRange Ctx) State A B = some S' →
      areFeasible S'.ConstraintRange = true) ∧
    (∀ Sym, assign Ctx State Sym [] = none) ∧
    (∀ K, assignToClass Ctx State K [] = none) := by
  refine ⟨?_, ?_, ?_, ?_, ?_, ?_⟩
  · intro Sym C S' h
    unfold assign at h
    by_cases hC : C.isEmpty = true
    · rw [if_pos hC] at h
      cases h
    · rw [if_neg hC] at h
      unfold assignSym at h
      cases h1 : assignClass Ctx State (find State Sym) C with
      | none => rw [h1] at h; cases h
      | some S1 =>
        rw [h1] at h
        simp only at h
        have hF1 := assignClass_feasible Ctx State S1 _ C hF
          (fun hn => hC (by rw [hn]; rfl)) h1
        exact assignBase_preserves Ctx (fun S => areFeasible S.ConstraintRange = true)
          (fun S A B S' hS hm => mergeClasses_feasible hS hm)
          (fun S A B S' hS hm => markDisequal_feasible hS hm) S1 S' Sym C hF1 h
  · intro K C S' h
    unfold assignToClass at h
    by_cases hC : C.isEmpty = true
    · rw [if_pos hC] at h
      cases h
    · rw [if_neg hC] at h
      exact assignClass_feasible Ctx State S' K C hF (fun hn => hC (by rw [hn]; rfl)) h
  · intro A B S' h
    exact mergeClasses_feasible hF h
  · intro A B S' h
    exact markDisequal_feasible hF h
  · intro Sym
    exact assign_nil Ctx State Sym
  · intro K
    simp [assignToClass]

theorem stored_constraints_never_empty_witness :
    areFeasible (ProgramState.ConstraintRange
      ⟨[], [], [(1, [⟨0, 10⟩]), (2, [⟨5, 20⟩])], [(1, [3]), (3, [1])]⟩) = true ∧
    assign sampleContext ⟨[], [], [(1, [⟨0, 10⟩]), (2, [⟨5, 20⟩])], [(1, [3]), (3, [1])]⟩ 1
        [⟨5, 5⟩] =
      some ⟨[], [], [(1, [⟨5, 5⟩]), (2, [⟨5, 20⟩]), (3, [⟨-128, 4⟩, ⟨6, 127⟩])],
        [(1, [3]), (3, [1])]⟩ ∧
    ((∀ Sym C S',
        assign sampleContext
          ⟨[], [], [(1, [⟨0, 10⟩]), (2, [⟨5, 20⟩])], [(1, [3]), (3, [1])]⟩ Sym C = some S' →
        areFeasible S'.ConstraintRange = true) ∧
      (∀ K C S',
        assignToClass sampleContext
          ⟨[], [], [(1, [⟨0, 10⟩]), (2, [⟨5, 20⟩])], [(1, [3]), (3, [1])]⟩ K C = some S' →
        areFeasible S'.ConstraintRange = true) ∧
      (∀ A B S',
        merge sampleContext.getType sampleContext.getHeight
          ⟨[], [], [(1, [⟨0, 10⟩]), (2, [⟨5, 20⟩])], [(1, [3]), (3, [1])]⟩ A B = some S' →
        areFeasible S'.ConstraintRange = true) ∧
      (∀ A B S',
        markDisequal (rangeTypeOf sampleContext) (inferRange sampleContext)
          ⟨[], [], [(1, [⟨0, 10⟩]), (2, [⟨5, 20⟩])], [(1, [3]), (3, [1])]⟩ A B = some S' →
        areFeasible S'.ConstraintRange = true) ∧
      (∀ Sym,
        assign sampleContext
          ⟨[], [], [(1, [⟨0, 10⟩]), (2, [⟨5, 20⟩])], [(1, [3]), (3, [1])]⟩ Sym [] = none) ∧
      (∀ K,
        assignToClass sampleContext
          ⟨[], [], [(1, [⟨0, 10⟩]), (2, [⟨5, 20⟩])], [(1, [3]), (3, [1])]⟩ K [] = none)) :=
  ⟨by decide, by decide,
    stored_constraints_never_empty sampleContext
      ⟨[], [], [(1, [⟨0, 10⟩]), (2, [⟨5, 20⟩])], [(1, [3]), (3, [1])]⟩ (by decide)⟩

/-! ## Removing dead symbols -/

/-- C25, at the failing input: marking the fresh symbols 1 and 2 disequal gives
a consistent state in which the class of 1 is trivial and has disequality
edges but no stored constraint; with the symbol 1 dead, `removeDeadBindings`
returns that state unchanged, so the dead class 1 is still a key of
`DisequalityMap` and still in the disequality set of the class 2. -/
theorem removeDeadBindings_keeps_dead_trivial_class :
    markDisequal (rangeTypeOf sampleContext) (inferRange sampleContext) ⟨[], [], [], []⟩ 1 2 =
      some ⟨[], [], [], [(1, [2]), (2, [1])]⟩ ∧
    isClassDataConsistent ⟨[], [], [], [(1, [2]), (2, [1])]⟩ = true ∧
    isTriviallyDead (fun Sym => decide (Sym = 1)) ⟨[], [], [], [(1, [2]), (2, [1])]⟩ 1 = true ∧
    getClassMembers ⟨[], [], [], [(1, [2]), (2, [1])]⟩ 1 = [1] ∧
    getConstraint ⟨[], [], [], [(1, [2]), (2, [1])]⟩ 1 = none ∧
    removeDeadBindings (fun Sym => decide (Sym = 1)) ⟨[], [], [], [(1, [2]), (2, [1])]⟩ =
      ⟨[], [], [], [(1, [2]), (2, [1])]⟩ ∧
    mapLookup (removeDeadBindings (fun Sym => decide (Sym = 1))
      ⟨[], [], [], [(1, [2]), (2, [1])]⟩).DisequalityMap 1 = some [2] ∧
    1 ∈ getDisequalClasses (removeDeadBindings (fun Sym => decide (Sym = 1))
      ⟨[], [], [], [(1, [2]), (2, [1])]⟩) 2 ∧
    removeDeadBindings (fun Sym => decide (Sym = 1))
        ⟨[], [], [(1, [⟨0, 9⟩])], [(1, [2]), (2, [1])]⟩ =
      ⟨[], [], [], []⟩ := by
  decide

theorem keysOrdered_mapRemove {V : Type} {m : List (Nat × V)} (k : Nat)
    (h : KeysOrdered m) : KeysOrdered (mapRemove m k) :=
  List.Pairwise.sublist (List.filter_sublist _) h

theorem keysOrdered_mapAdd {V : Type} {m : List (Nat × V)} (k : Nat) (v : V)
    (h : KeysOrdered m) : KeysOrdered (mapAdd m k v) := by
  induction m with
  | nil => exact List.pairwise_singleton _ _
  | cons a m ih =>
    obtain ⟨k', v'⟩ := a
    have hm : KeysOrdered m := (List.pairwise_cons.mp h).2
    have ha : ∀ b ∈ m, k' < b.1 := (List.pairwise_cons.mp h).1
    unfold mapAdd
    by_cases h1 : k < k'
    · rw [if_pos h1]
      refine List.pairwise_cons.mpr ⟨?_, h⟩
      intro b hb
      rcases List.mem_cons.mp hb with rfl | hb
      · exact h1
      · exact lt_trans h1 (ha b hb)
    · rw [if_neg h1]
      by_cases h2 : k = k'
      · rw [if_pos h2]
        refine List.pairwise_cons.mpr ⟨?_, hm⟩
        intro b hb
        rw [h2]
        exact ha b hb
      · rw [if_neg h2]
        refine List.pairwise_cons.mpr ⟨?_, ih hm⟩
        intro b hb
        rcases mem_mapAdd hb with rfl | hb
        · show k' < k
          omega
        · exact ha b hb

theorem mapLookup_of_mem {V : Type} {m : List (Nat × V)} (h : KeysOrdered m) {k : Nat} {v : V}
    (hkv : (k, v) ∈ m) : mapLookup m k = some v := by
  induction m with
  | nil => exact absurd hkv (List.not_mem_nil _)
  | cons a m ih =>
    obtain ⟨k', v'⟩ := a
    have hm : KeysOrdered m := (List.pairwise_cons.mp h).2
    have ha : ∀ b ∈ m, k' < b.1 := (List.pairwise_cons.mp h).1
    unfold mapLookup
    rcases List.mem_cons.mp hkv with heq | hkv
    · cases heq
      rw [if_pos rfl]
    · have := ha (k, v) hkv
      rw [if_neg (by show k ≠ k'; omega)]
      exact ih hm hkv

theorem mapLookup_none_of_not_key {V : Type} {m : List (Nat × V)} {k : Nat}
    (h : ∀ p ∈ m, p.1 ≠ k) : mapLookup m k = none := by
  induction m with
  | nil => rfl
  | cons a m ih =>
    obtain ⟨k', v'⟩ := a
    unfold mapLookup
    rw [if_neg (fun hk => h (k', v') (List.mem_cons_self _ _) hk.symm)]
    exact ih (fun p hp => h p (List.mem_cons_of_mem _ hp))

theorem list_isEmpty_eq_false {α : Type} {l : List α} : l.isEmpty = false ↔ l ≠ [] := by
  cases l <;> simp

/-- The consistency check, in terms of lookups, for maps in key order. -/
theorem isClassDataConsistent_iff {State : ProgramState}
    (hM : KeysOrdered State.ClassMembers) (hD : KeysOrdered State.DisequalityMap) :
    isClassDataConsistent State = true ↔
      (∀ K M, mapLookup State.ClassMembers K = some M → ∀ m ∈ M, find State m = K) ∧
      (∀ K Ds, mapLookup State.DisequalityMap K = some Ds →
        Ds ≠ [] ∧ ∀ D ∈ Ds, ∃ Ds', mapLookup State.DisequalityMap D = some Ds' ∧ K ∈ Ds') := by
  unfold isClassDataConsistent
  simp only [Bool.and_eq_true, List.all_eq_true, decide_eq_true_eq, Bool.not_eq_true',
    list_isEmpty_eq_false]
  constructor
  · rintro ⟨h1, h2⟩
    refine ⟨fun K M hK m hm => h1 (K, M) (mem_of_mapLookup hK) m hm, fun K Ds hK => ?_⟩
    obtain ⟨hne, hall⟩ := h2 (K, Ds) (mem_of_mapLookup hK)
    refine ⟨hne, fun D hD' => ?_⟩
    have := hall D hD'
    cases hl : mapLookup State.DisequalityMap D with
    | none => rw [hl] at this; cases this
    | some Ds' =>
      rw [hl] at this
      exact ⟨Ds', rfl, setContains_iff.mp this⟩
  · rintro ⟨h1, h2⟩
    refine ⟨fun p hp m hm => h1 p.1 p.2 (mapLookup_of_mem hM hp) m hm, fun p hp => ?_⟩
    obtain ⟨hne, hall⟩ := h2 p.1 p.2 (mapLookup_of_mem hD hp)
    refine ⟨hne, fun D hD' => ?_⟩
    obtain ⟨Ds', hl, hmem⟩ := hall D hD'
    rw [hl]
    exact setContains_iff.mpr hmem

theorem mapLookup_removeDeadKeys (isDead : SymbolRef → Bool)
    (l : List (SymbolRef × EquivalenceClass)) (m : List (SymbolRef × EquivalenceClass))
    (s : SymbolRef) (hs : isDead s = false) :
    mapLookup (l.foldl
      (fun NewMap SymbolClassPair =>
        if isDead SymbolClassPair.1 then mapRemove NewMap SymbolClassPair.1 else NewMap) m) s =
      mapLookup m s := by
  induction l generalizing m with
  | nil => rfl
  | cons p l ih =>
    rw [List.foldl_cons, ih]
    by_cases hp : isDead p.1 = true
    · rw [if_pos hp]
      have hne : s ≠ p.1 := fun h => by rw [h, hp] at hs; cases hs
      exact mapLookup_mapRemove_of_ne _ hne
    · rw [if_neg hp]

theorem mem_foldl_removeDead (isDead : SymbolRef → Bool) (l L : List SymbolRef)
    (x : SymbolRef) :
    x ∈ l.foldl (fun LiveMembers Member =>
        if isDead Member then setRemove LiveMembers Member else LiveMembers) L ↔
      x ∈ L ∧ ¬(x ∈ l ∧ isDead x = true) := by
  induction l generalizing L with
  | nil => simp
  | cons a l ih =>
    rw [List.foldl_cons, ih]
    by_cases ha : isDead a = true
    · rw [if_pos ha, mem_setRemove]
      constructor
      · rintro ⟨⟨h1, h2⟩, h3⟩
        refine ⟨h1, ?_⟩
        rintro ⟨h4, h5⟩
        rcases List.mem_cons.mp h4 with h4 | h4
        · exact h2 h4
        · exact h3 ⟨h4, h5⟩
      · rintro ⟨h1, h2⟩
        refine ⟨⟨h1, ?_⟩, ?_⟩
        · intro hxa
          exact h2 ⟨hxa ▸ List.mem_cons_self _ _, hxa ▸ ha⟩
        · rintro ⟨h4, h5⟩
          exact h2 ⟨List.mem_cons_of_mem _ h4, h5⟩
    · rw [if_neg ha]
      constructor
      · rintro ⟨h1, h3⟩
        refine ⟨h1, ?_⟩
        rintro ⟨h4, h5⟩
        rcases List.mem_cons.mp h4 with h4 | h4
        · exact ha (h4 ▸ h5)
        · exact h3 ⟨h4, h5⟩
      · rintro ⟨h1, h2⟩
        refine ⟨h1, ?_⟩
        rintro ⟨h4, h5⟩
        exact h2 ⟨List.mem_cons_of_mem _ h4, h5⟩

/-- The live members of a class are its members that are not dead. -/
theorem mem_liveMembers (isDead : SymbolRef → Bool) (M : SymbolSet) (x : SymbolRef) :
    x ∈ liveMembers isDead M ↔ x ∈ M ∧ isDead x = false := by
  unfold liveMembers
  rw [mem_foldl_removeDead]
  constructor
  · rintro ⟨h1, h2⟩
    refine ⟨h1, ?_⟩
    cases hx : isDead x with
    | false => rfl
    | true => exact absurd ⟨h1, hx⟩ h2
  · rintro ⟨h1, h2⟩
    refine ⟨h1, ?_⟩
    rintro ⟨_, h3⟩
    rw [h2] at h3
    cases h3

/-- The members map after step 3 of `removeDeadBindings`, by lookups. -/
theorem mapLookup_removeDeadMembers (isDead : SymbolRef → Bool)
    (l : List (EquivalenceClass × SymbolSet)) (hl : KeysOrdered l)
    (Acc : List (EquivalenceClass × SymbolSet) ×
      (List (EquivalenceClass × RangeSet) × List (EquivalenceClass × ClassSet)))
    (K : EquivalenceClass) :
    mapLookup (l.foldl (removeDeadMembers isDead) Acc).1 K =
      match mapLookup l K with
      | some M =>
        if M.any isDead = true then
          if (liveMembers isDead M).isEmpty = true then none
          else some (liveMembers isDead M)
        else mapLookup Acc.1 K
      | none => mapLookup Acc.1 K := by
  induction l generalizing Acc with
  | nil => rfl
  | cons p l ih =>
    obtain ⟨k, M⟩ := p
    have hl' : KeysOrdered l := (List.pairwise_cons.mp hl).2
    have hk : ∀ b ∈ l, k < b.1 := (List.pairwise_cons.mp hl).1
    rw [List.foldl_cons, ih hl']
    by_cases hK : K = k
    · subst hK
      have hnone : mapLookup l K = none :=
        mapLookup_none_of_not_key (fun b hb => Nat.ne_of_gt (hk b hb))
      rw [hnone]
      simp only [mapLookup, if_true]
      unfold removeDeadMembers
      simp only []
      by_cases hc : M.any isDead = true
      · rw [hc]
        simp only [Bool.not_true, Bool.false_eq_true, if_false, if_true]
        by_cases he : (liveMembers isDead M).isEmpty = true
        · rw [if_pos he, if_pos he]
          exact mapLookup_mapRemove_self _ _
        · rw [if_neg he, if_neg he]
          exact mapLookup_mapAdd_self _ _ _
      · rw [Bool.not_eq_true] at hc
        rw [hc]
        simp
    · have hstep : mapLookup (removeDeadMembers isDead Acc (k, M)).1 K = mapLookup Acc.1 K := by
        unfold removeDeadMembers
        simp only []
        by_cases hc : M.any isDead = true
        · rw [hc]
          simp only [Bool.not_true, Bool.false_eq_true, if_false]
          by_cases he : (liveMembers isDead M).isEmpty = true
          · rw [if_pos he]
            exact mapLookup_mapRemove_of_ne _ hK
          · rw [if_neg he]
            exact mapLookup_mapAdd_of_ne _ _ hK
        · rw [Bool.not_eq_true] at hc
          rw [hc]
          simp
      rw [hstep]
      simp only [mapLookup, if_neg hK]

theorem keysOrdered_removeDeadMembers (isDead : SymbolRef → Bool)
    (l : List (EquivalenceClass × SymbolSet))
    (Acc : List (EquivalenceClass × SymbolSet) ×
      (List (EquivalenceClass × RangeSet) × List (EquivalenceClass × ClassSet)))
    (h : KeysOrdered Acc.1) : KeysOrdered (l.foldl (removeDeadMembers isDead) Acc).1 := by
  induction l generalizing Acc with
  | nil => exact h
  | cons p l ih =>
    rw [List.foldl_cons]
    apply ih
    unfold removeDeadMembers
    simp only []
    split_ifs
    · exact h
    · exact keysOrdered_mapRemove _ h
    · exact keysOrdered_mapAdd _ _ h

theorem setRemove_setRemove (s : List Nat) (x : Nat) :
    setRemove (setRemove s x) x = setRemove s x := by
  unfold setRemove
  rw [List.filter_filter]
  simp

theorem setRemove_nil (x : Nat) : setRemove [] x = [] := rfl

/-- The disequality map after the loop of `removeDeadClass`, by lookups. -/
theorem mapLookup_removeFromDisequalSets (Class : EquivalenceClass)
    (l : List EquivalenceClass) (DM : List (EquivalenceClass × ClassSet))
    (k : EquivalenceClass) :
    mapLookup (removeFromDisequalSets Class l DM) k =
      if k ∈ l then
        if (setRemove (getDisequalClassesIn DM k) Class).isEmpty = true then none
        else some (setRemove (getDisequalClassesIn DM k) Class)
      else mapLookup DM k := by
  induction l generalizing DM with
  | nil => simp [removeFromDisequalSets]
  | cons d l ih =>
    -- the map after the step for `d`
    have hstep : ∀ DM' : List (EquivalenceClass × ClassSet),
        DM' = (if (setRemove (getDisequalClassesIn DM d) Class).isEmpty = true then
            mapRemove DM d
          else mapAdd DM d (setRemove (getDisequalClassesIn DM d) Class)) →
        (mapLookup DM' d =
          if (setRemove (getDisequalClassesIn DM d) Class).isEmpty = true then none
          else some (setRemove (getDisequalClassesIn DM d) Class)) ∧
        (∀ k', k' ≠ d → mapLookup DM' k' = mapLookup DM k') := by
      intro DM' hDM'
      by_cases he : (setRemove (getDisequalClassesIn DM d) Class).isEmpty = true
      · rw [if_pos he] at hDM'
        rw [if_pos he, hDM']
        exact ⟨mapLookup_mapRemove_self _ _, fun k' hk' => mapLookup_mapRemove_of_ne _ hk'⟩
      · rw [if_neg he] at hDM'
        rw [if_neg he, hDM']
        exact ⟨mapLookup_mapAdd_self _ _ _, fun k' hk' => mapLookup_mapAdd_of_ne _ _ hk'⟩
    have hunf : removeFromDisequalSets Class (d :: l) DM =
        removeFromDisequalSets Class l
          (if (setRemove (getDisequalClassesIn DM d) Class).isEmpty = true then
            mapRemove DM d
          else mapAdd DM d (setRemove (getDisequalClassesIn DM d) Class)) := by
      rw [removeFromDisequalSets]
      split_ifs <;> rfl
    rw [hunf]
    obtain ⟨hd, hother⟩ := hstep _ rfl
    generalize (if (setRemove (getDisequalClassesIn DM d) Class).isEmpty = true then
        mapRemove DM d
      else mapAdd DM d (setRemove (getDisequalClassesIn DM d) Class)) = DM' at hd hother
    rw [ih]
    -- the value that the loop gives for a key is the same on both maps
    have hF : ∀ k', setRemove (getDisequalClassesIn DM' k') Class =
        setRemove (getDisequalClassesIn DM k') Class := by
      intro k'
      by_cases hk' : k' = d
      · subst hk'
        rw [getDisequalClassesIn_eq DM', hd]
        by_cases he : (setRemove (getDisequalClassesIn DM k') Class).isEmpty = true
        · rw [if_pos he]
          have : setRemove (getDisequalClassesIn DM k') Class = [] := List.isEmpty_iff.mp he
          rw [this]
          rfl
        · rw [if_neg he]
          exact setRemove_setRemove _ _
      · rw [getDisequalClassesIn_eq DM', getDisequalClassesIn_eq DM, hother k' hk']
    by_cases hkl : k ∈ l
    · rw [if_pos hkl, if_pos (List.mem_cons_of_mem _ hkl), hF]
    · rw [if_neg hkl]
      by_cases hkd : k = d
      · subst hkd
        rw [if_pos (List.mem_cons_self _ _), hd]
      · rw [if_neg (fun h => by
          rcases List.mem_cons.mp h with h | h
          · exact hkd h
          · exact hkl h), hother k hkd]

theorem keysOrdered_removeFromDisequalSets (Class : EquivalenceClass)
    (l : List EquivalenceClass) (DM : List (EquivalenceClass × ClassSet))
    (h : KeysOrdered DM) : KeysOrdered (removeFromDisequalSets Class l DM) := by
  induction l generalizing DM with
  | nil => exact h
  | cons d l ih =>
    rw [removeFromDisequalSets]
    split_ifs
    · exact ih _ (keysOrdered_mapRemove _ h)
    · exact ih _ (keysOrdered_mapAdd _ _ h)

theorem keysOrdered_removeDeadClass
    (Maps : List (EquivalenceClass × RangeSet) × List (EquivalenceClass × ClassSet))
    (Class : EquivalenceClass) (h : KeysOrdered Maps.2) :
    KeysOrdered (removeDeadClass Maps Class).2 := by
  unfold removeDeadClass
  simp only []
  split_ifs
  · exact keysOrdered_mapRemove _ (keysOrdered_removeFromDisequalSets _ _ _ h)
  · exact h

/-- The local function `removeDeadClass` keeps the disequalities symmetric and
without empty sets. -/
theorem symmetric_removeDeadClass
    (Maps : List (EquivalenceClass × RangeSet) × List (EquivalenceClass × ClassSet))
    (Class : EquivalenceClass) (h : SymmetricDisequalities Maps.2) :
    SymmetricDisequalities (removeDeadClass Maps Class).2 := by
  unfold removeDeadClass
  simp only []
  by_cases he : (getDisequalClassesIn Maps.2 Class).isEmpty = true
  · rw [he]
    exact h
  · rw [Bool.not_eq_true] at he
    rw [he]
    simp only [Bool.not_false, if_true]
    -- the lookup of the map that is returned
    have hlook : ∀ k, mapLookup
        (mapRemove (removeFromDisequalSets Class (getDisequalClassesIn Maps.2 Class) Maps.2)
          Class) k =
        if k = Class then none
        else if k ∈ getDisequalClassesIn Maps.2 Class then
          if (setRemove (getDisequalClassesIn Maps.2 k) Class).isEmpty = true then none
          else some (setRemove (getDisequalClassesIn Maps.2 k) Class)
        else mapLookup Maps.2 k := by
      intro k
      rw [mapLookup_mapRemove, mapLookup_removeFromDisequalSets]
    -- the set of the removed class
    obtain ⟨Ds0, hDs0⟩ : ∃ Ds0, mapLookup Maps.2 Class = some Ds0 := by
      cases hl : mapLookup Maps.2 Class with
      | none =>
        rw [getDisequalClassesIn_eq, hl] at he
        cases he
      | some Ds0 => exact ⟨Ds0, rfl⟩
    have hg0 : getDisequalClassesIn Maps.2 Class = Ds0 := by
      rw [getDisequalClassesIn_eq, hDs0]; rfl
    -- what a class is disequal to, after the removal
    have hafter : ∀ D Ds' k, D ≠ Class → k ≠ Class → mapLookup Maps.2 D = some Ds' →
        k ∈ Ds' →
        ∃ Ds'', mapLookup
          (mapRemove (removeFromDisequalSets Class (getDisequalClassesIn Maps.2 Class) Maps.2)
            Class) D = some Ds'' ∧ k ∈ Ds'' := by
      intro D Ds' k hD hk hl hmem
      rw [hlook, if_neg hD]
      have hg : getDisequalClassesIn Maps.2 D = Ds' := by
        rw [getDisequalClassesIn_eq, hl]; rfl
      by_cases hin : D ∈ getDisequalClassesIn Maps.2 Class
      · rw [if_pos hin, hg]
        have hk' : k ∈ setRemove Ds' Class := mem_setRemove.mpr ⟨hmem, hk⟩
        have hne : ¬(setRemove Ds' Class).isEmpty = true := by
          intro hemp
          rw [List.isEmpty_iff.mp hemp] at hk'
          exact absurd hk' (List.not_mem_nil _)
        rw [if_neg hne]
        exact ⟨_, rfl, hk'⟩
      · rw [if_neg hin]
        exact ⟨Ds', hl, hmem⟩
    intro K Ds hK
    rw [hlook] at hK
    by_cases hKC : K = Class
    · rw [if_pos hKC] at hK
      cases hK
    · rw [if_neg hKC] at hK
      by_cases hin : K ∈ getDisequalClassesIn Maps.2 Class
      · rw [if_pos hin] at hK
        by_cases hemp : (setRemove (getDisequalClassesIn Maps.2 K) Class).isEmpty = true
        · rw [if_pos hemp] at hK
          cases hK
        · rw [if_neg hemp] at hK
          cases hK
          refine ⟨fun hn => hemp (by rw [hn]; rfl), fun D hD => ?_⟩
          obtain ⟨hD1, hD2⟩ := mem_setRemove.mp hD
          cases hlK : mapLookup Maps.2 K with
          | none =>
            rw [getDisequalClassesIn_eq, hlK] at hD1
            exact absurd hD1 (List.not_mem_nil _)
          | some DsK =>
            rw [getDisequalClassesIn_eq, hlK] at hD1
            obtain ⟨Ds', hl', hmem'⟩ := (h K DsK hlK).2 D hD1
            exact hafter D Ds' K hD2 hKC hl' hmem'
      · rw [if_neg hin] at hK
        refine ⟨(h K Ds hK).1, fun D hD => ?_⟩
        obtain ⟨Ds', hl', hmem'⟩ := (h K Ds hK).2 D hD
        have hDC : D ≠ Class := by
          intro hDC
          rw [hDC, hDs0] at hl'
          cases hl'
          exact hin (hg0 ▸ hmem')
        exact hafter D Ds' K hDC hKC hl' hmem'

theorem removeDeadMembers_snd_preserves (isDead : SymbolRef → Bool)
    (P : List (EquivalenceClass × ClassSet) → Prop)
    (hP : ∀ Maps Class, P Maps.2 → P (removeDeadClass Maps Class).2)
    (l : List (EquivalenceClass × SymbolSet))
    (Acc : List (EquivalenceClass × SymbolSet) ×
      (List (EquivalenceClass × RangeSet) × List (EquivalenceClass × ClassSet)))
    (h : P Acc.2.2) : P (l.foldl (removeDeadMembers isDead) Acc).2.2 := by
  induction l generalizing Acc with
  | nil => exact h
  | cons p l ih =>
    rw [List.foldl_cons]
    apply ih
    unfold removeDeadMembers
    simp only []
    split_ifs
    · exact h
    · exact hP _ _ h
    · exact h

theorem removeTriviallyDead_preserves (isDead : SymbolRef → Bool) (State : ProgramState)
    (P : List (EquivalenceClass × ClassSet) → Prop)
    (hP : ∀ Maps Class, P Maps.2 → P (removeDeadClass Maps Class).2)
    (l : List (EquivalenceClass × RangeSet))
    (Maps : List (EquivalenceClass × RangeSet) × List (EquivalenceClass × ClassSet))
    (h : P Maps.2) :
    P (l.foldl
      (fun Maps ClassConstraintPair =>
        if isTriviallyDead isDead State ClassConstraintPair.1 then
          removeDeadClass Maps ClassConstraintPair.1
        else Maps) Maps).2 := by
  induction l generalizing Maps with
  | nil => exact h
  | cons p l ih =>
    rw [List.foldl_cons]
    apply ih
    split_ifs
    · exact hP _ _ h
    · exact h

theorem find_removeDeadBindings (isDead : SymbolRef → Bool) (State : ProgramState)
    (m : SymbolRef) (hm : isDead m = false) :
    find (removeDeadBindings isDead State) m = find State m := by
  unfold find removeDeadBindings
  simp only []
  rw [mapLookup_removeDeadKeys isDead _ _ m hm]

/-- C26: garbage collection keeps class data consistent: for every state that
satisfies `isClassDataConsistent` (its members map and its disequality map in
key order, as persistent maps are) and every reaper, the state returned by
`removeDeadBindings` satisfies `isClassDataConsistent`: every listed member
maps back to its class, no disequality set is empty, and disequality edges are
symmetric. -/
theorem removeDeadBindings_consistent (isDead : SymbolRef → Bool) (State : ProgramState)
    (hM : KeysOrdered State.ClassMembers) (hD : KeysOrdered State.DisequalityMap)
    (h : isClassDataConsistent State = true) :
    isClassDataConsistent (removeDeadBindings isDead State) = true := by
  obtain ⟨h1, h2⟩ := (isClassDataConsistent_iff hM hD).mp h
  have hM' : KeysOrdered (removeDeadBindings isDead State).ClassMembers := by
    unfold removeDeadBindings
    exact keysOrdered_removeDeadMembers isDead _ _ hM
  have hP : KeysOrdered (removeDeadBindings isDead State).DisequalityMap ∧
      SymmetricDisequalities (removeDeadBindings isDead State).DisequalityMap := by
    unfold removeDeadBindings
    apply removeDeadMembers_snd_preserves isDead
      (fun DM => KeysOrdered DM ∧ SymmetricDisequalities DM)
      (fun Maps Class hMaps =>
        ⟨keysOrdered_removeDeadClass Maps Class hMaps.1,
          symmetric_removeDeadClass Maps Class hMaps.2⟩)
    apply removeTriviallyDead_preserves isDead State
      (fun DM => KeysOrdered DM ∧ SymmetricDisequalities DM)
      (fun Maps Class hMaps =>
        ⟨keysOrdered_removeDeadClass Maps Class hMaps.1,
          symmetric_removeDeadClass Maps Class hMaps.2⟩)
    exact ⟨hD, h2⟩
  rw [isClassDataConsistent_iff hM' hP.1]
  refine ⟨?_, hP.2⟩
  intro K M' hK m hm
  have hlook := mapLookup_removeDeadMembers isDead State.ClassMembers hM
    (State.ClassMembers,
      State.ConstraintRange.foldl
        (fun Maps ClassConstraintPair =>
          if isTriviallyDead isDead State ClassConstraintPair.1 then
            removeDeadClass Maps ClassConstraintPair.1
          else Maps)
        (State.ConstraintRange, State.DisequalityMap)) K
  have hK' : mapLookup (removeDeadBindings isDead State).ClassMembers K =
      match mapLookup State.ClassMembers K with
      | some M =>
        if M.any isDead = true then
          if (liveMembers isDead M).isEmpty = true then none
          else some (liveMembers isDead M)
        else mapLookup State.ClassMembers K
      | none => mapLookup State.ClassMembers K := hlook
  rw [hK] at hK'
  cases hl : mapLookup State.ClassMembers K with
  | none =>
    rw [hl] at hK'
    cases hK'
  | some M =>
    rw [hl] at hK'
    simp only at hK'
    by_cases hc : M.any isDead = true
    · rw [if_pos hc] at hK'
      by_cases he : (liveMembers isDead M).isEmpty = true
      · rw [if_pos he] at hK'
        cases hK'
      · rw [if_neg he] at hK'
        cases hK'
        obtain ⟨hmM, hlive⟩ := (mem_liveMembers isDead M m).mp hm
        rw [find_removeDeadBindings isDead State m hlive]
        exact h1 K M hl m hmM
    · rw [if_neg hc] at hK'
      cases hK'
      have hlive : isDead m = false := by
        cases hd : isDead m with
        | false => rfl
        | true => exact absurd (List.any_eq_true.mpr ⟨m, hm, hd⟩) hc
      rw [find_removeDeadBindings isDead State m hlive]
      exact h1 K M' hl m hm

theorem removeDeadBindings_consistent_witness :
    KeysOrdered (ProgramState.ClassMembers
      ⟨[(1, 1), (2, 1), (3, 3), (4, 3)], [(1, [1, 2]), (3, [3, 4])],
        [(1, [⟨0, 9⟩]), (3, [⟨5, 5⟩]), (5, [⟨1, 2⟩])],
        [(1, [3, 5, 6]), (3, [1]), (5, [1]), (6, [1])]⟩) ∧
    KeysOrdered (ProgramState.DisequalityMap
      ⟨[(1, 1), (2, 1), (3, 3), (4, 3)], [(1, [1, 2]), (3, [3, 4])],
        [(1, [⟨0, 9⟩]), (3, [⟨5, 5⟩]), (5, [⟨1, 2⟩])],
        [(1, [3, 5, 6]), (3, [1]), (5, [1]), (6, [1])]⟩) ∧
    isClassDataConsistent
      ⟨[(1, 1), (2, 1), (3, 3), (4, 3)], [(1, [1, 2]), (3, [3, 4])],
        [(1, [⟨0, 9⟩]), (3, [⟨5, 5⟩]), (5, [⟨1, 2⟩])],
        [(1, [3, 5, 6]), (3, [1]), (5, [1]), (6, [1])]⟩ = true ∧
    removeDeadBindings (fun Sym => decide (Sym = 1 ∨ Sym = 3 ∨ Sym = 4 ∨ Sym = 5))
        ⟨[(1, 1), (2, 1), (3, 3), (4, 3)], [(1, [1, 2]), (3, [3, 4])],
          [(1, [⟨0, 9⟩]), (3, [⟨5, 5⟩]), (5, [⟨1, 2⟩])],
          [(1, [3, 5, 6]), (3, [1]), (5, [1]), (6, [1])]⟩ =
      ⟨[(2, 1)], [(1, [2])], [(1, [⟨0, 9⟩])], [(1, [6]), (6, [1])]⟩ ∧
    isClassDataConsistent
      (removeDeadBindings (fun Sym => decide (Sym = 1 ∨ Sym = 3 ∨ Sym = 4 ∨ Sym = 5))
        ⟨[(1, 1), (2, 1), (3, 3), (4, 3)], [(1, [1, 2]), (3, [3, 4])],
          [(1, [⟨0, 9⟩]), (3, [⟨5, 5⟩]), (5, [⟨1, 2⟩])],
          [(1, [3, 5, 6]), (3, [1]), (5, [1]), (6, [1])]⟩) = true :=
  ⟨by decide, by decide, by decide, by decide,
    removeDeadBindings_consistent (fun Sym => decide (Sym = 1 ∨ Sym = 3 ∨ Sym = 4 ∨ Sym = 5))
      ⟨[(1, 1), (2, 1), (3, 3), (4, 3)], [(1, [1, 2]), (3, [3, 4])],
        [(1, [⟨0, 9⟩]), (3, [⟨5, 5⟩]), (5, [⟨1, 2⟩])],
        [(1, [3, 5, 6]), (3, [1]), (5, [1]), (6, [1])]⟩
      (by decide) (by decide) (by decide)⟩

/-! ## The range inferred for a comparison -/

theorem eq_of_common_point {S : List Range} (hS : WellFormed S) {a b : Range}
    (ha : a ∈ S) (hb : b ∈ S) {x : Int}
    (hax : a.From ≤ x ∧ x ≤ a.To) (hbx : b.From ≤ x ∧ x ≤ b.To) : a = b := by
  induction S with
  | nil => exact absurd ha (List.not_mem_nil _)
  | cons c S ih =>
    have hc : ∀ d ∈ S, c.To < d.From := (List.pairwise_cons.mp hS.2).1
    rcases List.mem_cons.mp ha with ha' | ha'
    · rcases List.mem_cons.mp hb with hb' | hb'
      · rw [ha', hb']
      · have := hc b hb'
        rw [ha'] at hax
        omega
    · rcases List.mem_cons.mp hb with hb' | hb'
      · have := hc a ha'
        rw [hb'] at hbx
        omega
      · exact ih hS.tail ha' hb'

/-- Intersecting a set with a set that has a range around each of its ranges
gives the set. -/
theorem intersect_of_within {A B : List Range} (hA : WellFormed A) (hB : WellFormed B)
    (h : ∀ r ∈ A, ∃ b ∈ B, b.From ≤ r.From ∧ r.To ≤ b.To) : intersect A B = A := by
  rw [intersect_eq hA hB]
  apply wellFormed_ext (overlaps_wellFormed hA hB) hA
  intro r
  rw [mem_overlaps]
  constructor
  · rintro ⟨a, ha, b, hb, hr⟩
    obtain ⟨hle, rfl⟩ := interRange_eq_some.mp hr
    obtain ⟨b', hb', h1, h2⟩ := h a ha
    have hav := hA.1 a ha
    have hbb : b = b' :=
      eq_of_common_point hB hb hb' (x := max a.From b.From) (by omega) (by omega)
    subst hbb
    have e1 : max a.From b.From = a.From := by omega
    have e2 : min a.To b.To = a.To := by omega
    rw [e1, e2]
    exact ha
  · intro hr
    obtain ⟨b, hb, h1, h2⟩ := h r hr
    have hrv := hA.1 r hr
    refine ⟨r, hr, b, hb, interRange_eq_some.mpr ⟨by omega, ?_⟩⟩
    have e1 : max r.From b.From = r.From := by omega
    have e2 : min r.To b.To = r.To := by omega
    rw [e1, e2]

theorem wellFormed_full (T : APSIntType) (hT : 0 < T.BitWidth) :
    WellFormed [⟨T.getMinValue, T.getMaxValue⟩] := by
  have hlt := T.min_lt_max hT
  refine ⟨?_, List.pairwise_singleton _ _⟩
  intro r hr
  rw [List.mem_singleton.mp hr]
  exact le_of_lt hlt

theorem inferType_wellFormed (Ctx : Context) (T : QualType)
    (hT : 0 < (Ctx.getAPSIntType T).BitWidth) :
    WellFormed (inferType Ctx T) ∧ InType (Ctx.getAPSIntType T) (inferType Ctx T) := by
  have hfull := wellFormed_full _ hT
  have hin : InType (Ctx.getAPSIntType T)
      [⟨(Ctx.getAPSIntType T).getMinValue, (Ctx.getAPSIntType T).getMaxValue⟩] := by
    intro r hr
    rw [List.mem_singleton.mp hr]
    exact ⟨le_refl _, le_refl _⟩
  unfold inferType
  simp only []
  split_ifs
  · unfold assumeNonZero
    refine ⟨deletePoint_wellFormed hT hfull 0, ?_⟩
    intro r hr
    obtain ⟨a, ha, h1, h2⟩ := deletePoint_subranges hT hfull 0 r hr
    have := hin a ha
    exact ⟨by omega, by omega⟩
  · exact ⟨hfull, hin⟩

theorem getTrueRange_wellFormed (Ctx : Context) (T : QualType)
    (hT : 0 < (Ctx.getAPSIntType T).BitWidth) :
    WellFormed (getTrueRange Ctx T) ∧ InType (Ctx.getAPSIntType T) (getTrueRange Ctx T) := by
  obtain ⟨hw, hi⟩ := inferType_wellFormed Ctx T hT
  unfold getTrueRange assumeNonZero
  refine ⟨deletePoint_wellFormed hT hw 0, ?_⟩
  intro r hr
  obtain ⟨a, ha, h1, h2⟩ := deletePoint_subranges hT hw 0 r hr
  have := hi a ha
  exact ⟨by omega, by omega⟩

/-- The true range of a type is the range of the type without zero, also for a
reference type. -/
theorem getTrueRange_eq (Ctx : Context) (T : QualType)
    (hT : 0 < (Ctx.getAPSIntType T).BitWidth) :
    getTrueRange Ctx T =
      deletePoint (Ctx.getAPSIntType T)
        [⟨(Ctx.getAPSIntType T).getMinValue, (Ctx.getAPSIntType T).getMaxValue⟩] 0 := by
  unfold getTrueRange inferType assumeNonZero
  simp only []
  split_ifs
  · have h := deletePoint_not_contains hT (wellFormed_full _ hT) 0
    generalize deletePoint (Ctx.getAPSIntType T)
      [⟨(Ctx.getAPSIntType T).getMinValue, (Ctx.getAPSIntType T).getMaxValue⟩] 0 = R at h
    unfold deletePoint
    rw [h]
    rfl
  · rfl

/-- The true range of a type within the range inferred from the type. -/
theorem intersect_getTrueRange_inferType (Ctx : Context) (T : QualType)
    (hT : 0 < (Ctx.getAPSIntType T).BitWidth) :
    intersect (getTrueRange Ctx T) (inferType Ctx T) = getTrueRange Ctx T := by
  obtain ⟨hw, hi⟩ := inferType_wellFormed Ctx T hT
  apply intersect_of_within (getTrueRange_wellFormed Ctx T hT).1 hw
  intro r hr
  unfold getTrueRange assumeNonZero at hr
  exact deletePoint_subranges hT hw 0 r hr
theorem isInFalseBranch_of_true {Q : RangeSet} (h : getConcreteValue Q ≠ some 0) :
    (match getConcreteValue Q with
      | some ConcreteValue => decide (ConcreteValue = 0)
      | none => false) = false := by
  cases hc : getConcreteValue Q with
  | none => rfl
  | some c =>
    simp only [decide_eq_false_iff_not]
    intro h0
    rw [hc, h0] at h
    exact h rfl

/-- The loop of `getRangeForComparisonSymbol` for `x > y`, with `x >= y` and
`x != y` stored true and no other comparison of the two operands stored. -/
theorem comparisonLoop_ge_ne (Ctx : Context) (State : ProgramState) (x y : SymbolRef)
    (T : QualType) (CGE CNE : RangeSet)
    (hGE : getConstraintOfSym State (Ctx.getSymSymExpr x (.Comparison .BO_GE) y T) = some CGE)
    (hGE1 : CGE ≠ []) (hGE2 : getConcreteValue CGE ≠ some 0)
    (hNE : getConstraintOfSym State (Ctx.getSymSymExpr x (.Comparison .BO_NE) y T) = some CNE)
    (hNE1 : CNE ≠ []) (hNE2 : getConcreteValue CNE ≠ some 0)
    (hother : ∀ OP, OP ≠ BinaryOperatorKind.BO_GE → OP ≠ BinaryOperatorKind.BO_NE →
      getConstraintOfSym State (Ctx.getSymSymExpr x (.Comparison OP) y T) = none)
    (hrev : ∀ OP, getConstraintOfSym State (Ctx.getSymSymExpr y (.Comparison OP) x T) = none) :
    comparisonLoop Ctx State x y T .BO_GT (List.range CmpOpCount) 0 =
      some (getTrueRange Ctx T) := by
  have hr : List.range CmpOpCount = [0, 1, 2, 3, 4, 5] := by decide
  have hLT := hother .BO_LT (by decide) (by decide)
  have hGT := hother .BO_GT (by decide) (by decide)
  have hLE := hother .BO_LE (by decide) (by decide)
  have hEQ := hother .BO_EQ (by decide) (by decide)
  have e1 := isEmpty_eq_false_of_ne_nil hGE1
  have e2 := isEmpty_eq_false_of_ne_nil hNE1
  have f1 := isInFalseBranch_of_true hGE2
  have f2 := isInFalseBranch_of_true hNE2
  have s1 : getCmpOpState .BO_GT .BO_GE = TriStateKind.Unknown := by decide
  have s2 : getCmpOpState .BO_GT .BO_NE = TriStateKind.Unknown := by decide
  have s3 : getCmpOpStateForUnknownX2 .BO_GT = TriStateKind.True := by decide
  rw [hr]
  simp only [comparisonLoop, getOpFromIndex, hLT, hGT, hLE, hEQ, hGE, hNE, hrev, e1, e2, f1, f2,
    Bool.false_eq_true, if_false, s1, s2, s3, if_true]
  simp
theorem getSym_symSymExpr (Sym : SymbolRef) (LHS : SymExpr) (Op : Opcode) (RHS : SymExpr) :
    (SymExpr.SymSymExpr Sym LHS Op RHS).getSym = Sym := rfl

/-- C22: cross-relation inference end to end: in every state where the
expression `x >= y` has a stored constraint that means true (not empty, not
the single value zero), the expression `x != y` has a stored constraint that
means true, and no other comparison of `x` and `y`, in either operand order,
is stored, the range inferred for `x > y` is the true range of its type, which
is the full range of the type with zero removed. -/
theorem cross_relation_inference (Ctx : Context) (State : ProgramState) (Sym : SymbolRef)
    (X Y : SymExpr) (CGE CNE : RangeSet)
    (hT : 0 < (Ctx.getAPSIntType (Ctx.getType Sym)).BitWidth)
    (hE : Ctx.getExpr Sym = .SymSymExpr Sym X (.Comparison .BO_GT) Y)
    (hIntern : Ctx.getSymSymExpr X.getSym (.Comparison .BO_GT) Y.getSym (Ctx.getType Sym) = Sym)
    (hGE : getConstraintOfSym State
      (Ctx.getSymSymExpr X.getSym (.Comparison .BO_GE) Y.getSym (Ctx.getType Sym)) = some CGE)
    (hGE1 : CGE ≠ []) (hGE2 : getConcreteValue CGE ≠ some 0)
    (hNE : getConstraintOfSym State
      (Ctx.getSymSymExpr X.getSym (.Comparison .BO_NE) Y.getSym (Ctx.getType Sym)) = some CNE)
    (hNE1 : CNE ≠ []) (hNE2 : getConcreteValue CNE ≠ some 0)
    (hother : ∀ OP, OP ≠ BinaryOperatorKind.BO_GE → OP ≠ BinaryOperatorKind.BO_NE →
      getConstraintOfSym State
        (Ctx.getSymSymExpr X.getSym (.Comparison OP) Y.getSym (Ctx.getType Sym)) = none)
    (hrev : ∀ OP, getConstraintOfSym State
      (Ctx.getSymSymExpr Y.getSym (.Comparison OP) X.getSym (Ctx.getType Sym)) = none) :
    inferRange Ctx State Sym = getTrueRange Ctx (Ctx.getType Sym) ∧
    getTrueRange Ctx (Ctx.getType Sym) =
      deletePoint (Ctx.getAPSIntType (Ctx.getType Sym))
        [⟨(Ctx.getAPSIntType (Ctx.getType Sym)).getMinValue,
          (Ctx.getAPSIntType (Ctx.getType Sym)).getMaxValue⟩] 0 := by
  refine ⟨?_, getTrueRange_eq Ctx _ hT⟩
  have hself : getConstraintOfSym State Sym = none := by
    have := hother .BO_GT (by decide) (by decide)
    rwa [hIntern] at this
  have hloop := comparisonLoop_ge_ne Ctx State X.getSym Y.getSym (Ctx.getType Sym) CGE CNE
    hGE hGE1 hGE2 hNE hNE1 hNE2 hother hrev
  unfold inferRange
  rw [hE, infer]
  unfold inferFrom
  simp only [getSym_symSymExpr, hself, getRangeForNegatedSub, getRangeForComparisonSymbol, hloop,
    getRangeForEqualities, meansEquality, VisitBinaryOperator, intersectOptional, intersectWith]
  exact intersect_getTrueRange_inferType Ctx _ hT
theorem cross_relation_inference_witness :
    0 < (sampleContext.getAPSIntType (sampleContext.getType 1112)).BitWidth ∧
    sampleContext.getExpr 1112 =
      .SymSymExpr 1112 (.SymbolData 1) (.Comparison .BO_GT) (.SymbolData 2) ∧
    sampleContext.getSymSymExpr 1 (.Comparison .BO_GT) 2 (sampleContext.getType 1112) = 1112 ∧
    getConstraintOfSym ⟨[], [], [(1312, [⟨1, 1⟩]), (1512, [⟨-128, -1⟩, ⟨1, 127⟩])], []⟩
      (sampleContext.getSymSymExpr 1 (.Comparison .BO_GE) 2 (sampleContext.getType 1112)) =
        some [⟨1, 1⟩] ∧
    getConstraintOfSym ⟨[], [], [(1312, [⟨1, 1⟩]), (1512, [⟨-128, -1⟩, ⟨1, 127⟩])], []⟩
      (sampleContext.getSymSymExpr 1 (.Comparison .BO_NE) 2 (sampleContext.getType 1112)) =
        some [⟨-128, -1⟩, ⟨1, 127⟩] ∧
    inferRange sampleContext
      ⟨[], [], [(1312, [⟨1, 1⟩]), (1512, [⟨-128, -1⟩, ⟨1, 127⟩])], []⟩ 1112 =
        [⟨-128, -1⟩, ⟨1, 127⟩] ∧
    (inferRange sampleContext
        ⟨[], [], [(1312, [⟨1, 1⟩]), (1512, [⟨-128, -1⟩, ⟨1, 127⟩])], []⟩ 1112 =
      getTrueRange sampleContext (sampleContext.getType 1112) ∧
    getTrueRange sampleContext (sampleContext.getType 1112) =
      deletePoint (sampleContext.getAPSIntType (sampleContext.getType 1112))
        [⟨(sampleContext.getAPSIntType (sampleContext.getType 1112)).getMinValue,
          (sampleContext.getAPSIntType (sampleContext.getType 1112)).getMaxValue⟩] 0) :=
  ⟨by decide, by decide, by decide, by decide, by decide, by decide,
    cross_relation_inference sampleContext
      ⟨[], [], [(1312, [⟨1, 1⟩]), (1512, [⟨-128, -1⟩, ⟨1, 127⟩])], []⟩ 1112
      (.SymbolData 1) (.SymbolData 2) [⟨1, 1⟩] [⟨-128, -1⟩, ⟨1, 127⟩]
      (by decide) (by decide) (by decide) (by decide) (by decide) (by decide)
      (by decide) (by decide) (by decide) (by decide) (by decide)⟩

/-! ## Assuming equality and then disequality: range sets -/

theorem intersect_nil_left (B : RangeSet) : intersect [] B = [] := by
  simp [intersect]

theorem intersect_nil_right (A : RangeSet) : intersect A [] = [] := by
  simp [intersect]

theorem intersect_wellFormed {A B : RangeSet} (hA : WellFormed A) (hB : WellFormed B) :
    WellFormed (intersect A B) := by
  rw [intersect_eq hA hB]
  exact overlaps_wellFormed hA hB

/-- Every range of an intersection lies within a range of each set. -/
theorem intersect_subranges {A B : RangeSet} (hA : WellFormed A) (hB : WellFormed B) :
    ∀ r ∈ intersect A B,
      (∃ a ∈ A, a.From ≤ r.From ∧ r.To ≤ a.To) ∧ (∃ b ∈ B, b.From ≤ r.From ∧ r.To ≤ b.To) := by
  intro r hr
  rw [intersect_eq hA hB] at hr
  obtain ⟨a, ha, b, hb, h⟩ := mem_overlaps.mp hr
  obtain ⟨hle, rfl⟩ := interRange_eq_some.mp h
  exact ⟨⟨a, ha, le_max_left _ _, min_le_left _ _⟩, ⟨b, hb, le_max_right _ _, min_le_right _ _⟩⟩

theorem intersect_inType_right {T : APSIntType} {A B : RangeSet} (hA : WellFormed A)
    (hB : WellFormed B) (hI : InType T B) : InType T (intersect A B) := by
  intro r hr
  obtain ⟨b, hb, h1, h2⟩ := (intersect_subranges hA hB r hr).2
  have := hI b hb
  exact ⟨by omega, by omega⟩

theorem intersect_inType_left {T : APSIntType} {A B : RangeSet} (hA : WellFormed A)
    (hB : WellFormed B) (hI : InType T A) : InType T (intersect A B) := by
  intro r hr
  obtain ⟨a, ha, h1, h2⟩ := (intersect_subranges hA hB r hr).1
  have := hI a ha
  exact ⟨by omega, by omega⟩

/-- A well-formed set all of whose ranges lie within `[v, v]` is empty or is
the set of `v`. -/
theorem eq_nil_or_singleton {S : RangeSet} (hS : WellFormed S) {v : Int}
    (h : ∀ r ∈ S, v ≤ r.From ∧ r.To ≤ v) : S = [] ∨ S = [⟨v, v⟩] := by
  match S, hS, h with
  | [], _, _ => exact Or.inl rfl
  | [a], hS, h =>
    right
    have h1 := h a (List.mem_singleton.mpr rfl)
    have h2 := hS.1 a (List.mem_singleton.mpr rfl)
    have e1 : a.From = v := by omega
    have e2 : a.To = v := by omega
    cases a
    simp only at e1 e2
    rw [e1, e2]
  | a :: b :: S, hS, h =>
    exfalso
    have h1 := h a (List.mem_cons_self _ _)
    have h2 := h b (List.mem_cons_of_mem _ (List.mem_cons_self _ _))
    have h3 := hS.1 a (List.mem_cons_self _ _)
    have h4 := hS.1 b (List.mem_cons_of_mem _ (List.mem_cons_self _ _))
    have h5 : a.To < b.From := (List.pairwise_cons.mp hS.2).1 b (List.mem_cons_self _ _)
    omega

theorem intersect_singleton_left {B : RangeSet} (hB : WellFormed B) (v : Int) :
    intersect [⟨v, v⟩] B = [] ∨ intersect [⟨v, v⟩] B = [⟨v, v⟩] := by
  apply eq_nil_or_singleton (intersect_wellFormed (wellFormed_singleton v) hB)
  intro r hr
  obtain ⟨a, ha, h1, h2⟩ := (intersect_subranges (wellFormed_singleton v) hB r hr).1
  rw [List.mem_singleton.mp ha] at h1 h2
  have := (intersect_wellFormed (wellFormed_singleton v) hB).1 r hr
  exact ⟨h1, h2⟩

theorem intersect_singleton_right {A : RangeSet} (hA : WellFormed A) (v : Int) :
    intersect A [⟨v, v⟩] = [] ∨ intersect A [⟨v, v⟩] = [⟨v, v⟩] := by
  apply eq_nil_or_singleton (intersect_wellFormed hA (wellFormed_singleton v))
  intro r hr
  obtain ⟨a, ha, h1, h2⟩ := (intersect_subranges hA (wellFormed_singleton v) r hr).2
  rw [List.mem_singleton.mp ha] at h1 h2
  exact ⟨h1, h2⟩

theorem deletePoint_inType {T T' : APSIntType} (hT : 0 < T.BitWidth) {S : RangeSet}
    (hS : WellFormed S) (hI : InType T' S) (p : Int) : InType T' (deletePoint T S p) := by
  intro r hr
  obtain ⟨a, ha, h1, h2⟩ := deletePoint_subranges hT hS p r hr
  have := hI a ha
  exact ⟨by omega, by omega⟩

/-- Deleting the value `v` from the set of `v` leaves nothing. -/
theorem deletePoint_singleton_self {T : APSIntType} (hT : 0 < T.BitWidth) {v : Int}
    (h1 : T.getMinValue ≤ v) (h2 : v ≤ T.getMaxValue) : deletePoint T [⟨v, v⟩] v = [] := by
  by_contra hne
  have heq := deletePoint_singleton hT v v hne
  have hnot := deletePoint_not_contains hT (wellFormed_singleton v) v
  rw [heq] at hnot
  have hc : containsImpl T [⟨v, v⟩] v = true :=
    (containsImpl_iff hT (wellFormed_singleton v) h1 h2).mpr
      ⟨⟨v, v⟩, List.mem_singleton.mpr rfl, le_refl _, le_refl _⟩
  rw [hc] at hnot
  cases hnot

/-! ## The ranges that the inferrer gives are well-formed -/

theorem single_wellFormed_inType (T : APSIntType) {a b : Int} (h1 : a ≤ b)
    (h2 : T.getMinValue ≤ a) (h3 : b ≤ T.getMaxValue) :
    WellFormed [⟨a, b⟩] ∧ InType T [⟨a, b⟩] := by
  refine ⟨⟨?_, List.pairwise_singleton _ _⟩, ?_⟩
  · intro r hr
    rw [List.mem_singleton.mp hr]
    exact h1
  · intro r hr
    rw [List.mem_singleton.mp hr]
    exact ⟨h2, h3⟩

theorem nil_wellFormed_inType (T : APSIntType) : WellFormed [] ∧ InType T [] :=
  ⟨⟨fun _ hr => absurd hr (List.not_mem_nil _), List.Pairwise.nil⟩,
    fun _ hr => absurd hr (List.not_mem_nil _)⟩

theorem APSIntType.signed_sum (T : APSIntType)
    (h : T.IsUnsigned = false) : T.getMinValue + T.getMaxValue = -1 := by
  unfold APSIntType.getMinValue APSIntType.getMaxValue
  rw [h]
  simp only [Bool.false_eq_true, if_false]
  ring

theorem APSIntType.unsigned_min (T : APSIntType) (h : T.IsUnsigned = true) :
    T.getMinValue = 0 := by
  unfold APSIntType.getMinValue
  rw [h]
  simp

theorem assumeNonZero_wellFormed (Ctx : Context) (T : QualType)
    (hT : 0 < (Ctx.getAPSIntType T).BitWidth) {Domain : RangeSet}
    (h : WellFormed Domain ∧ InType (Ctx.getAPSIntType T) Domain) :
    WellFormed (assumeNonZero Ctx Domain T) ∧
      InType (Ctx.getAPSIntType T) (assumeNonZero Ctx Domain T) := by
  unfold assumeNonZero
  exact ⟨deletePoint_wellFormed hT h.1 0, deletePoint_inType hT h.1 h.2 0⟩

/-- The rule for `|` gives a well-formed set of values of the result type. -/
theorem VisitBinaryOperatorOr_wellFormed (Ctx : Context) (T : QualType)
    (hT : 0 < (Ctx.getAPSIntType T).BitWidth) (LHS RHS : Range)
    (hL : LHS.From ≤ LHS.To ∧ (Ctx.getAPSIntType T).getMinValue ≤ LHS.From ∧
      LHS.To ≤ (Ctx.getAPSIntType T).getMaxValue)
    (hR : RHS.From ≤ RHS.To ∧ (Ctx.getAPSIntType T).getMinValue ≤ RHS.From ∧
      RHS.To ≤ (Ctx.getAPSIntType T).getMaxValue) :
    WellFormed (VisitBinaryOperatorOr Ctx LHS RHS T) ∧
      InType (Ctx.getAPSIntType T) (VisitBinaryOperatorOr Ctx LHS RHS T) := by
  have hmm := (Ctx.getAPSIntType T).min_nonpos_max_nonneg hT
  have hneg : (Ctx.getAPSIntType T).getMinValue < 0 →
      (Ctx.getAPSIntType T).apply (0 - 1) = -1 := by
    intro h
    exact (Ctx.getAPSIntType T).apply_of_inRange hT (by omega) (by omega)
  unfold VisitBinaryOperatorOr
  simp only []
  split_ifs with h1 h2 h3 h4
  · simp only [Bool.or_eq_true, Bool.and_eq_true, decide_eq_true_eq] at h1 h2
    have := hneg (by omega)
    exact single_wellFormed_inType _ (by omega) (by omega) (by omega)
  · simp only [Bool.or_eq_true, Bool.and_eq_true, decide_eq_true_eq] at h1 h2
    exact single_wellFormed_inType _ (by omega) (by omega) (le_refl _)
  · simp only [Bool.or_eq_true, Bool.and_eq_true, decide_eq_true_eq] at h1 h3
    have := hneg (by omega)
    exact single_wellFormed_inType _ (by omega) (le_refl _) (by omega)
  · exact assumeNonZero_wellFormed Ctx T hT (inferType_wellFormed Ctx T hT)
  · exact inferType_wellFormed Ctx T hT

/-- The rule for `&` gives a well-formed set of values of the result type. -/
theorem VisitBinaryOperatorAnd_wellFormed (Ctx : Context) (T : QualType)
    (hT : 0 < (Ctx.getAPSIntType T).BitWidth) (LHS RHS : Range)
    (hL : LHS.From ≤ LHS.To ∧ (Ctx.getAPSIntType T).getMinValue ≤ LHS.From ∧
      LHS.To ≤ (Ctx.getAPSIntType T).getMaxValue)
    (hR : RHS.From ≤ RHS.To ∧ (Ctx.getAPSIntType T).getMinValue ≤ RHS.From ∧
      RHS.To ≤ (Ctx.getAPSIntType T).getMaxValue) :
    WellFormed (VisitBinaryOperatorAnd Ctx LHS RHS T) ∧
      InType (Ctx.getAPSIntType T) (VisitBinaryOperatorAnd Ctx LHS RHS T) := by
  have hmm := (Ctx.getAPSIntType T).min_nonpos_max_nonneg hT
  unfold VisitBinaryOperatorAnd
  simp only []
  split_ifs with h1 h2 h3 h4
  · simp only [Bool.or_eq_true, Bool.and_eq_true, decide_eq_true_eq] at h1 h2
    exact single_wellFormed_inType _ (by omega) (le_refl _) (by omega)
  · simp only [Bool.or_eq_true, Bool.and_eq_true, decide_eq_true_eq] at h1 h2
    exact single_wellFormed_inType _ (by omega) (by omega) (by omega)
  · simp only [Bool.or_eq_true, Bool.and_eq_true, decide_eq_true_eq] at h1 h3 h4
    exact single_wellFormed_inType _ (by omega) (by omega) (by omega)
  · simp only [Bool.or_eq_true, Bool.and_eq_true, decide_eq_true_eq] at h1 h3 h4
    exact single_wellFormed_inType _ (by omega) (by omega) (by omega)
  · exact inferType_wellFormed Ctx T hT
/-- The rule for `%` gives a well-formed set of values of the result type. -/
theorem VisitBinaryOperatorRem_wellFormed (Ctx : Context) (T : QualType)
    (hT : 0 < (Ctx.getAPSIntType T).BitWidth) (LHS RHS : Range)
    (hL : LHS.From ≤ LHS.To ∧ (Ctx.getAPSIntType T).getMinValue ≤ LHS.From ∧
      LHS.To ≤ (Ctx.getAPSIntType T).getMaxValue)
    (hR : RHS.From ≤ RHS.To ∧ (Ctx.getAPSIntType T).getMinValue ≤ RHS.From ∧
      RHS.To ≤ (Ctx.getAPSIntType T).getMaxValue) :
    WellFormed (VisitBinaryOperatorRem Ctx LHS RHS T) ∧
      InType (Ctx.getAPSIntType T) (VisitBinaryOperatorRem Ctx LHS RHS T) := by
  have hmm := (Ctx.getAPSIntType T).min_nonpos_max_nonneg hT
  have hlt := (Ctx.getAPSIntType T).min_lt_max hT
  -- the symmetrical range of the divisor
  obtain ⟨m, M, hsym, hm1, hm2, hM1, hpos⟩ : ∃ m M : Int,
      getSymmetricalRange Ctx RHS T = ⟨m, M⟩ ∧
      (Ctx.getAPSIntType T).getMinValue ≤ m ∧ m ≤ 0 ∧
      M ≤ (Ctx.getAPSIntType T).getMaxValue ∧
      (((Ctx.getAPSIntType T).IsUnsigned = true ∧ m = 0 ∧ M = RHS.To) ∨
        ((Ctx.getAPSIntType T).IsUnsigned = false ∧ 0 ≤ M ∧
          (m = -M ∨ (m = (Ctx.getAPSIntType T).getMinValue ∧
            M = (Ctx.getAPSIntType T).getMaxValue ∧ RHS.From < 0)) ∧
          (0 ≤ RHS.From → M = RHS.To))) := by
    unfold getSymmetricalRange
    simp only []
    by_cases hu : (Ctx.getAPSIntType T).IsUnsigned = true
    · have h0 := (Ctx.getAPSIntType T).unsigned_min hu
      rw [if_pos hu]
      exact ⟨_, _, rfl, le_refl _, by omega, by omega, Or.inl ⟨hu, h0, rfl⟩⟩
    · have hs : (Ctx.getAPSIntType T).IsUnsigned = false := by
        cases h : (Ctx.getAPSIntType T).IsUnsigned
        · rfl
        · exact absurd h hu
      have hsum := (Ctx.getAPSIntType T).signed_sum hs
      rw [if_neg hu]
      by_cases hmin : RHS.From = (Ctx.getAPSIntType T).getMinValue
      · rw [if_pos hmin]
        exact ⟨_, _, rfl, le_refl _, by omega, le_refl _,
          Or.inr ⟨hs, by omega, Or.inr ⟨rfl, rfl, by omega⟩, fun h => by omega⟩⟩
      · rw [if_neg hmin]
        have hn1 : neg (Ctx.getAPSIntType T) RHS.From = -RHS.From := by
          rw [neg_eq _ hT (by omega) (by omega)]
          omega
        rw [hn1]
        have hA1 : (Ctx.getAPSIntType T).getMinValue < max (-RHS.From) RHS.To := by omega
        have hA2 : max (-RHS.From) RHS.To ≤ (Ctx.getAPSIntType T).getMaxValue := by omega
        have hn2 : neg (Ctx.getAPSIntType T) (max (-RHS.From) RHS.To) =
            -(max (-RHS.From) RHS.To) := by
          rw [neg_eq _ hT hA1 hA2]
          omega
        rw [hn2]
        exact ⟨_, _, rfl, by omega, by omega, hA2,
          Or.inr ⟨hs, by omega, Or.inl rfl, fun h => by omega⟩⟩
  unfold VisitBinaryOperatorRem
  simp only [hsym]
  by_cases hz : M = 0
  · rw [if_pos hz]
    exact nil_wellFormed_inType _
  · rw [if_neg hz]
    by_cases hu : (Ctx.getAPSIntType T).IsUnsigned = true
    · -- unsigned: the lower bound is not moved, and both operands are non-negative
      have h0 := (Ctx.getAPSIntType T).unsigned_min hu
      rcases hpos with ⟨_, hm0, hMR⟩ | ⟨hs, _, _, _⟩
      · have hMax : (Ctx.getAPSIntType T).apply (M - 1) = M - 1 :=
          (Ctx.getAPSIntType T).apply_of_inRange hT (by omega) (by omega)
        rw [hMax]
        simp only [hu, Bool.not_true, Bool.false_eq_true, if_false]
        have hpp : (decide (LHS.From ≥ 0) && decide (RHS.From ≥ 0)) = true := by
          simp only [Bool.and_eq_true, decide_eq_true_eq]
          omega
        rw [if_pos hpp]
        by_cases hlr : LHS.To < RHS.From
        · rw [if_pos hlr]
          exact single_wellFormed_inType _ (by omega) (by omega) (by omega)
        · rw [if_neg hlr]
          exact single_wellFormed_inType _ (by omega) (by omega) (by omega)
      · rw [hs] at hu
        cases hu
    · rcases hpos with ⟨hu', _, _⟩ | ⟨hs, hM, hmM, hMR⟩
      · exact absurd hu' hu
      · have hsum := (Ctx.getAPSIntType T).signed_sum hs
        have hMax : (Ctx.getAPSIntType T).apply (M - 1) = M - 1 :=
          (Ctx.getAPSIntType T).apply_of_inRange hT (by omega) (by omega)
        have hMin : (Ctx.getAPSIntType T).apply (m + 1) = m + 1 :=
          (Ctx.getAPSIntType T).apply_of_inRange hT (by omega) (by omega)
        rw [hMax, hMin]
        simp only [hs, Bool.not_false, if_true]
        by_cases hpp : (decide (LHS.From ≥ 0) && decide (RHS.From ≥ 0)) = true
        · rw [if_pos hpp]
          simp only [Bool.and_eq_true, decide_eq_true_eq] at hpp
          have := hMR hpp.2
          by_cases hlr : LHS.To < RHS.From
          · rw [if_pos hlr]
            exact single_wellFormed_inType _ (by omega) (by omega) (by omega)
          · rw [if_neg hlr]
            exact single_wellFormed_inType _ (by omega) (by omega) (by omega)
        · rw [if_neg hpp]
          exact single_wellFormed_inType _ (by omega) (by omega) (by omega)
theorem testInRange_within_iff (T : APSIntType) (x : Int) :
    T.testInRange x = RangeTestResultKind.RTR_Within ↔
      T.getMinValue ≤ x ∧ x ≤ T.getMaxValue := by
  constructor
  · intro h
    unfold APSIntType.testInRange at h
    by_cases h1 : x < T.getMinValue
    · rw [if_pos h1] at h
      cases h
    · rw [if_neg h1] at h
      by_cases h2 : T.getMaxValue < x
      · rw [if_pos h2] at h
        cases h
      · omega
  · rintro ⟨h1, h2⟩
    exact testInRange_within T h1 h2

theorem convert_eq_some {T : APSIntType} (hT : 0 < T.BitWidth) {Origin C : Range}
    (h : convert Origin T = some C) :
    C = Origin ∧ T.getMinValue ≤ Origin.From ∧ Origin.To ≤ T.getMaxValue := by
  unfold convert at h
  by_cases hc : T.testInRange Origin.From ≠ RangeTestResultKind.RTR_Within ∨
      T.testInRange Origin.To ≠ RangeTestResultKind.RTR_Within
  · rw [if_pos hc] at h
    cases h
  · rw [if_neg hc] at h
    have h1 : T.testInRange Origin.From = RangeTestResultKind.RTR_Within := by
      by_contra hn
      exact hc (Or.inl hn)
    have h2 : T.testInRange Origin.To = RangeTestResultKind.RTR_Within := by
      by_contra hn
      exact hc (Or.inr hn)
    rw [testInRange_within_iff] at h1 h2
    rw [T.apply_of_inRange hT h1.1 h1.2, T.apply_of_inRange hT h2.1 h2.2] at h
    cases h
    exact ⟨rfl, h1.1, h2.2⟩

theorem fillGaps_valid {S : RangeSet} (hS : WellFormed S) (hne : S ≠ []) :
    (fillGaps S).From ≤ (fillGaps S).To := by
  match S, hS, hne with
  | a :: S, hS, _ =>
    have h1 := le_getMaxValue hS a (List.mem_cons_self _ _)
    have h2 := hS.1 a (List.mem_cons_self _ _)
    show a.From ≤ getMaxValue (a :: S)
    omega

/-- The set-level rule of an operator gives a well-formed set of values of the
result type when the range-level rule does. -/
theorem VisitBinaryOperatorSets_wellFormed (Ctx : Context) (T : QualType)
    (hT : 0 < (Ctx.getAPSIntType T).BitWidth) (Rule : Range → Range → QualType → RangeSet)
    (hRule : ∀ LHS RHS : Range,
      (LHS.From ≤ LHS.To ∧ (Ctx.getAPSIntType T).getMinValue ≤ LHS.From ∧
        LHS.To ≤ (Ctx.getAPSIntType T).getMaxValue) →
      (RHS.From ≤ RHS.To ∧ (Ctx.getAPSIntType T).getMinValue ≤ RHS.From ∧
        RHS.To ≤ (Ctx.getAPSIntType T).getMaxValue) →
      WellFormed (Rule LHS RHS T) ∧ InType (Ctx.getAPSIntType T) (Rule LHS RHS T))
    (LHS RHS : RangeSet) (hL : WellFormed LHS) (hR : WellFormed RHS) :
    WellFormed (VisitBinaryOperatorSets Ctx Rule LHS RHS T) ∧
      InType (Ctx.getAPSIntType T) (VisitBinaryOperatorSets Ctx Rule LHS RHS T) := by
  unfold VisitBinaryOperatorSets
  by_cases he : (LHS.isEmpty || RHS.isEmpty) = true
  · rw [if_pos he]
    exact nil_wellFormed_inType _
  · rw [if_neg he]
    simp only [Bool.or_eq_true, not_or, Bool.not_eq_true, list_isEmpty_eq_false] at he
    simp only []
    cases h1 : convert (fillGaps LHS) (Ctx.getAPSIntType T) with
    | none => exact inferType_wellFormed Ctx T hT
    | some CL =>
      cases h2 : convert (fillGaps RHS) (Ctx.getAPSIntType T) with
      | none => exact inferType_wellFormed Ctx T hT
      | some CR =>
        obtain ⟨e1, a1, b1⟩ := convert_eq_some hT h1
        obtain ⟨e2, a2, b2⟩ := convert_eq_some hT h2
        have v1 := fillGaps_valid hL he.1
        have v2 := fillGaps_valid hR he.2
        subst e1 e2
        exact hRule _ _ ⟨v1, a1, b1⟩ ⟨v2, a2, b2⟩

theorem VisitBinaryOperator_wellFormed (Ctx : Context) (T : QualType)
    (hT : 0 < (Ctx.getAPSIntType T).BitWidth) (LHS : RangeSet) (Op : Opcode) (RHS : RangeSet)
    (hL : WellFormed LHS) (hR : WellFormed RHS) :
    WellFormed (VisitBinaryOperator Ctx LHS Op RHS T) ∧
      InType (Ctx.getAPSIntType T) (VisitBinaryOperator Ctx LHS Op RHS T) := by
  cases Op with
  | Comparison OP => exact inferType_wellFormed Ctx T hT
  | BO_Sub => exact inferType_wellFormed Ctx T hT
  | BO_Cmp => exact inferType_wellFormed Ctx T hT
  | BO_Other => exact inferType_wellFormed Ctx T hT
  | BO_Or =>
    exact VisitBinaryOperatorSets_wellFormed Ctx T hT _
      (VisitBinaryOperatorOr_wellFormed Ctx T hT) LHS RHS hL hR
  | BO_And =>
    exact VisitBinaryOperatorSets_wellFormed Ctx T hT _
      (VisitBinaryOperatorAnd_wellFormed Ctx T hT) LHS RHS hL hR
  | BO_Rem =>
    exact VisitBinaryOperatorSets_wellFormed Ctx T hT _
      (VisitBinaryOperatorRem_wellFormed Ctx T hT) LHS RHS hL hR

theorem getFalseRange_wellFormed (Ctx : Context) (T : QualType)
    (hT : 0 < (Ctx.getAPSIntType T).BitWidth) :
    WellFormed (getFalseRange T) ∧ InType (Ctx.getAPSIntType T) (getFalseRange T) := by
  have hmm := (Ctx.getAPSIntType T).min_nonpos_max_nonneg hT
  exact single_wellFormed_inType _ (le_refl _) hmm.1 hmm.2

/-- What the loop of `getRangeForComparisonSymbol` can return. -/
theorem comparisonLoop_cases (Ctx : Context) (State : ProgramState) (LHS RHS : SymbolRef)
    (T : QualType) (CurrentOP : BinaryOperatorKind) (Columns : List Nat) (n : Nat) :
    comparisonLoop Ctx State LHS RHS T CurrentOP Columns n = none ∨
    comparisonLoop Ctx State LHS RHS T CurrentOP Columns n = some (getTrueRange Ctx T) ∨
    comparisonLoop Ctx State LHS RHS T CurrentOP Columns n = some (getFalseRange T) := by
  induction Columns generalizing n with
  | nil => exact Or.inl rfl
  | cons i Columns ih =>
    unfold comparisonLoop
    simp only []
    split
    · exact ih n
    · split_ifs <;>
        first
        | exact ih _
        | exact Or.inr (Or.inl rfl)
        | exact Or.inr (Or.inr rfl)

theorem getRangeForComparisonSymbol_wellFormed (Ctx : Context) (hC : Ctx.Coherent)
    (State : ProgramState) (E : SymExpr) (P : RangeSet)
    (h : getRangeForComparisonSymbol Ctx State E = some P) :
    WellFormed P ∧ InType (rangeTypeOf Ctx E.getSym) P := by
  unfold getRangeForComparisonSymbol at h
  split at h
  · rename_i Sym LHS CurrentOP RHS
    rcases comparisonLoop_cases Ctx State LHS.getSym RHS.getSym (Ctx.getType Sym) CurrentOP
      (List.range CmpOpCount) 0 with h1 | h1 | h1
    · rw [h1] at h
      cases h
    · rw [h1] at h
      cases h
      exact getTrueRange_wellFormed Ctx _ (hC.2.2 _)
    · rw [h1] at h
      cases h
      exact getFalseRange_wellFormed Ctx _ (hC.2.2 _)
  · cases h

theorem getRangeForEqualities_wellFormed (Ctx : Context) (hC : Ctx.Coherent)
    (State : ProgramState) (Sym LHS : SymbolRef) (Op : Opcode) (RHS : SymbolRef)
    (P : RangeSet) (h : getRangeForEqualities Ctx State Sym LHS Op RHS = some P) :
    WellFormed P ∧ InType (rangeTypeOf Ctx Sym) P := by
  unfold getRangeForEqualities at h
  cases hm : meansEquality Op with
  | none => rw [hm] at h; cases h
  | some Equality =>
    rw [hm] at h
    simp only at h
    cases ha : areEqual State LHS RHS with
    | none => rw [ha] at h; cases h
    | some AreEqual =>
      rw [ha] at h
      simp only at h
      split_ifs at h
      · cases h
        exact getTrueRange_wellFormed Ctx _ (hC.2.2 _)
      · cases h
        exact getFalseRange_wellFormed Ctx _ (hC.2.2 _)

theorem getRangeForNegatedSub_wellFormed (Ctx : Context) (hC : Ctx.Coherent)
    (State : ProgramState) (hW : WellTyped Ctx State) (E : SymExpr) (N : RangeSet)
    (h : getRangeForNegatedSub Ctx State E = some N) :
    WellFormed N ∧ InType (rangeTypeOf Ctx E.getSym) N := by
  unfold getRangeForNegatedSub at h
  split at h
  · rename_i Sym LHS RHS
    simp only at h
    split_ifs at h
    · cases hN : getConstraintOfSym State
          (Ctx.getSymSymExpr RHS.getSym Opcode.BO_Sub LHS.getSym (Ctx.getType Sym)) with
      | none => rw [hN] at h; cases h
      | some NR =>
        rw [hN] at h
        cases h
        obtain ⟨hw, hi⟩ := hW.1 _ NR hN
        have hty : rangeTypeOf Ctx (find State
            (Ctx.getSymSymExpr RHS.getSym Opcode.BO_Sub LHS.getSym (Ctx.getType Sym))) =
            Ctx.getAPSIntType (Ctx.getType Sym) := by
          unfold rangeTypeOf
          rw [hW.2]
          exact hC.2.1 _ _ _ _
        rw [hty] at hi
        exact negate_wellFormed_inType (hC.2.2 _) hw hi
  · cases h

theorem intersectOptional_wellFormed {a b : Option RangeSet}
    (ha : ∀ A, a = some A → WellFormed A) (hb : ∀ B, b = some B → WellFormed B) :
    ∀ X, intersectOptional a b = some X → WellFormed X := by
  intro X hX
  cases a with
  | none =>
    cases b with
    | none => cases hX
    | some B =>
      cases hX
      exact hb _ rfl
  | some A =>
    cases b with
    | none =>
      cases hX
      exact ha _ rfl
    | some B =>
      cases hX
      exact intersect_wellFormed (ha A rfl) (hb B rfl)

theorem intersectWith_wellFormed {T : APSIntType} {a : Option RangeSet} {V : RangeSet}
    (ha : ∀ A, a = some A → WellFormed A) (hV : WellFormed V ∧ InType T V) :
    WellFormed (intersectWith a V) ∧ InType T (intersectWith a V) := by
  cases a with
  | none => exact hV
  | some A =>
    exact ⟨intersect_wellFormed (ha A rfl) hV.1, intersect_inType_right (ha A rfl) hV.1 hV.2⟩

/-- The intersection at the end of `infer(Sym)` is a well-formed set of values
of the type of the symbol when the range of the visitor is. -/
theorem inferFrom_wellFormed (Ctx : Context) (hC : Ctx.Coherent) (State : ProgramState)
    (hW : WellTyped Ctx State) (E : SymExpr) (V : RangeSet)
    (hV : WellFormed V ∧ InType (rangeTypeOf Ctx E.getSym) V) :
    WellFormed (inferFrom Ctx State E V) ∧
      InType (rangeTypeOf Ctx E.getSym) (inferFrom Ctx State E V) := by
  unfold inferFrom
  apply intersectWith_wellFormed _ hV
  apply intersectOptional_wellFormed
  · apply intersectOptional_wellFormed
    · intro A hA
      exact (hW.1 _ A hA).1
    · intro B hB
      exact (getRangeForNegatedSub_wellFormed Ctx hC State hW E B hB).1
  · intro B hB
    exact (getRangeForComparisonSymbol_wellFormed Ctx hC State E B hB).1

theorem intersectOptional_singleton {a b : Option RangeSet} {v : Int}
    (ha : a = some [] ∨ a = some [⟨v, v⟩]) (hb : ∀ B, b = some B → WellFormed B) :
    intersectOptional a b = some [] ∨ intersectOptional a b = some [⟨v, v⟩] := by
  cases b with
  | none =>
    rcases ha with rfl | rfl
    · exact Or.inl rfl
    · exact Or.inr rfl
  | some B =>
    rcases ha with rfl | rfl
    · left
      show some (intersect [] B) = some []
      rw [intersect_nil_left]
    · rcases intersect_singleton_left (hb B rfl) v with h | h
      · left
        show some (intersect [⟨v, v⟩] B) = some []
        rw [h]
      · right
        show some (intersect [⟨v, v⟩] B) = some [⟨v, v⟩]
        rw [h]

theorem intersectWith_singleton {a : Option RangeSet} {V : RangeSet} {v : Int}
    (ha : a = some [] ∨ a = some [⟨v, v⟩]) (hV : WellFormed V) :
    intersectWith a V = [] ∨ intersectWith a V = [⟨v, v⟩] := by
  rcases ha with rfl | rfl
  · left
    exact intersect_nil_left V
  · exact intersect_singleton_left hV v

/-- With the set of `v` stored for the symbol, the intersection at the end of
`infer(Sym)` is empty or the set of `v`. -/
theorem inferFrom_singleton (Ctx : Context) (hC : Ctx.Coherent) (State : ProgramState)
    (hW : WellTyped Ctx State) (E : SymExpr) (V : RangeSet) (hV : WellFormed V) {v : Int}
    (hst : getConstraintOfSym State E.getSym = some [⟨v, v⟩]) :
    inferFrom Ctx State E V = [] ∨ inferFrom Ctx State E V = [⟨v, v⟩] := by
  unfold inferFrom
  apply intersectWith_singleton _ hV
  apply intersectOptional_singleton
  · apply intersectOptional_singleton
    · exact Or.inr hst
    · intro B hB
      exact (getRangeForNegatedSub_wellFormed Ctx hC State hW E B hB).1
  · intro B hB
    exact (getRangeForComparisonSymbol_wellFormed Ctx hC State E B hB).1

theorem inferAs_wellFormed (Ctx : Context) (hC : Ctx.Coherent) (Sym : SymbolRef)
    (Inferred : RangeSet) (DestType : QualType) (h : WellFormed Inferred) :
    WellFormed (inferAs Ctx Sym Inferred DestType) := by
  unfold inferAs
  simp only []
  split_ifs
  · exact h
  · exact (inferType_wellFormed Ctx DestType (hC.2.2 _)).1

/-- The range of `infer(Sym)` is the intersection with a well-formed range of
the visitor, a set of values of the type of the symbol. -/
theorem infer_eq_inferFrom (Ctx : Context) (hC : Ctx.Coherent) (State : ProgramState)
    (hW : WellTyped Ctx State) (E : SymExpr) :
    ∃ V, (WellFormed V ∧ InType (rangeTypeOf Ctx E.getSym) V) ∧
      infer Ctx State E = inferFrom Ctx State E V := by
  induction E with
  | SymbolData Sym =>
    exact ⟨inferType Ctx (Ctx.getType Sym), inferType_wellFormed Ctx _ (hC.2.2 _),
      by rw [infer]⟩
  | SymIntExpr Sym LHS Op RHS ih =>
    obtain ⟨VL, hVL, hL⟩ := ih
    have hwL : WellFormed (infer Ctx State LHS) := by
      rw [hL]
      exact (inferFrom_wellFormed Ctx hC State hW LHS VL hVL).1
    refine ⟨_, ?_, by rw [infer]⟩
    exact VisitBinaryOperator_wellFormed Ctx _ (hC.2.2 _) _ Op _
      (inferAs_wellFormed Ctx hC _ _ _ hwL) (wellFormed_singleton RHS)
  | IntSymExpr Sym LHS Op RHS ih =>
    obtain ⟨VR, hVR, hR⟩ := ih
    have hwR : WellFormed (infer Ctx State RHS) := by
      rw [hR]
      exact (inferFrom_wellFormed Ctx hC State hW RHS VR hVR).1
    refine ⟨_, ?_, by rw [infer]⟩
    exact VisitBinaryOperator_wellFormed Ctx _ (hC.2.2 _) _ Op _
      (wellFormed_singleton LHS) (inferAs_wellFormed Ctx hC _ _ _ hwR)
  | SymSymExpr Sym LHS Op RHS ihL ihR =>
    obtain ⟨VL, hVL, hL⟩ := ihL
    obtain ⟨VR, hVR, hR⟩ := ihR
    have hwL : WellFormed (infer Ctx State LHS) := by
      rw [hL]
      exact (inferFrom_wellFormed Ctx hC State hW LHS VL hVL).1
    have hwR : WellFormed (infer Ctx State RHS) := by
      rw [hR]
      exact (inferFrom_wellFormed Ctx hC State hW RHS VR hVR).1
    refine ⟨_, ?_, by rw [infer]⟩
    apply intersectWith_wellFormed
    · intro A hA
      exact (getRangeForEqualities_wellFormed Ctx hC State Sym _ Op _ A hA).1
    · exact VisitBinaryOperator_wellFormed Ctx _ (hC.2.2 _) _ Op _
        (inferAs_wellFormed Ctx hC _ _ _ hwL) (inferAs_wellFormed Ctx hC _ _ _ hwR)

/-- The inferrer gives well-formed sets of values of the type of the symbol. -/
theorem inferRange_wellFormed (Ctx : Context) (hC : Ctx.Coherent) (State : ProgramState)
    (hW : WellTyped Ctx State) (Sym : SymbolRef) :
    WellFormed (inferRange Ctx State Sym) ∧
      InType (rangeTypeOf Ctx Sym) (inferRange Ctx State Sym) := by
  unfold inferRange
  obtain ⟨V, hV, hE⟩ := infer_eq_inferFrom Ctx hC State hW (Ctx.getExpr Sym)
  rw [hE]
  have := inferFrom_wellFormed Ctx hC State hW (Ctx.getExpr Sym) V hV
  rw [hC.1 Sym] at this
  exact this

/-- With the set of `v` stored for the class of a symbol, the range inferred
for the symbol is empty or the set of `v`. -/
theorem inferRange_singleton (Ctx : Context) (hC : Ctx.Coherent) (State : ProgramState)
    (hW : WellTyped Ctx State) (Sym : SymbolRef) {v : Int}
    (hst : getConstraintOfSym State Sym = some [⟨v, v⟩]) :
    inferRange Ctx State Sym = [] ∨ inferRange Ctx State Sym = [⟨v, v⟩] := by
  unfold inferRange
  obtain ⟨V, hV, hE⟩ := infer_eq_inferFrom Ctx hC State hW (Ctx.getExpr Sym)
  rw [hE]
  apply inferFrom_singleton Ctx hC State hW (Ctx.getExpr Sym) V hV.1
  rw [hC.1 Sym]
  exact hst

/-! ## What merging keeps of a well-formed state -/

/-- The maps of a state returned by `mergeImpl`, by lookups. -/
theorem mergeImpl_lookups {State S' : ProgramState} {This Other : EquivalenceClass}
    {M OM : SymbolSet} (hne : This ≠ Other)
    (h : mergeImpl State This M Other OM = some S') :
    (∀ m, find S' m = if m ∈ OM then This else find State m) ∧
    (∀ m, mapLookup S'.ClassMap m =
      if m ∈ OM then some This else mapLookup State.ClassMap m) ∧
    (∀ K, mapLookup S'.ClassMembers K =
      if K = This then some (OM.foldl setAdd M)
      else if K = Other then none else mapLookup State.ClassMembers K) ∧
    ((intersectOptional (getConstraint State This) (getConstraint State Other) = none ∧
        ∀ K, getConstraint S' K = getConstraint State K) ∨
      (∃ I, intersectOptional (getConstraint State This) (getConstraint State Other) =
          some I ∧ I ≠ [] ∧
        ∀ K, getConstraint S' K =
          if K = This then some I else if K = Other then none else getConstraint State K)) := by
  have hfind := (mergeImpl_members hne h).2.2.1
  obtain ⟨C, hC, _, rfl⟩ := mergeImpl_eq_some.mp h
  refine ⟨hfind, ?_, ?_, ?_⟩
  · intro m
    simp only
    rw [mapLookup_foldl_mapAdd]
  · intro K
    simp only
    rw [mapLookup_mapAdd]
    by_cases hK : K = This
    · rw [if_pos hK, if_pos hK]
    · rw [if_neg hK, if_neg hK, mapLookup_mapRemove]
  · cases hI : intersectOptional (getConstraint State This) (getConstraint State Other) with
    | none =>
      left
      rw [mergeImplConstraints_of_none hI] at hC
      cases hC
      exact ⟨rfl, fun K => rfl⟩
    | some I =>
      right
      rw [mergeImplConstraints_of_some hI] at hC
      by_cases he : I.isEmpty = true
      · rw [if_pos he] at hC
        cases hC
      · rw [if_neg he] at hC
        cases hC
        refine ⟨I, rfl, fun hn => he (by rw [hn]; rfl), ?_⟩
        intro K
        unfold getConstraint
        simp only
        rw [mapLookup_mapAdd]
        by_cases hK : K = This
        · rw [if_pos hK, if_pos hK]
        · rw [if_neg hK, if_neg hK, mapLookup_mapRemove]

theorem getClassMembers_of_lookup {State : ProgramState} {K : EquivalenceClass}
    {M : SymbolSet} (h : mapLookup State.ClassMembers K = some M) :
    getClassMembers State K = M := by
  unfold getClassMembers
  rw [h]

theorem getClassMembers_congr {State S' : ProgramState} {K : EquivalenceClass}
    (h : mapLookup S'.ClassMembers K = mapLookup State.ClassMembers K) :
    getClassMembers S' K = getClassMembers State K := by
  unfold getClassMembers
  rw [h]

theorem getClassMembers_find {State : ProgramState} (hR : RegistryConsistent State)
    {K : EquivalenceClass} (hK : find State K = K) :
    ∀ m ∈ getClassMembers State K, find State m = K := by
  intro m hm
  unfold getClassMembers at hm
  cases hl : mapLookup State.ClassMembers K with
  | none =>
    rw [hl] at hm
    simp only [setAdd, List.mem_singleton] at hm
    rw [hm]
    exact hK
  | some M' =>
    rw [hl] at hm
    exact hR.2.1 K M' hl m hm

/-- Merging keeps the registry consistent. -/
theorem mergeImpl_registry {State S' : ProgramState} {This Other : EquivalenceClass}
    (hR : RegistryConsistent State) (hne : This ≠ Other)
    (hfT : find State This = This) (hfO : find State Other = Other)
    (h : mergeImpl State This (getClassMembers State This) Other
      (getClassMembers State Other) = some S') :
    RegistryConsistent S' := by
  obtain ⟨hfind, hmap, hmem, _⟩ := mergeImpl_lookups hne h
  have hOM := getClassMembers_find hR hfO
  have hM := getClassMembers_find hR hfT
  have hgT : getClassMembers S' This =
      (getClassMembers State Other).foldl setAdd (getClassMembers State This) :=
    getClassMembers_of_lookup (by rw [hmem This, if_pos rfl])
  have hgK : ∀ K, K ≠ This → K ≠ Other → getClassMembers S' K = getClassMembers State K := by
    intro K h1 h2
    exact getClassMembers_congr (by rw [hmem K, if_neg h1, if_neg h2])
  refine ⟨?_, ?_, ?_⟩
  · intro s K hs
    rw [hmap] at hs
    by_cases hsO : s ∈ getClassMembers State Other
    · rw [if_pos hsO] at hs
      cases hs
      rw [hgT]
      exact mem_foldl_setAdd.mpr (Or.inr hsO)
    · rw [if_neg hsO] at hs
      have hsK := hR.1 s K hs
      by_cases hKT : K = This
      · subst hKT
        rw [hgT]
        exact mem_foldl_setAdd.mpr (Or.inl hsK)
      · by_cases hKO : K = Other
        · subst hKO
          exact absurd hsK hsO
        · rw [hgK K hKT hKO]
          exact hsK
  · intro K M' hK m hm
    rw [hmem] at hK
    rw [hfind]
    by_cases hKT : K = This
    · rw [if_pos hKT] at hK
      cases hK
      by_cases hmO : m ∈ getClassMembers State Other
      · rw [if_pos hmO, hKT]
      · rw [if_neg hmO, hKT]
        rcases mem_foldl_setAdd.mp hm with hm | hm
        · exact hM m hm
        · exact absurd hm hmO
    · rw [if_neg hKT] at hK
      by_cases hKO : K = Other
      · rw [if_pos hKO] at hK
        cases hK
      · rw [if_neg hKO] at hK
        have hfm := hR.2.1 K M' hK m hm
        by_cases hmO : m ∈ getClassMembers State Other
        · have := hOM m hmO
          rw [hfm] at this
          exact absurd this hKO
        · rw [if_neg hmO]
          exact hfm
  · intro s
    rw [hfind s]
    by_cases hsO : s ∈ getClassMembers State Other
    · rw [if_pos hsO, hfind This]
      by_cases hTO : This ∈ getClassMembers State Other
      · rw [if_pos hTO]
      · rw [if_neg hTO]
        exact hfT
    · rw [if_neg hsO, hfind (find State s)]
      by_cases hKO : find State s ∈ getClassMembers State Other
      · exfalso
        have h1 := hOM _ hKO
        rw [hR.2.2 s] at h1
        -- the class of `s` is `Other`, so `s` is a member of `Other`
        cases hl : mapLookup State.ClassMap s with
        | none =>
          have : find State s = s := by
            unfold find
            rw [hl]
          rw [this] at hKO
          exact hsO hKO
        | some K0 =>
          have : find State s = K0 := by
            unfold find
            rw [hl]
          rw [this] at h1
          have := hR.1 s K0 hl
          rw [h1] at this
          exact hsO this
      · rw [if_neg hKO]
        exact hR.2.2 s

theorem intersectOptional_typed {T : APSIntType} {a b : Option RangeSet}
    (ha : ∀ A, a = some A → WellFormed A ∧ InType T A)
    (hb : ∀ B, b = some B → WellFormed B ∧ InType T B) :
    ∀ I, intersectOptional a b = some I → WellFormed I ∧ InType T I := by
  intro I hI
  cases a with
  | none =>
    cases b with
    | none => cases hI
    | some B =>
      cases hI
      exact hb _ rfl
  | some A =>
    cases b with
    | none =>
      cases hI
      exact ha _ rfl
    | some B =>
      cases hI
      exact ⟨intersect_wellFormed (ha A rfl).1 (hb B rfl).1,
        intersect_inType_left (ha A rfl).1 (hb B rfl).1 (ha A rfl).2⟩

theorem intersectOptional_singleton_right {a b : Option RangeSet} {v : Int}
    (hb : b = some [⟨v, v⟩]) (ha : ∀ A, a = some A → WellFormed A) :
    intersectOptional a b = some [] ∨ intersectOptional a b = some [⟨v, v⟩] := by
  subst hb
  cases a with
  | none => exact Or.inr rfl
  | some A =>
    rcases intersect_singleton_right (ha A rfl) v with h | h
    · left
      show some (intersect A [⟨v, v⟩]) = some []
      rw [h]
    · right
      show some (intersect A [⟨v, v⟩]) = some [⟨v, v⟩]
      rw [h]

/-- Merging keeps the stored constraints well-formed and typed. -/
theorem mergeImpl_wellTyped (Ctx : Context) {State S' : ProgramState}
    {This Other : EquivalenceClass}
    (hR : RegistryConsistent State) (hW : WellTyped Ctx State) (hne : This ≠ Other)
    (hty : Ctx.getType This = Ctx.getType Other)
    (hfO : find State Other = Other)
    (h : mergeImpl State This (getClassMembers State This) Other
      (getClassMembers State Other) = some S') :
    WellTyped Ctx S' := by
  obtain ⟨hfind, _, _, hcon⟩ := mergeImpl_lookups hne h
  have hOM := getClassMembers_find hR hfO
  have hrt : rangeTypeOf Ctx Other = rangeTypeOf Ctx This := by
    unfold rangeTypeOf
    rw [hty]
  constructor
  · intro K C hK
    rcases hcon with ⟨_, hsame⟩ | ⟨I, hI, _, hlook⟩
    · rw [hsame] at hK
      exact hW.1 K C hK
    · rw [hlook] at hK
      by_cases hKT : K = This
      · rw [if_pos hKT] at hK
        cases hK
        rw [hKT]
        apply intersectOptional_typed _ _ _ hI
        · intro A hA
          exact hW.1 This A hA
        · intro B hB
          have := hW.1 Other B hB
          rw [hrt] at this
          exact this
      · rw [if_neg hKT] at hK
        by_cases hKO : K = Other
        · rw [if_pos hKO] at hK
          cases hK
        · rw [if_neg hKO] at hK
          exact hW.1 K C hK
  · intro s
    rw [hfind]
    by_cases hsO : s ∈ getClassMembers State Other
    · rw [if_pos hsO, hty, ← hOM s hsO]
      exact hW.2 s
    · rw [if_neg hsO]
      exact hW.2 s

/-- Merging keeps the set of `v` stored for the class of the symbol. -/
theorem mergeImpl_holdsValue (Ctx : Context) {State S' : ProgramState}
    {This Other : EquivalenceClass} {Sym : SymbolRef} {v : Int}
    (hR : RegistryConsistent State) (hW : WellTyped Ctx State)
    (hV : HoldsValue State Sym v) (hne : This ≠ Other)
    (hfO : find State Other = Other)
    (h : mergeImpl State This (getClassMembers State This) Other
      (getClassMembers State Other) = some S') :
    HoldsValue S' Sym v := by
  obtain ⟨hfind, _, hmem, hcon⟩ := mergeImpl_lookups hne h
  have hOM := getClassMembers_find hR hfO
  obtain ⟨hmemS, hst⟩ := hV
  unfold getConstraintOfSym at hst
  have hgT : getClassMembers S' This =
      (getClassMembers State Other).foldl setAdd (getClassMembers State This) :=
    getClassMembers_of_lookup (by rw [hmem This, if_pos rfl])
  have hgK : ∀ K, K ≠ This → K ≠ Other → getClassMembers S' K = getClassMembers State K := by
    intro K h1 h2
    exact getClassMembers_congr (by rw [hmem K, if_neg h1, if_neg h2])
  -- the constraint of the class that is kept, when it is the class of the symbol
  have hkeep : (find State Sym = This ∨ find State Sym = Other) →
      getConstraint S' This = some [⟨v, v⟩] := by
    intro hor
    rcases hcon with ⟨hnone, _⟩ | ⟨I, hI, hIne, hlook⟩
    · exfalso
      rcases hor with hK | hK
      · rw [hK] at hst
        rw [hst] at hnone
        cases hO : getConstraint State Other with
        | none => rw [hO] at hnone; cases hnone
        | some B => rw [hO] at hnone; cases hnone
      · rw [hK] at hst
        rw [hst] at hnone
        cases hT : getConstraint State This with
        | none => rw [hT] at hnone; cases hnone
        | some A => rw [hT] at hnone; cases hnone
    · rw [hlook, if_pos rfl]
      have hsing : some I = some [] ∨ some I = some [⟨v, v⟩] := by
        rw [← hI]
        rcases hor with hK | hK
        · rw [hK] at hst
          exact intersectOptional_singleton (Or.inr hst) (fun B hB => (hW.1 Other B hB).1)
        · rw [hK] at hst
          exact intersectOptional_singleton_right hst (fun A hA => (hW.1 This A hA).1)
      rcases hsing with h0 | h1
      · cases h0
        exact absurd rfl hIne
      · exact h1
  unfold HoldsValue getConstraintOfSym
  rw [hfind Sym]
  by_cases hsO : Sym ∈ getClassMembers State Other
  · rw [if_pos hsO]
    refine ⟨?_, hkeep (Or.inr (hOM Sym hsO))⟩
    rw [hgT]
    exact mem_foldl_setAdd.mpr (Or.inr hsO)
  · rw [if_neg hsO]
    have hKO : find State Sym ≠ Other := by
      intro hK
      rw [hK] at hmemS
      exact hsO hmemS
    by_cases hKT : find State Sym = This
    · rw [hKT]
      refine ⟨?_, hkeep (Or.inl hKT)⟩
      rw [hgT]
      rw [hKT] at hmemS
      exact mem_foldl_setAdd.mpr (Or.inl hmemS)
    · rw [hgK _ hKT hKO]
      refine ⟨hmemS, ?_⟩
      rcases hcon with ⟨_, hsame⟩ | ⟨I, _, _, hlook⟩
      · rw [hsame]
        exact hst
      · rw [hlook, if_neg hKT, if_neg hKO]
        exact hst

/-- The overload of `merge` on two symbols keeps a well-formed state that holds
the set of `v` for the symbol. -/
theorem merge_keeps (Ctx : Context) {State S' : ProgramState} {Sym : SymbolRef} {v : Int}
    (A B : SymbolRef)
    (hInv : RegistryConsistent State ∧ WellTyped Ctx State ∧ HoldsValue State Sym v)
    (h : merge Ctx.getType Ctx.getHeight State A B = some S') :
    RegistryConsistent S' ∧ WellTyped Ctx S' ∧ HoldsValue S' Sym v := by
  obtain ⟨hR, hW, hV⟩ := hInv
  unfold merge mergeClasses at h
  by_cases h1 : find State A = find State B
  · rw [if_pos h1] at h
    cases h
    exact ⟨hR, hW, hV⟩
  · rw [if_neg h1] at h
    by_cases h2 : Ctx.getType (find State A) ≠ Ctx.getType (find State B)
    · rw [if_pos h2] at h
      cases h
      exact ⟨hR, hW, hV⟩
    · rw [if_neg h2] at h
      have hty : Ctx.getType (find State A) = Ctx.getType (find State B) := not_not.mp h2
      simp only at h
      by_cases h3 : Ctx.getHeight (getClassMembers State (find State A)) ≥
          Ctx.getHeight (getClassMembers State (find State B))
      · rw [if_pos h3] at h
        exact ⟨mergeImpl_registry hR h1 (hR.2.2 A) (hR.2.2 B) h,
          mergeImpl_wellTyped Ctx hR hW h1 hty (hR.2.2 B) h,
          mergeImpl_holdsValue Ctx hR hW hV h1 (hR.2.2 B) h⟩
      · rw [if_neg h3] at h
        exact ⟨mergeImpl_registry hR (Ne.symm h1) (hR.2.2 B) (hR.2.2 A) h,
          mergeImpl_wellTyped Ctx hR hW (Ne.symm h1) hty.symm (hR.2.2 A) h,
          mergeImpl_holdsValue Ctx hR hW hV (Ne.symm h1) (hR.2.2 A) h⟩

/-! ## What marking disequal and assigning keep of a well-formed state -/

/-- One step of `markDisequal` changes the constraint of `First` at most, and
then to what is left of the inferred range. -/
theorem addToDisequalityInfo_lookup {rangeType : SymbolRef → APSIntType}
    {inferRange : ProgramState → SymbolRef → RangeSet}
    {Info I : List (EquivalenceClass × ClassSet)}
    {Constraints C : List (EquivalenceClass × RangeSet)} {State : ProgramState}
    {First Second : EquivalenceClass}
    (h : addToDisequalityInfo rangeType inferRange Info Constraints State First Second =
      some (I, C)) (K : EquivalenceClass) :
    mapLookup C K = mapLookup Constraints K ∨
      (K = First ∧ ∃ Point,
        deletePoint (rangeType First) (inferRange State First) Point ≠ [] ∧
        mapLookup C K =
          some (deletePoint (rangeType First) (inferRange State First) Point)) := by
  obtain ⟨h1, h2⟩ := addToDisequalityInfo_constraints h
  cases hP : (mapLookup Constraints Second).bind getConcreteValue with
  | none =>
    left
    rw [h2 hP]
  | some Point =>
    obtain ⟨hne, hC⟩ := h1 Point hP
    by_cases hK : K = First
    · right
      refine ⟨hK, Point, hne, ?_⟩
      rw [hC, hK, mapLookup_mapAdd_self]
    · left
      rw [hC, mapLookup_mapAdd_of_ne _ _ hK]

/-- The property of a constraint map that one step of `markDisequal` keeps. -/
theorem addToDisequalityInfo_keeps_typed (Ctx : Context) (hC : Ctx.Coherent)
    {State : ProgramState} {Sym : SymbolRef} {v : Int}
    (hR : RegistryConsistent State) (hW : WellTyped Ctx State)
    (hV : HoldsValue State Sym v)
    {Info I : List (EquivalenceClass × ClassSet)}
    {Constraints C : List (EquivalenceClass × RangeSet)}
    {First Second : EquivalenceClass}
    (hQ : (∀ K R, mapLookup Constraints K = some R →
        WellFormed R ∧ InType (rangeTypeOf Ctx K) R) ∧
      mapLookup Constraints (find State Sym) = some [⟨v, v⟩])
    (h : addToDisequalityInfo (rangeTypeOf Ctx) (inferRange Ctx) Info Constraints State
      First Second = some (I, C)) :
    (∀ K R, mapLookup C K = some R → WellFormed R ∧ InType (rangeTypeOf Ctx K) R) ∧
      mapLookup C (find State Sym) = some [⟨v, v⟩] := by
  have hT : 0 < (rangeTypeOf Ctx First).BitWidth := hC.2.2 _
  have hinf := inferRange_wellFormed Ctx hC State hW First
  constructor
  · intro K R hK
    rcases addToDisequalityInfo_lookup h K with hsame | ⟨hKF, Point, _, hnew⟩
    · rw [hsame] at hK
      exact hQ.1 K R hK
    · rw [hnew] at hK
      cases hK
      rw [hKF]
      exact ⟨deletePoint_wellFormed hT hinf.1 Point,
        deletePoint_inType hT hinf.1 hinf.2 Point⟩
  · rcases addToDisequalityInfo_lookup h (find State Sym) with hsame | ⟨hKF, Point, hne, hnew⟩
    · rw [hsame]
      exact hQ.2
    · rw [hnew]
      have hst : getConstraintOfSym State First = some [⟨v, v⟩] := by
        unfold getConstraintOfSym
        rw [← hKF, hR.2.2 Sym]
        exact hV.2
      rcases inferRange_singleton Ctx hC State hW First hst with h0 | h1
      · rw [h0, deletePoint_nil] at hne
        exact absurd rfl hne
      · rw [h1] at hne ⊢
        rw [deletePoint_singleton hT v Point hne]

/-- The overload of `markDisequal` on two symbols keeps a well-formed state that
holds the set of `v` for the symbol. -/
theorem markDisequal_keeps (Ctx : Context) (hC : Ctx.Coherent)
    {State S' : ProgramState} {Sym : SymbolRef} {v : Int} (A B : SymbolRef)
    (hInv : RegistryConsistent State ∧ WellTyped Ctx State ∧ HoldsValue State Sym v)
    (h : markDisequal (rangeTypeOf Ctx) (inferRange Ctx) State A B = some S') :
    RegistryConsistent S' ∧ WellTyped Ctx S' ∧ HoldsValue S' Sym v := by
  obtain ⟨hR, hW, hV⟩ := hInv
  unfold markDisequal at h
  obtain ⟨_, I1, C1, I2, C2, h1, h2, hS⟩ := markDisequalClasses_some h
  have hQ0 : (∀ K R, mapLookup State.ConstraintRange K = some R →
        WellFormed R ∧ InType (rangeTypeOf Ctx K) R) ∧
      mapLookup State.ConstraintRange (find State Sym) = some [⟨v, v⟩] := ⟨hW.1, hV.2⟩
  have hQ1 := addToDisequalityInfo_keeps_typed Ctx hC hR hW hV hQ0 h1
  have hQ2 := addToDisequalityInfo_keeps_typed Ctx hC hR hW hV hQ1 h2
  subst hS
  exact ⟨hR, ⟨hQ2.1, hW.2⟩, ⟨hV.1, hQ2.2⟩⟩

theorem inferClass_wellFormed (Ctx : Context) (hC : Ctx.Coherent) (State : ProgramState)
    (hW : WellTyped Ctx State) (K : EquivalenceClass) :
    WellFormed (inferClass Ctx State K) ∧
      InType (rangeTypeOf Ctx K) (inferClass Ctx State K) := by
  unfold inferClass
  cases hK : getConstraint State K with
  | some R => exact hW.1 K R hK
  | none => exact inferType_wellFormed Ctx _ (hC.2.2 _)

/-- Assigning the set of `v` to the class of a symbol gives a well-formed state
that holds the set of `v` for the symbol. -/
theorem assignClass_establishes (Ctx : Context) (hC : Ctx.Coherent)
    {State S1 : ProgramState} {Sym : SymbolRef} {v : Int}
    (hR : RegistryConsistent State) (hW : WellTyped Ctx State)
    (hM : Sym ∈ getClassMembers State (find State Sym))
    (hD : find State Sym ∉ getDisequalClasses State (find State Sym))
    (hv : (rangeTypeOf Ctx Sym).getMinValue ≤ v ∧ v ≤ (rangeTypeOf Ctx Sym).getMaxValue)
    (h : assignClass Ctx State (find State Sym) [⟨v, v⟩] = some S1) :
    RegistryConsistent S1 ∧ WellTyped Ctx S1 ∧ HoldsValue S1 Sym v := by
  unfold assignClass at h
  rw [getConcreteValue_singleton] at h
  simp only at h
  rw [assignDisequalLoop_eq] at h
  split_ifs at h with hex
  simp only [Option.some.injEq] at h
  have hlook : ∀ K, getConstraint S1 K =
      if K ∈ getDisequalClasses State (find State Sym) then
        some (deletePoint (rangeTypeOf Ctx K) (inferClass Ctx State K) v)
      else if K = find State Sym then some [⟨v, v⟩] else getConstraint State K := by
    intro K
    rw [← h]
    show mapLookup _ K = _
    unfold setConstraints
    simp only []
    rw [mapLookup_foldl_mapAdd_fun
      (fun D => deletePoint (rangeTypeOf Ctx D) (inferClass Ctx State D) v),
      mapLookup_mapAdd]
    rfl
  have hfind : ∀ s, find S1 s = find State s := by
    intro s
    rw [← h]
    rfl
  have hmem : ∀ K, getClassMembers S1 K = getClassMembers State K := by
    intro K
    rw [← h]
    rfl
  have hreg : RegistryConsistent S1 := by
    rw [← h]
    exact hR
  refine ⟨hreg, ⟨?_, ?_⟩, ⟨?_, ?_⟩⟩
  · intro K R hK
    rw [hlook K] at hK
    by_cases hKD : K ∈ getDisequalClasses State (find State Sym)
    · rw [if_pos hKD] at hK
      cases hK
      have hinf := inferClass_wellFormed Ctx hC State hW K
      exact ⟨deletePoint_wellFormed (hC.2.2 _) hinf.1 v,
        deletePoint_inType (hC.2.2 _) hinf.1 hinf.2 v⟩
    · rw [if_neg hKD] at hK
      by_cases hKS : K = find State Sym
      · rw [if_pos hKS] at hK
        cases hK
        refine ⟨wellFormed_singleton v, ?_⟩
        intro r hr
        rw [List.mem_singleton.mp hr, hKS]
        have hty : rangeTypeOf Ctx (find State Sym) = rangeTypeOf Ctx Sym := by
          unfold rangeTypeOf
          rw [hW.2 Sym]
        rw [hty]
        exact hv
      · rw [if_neg hKS] at hK
        exact hW.1 K R hK
  · intro s
    rw [hfind]
    exact hW.2 s
  · rw [hfind, hmem]
    exact hM
  · unfold getConstraintOfSym
    rw [hfind, hlook, if_neg hD, if_pos rfl]

/-! ## Equality and then disequality with the same value -/

theorem sampleContext_coherent : sampleContext.Coherent := by
  refine ⟨?_, ?_, ?_⟩
  · intro Sym
    show (if Sym < 1000 then SymExpr.SymbolData Sym
      else SymExpr.SymSymExpr Sym (.SymbolData ((Sym - 1000) % 100 / 10))
        (Opcode.ofIndex ((Sym - 1000) / 100)) (.SymbolData ((Sym - 1000) % 10))).getSym = Sym
    split_ifs <;> rfl
  · intro _ _ _ _
    rfl
  · intro _
    show 0 < int8.BitWidth
    decide

/-- A state without non-trivial classes has a consistent registry. -/
theorem registryConsistent_of_no_classes (C : List (EquivalenceClass × RangeSet))
    (D : List (EquivalenceClass × ClassSet)) : RegistryConsistent ⟨[], [], C, D⟩ := by
  refine ⟨?_, ?_, ?_⟩
  · intro Sym K h
    cases h
  · intro K M h
    cases h
  · intro Sym
    rfl

/-- In the sample context, a state without non-trivial classes and with one
stored constraint, a well-formed set of 8-bit values, is well-typed. -/
theorem wellTyped_of_one_constraint (K0 : EquivalenceClass) (R : RangeSet)
    (D : List (EquivalenceClass × ClassSet)) (hw : WellFormed R) (hi : InType int8 R) :
    WellTyped sampleContext ⟨[], [], [(K0, R)], D⟩ := by
  refine ⟨?_, fun _ => rfl⟩
  intro K C hK
  change (if K = K0 then some R else none) = some C at hK
  split_ifs at hK
  cases hK
  exact ⟨hw, hi⟩

/-- C23: assuming equality and then disequality with the same value is
infeasible: in a well-formed state (the class registry is consistent, the
stored constraints are well-formed sets of values of the types of their
classes, the symbol is a member of its class, and its class is not disequal to
itself), for every symbol and every value `v`, if `assumeSymEQ(State, sym, v, 0)`
returns a non-null state `S1`, then `assumeSymNE(S1, sym, v, 0)` returns the
null state. -/
theorem assumeSymEQ_then_NE_infeasible (Ctx : Context) (T : APSIntType)
    (St S1 : ProgramState) (Sym : SymbolRef) (v : Int)
    (hC : Ctx.Coherent) (hT : 0 < T.BitWidth)
    (hR : RegistryConsistent St) (hW : WellTyped Ctx St)
    (hM : Sym ∈ getClassMembers St (find St Sym))
    (hD : find St Sym ∉ getDisequalClasses St (find St Sym))
    (h : assumeSymEQ Ctx T St Sym v 0 = some S1) :
    assumeSymNE Ctx T S1 Sym v 0 = none := by
  unfold assumeSymEQ at h
  by_cases hin : T.testInRange v = RangeTestResultKind.RTR_Within
  swap
  · rw [if_pos hin] at h
    cases h
  rw [if_neg (not_not.mpr hin)] at h
  obtain ⟨hv1, hv2⟩ := (testInRange_within_iff T v).mp hin
  have hp : T.apply (T.apply v - 0) = v := by
    rw [sub_zero, T.apply_of_inRange hT hv1 hv2, T.apply_of_inRange hT hv1 hv2]
  simp only [hp] at h
  unfold setRange assign intersectPoint getRange at h
  have hinf := inferRange_wellFormed Ctx hC St hW Sym
  by_cases hc : containsImpl T (inferRange Ctx St Sym) v = true
  swap
  · rw [if_neg hc] at h
    simp at h
  rw [if_pos hc, T.apply_of_inRange hT hv1 hv2] at h
  simp only [List.isEmpty_cons, Bool.false_eq_true, if_false] at h
  -- the value is one of the type of the symbol
  have hv : (rangeTypeOf Ctx Sym).getMinValue ≤ v ∧ v ≤ (rangeTypeOf Ctx Sym).getMaxValue := by
    obtain ⟨r, hr, h1, h2⟩ := (containsImpl_iff hT hinf.1 hv1 hv2).mp hc
    have := hinf.2 r hr
    have hle := hinf.1.1 r hr
    exact ⟨by omega, by omega⟩
  unfold assignSym at h
  cases h0 : assignClass Ctx St (find St Sym) [⟨v, v⟩] with
  | none =>
    rw [h0] at h
    cases h
  | some S0 =>
    rw [h0] at h
    simp only at h
    have hInv0 := assignClass_establishes Ctx hC hR hW hM hD hv h0
    have hInv1 := assignBase_preserves Ctx
      (fun S => RegistryConsistent S ∧ WellTyped Ctx S ∧ HoldsValue S Sym v)
      (fun S A B S' hP hm => merge_keeps Ctx A B hP hm)
      (fun S A B S' hP hm => markDisequal_keeps Ctx hC A B hP hm)
      S0 S1 Sym [⟨v, v⟩] hInv0 h
    obtain ⟨_, hW1, hV1⟩ := hInv1
    unfold assumeSymNE
    rw [if_neg (not_not.mpr hin)]
    simp only [hp]
    unfold setRange getRange
    rcases inferRange_singleton Ctx hC S1 hW1 Sym hV1.2 with he | he
    · rw [he, deletePoint_nil]
      exact assign_nil Ctx S1 Sym
    · rw [he, deletePoint_singleton_self hT hv1 hv2]
      exact assign_nil Ctx S1 Sym

theorem assumeSymEQ_then_NE_infeasible_witness :
    assumeSymEQ sampleContext int8 ⟨[], [], [(1, [⟨0, 10⟩])], [(1, [2]), (2, [1])]⟩ 1 5 0 =
      some ⟨[], [], [(1, [⟨5, 5⟩]), (2, [⟨-128, 4⟩, ⟨6, 127⟩])], [(1, [2]), (2, [1])]⟩ ∧
    assumeSymNE sampleContext int8
      ⟨[], [], [(1, [⟨5, 5⟩]), (2, [⟨-128, 4⟩, ⟨6, 127⟩])], [(1, [2]), (2, [1])]⟩ 1 5 0 = none :=
  ⟨by decide,
    assumeSymEQ_then_NE_infeasible sampleContext int8
      ⟨[], [], [(1, [⟨0, 10⟩])], [(1, [2]), (2, [1])]⟩
      ⟨[], [], [(1, [⟨5, 5⟩]), (2, [⟨-128, 4⟩, ⟨6, 127⟩])], [(1, [2]), (2, [1])]⟩ 1 5
      sampleContext_coherent (by decide)
      (registryConsistent_of_no_classes _ _)
      (wellTyped_of_one_constraint 1 [⟨0, 10⟩] _ (by decide) (by decide))
      (by decide) (by decide) (by decide)⟩

/-! ## The null check, and the equalities of the inferrer and of the assignor -/

/-- A set has a concrete value exactly when it is the set of that single value. -/
theorem getConcreteValue_eq_some {C : RangeSet} {c : Int} :
    getConcreteValue C = some c ↔ C = [⟨c, c⟩] := by
  constructor
  · intro h
    unfold getConcreteValue at h
    split at h
    · rename_i r
      split_ifs at h with hr
      cases h
      obtain ⟨f, t⟩ := r
      simp only at hr
      subst hr
      rfl
    · cases h
  · intro h
    rw [h]
    exact getConcreteValue_singleton c

theorem getConcreteValue_eq_none {C : RangeSet} :
    getConcreteValue C = none ↔ ∀ c, C ≠ [⟨c, c⟩] := by
  constructor
  · intro h c hc
    rw [getConcreteValue_eq_some.mpr hc] at h
    cases h
  · intro h
    cases hc : getConcreteValue C with
    | none => rfl
    | some c => exact absurd (getConcreteValue_eq_some.mp hc) (h c)

/-- Zero is a value of every type of at least one bit, so that the membership
test of the code at zero is membership. -/
theorem containsImpl_zero_iff {T : APSIntType} (hT : 0 < T.BitWidth) {C : RangeSet}
    (hW : WellFormed C) : containsImpl T C 0 = true ↔ Covers C 0 :=
  containsImpl_iff hT hW (T.min_nonpos_max_nonneg hT).1 (T.min_nonpos_max_nonneg hT).2

/-- C34: the null check is three-valued on the stored constraint: for every
state and symbol, `checkNull` returns unknown when the class of the symbol has
no stored constraint; when the stored constraint is the set of a single value
it returns true if that value is zero and false otherwise; when it is a
well-formed set that is not a single value it returns false if the set does
not contain zero and unknown if it does. -/
theorem checkNull_three_valued (Ctx : Context) (State : ProgramState) (Sym : SymbolRef)
    (hT : 0 < (Ctx.getAPSIntType (Ctx.getType Sym)).BitWidth) :
    (getConstraintOfSym State Sym = none → checkNull Ctx State Sym = none) ∧
    (∀ c, getConstraintOfSym State Sym = some [⟨c, c⟩] →
      (c = 0 → checkNull Ctx State Sym = some true) ∧
      (c ≠ 0 → checkNull Ctx State Sym = some false)) ∧
    (∀ C, getConstraintOfSym State Sym = some C → WellFormed C → (∀ c, C ≠ [⟨c, c⟩]) →
      (¬Covers C 0 → checkNull Ctx State Sym = some false) ∧
      (Covers C 0 → checkNull Ctx State Sym = none)) := by
  refine ⟨?_, ?_, ?_⟩
  · intro h
    unfold checkNull
    rw [h]
  · intro c h
    unfold checkNull
    rw [h]
    simp only [getConcreteValue_singleton]
    constructor
    · intro hc
      rw [decide_eq_true hc]
    · intro hc
      rw [decide_eq_false hc]
  · intro C h hW hC
    unfold checkNull
    rw [h]
    simp only [getConcreteValue_eq_none.mpr hC]
    constructor
    · intro hz
      have : containsImpl (Ctx.getAPSIntType (Ctx.getType Sym)) C 0 = false := by
        rw [← Bool.not_eq_true, containsImpl_zero_iff hT hW]
        exact hz
      rw [this]
      rfl
    · intro hz
      rw [(containsImpl_zero_iff hT hW).mpr hz]
      rfl

theorem checkNull_three_valued_witness :
    0 < (sampleContext.getAPSIntType (sampleContext.getType 1)).BitWidth ∧
    getConstraintOfSym ⟨[], [], [(1, [⟨0, 0⟩]), (2, [⟨5, 5⟩]), (3, [⟨1, 9⟩]),
      (4, [⟨-3, 9⟩])], []⟩ 1 = some [⟨0, 0⟩] ∧
    checkNull sampleContext ⟨[], [], [(1, [⟨0, 0⟩]), (2, [⟨5, 5⟩]), (3, [⟨1, 9⟩]),
      (4, [⟨-3, 9⟩])], []⟩ 2 = some false ∧
    checkNull sampleContext ⟨[], [], [(1, [⟨0, 0⟩]), (2, [⟨5, 5⟩]), (3, [⟨1, 9⟩]),
      (4, [⟨-3, 9⟩])], []⟩ 3 = some false ∧
    checkNull sampleContext ⟨[], [], [(1, [⟨0, 0⟩]), (2, [⟨5, 5⟩]), (3, [⟨1, 9⟩]),
      (4, [⟨-3, 9⟩])], []⟩ 4 = none ∧
    checkNull sampleContext ⟨[], [], [(1, [⟨0, 0⟩]), (2, [⟨5, 5⟩]), (3, [⟨1, 9⟩]),
      (4, [⟨-3, 9⟩])], []⟩ 5 = none ∧
    checkNull sampleContext ⟨[], [], [(1, [⟨0, 0⟩]), (2, [⟨5, 5⟩]), (3, [⟨1, 9⟩]),
      (4, [⟨-3, 9⟩])], []⟩ 1 = some true :=
  ⟨by decide, by decide, by decide, by decide, by decide, by decide,
    ((checkNull_three_valued sampleContext ⟨[], [], [(1, [⟨0, 0⟩]), (2, [⟨5, 5⟩]), (3, [⟨1, 9⟩]),
      (4, [⟨-3, 9⟩])], []⟩ 1 (by decide)).2.1 0 (by decide)).1 rfl⟩
/-- C32: equality transfer in the inferrer: for a symbol-symbol expression
`L op R` of a type of at least one bit, `getRangeForEqualities` returns the
true range, which is the range of the type without zero, when `areEqual(L, R)`
is true and `op` is `==`, or `areEqual(L, R)` is false and `op` is `!=` or `-`;
it returns the false range `{0}` when `areEqual(L, R)` is true and `op` is
`!=` or `-`, or `areEqual(L, R)` is false and `op` is `==`; and it returns no
range when `areEqual(L, R)` is unknown or `op` is any other opcode. -/
theorem getRangeForEqualities_transfer (Ctx : Context) (State : ProgramState)
    (Sym L R : SymbolRef) (Op : Opcode)
    (hT : 0 < (Ctx.getAPSIntType (Ctx.getType Sym)).BitWidth) :
    ((areEqual State L R = some true ∧ Op = .Comparison .BO_EQ) ∨
      (areEqual State L R = some false ∧ (Op = .Comparison .BO_NE ∨ Op = .BO_Sub)) →
        getRangeForEqualities Ctx State Sym L Op R = some (getTrueRange Ctx (Ctx.getType Sym)) ∧
        getTrueRange Ctx (Ctx.getType Sym) =
          deletePoint (Ctx.getAPSIntType (Ctx.getType Sym))
            [⟨(Ctx.getAPSIntType (Ctx.getType Sym)).getMinValue,
              (Ctx.getAPSIntType (Ctx.getType Sym)).getMaxValue⟩] 0) ∧
    ((areEqual State L R = some true ∧ (Op = .Comparison .BO_NE ∨ Op = .BO_Sub)) ∨
      (areEqual State L R = some false ∧ Op = .Comparison .BO_EQ) →
        getRangeForEqualities Ctx State Sym L Op R = some [⟨0, 0⟩]) ∧
    (areEqual State L R = none ∨
      (Op ≠ .Comparison .BO_EQ ∧ Op ≠ .Comparison .BO_NE ∧ Op ≠ .BO_Sub) →
        getRangeForEqualities Ctx State Sym L Op R = none) := by
  refine ⟨?_, ?_, ?_⟩
  · intro h
    refine ⟨?_, getTrueRange_eq Ctx _ hT⟩
    unfold getRangeForEqualities
    rcases h with ⟨h1, rfl⟩ | ⟨h1, rfl | rfl⟩ <;> rw [h1] <;> rfl
  · intro h
    unfold getRangeForEqualities
    rcases h with ⟨h1, rfl | rfl⟩ | ⟨h1, rfl⟩ <;> rw [h1] <;> rfl
  · intro h
    unfold getRangeForEqualities
    rcases h with h1 | ⟨h1, h2, h3⟩
    · rw [h1]
      cases meansEquality Op <;> rfl
    · have : meansEquality Op = none := by
        cases Op with
        | Comparison OP =>
          cases OP
          all_goals first
            | rfl
            | exact absurd rfl h1
            | exact absurd rfl h2
        | BO_Sub => exact absurd rfl h3
        | _ => rfl
      rw [this]

theorem getRangeForEqualities_transfer_witness :
    0 < (sampleContext.getAPSIntType (sampleContext.getType 1412)).BitWidth ∧
    areEqual ⟨[], [], [], [(1, [2]), (2, [1])]⟩ 1 2 = some false ∧
    getRangeForEqualities sampleContext ⟨[], [], [], [(1, [2]), (2, [1])]⟩ 1412 1
      (.Comparison .BO_EQ) 2 = some [⟨0, 0⟩] :=
  ⟨by decide, by decide,
    (getRangeForEqualities_transfer sampleContext ⟨[], [], [], [(1, [2]), (2, [1])]⟩ 1412 1 2
      (.Comparison .BO_EQ) (by decide)).2.1 (Or.inr ⟨by decide, rfl⟩)⟩

/-- How a set of values reads as a truth value: a single value by being
non-zero, another well-formed set as true if it does not contain zero. -/
theorem interpreteAsBool_eq {T : APSIntType} (hT : 0 < T.BitWidth) {C : RangeSet}
    (hW : WellFormed C) :
    ((∃ c, C = [⟨c, c⟩] ∧ c ≠ 0) ∨ ¬Covers C 0 → interpreteAsBool T C = some true) ∧
    (C = [⟨0, 0⟩] → interpreteAsBool T C = some false) ∧
    (Covers C 0 ∧ (∀ c, C ≠ [⟨c, c⟩]) → interpreteAsBool T C = none) := by
  have hsingle : ∀ c, c ≠ 0 → interpreteAsBool T [⟨c, c⟩] = some true := by
    intro c hc
    unfold interpreteAsBool
    rw [getConcreteValue_singleton]
    simp only [decide_eq_false hc]
    rfl
  refine ⟨?_, ?_, ?_⟩
  · rintro (⟨c, rfl, hc⟩ | hz)
    · exact hsingle c hc
    · cases hcv : getConcreteValue C with
      | some c =>
        have hC := getConcreteValue_eq_some.mp hcv
        subst hC
        apply hsingle
        rintro rfl
        exact hz ⟨⟨0, 0⟩, List.mem_singleton.mpr rfl, le_refl _, le_refl _⟩
      | none =>
        unfold interpreteAsBool
        rw [hcv]
        have : containsImpl T C 0 = false := by
          rw [← Bool.not_eq_true, containsImpl_zero_iff hT hW]
          exact hz
        simp only [this]
        rfl
  · rintro rfl
    rfl
  · rintro ⟨hz, hC⟩
    unfold interpreteAsBool
    rw [getConcreteValue_eq_none.mpr hC]
    simp only [(containsImpl_zero_iff hT hW).mpr hz]
    rfl

/-- C31: a boolean-valued constraint on a symbol-symbol expression updates the
class registry: when the handler `assignSymSymExprToRangeSet` receives a
well-formed set `C` for the expression `L op R` of a symbol, then, if `C` is a
single non-zero value or does not contain zero, the handler gives what merging
the classes of `L` and `R` gives when `op` is `==`, and what marking them
disequal gives when `op` is `!=` or `-`; if `C` is the single value zero, it
gives what marking them disequal gives when `op` is `==`, and what merging
gives when `op` is `!=` or `-`; for any other opcode, or when `C` contains
zero and is not a single value, it leaves the state unchanged; and when the
handler gives the null state on the state left by the assignment to the class,
the whole assignment to the symbol returns the null state. -/
theorem assignSymSymExprToRangeSet_tracks (Ctx : Context) (State : ProgramState)
    (Sym L R : SymbolRef) (Op : Opcode) (C : RangeSet)
    (hT : 0 < (rangeTypeOf Ctx Sym).BitWidth) (hW : WellFormed C) :
    ((∃ c, C = [⟨c, c⟩] ∧ c ≠ 0) ∨ ¬Covers C 0 →
      (Op = .Comparison .BO_EQ →
        assignSymSymExprToRangeSet Ctx State Sym L Op R C =
          merge Ctx.getType Ctx.getHeight State L R) ∧
      (Op = .Comparison .BO_NE ∨ Op = .BO_Sub →
        assignSymSymExprToRangeSet Ctx State Sym L Op R C =
          markDisequal (rangeTypeOf Ctx) (inferRange Ctx) State L R)) ∧
    (C = [⟨0, 0⟩] →
      (Op = .Comparison .BO_EQ →
        assignSymSymExprToRangeSet Ctx State Sym L Op R C =
          markDisequal (rangeTypeOf Ctx) (inferRange Ctx) State L R) ∧
      (Op = .Comparison .BO_NE ∨ Op = .BO_Sub →
        assignSymSymExprToRangeSet Ctx State Sym L Op R C =
          merge Ctx.getType Ctx.getHeight State L R)) ∧
    ((Op ≠ .Comparison .BO_EQ ∧ Op ≠ .Comparison .BO_NE ∧ Op ≠ .BO_Sub) ∨
      (Covers C 0 ∧ ∀ c, C ≠ [⟨c, c⟩]) →
        assignSymSymExprToRangeSet Ctx State Sym L Op R C = some State) ∧
    (∀ (E : SymbolRef) (LE RE : SymExpr) (S0 : ProgramState),
      Ctx.getExpr Sym = .SymSymExpr E LE Op RE → LE.getSym = L → RE.getSym = R →
      assignClass Ctx State (find State Sym) C = some S0 →
      assignSymSymExprToRangeSet Ctx S0 Sym L Op R C = none →
        assignSym Ctx State Sym C = none ∧ assign Ctx State Sym C = none) := by
  obtain ⟨hb1, hb2, hb3⟩ := interpreteAsBool_eq hT hW
  refine ⟨?_, ?_, ?_, ?_⟩
  · intro h
    have hb := hb1 h
    constructor
    · rintro rfl
      unfold assignSymSymExprToRangeSet
      rw [hb]
      rfl
    · rintro (rfl | rfl)
      · unfold assignSymSymExprToRangeSet
        rw [hb]
        rfl
      · unfold assignSymSymExprToRangeSet
        rw [hb]
        rfl
  · intro h
    have hb := hb2 h
    constructor
    · rintro rfl
      unfold assignSymSymExprToRangeSet
      rw [hb]
      rfl
    · rintro (rfl | rfl)
      · unfold assignSymSymExprToRangeSet
        rw [hb]
        rfl
      · unfold assignSymSymExprToRangeSet
        rw [hb]
        rfl
  · rintro (⟨h1, h2, h3⟩ | h)
    · have hm : meansEquality Op = none := by
        cases Op with
        | Comparison OP =>
          cases OP
          all_goals first
            | rfl
            | exact absurd rfl h1
            | exact absurd rfl h2
        | BO_Sub => exact absurd rfl h3
        | _ => rfl
      unfold assignSymSymExprToRangeSet
      rw [hm]
      cases interpreteAsBool (rangeTypeOf Ctx Sym) C <;> rfl
    · unfold assignSymSymExprToRangeSet
      rw [hb3 h]
  · intro E LE RE S0 hE hL hR h0 hnull
    have hsym : assignSym Ctx State Sym C = none := by
      unfold assignSym
      rw [h0]
      simp only
      unfold assignBase
      rw [hE]
      simp only
      rw [hL, hR, hnull]
    refine ⟨hsym, ?_⟩
    unfold assign
    split_ifs
    · rfl
    · exact hsym

theorem assignSymSymExprToRangeSet_tracks_witness :
    0 < (rangeTypeOf sampleContext 1412).BitWidth ∧
    WellFormed [(⟨1, 1⟩ : Range)] ∧
    merge sampleContext.getType sampleContext.getHeight
        ⟨[], [], [(1, [⟨0, 10⟩]), (2, [⟨5, 20⟩])], []⟩ 1 2 =
      some ⟨[(2, 1)], [(1, [1, 2])], [(1, [⟨5, 10⟩])], []⟩ ∧
    assignSymSymExprToRangeSet sampleContext ⟨[], [], [(1, [⟨0, 10⟩]), (2, [⟨5, 20⟩])], []⟩
        1412 1 (.Comparison .BO_EQ) 2 [⟨1, 1⟩] =
      merge sampleContext.getType sampleContext.getHeight
        ⟨[], [], [(1, [⟨0, 10⟩]), (2, [⟨5, 20⟩])], []⟩ 1 2 :=
  ⟨by decide, by decide, by decide,
    ((assignSymSymExprToRangeSet_tracks sampleContext
      ⟨[], [], [(1, [⟨0, 10⟩]), (2, [⟨5, 20⟩])], []⟩ 1412 1 2 (.Comparison .BO_EQ) [⟨1, 1⟩]
      (by decide) (by decide)).1 (Or.inl ⟨1, rfl, by decide⟩)).1 rfl⟩

/-! ## The number of iterations of the intersection loop -/

/-- More fuel does not change what the counted loop returns. -/
theorem intersectLoopTrace_succ (fuel : Nat) :
    ∀ (inner : Bool) (F S R : List Range) (n : Nat)
      (x : List Range × Nat × List Range × List Range),
      intersectLoopTrace fuel inner F S R n = some x →
      intersectLoopTrace (fuel + 1) inner F S R n = some x := by
  induction fuel with
  | zero =>
    intro inner F S R n x h
    simp [intersectLoopTrace] at h
  | succ fuel ih =>
    intro inner F S R n x h
    cases inner with
    | false =>
      match F, S with
      | [], S =>
        simp only [intersectLoopTrace] at h ⊢
        exact h
      | f :: fs, [] =>
        simp only [intersectLoopTrace] at h ⊢
        exact h
      | f :: fs, s :: ss =>
        rw [intersectLoopTrace] at h
        rw [intersectLoopTrace]
        split_ifs at h ⊢
        · exact ih _ _ _ _ _ _ h
        · exact ih _ _ _ _ _ _ h
    | true =>
      match F, S with
      | [], S =>
        simp only [intersectLoopTrace] at h ⊢
        exact h
      | f :: fs, [] =>
        simp only [intersectLoopTrace] at h ⊢
        exact h
      | f :: fs, s :: ss =>
        rw [intersectLoopTrace] at h
        rw [intersectLoopTrace]
        split_ifs at h ⊢
        · exact ih _ _ _ _ _ _ h
        · exact ih _ _ _ _ _ _ h
        · exact ih _ _ _ _ _ _ h

theorem intersectLoopTrace_mono {fuel fuel' : Nat} (hle : fuel ≤ fuel')
    {inner : Bool} {F S R : List Range} {n : Nat}
    {x : List Range × Nat × List Range × List Range}
    (h : intersectLoopTrace fuel inner F S R n = some x) :
    intersectLoopTrace fuel' inner F S R n = some x := by
  induction hle with
  | refl => exact h
  | step _ ih => exact intersectLoopTrace_succ _ _ _ _ _ _ _ ih

/-- With the fuel of `intersectLoop_isSome` the counted loop returns what the
loop returns; every iteration of the inner loop has moved one iterator one
range forward, and no iterator has moved backwards. -/
theorem intersectLoopTrace_spec (fuel : Nat) :
    ∀ (inner : Bool) (F S R : List Range) (n : Nat),
      2 * (F.length + S.length) + (if inner then 0 else 1) ≤ fuel →
      (inner = true → F ≠ [] ∧ S ≠ []) →
      ∃ R' n' F' S',
        intersectLoopTrace fuel inner F S R n = some (R', n', F', S') ∧
        intersectLoop fuel inner F S R = some R' ∧
        n' + F'.length + S'.length = n + F.length + S.length ∧
        (F' = [] ∨ S' = []) ∧
        ((F' <:+ F ∧ S' <:+ S) ∨ (F' <:+ S ∧ S' <:+ F)) := by
  induction fuel with
  | zero =>
    intro inner F S R n hfuel hinv
    cases inner with
    | false => simp at hfuel
    | true =>
      obtain ⟨h1, h2⟩ := hinv rfl
      match F, h1 with
      | f :: fs, _ => simp at hfuel
  | succ fuel ih =>
    intro inner F S R n hfuel hinv
    cases inner with
    | false =>
      match F, S with
      | [], S =>
        exact ⟨R, n, [], S, by simp [intersectLoopTrace], by simp [intersectLoop], rfl,
          Or.inl rfl, Or.inl ⟨List.suffix_refl _, List.suffix_refl _⟩⟩
      | f :: fs, [] =>
        exact ⟨R, n, f :: fs, [], by simp [intersectLoopTrace], by simp [intersectLoop], rfl,
          Or.inr rfl, Or.inl ⟨List.suffix_refl _, List.suffix_refl _⟩⟩
      | f :: fs, s :: ss =>
        simp only [List.length_cons, Bool.false_eq_true, if_false] at hfuel
        by_cases hsw : s.From < f.From
        · obtain ⟨R', n', F', S', h1, h2, h3, h4, h5⟩ := ih true (s :: ss) (f :: fs) R n
            (by simp only [List.length_cons, if_true]; omega)
            (fun _ => ⟨List.cons_ne_nil _ _, List.cons_ne_nil _ _⟩)
          refine ⟨R', n', F', S', ?_, ?_, ?_, h4, ?_⟩
          · rw [intersectLoopTrace, if_pos hsw]
            exact h1
          · rw [intersectLoop, if_pos hsw]
            exact h2
          · simp only [List.length_cons] at h3 ⊢
            omega
          · rcases h5 with h5 | h5
            · exact Or.inr h5
            · exact Or.inl h5
        · obtain ⟨R', n', F', S', h1, h2, h3, h4, h5⟩ := ih true (f :: fs) (s :: ss) R n
            (by simp only [List.length_cons, if_true]; omega)
            (fun _ => ⟨List.cons_ne_nil _ _, List.cons_ne_nil _ _⟩)
          refine ⟨R', n', F', S', ?_, ?_, h3, h4, h5⟩
          · rw [intersectLoopTrace, if_neg hsw]
            exact h1
          · rw [intersectLoop, if_neg hsw]
            exact h2
    | true =>
      obtain ⟨h1, h2⟩ := hinv rfl
      match F, S, h1, h2 with
      | f :: fs, s :: ss, _, _ =>
        simp only [List.length_cons, if_true] at hfuel
        have hmeasure : ∀ (b : Bool) (X Y : List Range),
            X.length + Y.length = fs.length + ss.length + 1 →
            2 * (X.length + Y.length) + (if b then 0 else 1) ≤ fuel := by
          intro b X Y hXY
          rw [hXY]
          cases b <;> simp <;> omega
        have hne : ∀ (X : List Range) (Y : List Range), Y ≠ [] →
            ((!X.isEmpty) = true → Y ≠ [] ∧ X ≠ []) := by
          intro X Y hY h
          refine ⟨hY, ?_⟩
          intro hnil
          simp [hnil] at h
        by_cases hgt : s.From > f.To
        · obtain ⟨R', n', F', S', h1, h2, h3, h4, h5⟩ := ih false fs (s :: ss) R (n + 1)
            (hmeasure false _ _ (by simp only [List.length_cons]; omega))
            (fun h => absurd h (by simp))
          refine ⟨R', n', F', S', ?_, ?_, ?_, h4, ?_⟩
          · rw [intersectLoopTrace, if_pos hgt]
            exact h1
          · rw [intersectLoop, if_pos hgt]
            exact h2
          · simp only [List.length_cons] at h3 ⊢
            omega
          · rcases h5 with ⟨a, b⟩ | ⟨a, b⟩
            · exact Or.inl ⟨a.trans (List.suffix_cons _ _), b⟩
            · exact Or.inr ⟨a, b.trans (List.suffix_cons _ _)⟩
        · by_cases hto : s.To > f.To
          · obtain ⟨R', n', F', S', h1, h2, h3, h4, h5⟩ :=
              ih (!fs.isEmpty) (s :: ss) fs (R ++ [⟨s.From, f.To⟩]) (n + 1)
                (hmeasure _ _ _ (by simp only [List.length_cons]; omega))
                (hne fs (s :: ss) (List.cons_ne_nil _ _))
            refine ⟨R', n', F', S', ?_, ?_, ?_, h4, ?_⟩
            · rw [intersectLoopTrace, if_neg hgt, if_pos hto]
              exact h1
            · rw [intersectLoop, if_neg hgt, if_pos hto]
              exact h2
            · simp only [List.length_cons] at h3 ⊢
              omega
            · rcases h5 with ⟨a, b⟩ | ⟨a, b⟩
              · exact Or.inr ⟨a, b.trans (List.suffix_cons _ _)⟩
              · exact Or.inl ⟨a.trans (List.suffix_cons _ _), b⟩
          · obtain ⟨R', n', F', S', h1, h2, h3, h4, h5⟩ :=
              ih (!ss.isEmpty) (f :: fs) ss (R ++ [⟨s.From, s.To⟩]) (n + 1)
                (hmeasure _ _ _ (by simp only [List.length_cons]; omega))
                (hne ss (f :: fs) (List.cons_ne_nil _ _))
            refine ⟨R', n', F', S', ?_, ?_, ?_, h4, ?_⟩
            · rw [intersectLoopTrace, if_neg hgt, if_neg hto]
              exact h1
            · rw [intersectLoop, if_neg hgt, if_neg hto]
              exact h2
            · simp only [List.length_cons] at h3 ⊢
              omega
            · rcases h5 with ⟨a, b⟩ | ⟨a, b⟩
              · exact Or.inl ⟨a, b.trans (List.suffix_cons _ _)⟩
              · exact Or.inr ⟨a.trans (List.suffix_cons _ _), b⟩

/-- C40: the two-cursor intersection loop terminates: for all finite range
sequences `LHS` and `RHS` the nested loop of `intersect` returns, with the fuel
that `intersectContainers` passes and with any larger fuel, after at most
`|LHS| + |RHS|` iterations of the inner loop: every inner iteration advances
exactly one of the two cursors, so that the count and the lengths left at the
exit add up to `|LHS| + |RHS|`; one cursor is at its end at the exit; and no
swap moves a cursor backwards, the cursors at the exit being suffixes of the
two sequences. -/
theorem intersect_loop_terminates (LHS RHS : List Range) :
    ∃ Result Iterations First Second,
      (∀ fuel, 2 * (LHS.length + RHS.length) + 1 ≤ fuel →
        intersectLoopTrace fuel false LHS RHS [] 0 =
          some (Result, Iterations, First, Second)) ∧
      intersectLoop (2 * (LHS.length + RHS.length) + 1) false LHS RHS [] = some Result ∧
      intersectContainers LHS RHS = Result ∧
      Iterations + First.length + Second.length = LHS.length + RHS.length ∧
      Iterations ≤ LHS.length + RHS.length ∧
      (First = [] ∨ Second = []) ∧
      ((First <:+ LHS ∧ Second <:+ RHS) ∨ (First <:+ RHS ∧ Second <:+ LHS)) := by
  obtain ⟨R', n', F', S', h1, h2, h3, h4, h5⟩ :=
    intersectLoopTrace_spec (2 * (LHS.length + RHS.length) + 1) false LHS RHS [] 0
      (by simp) (fun h => absurd h (by simp))
  refine ⟨R', n', F', S', fun fuel hfuel => intersectLoopTrace_mono hfuel h1, h2, ?_, ?_, ?_,
    h4, h5⟩
  · simp [intersectContainers, h2]
  · omega
  · omega

theorem intersect_loop_terminates_witness :
    intersectLoopTrace 7 false [⟨0, 5⟩, ⟨10, 15⟩] [⟨3, 12⟩] [] 0 =
      some ([⟨3, 5⟩, ⟨10, 12⟩], 2, [⟨10, 15⟩], []) ∧
    ∃ Result Iterations First Second,
      (∀ fuel, 2 * (([⟨0, 5⟩, ⟨10, 15⟩] : List Range).length +
          ([⟨3, 12⟩] : List Range).length) + 1 ≤ fuel →
        intersectLoopTrace fuel false [⟨0, 5⟩, ⟨10, 15⟩] [⟨3, 12⟩] [] 0 =
          some (Result, Iterations, First, Second)) ∧
      intersectLoop (2 * (([⟨0, 5⟩, ⟨10, 15⟩] : List Range).length +
          ([⟨3, 12⟩] : List Range).length) + 1) false [⟨0, 5⟩, ⟨10, 15⟩] [⟨3, 12⟩] [] =
        some Result ∧
      intersectContainers [⟨0, 5⟩, ⟨10, 15⟩] [⟨3, 12⟩] = Result ∧
      Iterations + First.length + Second.length =
        ([⟨0, 5⟩, ⟨10, 15⟩] : List Range).length + ([⟨3, 12⟩] : List Range).length ∧
      Iterations ≤
        ([⟨0, 5⟩, ⟨10, 15⟩] : List Range).length + ([⟨3, 12⟩] : List Range).length ∧
      (First = [] ∨ Second = []) ∧
      ((First <:+ [⟨0, 5⟩, ⟨10, 15⟩] ∧ Second <:+ [⟨3, 12⟩]) ∨
        (First <:+ [⟨3, 12⟩] ∧ Second <:+ [⟨0, 5⟩, ⟨10, 15⟩])) :=
  ⟨by decide, intersect_loop_terminates [⟨0, 5⟩, ⟨10, 15⟩] [⟨3, 12⟩]⟩

/-! ## The union of two range sets and the assumption outside a range -/

theorem add_nil_right (A : RangeSet) : add A [] = A := by
  induction A with
  | nil => rfl
  | cons a A ih =>
    show mergeRanges a (add A) [] = a :: A
    rw [mergeRanges, ih]

theorem add_cons_cons (a : Range) (A : RangeSet) (b : Range) (B : RangeSet) :
    add (a :: A) (b :: B) =
      if b.From < a.From then b :: add (a :: A) B else a :: add A (b :: B) := by
  show mergeRanges a (add A) (b :: B) = _
  rw [mergeRanges]
  rfl

/-- The union is a rearrangement of the ranges of the two sets. -/
theorem add_perm (A B : RangeSet) : (add A B).Perm (A ++ B) := by
  induction A generalizing B with
  | nil => exact List.Perm.refl _
  | cons a A ihA =>
    induction B with
    | nil =>
      rw [add_nil_right, List.append_nil]
    | cons b B ihB =>
      rw [add_cons_cons]
      split_ifs
      · exact (List.Perm.cons b ihB).trans List.perm_middle.symm
      · exact List.Perm.cons a (ihA (b :: B))

theorem mem_add {A B : RangeSet} {r : Range} : r ∈ add A B ↔ r ∈ A ∨ r ∈ B := by
  rw [(add_perm A B).mem_iff, List.mem_append]

theorem covers_add (A B : RangeSet) (x : Int) :
    Covers (add A B) x ↔ Covers A x ∨ Covers B x := by
  unfold Covers
  constructor
  · rintro ⟨r, hr, h⟩
    rcases mem_add.mp hr with hr | hr
    · exact Or.inl ⟨r, hr, h⟩
    · exact Or.inr ⟨r, hr, h⟩
  · rintro (⟨r, hr, h⟩ | ⟨r, hr, h⟩)
    · exact ⟨r, mem_add.mpr (Or.inl hr), h⟩
    · exact ⟨r, mem_add.mpr (Or.inr hr), h⟩

/-- The union of two sequences in the order of their lower bounds is in the
order of the lower bounds. -/
theorem add_sorted (A B : RangeSet) (hA : A.Pairwise (fun a b => a.From ≤ b.From))
    (hB : B.Pairwise (fun a b => a.From ≤ b.From)) :
    (add A B).Pairwise (fun a b => a.From ≤ b.From) := by
  induction A generalizing B with
  | nil => exact hB
  | cons a A ihA =>
    induction B with
    | nil =>
      rw [add_nil_right]
      exact hA
    | cons b B ihB =>
      rw [add_cons_cons]
      obtain ⟨ha, hA'⟩ := List.pairwise_cons.mp hA
      obtain ⟨hb, hB'⟩ := List.pairwise_cons.mp hB
      split_ifs with hlt
      · refine List.pairwise_cons.mpr ⟨?_, ihB hB'⟩
        intro x hx
        rcases mem_add.mp hx with hx | hx
        · rcases List.mem_cons.mp hx with rfl | hx
          · exact le_of_lt hlt
          · have := ha x hx
            omega
        · exact hb x hx
      · refine List.pairwise_cons.mpr ⟨?_, ihA (b :: B) hA' hB⟩
        intro x hx
        rcases mem_add.mp hx with hx | hx
        · exact ha x hx
        · rcases List.mem_cons.mp hx with rfl | hx
          · omega
          · have := hb x hx
            omega

/-- The union of two well-formed sets without a common value is well-formed. -/
theorem add_wellFormed {A B : RangeSet} (hA : WellFormed A) (hB : WellFormed B)
    (hd : ∀ a ∈ A, ∀ b ∈ B, a.To < b.From ∨ b.To < a.From) : WellFormed (add A B) := by
  have hv : ∀ r ∈ add A B, r.From ≤ r.To := by
    intro r hr
    rcases mem_add.mp hr with hr | hr
    · exact hA.1 r hr
    · exact hB.1 r hr
  refine ⟨hv, ?_⟩
  have hs := add_sorted A B ((wellFormed_iff_sorted_disjoint A).mp hA).2.1
    ((wellFormed_iff_sorted_disjoint B).mp hB).2.1
  have hdis : (add A B).Pairwise (fun a b => a.To < b.From ∨ b.To < a.From) :=
    ((add_perm A B).pairwise_iff (fun h => h.symm)).mpr
      (List.pairwise_append.mpr ⟨hA.pairwise_disjoint, hB.pairwise_disjoint, hd⟩)
  refine (hs.and hdis).imp_of_mem ?_
  intro a b ha hb hab
  have h1 := hv a ha
  have h2 := hv b hb
  obtain ⟨h3, h4⟩ := hab
  omega

/-- Two valid ranges without a common value lie apart. -/
theorem apart_of_no_common_point {a b : Range} (ha : a.From ≤ a.To) (hb : b.From ≤ b.To)
    (h : ∀ x : Int, ¬((a.From ≤ x ∧ x ≤ a.To) ∧ (b.From ≤ x ∧ x ≤ b.To))) :
    a.To < b.From ∨ b.To < a.From := by
  by_contra hcon
  by_cases hab : a.From ≤ b.From
  · exact h b.From ⟨⟨hab, by omega⟩, ⟨le_refl _, hb⟩⟩
  · exact h a.From ⟨⟨le_refl _, ha⟩, ⟨by omega, by omega⟩⟩

/-- What `intersect(What, Lower, Upper)` returns is a set of values of the type. -/
theorem intersectBounds_inType {T : APSIntType} (hT : 0 < T.BitWidth) {S : RangeSet}
    (hS : WellFormed S) (l u : Int) : InType T (intersectBounds T S l u) := by
  rw [intersectBounds_eq hT hS]
  split
  · intro r hr
    cases hr
  · rename_i l' u' hpin
    obtain ⟨⟨hl1, hl2⟩, ⟨hu1, hu2⟩⟩ := pin_inRange hT hpin
    intro r hr
    obtain ⟨a, _, b, hb, hab⟩ := mem_overlaps.mp hr
    obtain ⟨hle, rfl⟩ := interRange_eq_some.mp hab
    simp only
    have hbb : T.getMinValue ≤ b.From ∧ b.To ≤ T.getMaxValue := by
      unfold boundsContainer at hb
      split_ifs at hb
      · rw [List.mem_singleton.mp hb]
        exact ⟨hl1, hu2⟩
      · rcases List.mem_cons.mp hb with rfl | hb
        · exact ⟨le_refl _, hu2⟩
        · rw [List.mem_singleton.mp hb]
          exact ⟨hl1, le_refl _⟩
    exact ⟨le_trans hbb.1 (le_max_right _ _), le_trans (min_le_right _ _) hbb.2⟩

theorem getSymLTRange_typed (Ctx : Context) {T : APSIntType} (hT : 0 < T.BitWidth)
    (St : ProgramState) (Sym : SymbolRef) {Int : ℤ} (Adjustment : ℤ)
    (hI1 : T.getMinValue ≤ Int) (hI2 : Int ≤ T.getMaxValue)
    (hR : WellFormed (getRange Ctx St Sym)) :
    WellFormed (getSymLTRange Ctx T St Sym Int Adjustment) ∧
      InType T (getSymLTRange Ctx T St Sym Int Adjustment) := by
  unfold getSymLTRange
  rw [testInRange_within T hI1 hI2]
  simp only
  split_ifs
  · exact nil_wellFormed_inType T
  · exact ⟨intersectBounds_wellFormed hT hR _ _, intersectBounds_inType hT hR _ _⟩

theorem getSymGTRange_typed (Ctx : Context) {T : APSIntType} (hT : 0 < T.BitWidth)
    (St : ProgramState) (Sym : SymbolRef) {Int : ℤ} (Adjustment : ℤ)
    (hI1 : T.getMinValue ≤ Int) (hI2 : Int ≤ T.getMaxValue)
    (hR : WellFormed (getRange Ctx St Sym)) :
    WellFormed (getSymGTRange Ctx T St Sym Int Adjustment) ∧
      InType T (getSymGTRange Ctx T St Sym Int Adjustment) := by
  unfold getSymGTRange
  rw [testInRange_within T hI1 hI2]
  simp only
  split_ifs
  · exact nil_wellFormed_inType T
  · exact ⟨intersectBounds_wellFormed hT hR _ _, intersectBounds_inType hT hR _ _⟩

/-- C33: `assumeSymOutsideInclusiveRange` commits the union of the two outer
parts: for a type of at least one bit, values `From <= To` and `Adjustment` of
the type and the current range `R = getRange(State, Sym)`, a well-formed set,
the set `add(getSymLTRange(From), getSymGTRange(To))` is well-formed (sorted by
lower bound, pairwise disjoint) and contains exactly the values `x` of `R` whose
adjusted value `x + Adjustment`, wrapped into the type, is `< From` or `> To`;
the function assigns that set with `setRange`, and when the set is empty the
result is the null state. -/
theorem assumeSymOutsideInclusiveRange_union (Ctx : Context) (T : APSIntType)
    (hT : 0 < T.BitWidth) (St : ProgramState) (Sym : SymbolRef) (From To Adjustment : ℤ)
    (hF1 : T.getMinValue ≤ From) (hF2 : From ≤ T.getMaxValue)
    (hT1 : T.getMinValue ≤ To) (hT2 : To ≤ T.getMaxValue) (hFT : From ≤ To)
    (hA1 : T.getMinValue ≤ Adjustment) (hA2 : Adjustment ≤ T.getMaxValue)
    (hR : WellFormed (getRange Ctx St Sym)) :
    WellFormed (add (getSymLTRange Ctx T St Sym From Adjustment)
      (getSymGTRange Ctx T St Sym To Adjustment)) ∧
    (∀ x : ℤ,
      containsImpl T (add (getSymLTRange Ctx T St Sym From Adjustment)
        (getSymGTRange Ctx T St Sym To Adjustment)) x = true ↔
      containsImpl T (getRange Ctx St Sym) x = true ∧
        (T.apply (x + Adjustment) < From ∨ T.apply (x + Adjustment) > To)) ∧
    assumeSymOutsideInclusiveRange Ctx T St Sym From To Adjustment =
      setRange Ctx St Sym (add (getSymLTRange Ctx T St Sym From Adjustment)
        (getSymGTRange Ctx T St Sym To Adjustment)) ∧
    (add (getSymLTRange Ctx T St Sym From Adjustment)
        (getSymGTRange Ctx T St Sym To Adjustment) = [] →
      assumeSymOutsideInclusiveRange Ctx T St Sym From To Adjustment = none) := by
  obtain ⟨hwL, hiL⟩ := getSymLTRange_typed Ctx hT St Sym Adjustment hF1 hF2 hR
  obtain ⟨hwG, hiG⟩ := getSymGTRange_typed Ctx hT St Sym Adjustment hT1 hT2 hR
  have hcL := getSymLTRange_contains Ctx hT St Sym hF1 hF2 hA1 hA2 hR
  have hcG := getSymGTRange_contains Ctx hT St Sym hT1 hT2 hA1 hA2 hR
  have hapart : ∀ a ∈ getSymLTRange Ctx T St Sym From Adjustment,
      ∀ b ∈ getSymGTRange Ctx T St Sym To Adjustment, a.To < b.From ∨ b.To < a.From := by
    intro a ha b hb
    apply apart_of_no_common_point (hwL.1 a ha) (hwG.1 b hb)
    rintro x ⟨⟨h1, h2⟩, ⟨h3, h4⟩⟩
    have hx1 : T.getMinValue ≤ x := le_trans (hiL a ha).1 h1
    have hx2 : x ≤ T.getMaxValue := le_trans h2 (hiL a ha).2
    have cL := (hcL x).mp ((containsImpl_iff hT hwL hx1 hx2).mpr ⟨a, ha, h1, h2⟩)
    have cG := (hcG x).mp ((containsImpl_iff hT hwG hx1 hx2).mpr ⟨b, hb, h3, h4⟩)
    omega
  have hwf := add_wellFormed hwL hwG hapart
  refine ⟨hwf, ?_, rfl, ?_⟩
  · intro x
    by_cases hx : T.getMinValue ≤ x ∧ x ≤ T.getMaxValue
    · rw [containsImpl_iff hT hwf hx.1 hx.2, covers_add,
        ← containsImpl_iff hT hwL hx.1 hx.2, ← containsImpl_iff hT hwG hx.1 hx.2,
        hcL x, hcG x]
      constructor
      · rintro (⟨h1, h2⟩ | ⟨h1, h2⟩)
        · exact ⟨h1, Or.inl h2⟩
        · exact ⟨h1, Or.inr h2⟩
      · rintro ⟨h1, h2 | h2⟩
        · exact Or.inl ⟨h1, h2⟩
        · exact Or.inr ⟨h1, h2⟩
    · have hout : x < T.getMinValue ∨ T.getMaxValue < x := by omega
      rw [containsImpl_outside T _ hout, containsImpl_outside T _ hout]
      simp
  · intro hemp
    unfold assumeSymOutsideInclusiveRange
    simp only [hemp]
    exact assign_nil Ctx St Sym

theorem assumeSymOutsideInclusiveRange_union_witness :
    getRange sampleContext ⟨[], [], [(1, [⟨-100, 100⟩])], []⟩ 1 = [⟨-100, 100⟩] ∧
    getSymLTRange sampleContext int8 ⟨[], [], [(1, [⟨-100, 100⟩])], []⟩ 1 (-10) 100 =
      [⟨28, 100⟩] ∧
    getSymGTRange sampleContext int8 ⟨[], [], [(1, [⟨-100, 100⟩])], []⟩ 1 10 100 =
      [⟨-89, 27⟩] ∧
    add [⟨28, 100⟩] [⟨-89, 27⟩] = [⟨-89, 27⟩, ⟨28, 100⟩] ∧
    WellFormed (add
      (getSymLTRange sampleContext int8 ⟨[], [], [(1, [⟨-100, 100⟩])], []⟩ 1 (-10) 100)
      (getSymGTRange sampleContext int8 ⟨[], [], [(1, [⟨-100, 100⟩])], []⟩ 1 10 100)) :=
  ⟨by decide, by decide, by decide, by decide,
    (assumeSymOutsideInclusiveRange_union sampleContext int8 (by decide)
      ⟨[], [], [(1, [⟨-100, 100⟩])], []⟩ 1 (-10) 10 100
      (by decide) (by decide) (by decide) (by decide) (by decide) (by decide) (by decide)
      (by decide)).1⟩

/-! ## Soundness of the rules for the bitwise operators -/

theorem nat_left_le_or (x y : Nat) : x ≤ x ||| y := by
  have h : (x ||| y) &&& x = x := by
    apply Nat.eq_of_testBit_eq
    intro i
    rw [Nat.testBit_and, Nat.testBit_or]
    cases x.testBit i <;> cases y.testBit i <;> rfl
  calc x = (x ||| y) &&& x := h.symm
    _ ≤ x ||| y := Nat.and_le_left

theorem nat_right_le_or (x y : Nat) : y ≤ x ||| y := by
  have h : (x ||| y) &&& y = y := by
    apply Nat.eq_of_testBit_eq
    intro i
    rw [Nat.testBit_and, Nat.testBit_or]
    cases x.testBit i <;> cases y.testBit i <;> rfl
  calc y = (x ||| y) &&& y := h.symm
    _ ≤ x ||| y := Nat.and_le_left

/-- Two numbers of `k + 1` bits with the top bit set have the top bit set in
their AND. -/
theorem nat_and_top_bit {k x y : Nat} (hx1 : 2 ^ k ≤ x) (hx2 : x < 2 ^ (k + 1))
    (hy1 : 2 ^ k ≤ y) (hy2 : y < 2 ^ (k + 1)) : 2 ^ k ≤ x &&& y := by
  have top : ∀ z, 2 ^ k ≤ z → z < 2 ^ (k + 1) → z.testBit k = true := by
    intro z h1 h2
    have hz : z = 2 ^ k + (z - 2 ^ k) := by omega
    rw [hz, Nat.testBit_two_pow_add_eq, Nat.testBit_lt_two_pow]
    · rfl
    · rw [pow_succ] at h2
      omega
  apply Nat.testBit_implies_ge
  rw [Nat.testBit_and, top x hx1 hx2, top y hy1 hy2]
  rfl

/-- The range of a type in terms of half the number of its bit patterns. -/
theorem APSIntType.range_eq (T : APSIntType) (hT : 0 < T.BitWidth) :
    ∃ H : Nat, H = 2 ^ (T.BitWidth - 1) ∧ 0 < H ∧ (2 : Int) ^ T.BitWidth = 2 * H ∧
      (2 : Nat) ^ T.BitWidth = 2 * H ∧
      ((T.IsUnsigned = true ∧ T.getMinValue = 0 ∧ T.getMaxValue = 2 * H - 1) ∨
        (T.IsUnsigned = false ∧ T.getMinValue = -H ∧ T.getMaxValue = H - 1)) := by
  obtain ⟨w, hw⟩ : ∃ w, T.BitWidth = w + 1 := ⟨T.BitWidth - 1, by omega⟩
  refine ⟨2 ^ (T.BitWidth - 1), rfl, Nat.pow_pos (by norm_num), ?_, ?_, ?_⟩
  · rw [hw, Nat.add_sub_cancel, pow_succ]
    push_cast
    ring
  · rw [hw, Nat.add_sub_cancel, pow_succ]
    ring
  · unfold APSIntType.getMinValue APSIntType.getMaxValue
    rw [hw, Nat.add_sub_cancel]
    cases T.IsUnsigned with
    | true =>
      left
      refine ⟨rfl, by simp, ?_⟩
      simp only [if_true]
      rw [pow_succ]
      push_cast
      ring
    | false =>
      right
      refine ⟨rfl, ?_, ?_⟩
      · simp
      · simp

/-- The bit pattern of a value of the type: the value itself when it is not
negative, and the value plus the number of bit patterns when it is. -/
theorem APSIntType.bits_cases (T : APSIntType) (hT : 0 < T.BitWidth) {v : Int}
    (h1 : T.getMinValue ≤ v) (h2 : v ≤ T.getMaxValue) :
    (0 ≤ v ∧ (T.bits v : Int) = v) ∨ (v < 0 ∧ (T.bits v : Int) = v + 2 ^ T.BitWidth) := by
  obtain ⟨H, _, hH, hP, _, hcases⟩ := T.range_eq hT
  have hpos : (0 : Int) < 2 ^ T.BitWidth := by omega
  have hcast : (T.bits v : Int) = v % 2 ^ T.BitWidth := by
    unfold APSIntType.bits
    exact Int.toNat_of_nonneg (Int.emod_nonneg _ (ne_of_gt hpos))
  rw [hcast]
  by_cases hv : 0 ≤ v
  · left
    refine ⟨hv, Int.emod_eq_of_lt hv ?_⟩
    rcases hcases with ⟨_, _, h⟩ | ⟨_, _, h⟩ <;> omega
  · right
    refine ⟨by omega, ?_⟩
    rw [emod_shift 1 (by rcases hcases with ⟨_, h, _⟩ | ⟨_, h, _⟩ <;> omega) (by omega)]
    ring

/-- A bit pattern read as a value of the type. -/
theorem APSIntType.apply_bits (T : APSIntType) (hT : 0 < T.BitWidth) {n : Nat}
    (hn : n < 2 ^ T.BitWidth) :
    ((n : Int) ≤ T.getMaxValue ∧ T.apply n = n) ∨
      (T.getMaxValue < (n : Int) ∧ T.apply n = n - 2 ^ T.BitWidth) := by
  have hp := T.pow_eq hT
  have hmm := T.min_nonpos_max_nonneg hT
  have hn' : (n : Int) < 2 ^ T.BitWidth := by exact_mod_cast hn
  rcases T.apply_cases hT n (by omega) (by omega) with ⟨h, _⟩ | ⟨_, h, e⟩ | ⟨h, e⟩
  · omega
  · exact Or.inl ⟨h, e⟩
  · exact Or.inr ⟨h, by omega⟩

/-- What is known of the bitwise OR of two values of a type. -/
theorem bitwiseOr_bounds (T : APSIntType) (hT : 0 < T.BitWidth) {a b : Int}
    (ha1 : T.getMinValue ≤ a) (ha2 : a ≤ T.getMaxValue)
    (hb1 : T.getMinValue ≤ b) (hb2 : b ≤ T.getMaxValue) :
    (T.getMinValue ≤ bitwiseOr T a b ∧ bitwiseOr T a b ≤ T.getMaxValue) ∧
    (0 ≤ a → 0 ≤ b → max a b ≤ bitwiseOr T a b) ∧
    (a < 0 → b < 0 → max a b ≤ bitwiseOr T a b) ∧
    (a < 0 ∨ b < 0 → bitwiseOr T a b < 0) ∧
    (a ≠ 0 ∨ b ≠ 0 → bitwiseOr T a b ≠ 0) := by
  obtain ⟨H, hHdef, hH, hP, hPn, hcases⟩ := T.range_eq hT
  obtain ⟨w, hw⟩ : ∃ w, T.BitWidth = w + 1 := ⟨T.BitWidth - 1, by omega⟩
  have hx := T.bits_cases hT ha1 ha2
  have hy := T.bits_cases hT hb1 hb2
  have hxlt : T.bits a < 2 ^ T.BitWidth := by
    have : (T.bits a : Int) < 2 ^ T.BitWidth := by
      rcases hcases with ⟨_, _, _⟩ | ⟨_, _, _⟩ <;> omega
    exact_mod_cast this
  have hylt : T.bits b < 2 ^ T.BitWidth := by
    have : (T.bits b : Int) < 2 ^ T.BitWidth := by
      rcases hcases with ⟨_, _, _⟩ | ⟨_, _, _⟩ <;> omega
    exact_mod_cast this
  have hn := Nat.or_lt_two_pow hxlt hylt
  have hl := nat_left_le_or (T.bits a) (T.bits b)
  have hr := nat_right_le_or (T.bits a) (T.bits b)
  have hhalf : T.bits a < H → T.bits b < H → T.bits a ||| T.bits b < H := by
    intro h1 h2
    rw [hHdef] at h1 h2 ⊢
    exact Nat.or_lt_two_pow h1 h2
  have hres := T.apply_bits hT hn
  have hin := T.apply_inRange hT ((T.bits a ||| T.bits b : Nat) : Int)
  unfold bitwiseOr
  generalize T.apply ((T.bits a ||| T.bits b : Nat) : Int) = r at hres hin ⊢
  generalize T.bits a ||| T.bits b = n at hn hl hr hhalf hres
  generalize T.bits a = x at hx hxlt hl hhalf
  generalize T.bits b = y at hy hylt hr hhalf
  rw [hPn] at hn hxlt hylt
  rw [hP] at hx hy hres
  refine ⟨hin, ?_, ?_, ?_, ?_⟩
  · intro h1 h2
    rcases hcases with ⟨_, hmin, hmax⟩ | ⟨_, hmin, hmax⟩
    · omega
    · have h3 : x < H := by omega
      have h4 : y < H := by omega
      have := hhalf h3 h4
      omega
  · intro h1 h2
    omega
  · intro h1
    omega
  · intro h1
    omega

/-- What is known of the bitwise AND of two values of a type. -/
theorem bitwiseAnd_bounds (T : APSIntType) (hT : 0 < T.BitWidth) {a b : Int}
    (ha1 : T.getMinValue ≤ a) (ha2 : a ≤ T.getMaxValue)
    (hb1 : T.getMinValue ≤ b) (hb2 : b ≤ T.getMaxValue) :
    (T.getMinValue ≤ bitwiseAnd T a b ∧ bitwiseAnd T a b ≤ T.getMaxValue) ∧
    (0 ≤ a → 0 ≤ bitwiseAnd T a b ∧ bitwiseAnd T a b ≤ a) ∧
    (0 ≤ b → 0 ≤ bitwiseAnd T a b ∧ bitwiseAnd T a b ≤ b) ∧
    (a < 0 → b < 0 → bitwiseAnd T a b ≤ min a b) := by
  obtain ⟨H, hHdef, hH, hP, hPn, hcases⟩ := T.range_eq hT
  obtain ⟨w, hw⟩ : ∃ w, T.BitWidth = w + 1 := ⟨T.BitWidth - 1, by omega⟩
  have hx := T.bits_cases hT ha1 ha2
  have hy := T.bits_cases hT hb1 hb2
  have hxlt : T.bits a < 2 ^ T.BitWidth := by
    have : (T.bits a : Int) < 2 ^ T.BitWidth := by
      rcases hcases with ⟨_, _, _⟩ | ⟨_, _, _⟩ <;> omega
    exact_mod_cast this
  have hylt : T.bits b < 2 ^ T.BitWidth := by
    have : (T.bits b : Int) < 2 ^ T.BitWidth := by
      rcases hcases with ⟨_, _, _⟩ | ⟨_, _, _⟩ <;> omega
    exact_mod_cast this
  have hn := Nat.and_lt_two_pow (T.bits a) hylt
  have hl : T.bits a &&& T.bits b ≤ T.bits a := Nat.and_le_left
  have hr : T.bits a &&& T.bits b ≤ T.bits b := Nat.and_le_right
  have htop : H ≤ T.bits a → H ≤ T.bits b → H ≤ T.bits a &&& T.bits b := by
    intro h1 h2
    rw [hHdef, hw, Nat.add_sub_cancel] at h1 h2 ⊢
    rw [hw] at hxlt hylt
    exact nat_and_top_bit h1 hxlt h2 hylt
  have hres := T.apply_bits hT hn
  have hin := T.apply_inRange hT ((T.bits a &&& T.bits b : Nat) : Int)
  unfold bitwiseAnd
  generalize T.apply ((T.bits a &&& T.bits b : Nat) : Int) = r at hres hin ⊢
  generalize T.bits a &&& T.bits b = n at hn hl hr htop hres
  generalize T.bits a = x at hx hxlt hl htop
  generalize T.bits b = y at hy hylt hr htop
  rw [hPn] at hn hxlt hylt
  rw [hP] at hx hy hres
  refine ⟨hin, ?_, ?_, ?_⟩
  · intro h1
    omega
  · intro h1
    omega
  · intro h1 h2
    rcases hcases with ⟨_, hmin, hmax⟩ | ⟨_, hmin, hmax⟩
    · omega
    · have h3 : H ≤ x := by omega
      have h4 : H ≤ y := by omega
      have := htop h3 h4
      omega

theorem covers_singleton (lo hi x : Int) : Covers [⟨lo, hi⟩] x ↔ lo ≤ x ∧ x ≤ hi := by
  unfold Covers
  simp

/-- For a type that is not a reference type, `infer(T)` is the range of the type. -/
theorem inferType_of_not_reference (Ctx : Context) (T : QualType)
    (hRef : Ctx.isReferenceType T = false) :
    inferType Ctx T =
      [⟨(Ctx.getAPSIntType T).getMinValue, (Ctx.getAPSIntType T).getMaxValue⟩] := by
  unfold inferType
  simp [hRef]

/-- C35: the rule for bitwise OR is sound: for a result type of at least one
bit that is not a reference type and all coarse operand ranges `LHS` and `RHS`
of that type, for every `a` in `LHS` and `b` in `RHS` the bitwise OR of `a` and
`b` in the type is contained in the range set returned by
`VisitBinaryOperator<BO_Or>(LHS, RHS, T)`; every value of that set is at least
`max(LHS.From, RHS.From)` when both ranges have the same sign, is negative when
either range is entirely negative, and is non-zero when at least one range
excludes zero. -/
theorem or_rule_sound (Ctx : Context) (T : QualType) (LHS RHS : Range) (a b : Int)
    (hT : 0 < (Ctx.getAPSIntType T).BitWidth) (hRef : Ctx.isReferenceType T = false)
    (hL : (Ctx.getAPSIntType T).getMinValue ≤ LHS.From ∧
      LHS.To ≤ (Ctx.getAPSIntType T).getMaxValue)
    (hR : (Ctx.getAPSIntType T).getMinValue ≤ RHS.From ∧
      RHS.To ≤ (Ctx.getAPSIntType T).getMaxValue)
    (ha : LHS.From ≤ a ∧ a ≤ LHS.To) (hb : RHS.From ≤ b ∧ b ≤ RHS.To) :
    Covers (VisitBinaryOperatorOr Ctx LHS RHS T) (bitwiseOr (Ctx.getAPSIntType T) a b) ∧
    (∀ x, Covers (VisitBinaryOperatorOr Ctx LHS RHS T) x →
      ((0 ≤ LHS.From ∧ 0 ≤ RHS.From) ∨ (LHS.To < 0 ∧ RHS.To < 0) →
        max LHS.From RHS.From ≤ x) ∧
      (LHS.To < 0 ∨ RHS.To < 0 → x < 0) ∧
      (¬(LHS.From ≤ 0 ∧ 0 ≤ LHS.To) ∨ ¬(RHS.From ≤ 0 ∧ 0 ≤ RHS.To) → x ≠ 0)) := by
  have hmm := (Ctx.getAPSIntType T).min_nonpos_max_nonneg hT
  have hneg : (Ctx.getAPSIntType T).getMinValue < 0 →
      (Ctx.getAPSIntType T).apply (0 - 1) = -1 := by
    intro h
    exact (Ctx.getAPSIntType T).apply_of_inRange hT (by omega) (by omega)
  obtain ⟨hin, hpos, hnn, hn1, hnz⟩ := bitwiseOr_bounds (Ctx.getAPSIntType T) hT
    (a := a) (b := b) (by omega) (by omega) (by omega) (by omega)
  have hfull := wellFormed_full (Ctx.getAPSIntType T) hT
  unfold VisitBinaryOperatorOr
  simp only [inferType_of_not_reference Ctx T hRef, assumeNonZero]
  generalize bitwiseOr (Ctx.getAPSIntType T) a b = r at hin hpos hnn hn1 hnz ⊢
  split_ifs with h1 h2 h3 h4
  · simp only [Bool.or_eq_true, Bool.and_eq_true, decide_eq_true_eq] at h1 h2
    have e := hneg (by omega)
    rw [e]
    simp only [covers_singleton]
    refine ⟨?_, fun x hx => ⟨fun _ => hx.1, fun _ => by omega, fun _ => by omega⟩⟩
    have := hnn (by omega) (by omega)
    have := hn1 (Or.inl (by omega))
    omega
  · simp only [Bool.or_eq_true, Bool.and_eq_true, decide_eq_true_eq] at h1 h2
    simp only [covers_singleton]
    refine ⟨?_, fun x hx => ⟨fun _ => hx.1, fun _ => by omega, fun _ => by omega⟩⟩
    have := hpos (by omega) (by omega)
    omega
  · simp only [Bool.or_eq_true, Bool.and_eq_true, decide_eq_true_eq] at h1 h3
    have e := hneg (by omega)
    rw [e]
    simp only [covers_singleton]
    refine ⟨?_, fun x hx => ⟨fun _ => by omega, fun _ => by omega, fun _ => by omega⟩⟩
    have := hn1 (by omega)
    omega
  · simp only [Bool.or_eq_true, Bool.and_eq_true, decide_eq_true_eq, Bool.not_eq_true',
      Range.Includes, Bool.and_eq_false_imp, decide_eq_false_iff_not] at h1 h3 h4
    have key : ∀ x, Covers (deletePoint (Ctx.getAPSIntType T)
        [⟨(Ctx.getAPSIntType T).getMinValue, (Ctx.getAPSIntType T).getMaxValue⟩] 0) x →
        (Ctx.getAPSIntType T).getMinValue ≤ x ∧ x ≤ (Ctx.getAPSIntType T).getMaxValue ∧
          x ≠ 0 := by
      intro x hx
      obtain ⟨s, hs, hs1, hs2⟩ := hx
      obtain ⟨q, hq, hq1, hq2⟩ := deletePoint_subranges hT hfull 0 s hs
      rw [List.mem_singleton.mp hq] at hq1 hq2
      simp only at hq1 hq2
      have hv := (deletePoint_wellFormed hT hfull 0).1 s hs
      have hx1 : (Ctx.getAPSIntType T).getMinValue ≤ x := by omega
      have hx2 : x ≤ (Ctx.getAPSIntType T).getMaxValue := by omega
      exact ⟨hx1, hx2, ((deletePoint_covers hT hfull 0 hx1 hx2).mp ⟨s, hs, hs1, hs2⟩).2⟩
    refine ⟨?_, fun x hx => ⟨fun _ => by omega, fun _ => by omega, fun _ => (key x hx).2.2⟩⟩
    rw [deletePoint_covers hT hfull 0 hin.1 hin.2, covers_singleton]
    refine ⟨hin, hnz ?_⟩
    by_contra hcon
    push_neg at hcon
    omega
  · simp only [Bool.or_eq_true, Bool.and_eq_true, decide_eq_true_eq, Bool.not_eq_true',
      Range.Includes, Bool.and_eq_false_imp, decide_eq_false_iff_not] at h1 h3 h4
    simp only [covers_singleton]
    refine ⟨hin, fun x hx => ⟨fun _ => by omega, fun _ => by omega, fun _ => by omega⟩⟩

theorem or_rule_sound_witness :
    VisitBinaryOperatorOr sampleContext ⟨-8, -3⟩ ⟨-20, -5⟩ 0 = [⟨-8, -1⟩] ∧
    bitwiseOr int8 (-6) (-17) = -1 ∧
    Covers (VisitBinaryOperatorOr sampleContext ⟨-8, -3⟩ ⟨-20, -5⟩ 0)
      (bitwiseOr (sampleContext.getAPSIntType 0) (-6) (-17)) :=
  ⟨by decide, by decide,
    (or_rule_sound sampleContext 0 ⟨-8, -3⟩ ⟨-20, -5⟩ (-6) (-17) (by decide) (by decide)
      (by decide) (by decide) (by decide) (by decide)).1⟩

/-- C36: the rule for bitwise AND is sound: for a result type of at least one
bit that is not a reference type and all coarse operand ranges `LHS` and `RHS`
of that type, for every `a` in `LHS` and `b` in `RHS` the bitwise AND of `a`
and `b` in the type is contained in the range set returned by
`VisitBinaryOperator<BO_And>(LHS, RHS, T)`; every value of that set is at most
`min(LHS.To, RHS.To)` when both ranges have the same sign, and lies within
`[0, To]` of every operand range that is entirely non-negative. -/
theorem and_rule_sound (Ctx : Context) (T : QualType) (LHS RHS : Range) (a b : Int)
    (hT : 0 < (Ctx.getAPSIntType T).BitWidth) (hRef : Ctx.isReferenceType T = false)
    (hL : (Ctx.getAPSIntType T).getMinValue ≤ LHS.From ∧
      LHS.To ≤ (Ctx.getAPSIntType T).getMaxValue)
    (hR : (Ctx.getAPSIntType T).getMinValue ≤ RHS.From ∧
      RHS.To ≤ (Ctx.getAPSIntType T).getMaxValue)
    (ha : LHS.From ≤ a ∧ a ≤ LHS.To) (hb : RHS.From ≤ b ∧ b ≤ RHS.To) :
    Covers (VisitBinaryOperatorAnd Ctx LHS RHS T) (bitwiseAnd (Ctx.getAPSIntType T) a b) ∧
    (∀ x, Covers (VisitBinaryOperatorAnd Ctx LHS RHS T) x →
      ((0 ≤ LHS.From ∧ 0 ≤ RHS.From) ∨ (LHS.To < 0 ∧ RHS.To < 0) →
        x ≤ min LHS.To RHS.To) ∧
      (0 ≤ LHS.From → 0 ≤ x ∧ x ≤ LHS.To) ∧
      (0 ≤ RHS.From → 0 ≤ x ∧ x ≤ RHS.To)) := by
  have hmm := (Ctx.getAPSIntType T).min_nonpos_max_nonneg hT
  obtain ⟨hin, hpa, hpb, hnn⟩ := bitwiseAnd_bounds (Ctx.getAPSIntType T) hT
    (a := a) (b := b) (by omega) (by omega) (by omega) (by omega)
  unfold VisitBinaryOperatorAnd
  simp only [inferType_of_not_reference Ctx T hRef]
  generalize bitwiseAnd (Ctx.getAPSIntType T) a b = r at hin hpa hpb hnn ⊢
  split_ifs with h1 h2 h3 h4
  · simp only [Bool.or_eq_true, Bool.and_eq_true, decide_eq_true_eq] at h1 h2
    simp only [covers_singleton]
    refine ⟨?_, fun x hx => ⟨fun _ => hx.2, fun _ => by omega, fun _ => by omega⟩⟩
    have := hnn (by omega) (by omega)
    omega
  · simp only [Bool.or_eq_true, Bool.and_eq_true, decide_eq_true_eq] at h1 h2
    simp only [covers_singleton]
    refine ⟨?_, fun x hx => ⟨fun _ => hx.2, fun _ => by omega, fun _ => by omega⟩⟩
    have := hpa (by omega)
    have := hpb (by omega)
    omega
  · simp only [Bool.or_eq_true, Bool.and_eq_true, decide_eq_true_eq] at h1 h3 h4
    simp only [covers_singleton]
    refine ⟨?_, fun x hx => ⟨fun _ => by omega, fun _ => by omega, fun _ => by omega⟩⟩
    have := hpa (by omega)
    omega
  · simp only [Bool.or_eq_true, Bool.and_eq_true, decide_eq_true_eq] at h1 h3 h4
    simp only [covers_singleton]
    refine ⟨?_, fun x hx => ⟨fun _ => by omega, fun _ => by omega, fun _ => by omega⟩⟩
    have := hpb (by omega)
    omega
  · simp only [Bool.or_eq_true, Bool.and_eq_true, decide_eq_true_eq] at h1 h3
    simp only [covers_singleton]
    refine ⟨hin, fun x hx => ⟨fun _ => by omega, fun _ => by omega, fun _ => by omega⟩⟩

theorem and_rule_sound_witness :
    VisitBinaryOperatorAnd sampleContext ⟨-8, 40⟩ ⟨3, 25⟩ 0 = [⟨0, 25⟩] ∧
    bitwiseAnd int8 (-6) 23 = 18 ∧
    Covers (VisitBinaryOperatorAnd sampleContext ⟨-8, 40⟩ ⟨3, 25⟩ 0)
      (bitwiseAnd (sampleContext.getAPSIntType 0) (-6) 23) :=
  ⟨by decide, by decide,
    (and_rule_sound sampleContext 0 ⟨-8, 40⟩ ⟨3, 25⟩ (-6) 23 (by decide) (by decide)
      (by decide) (by decide) (by decide) (by decide)).1⟩

/-! ## The rule for the remainder at the minimum of a signed type -/

/-- C37: the rule for the remainder is not a conservative estimate when the
range of the divisor contains the minimum of the signed type: in the 8-bit
signed type, for operands without any constraint, the coarse ranges are
`[-128, 127]`, the symmetrical range of the divisor is the whole range, and
`VisitBinaryOperator<BO_Rem>` returns `[-127, 126]`, which the inferrer gives
for the expression `x % y`; the remainder of `127` by `-128`, truncated toward
zero, is `127`, a value that is not in the returned range. -/
theorem rem_rule_misses_maximum :
    getSymmetricalRange sampleContext ⟨-128, 127⟩ 0 = ⟨-128, 127⟩ ∧
    VisitBinaryOperatorRem sampleContext ⟨-128, 127⟩ ⟨-128, 127⟩ 0 = [⟨-127, 126⟩] ∧
    sampleContext.getExpr 2012 = .SymSymExpr 2012 (.SymbolData 1) .BO_Rem (.SymbolData 2) ∧
    inferRange sampleContext ⟨[], [], [], []⟩ 2012 = [⟨-127, 126⟩] ∧
    (-128 : Int) ≤ 127 ∧ Int.tmod 127 (-128) = 127 ∧
    ¬Covers (VisitBinaryOperatorRem sampleContext ⟨-128, 127⟩ ⟨-128, 127⟩ 0)
      (Int.tmod 127 (-128)) ∧
    containsImpl int8 (inferRange sampleContext ⟨[], [], [], []⟩ 2012) (Int.tmod 127 (-128)) =
      false := by
  decide

/-! ## Two stored comparisons that state one fact -/

/-- C38: the cross-relation inference counts one fact twice: from the state
without constraints, assuming `x <= y` (true) and then `x > y` (false) gives a
state that stores a set without zero for `x <= y` and the set `{0}` for
`x > y`; both stored expressions state `x <= y`, each is `Unknown` for `x < y`,
and `getRangeForComparisonSymbol(x < y)` takes the `UnknownX2` cell and returns
the true range, so that assuming `x < y` false gives the null state, although
`x = 0, y = 0` satisfies both stored facts and not `x < y`. -/
theorem comparison_counts_one_fact_twice :
    sampleContext.getExpr 1212 =
      .SymSymExpr 1212 (.SymbolData 1) (.Comparison .BO_LE) (.SymbolData 2) ∧
    sampleContext.getExpr 1112 =
      .SymSymExpr 1112 (.SymbolData 1) (.Comparison .BO_GT) (.SymbolData 2) ∧
    sampleContext.getExpr 1012 =
      .SymSymExpr 1012 (.SymbolData 1) (.Comparison .BO_LT) (.SymbolData 2) ∧
    assumeSymNE sampleContext int8 ⟨[], [], [], []⟩ 1212 0 0 =
      some ⟨[], [], [(1212, [⟨-128, -1⟩, ⟨1, 127⟩])], []⟩ ∧
    assumeSymEQ sampleContext int8 ⟨[], [], [(1212, [⟨-128, -1⟩, ⟨1, 127⟩])], []⟩ 1112 0 0 =
      some ⟨[], [], [(1112, [⟨0, 0⟩]), (1212, [⟨-128, -1⟩, ⟨1, 127⟩])], []⟩ ∧
    getCmpOpState .BO_LT .BO_LE = .Unknown ∧
    getCmpOpState .BO_LT (negateComparisonOp .BO_GT) = .Unknown ∧
    getRangeForComparisonSymbol sampleContext
        ⟨[], [], [(1112, [⟨0, 0⟩]), (1212, [⟨-128, -1⟩, ⟨1, 127⟩])], []⟩
        (sampleContext.getExpr 1012) =
      some (getTrueRange sampleContext (sampleContext.getType 1012)) ∧
    inferRange sampleContext
        ⟨[], [], [(1112, [⟨0, 0⟩]), (1212, [⟨-128, -1⟩, ⟨1, 127⟩])], []⟩ 1012 =
      [⟨-128, -1⟩, ⟨1, 127⟩] ∧
    assumeSymEQ sampleContext int8
        ⟨[], [], [(1112, [⟨0, 0⟩]), (1212, [⟨-128, -1⟩, ⟨1, 127⟩])], []⟩ 1012 0 0 = none ∧
    BinaryOperatorKind.BO_LE.holds 0 0 ∧ ¬BinaryOperatorKind.BO_GT.holds 0 0 ∧
    ¬BinaryOperatorKind.BO_LT.holds 0 0 := by
  decide

/-! ## Merging and marking disequal keep the class data consistent -/

theorem setAdd_setAdd (s : List Nat) (x : Nat) : setAdd (setAdd s x) x = setAdd s x := by
  induction s with
  | nil => simp [setAdd]
  | cons a s ih =>
    by_cases h1 : x < a
    · have : setAdd (a :: s) x = x :: a :: s := by
        rw [setAdd, if_pos h1]
      rw [this, setAdd, if_neg (lt_irrefl x), if_pos rfl]
    · by_cases h2 : x = a
      · have : setAdd (a :: s) x = a :: s := by
          rw [setAdd, if_neg h1, if_pos h2]
        rw [this, this]
      · have : setAdd (a :: s) x = a :: setAdd s x := by
          rw [setAdd, if_neg h1, if_neg h2]
        rw [this, setAdd, if_neg h1, if_neg h2, ih]

theorem setRemove_of_not_mem {s : List Nat} {x : Nat} (h : x ∉ s) : setRemove s x = s := by
  unfold setRemove
  rw [List.filter_eq_self]
  intro y hy
  simp only [ne_eq, decide_not, Bool.not_eq_eq_eq_not, Bool.not_true, decide_eq_false_iff_not]
  rintro rfl
  exact h hy

/-- Replacing the dissolved class by the class that is left, twice, is
replacing it once. -/
theorem replace_replace {This Other : EquivalenceClass} (hne : This ≠ Other) (X : ClassSet) :
    setAdd (setRemove (setAdd (setRemove X Other) This) Other) This =
      setAdd (setRemove X Other) This := by
  have hnot : Other ∉ setAdd (setRemove X Other) This := by
    intro h
    rcases mem_setAdd.mp h with h | h
    · exact hne h.symm
    · exact (mem_setRemove.mp h).2 rfl
  rw [setRemove_of_not_mem hnot, setAdd_setAdd]

/-- The disequality map after the loop of `mergeImpl` over the classes disequal
to the dissolved class, by lookups. -/
theorem mapLookup_foldl_replace {This Other : EquivalenceClass} (hne : This ≠ Other)
    (l : List EquivalenceClass) (Info : List (EquivalenceClass × ClassSet))
    (K : EquivalenceClass) :
    mapLookup (l.foldl
      (fun Info DisequalClass =>
        mapAdd Info DisequalClass
          (setAdd (setRemove ((mapLookup Info DisequalClass).getD []) Other) This)) Info) K =
      if K ∈ l then some (setAdd (setRemove ((mapLookup Info K).getD []) Other) This)
      else mapLookup Info K := by
  induction l generalizing Info with
  | nil => simp
  | cons a l ih =>
    rw [List.foldl_cons, ih]
    by_cases hKa : K = a
    · subst hKa
      rw [mapLookup_mapAdd_self, if_pos (List.mem_cons_self _ _)]
      simp only [Option.getD_some]
      rw [replace_replace hne]
      split_ifs <;> rfl
    · rw [mapLookup_mapAdd_of_ne _ _ hKa]
      by_cases hKl : K ∈ l
      · rw [if_pos hKl, if_pos (List.mem_cons_of_mem _ hKl)]
      · rw [if_neg hKl, if_neg]
        intro h
        rcases List.mem_cons.mp h with h | h
        · exact hKa h
        · exact hKl h

theorem keysOrdered_foldl_replace {This Other : EquivalenceClass}
    (l : List EquivalenceClass) (Info : List (EquivalenceClass × ClassSet))
    (h : KeysOrdered Info) :
    KeysOrdered (l.foldl
      (fun Info DisequalClass =>
        mapAdd Info DisequalClass
          (setAdd (setRemove ((mapLookup Info DisequalClass).getD []) Other) This)) Info) := by
  induction l generalizing Info with
  | nil => exact h
  | cons a l ih =>
    rw [List.foldl_cons]
    exact ih _ (keysOrdered_mapAdd _ _ h)

theorem keysOrdered_mergeImplDisequalities (DM : List (EquivalenceClass × ClassSet))
    (This Other : EquivalenceClass) (h : KeysOrdered DM) :
    KeysOrdered (mergeImplDisequalities DM This Other) := by
  unfold mergeImplDisequalities
  simp only []
  split_ifs
  · exact keysOrdered_mapAdd _ _
      (keysOrdered_foldl_replace _ _ (keysOrdered_mapRemove _ h))
  · exact h

/-- The disequality map after `mergeImpl`, by lookups: the dissolved class has
no entry, the class that is left has the union of the two sets, a class that was
disequal to the dissolved class has the class that is left in its place, and
every other entry is as before. -/
theorem mapLookup_mergeImplDisequalities {DM : List (EquivalenceClass × ClassSet)}
    {This Other : EquivalenceClass} (hne : This ≠ Other)
    (hD : getDisequalClassesIn DM Other ≠ []) (K : EquivalenceClass) :
    mapLookup (mergeImplDisequalities DM This Other) K =
      if K = This then
        some ((getDisequalClassesIn DM Other).foldl setAdd (getDisequalClassesIn DM This))
      else if K ∈ getDisequalClassesIn DM Other then
        some (setAdd (setRemove ((mapLookup (mapRemove DM Other) K).getD []) Other) This)
      else if K = Other then none
      else mapLookup DM K := by
  unfold mergeImplDisequalities
  rw [if_pos (by rw [list_isEmpty_eq_false.mpr hD]; rfl)]
  rw [mapLookup_mapAdd]
  by_cases hKT : K = This
  · rw [if_pos hKT, if_pos hKT]
  · rw [if_neg hKT, if_neg hKT, mapLookup_foldl_replace hne, mapLookup_mapRemove]

theorem mergeImplDisequalities_of_nil {DM : List (EquivalenceClass × ClassSet)}
    {This Other : EquivalenceClass} (hD : getDisequalClassesIn DM Other = []) :
    mergeImplDisequalities DM This Other = DM := by
  unfold mergeImplDisequalities
  simp [hD]
theorem mem_getDisequalClassesIn {DM : List (EquivalenceClass × ClassSet)}
    {K D : EquivalenceClass} :
    D ∈ getDisequalClassesIn DM K ↔ ∃ Ds, mapLookup DM K = some Ds ∧ D ∈ Ds := by
  rw [getDisequalClassesIn_eq]
  cases mapLookup DM K with
  | none => simp
  | some Ds => simp

/-- The second half of the consistency check in terms of the disequality sets:
no stored set is empty, and the disequality of classes is symmetric. -/
theorem symmetricDisequalities_iff (DM : List (EquivalenceClass × ClassSet)) :
    SymmetricDisequalities DM ↔
      (∀ K Ds, mapLookup DM K = some Ds → Ds ≠ []) ∧
      (∀ K D, D ∈ getDisequalClassesIn DM K → K ∈ getDisequalClassesIn DM D) := by
  constructor
  · intro h
    refine ⟨fun K Ds hK => (h K Ds hK).1, fun K D hD => ?_⟩
    obtain ⟨Ds, hK, hmem⟩ := mem_getDisequalClassesIn.mp hD
    exact mem_getDisequalClassesIn.mpr ((h K Ds hK).2 D hmem)
  · rintro ⟨h1, h2⟩ K Ds hK
    refine ⟨h1 K Ds hK, fun D hD => ?_⟩
    exact mem_getDisequalClassesIn.mp (h2 K D (mem_getDisequalClassesIn.mpr ⟨Ds, hK, hD⟩))

/-- The disequality sets after `mergeImpl` has moved the disequalities of the
dissolved class. -/
theorem mem_mergeImplDisequalities {DM : List (EquivalenceClass × ClassSet)}
    {This Other : EquivalenceClass} (hne : This ≠ Other)
    (hD : getDisequalClassesIn DM Other ≠ [])
    (hOO : Other ∉ getDisequalClassesIn DM Other) (K D : EquivalenceClass) :
    D ∈ getDisequalClassesIn (mergeImplDisequalities DM This Other) K ↔
      if K = This then D ∈ getDisequalClassesIn DM This ∨ D ∈ getDisequalClassesIn DM Other
      else if K ∈ getDisequalClassesIn DM Other then
        D = This ∨ (D ∈ getDisequalClassesIn DM K ∧ D ≠ Other)
      else if K = Other then False
      else D ∈ getDisequalClassesIn DM K := by
  rw [getDisequalClassesIn_eq, mapLookup_mergeImplDisequalities hne hD]
  by_cases hKT : K = This
  · rw [if_pos hKT, if_pos hKT]
    simp only [Option.getD_some]
    exact mem_foldl_setAdd
  · rw [if_neg hKT, if_neg hKT]
    by_cases hKO : K ∈ getDisequalClassesIn DM Other
    · rw [if_pos hKO, if_pos hKO]
      have hKne : K ≠ Other := fun h => hOO (h ▸ hKO)
      simp only [Option.getD_some]
      rw [mem_setAdd, mem_setRemove, mapLookup_mapRemove_of_ne _ hKne,
        ← getDisequalClassesIn_eq]
    · rw [if_neg hKO, if_neg hKO]
      by_cases hKOt : K = Other
      · rw [if_pos hKOt, if_pos hKOt]
        simp
      · rw [if_neg hKOt, if_neg hKOt, ← getDisequalClassesIn_eq]

/-- Moving the disequalities of the dissolved class keeps the disequalities
symmetric and without empty sets; the dissolved class is then in no set and has
no set, its former disequal classes list the class that is left, and no class
becomes disequal to itself. -/
theorem symmetric_mergeImplDisequalities {DM : List (EquivalenceClass × ClassSet)}
    {This Other : EquivalenceClass} (hS : SymmetricDisequalities DM) (hne : This ≠ Other)
    (hTO : This ∉ getDisequalClassesIn DM Other)
    (hOO : Other ∉ getDisequalClassesIn DM Other) :
    SymmetricDisequalities (mergeImplDisequalities DM This Other) ∧
    mapLookup (mergeImplDisequalities DM This Other) Other = none ∧
    (∀ K, Other ∉ getDisequalClassesIn (mergeImplDisequalities DM This Other) K) ∧
    (∀ D ∈ getDisequalClassesIn DM Other,
      This ∈ getDisequalClassesIn (mergeImplDisequalities DM This Other) D ∧
      D ∈ getDisequalClassesIn (mergeImplDisequalities DM This Other) This) ∧
    ((∀ K, K ∉ getDisequalClassesIn DM K) →
      ∀ K, K ∉ getDisequalClassesIn (mergeImplDisequalities DM This Other) K) := by
  obtain ⟨hne1, hsym⟩ := (symmetricDisequalities_iff DM).mp hS
  have hOT : Other ∉ getDisequalClassesIn DM This := fun h => hTO (hsym _ _ h)
  by_cases hD : getDisequalClassesIn DM Other = []
  · rw [mergeImplDisequalities_of_nil hD]
    have hnone : mapLookup DM Other = none := by
      cases hl : mapLookup DM Other with
      | none => rfl
      | some Ds =>
        exfalso
        apply hne1 Other Ds hl
        rw [getDisequalClassesIn_eq, hl] at hD
        exact hD
    refine ⟨hS, hnone, ?_, ?_, fun h => h⟩
    · intro K hK
      have := hsym K Other hK
      rw [hD] at this
      cases this
    · intro D hDm
      rw [hD] at hDm
      cases hDm
  · have hmem := @mem_mergeImplDisequalities DM This Other hne hD hOO
    have hlook := @mapLookup_mergeImplDisequalities DM This Other hne hD
    refine ⟨(symmetricDisequalities_iff _).mpr ⟨?_, ?_⟩, ?_, ?_, ?_, ?_⟩
    · intro K Ds hK
      rw [hlook] at hK
      by_cases hKT : K = This
      · rw [if_pos hKT] at hK
        cases hK
        obtain ⟨d, hd⟩ := List.exists_mem_of_ne_nil _ hD
        intro hnil
        have : d ∈ (getDisequalClassesIn DM Other).foldl setAdd (getDisequalClassesIn DM This) :=
          mem_foldl_setAdd.mpr (Or.inr hd)
        rw [hnil] at this
        cases this
      · rw [if_neg hKT] at hK
        by_cases hKO : K ∈ getDisequalClassesIn DM Other
        · rw [if_pos hKO] at hK
          cases hK
          intro hnil
          have : This ∈ setAdd
              (setRemove ((mapLookup (mapRemove DM Other) K).getD []) Other) This :=
            mem_setAdd.mpr (Or.inl rfl)
          rw [hnil] at this
          cases this
        · rw [if_neg hKO] at hK
          by_cases hKOt : K = Other
          · rw [if_pos hKOt] at hK
            cases hK
          · rw [if_neg hKOt] at hK
            exact hne1 K Ds hK
    · intro K D h
      rw [hmem] at h ⊢
      by_cases hKT : K = This
      · rw [if_pos hKT] at h
        by_cases hDT : D = This
        · rw [if_pos hDT, hKT]
          rw [hDT] at h
          exact h
        · rw [if_neg hDT]
          by_cases hDO : D ∈ getDisequalClassesIn DM Other
          · rw [if_pos hDO]
            exact Or.inl hKT
          · rw [if_neg hDO]
            have hDT' : D ∈ getDisequalClassesIn DM This := h.resolve_right hDO
            have hDne : D ≠ Other := fun e => hOT (e ▸ hDT')
            rw [if_neg hDne, hKT]
            exact hsym _ _ hDT'
      · rw [if_neg hKT] at h
        by_cases hKO : K ∈ getDisequalClassesIn DM Other
        · rw [if_pos hKO] at h
          have hKne : K ≠ Other := fun e => hOO (e ▸ hKO)
          by_cases hDT : D = This
          · rw [if_pos hDT]
            exact Or.inr hKO
          · rw [if_neg hDT]
            obtain ⟨hDK, hDne⟩ := h.resolve_left hDT
            by_cases hDO : D ∈ getDisequalClassesIn DM Other
            · rw [if_pos hDO]
              exact Or.inr ⟨hsym _ _ hDK, hKne⟩
            · rw [if_neg hDO, if_neg hDne]
              exact hsym _ _ hDK
        · rw [if_neg hKO] at h
          by_cases hKOt : K = Other
          · rw [if_pos hKOt] at h
            exact absurd h id
          · rw [if_neg hKOt] at h
            by_cases hDT : D = This
            · rw [if_pos hDT]
              rw [hDT] at h
              exact Or.inl (hsym _ _ h)
            · rw [if_neg hDT]
              by_cases hDO : D ∈ getDisequalClassesIn DM Other
              · rw [if_pos hDO]
                exact Or.inr ⟨hsym _ _ h, hKOt⟩
              · rw [if_neg hDO]
                have hDne : D ≠ Other := by
                  intro e
                  rw [e] at h
                  exact hKO (hsym _ _ h)
                rw [if_neg hDne]
                exact hsym _ _ h
    · rw [hlook, if_neg (Ne.symm hne), if_neg hOO, if_pos rfl]
    · intro K h
      rw [hmem] at h
      by_cases hKT : K = This
      · rw [if_pos hKT] at h
        rcases h with h | h
        · exact hOT h
        · exact hOO h
      · rw [if_neg hKT] at h
        by_cases hKO : K ∈ getDisequalClassesIn DM Other
        · rw [if_pos hKO] at h
          rcases h with h | h
          · exact hne h.symm
          · exact h.2 rfl
        · rw [if_neg hKO] at h
          by_cases hKOt : K = Other
          · rw [if_pos hKOt] at h
            exact h
          · rw [if_neg hKOt] at h
            exact hKO (hsym _ _ h)
    · intro D hDm
      have hDT : D ≠ This := fun e => hTO (e ▸ hDm)
      constructor
      · rw [hmem, if_neg hDT, if_pos hDm]
        exact Or.inl rfl
      · rw [hmem, if_pos rfl]
        exact Or.inr hDm
    · intro hself K h
      rw [hmem] at h
      by_cases hKT : K = This
      · rw [if_pos hKT] at h
        rcases h with h | h
        · exact hself This (hKT ▸ h)
        · exact hTO (hKT ▸ h)
      · rw [if_neg hKT] at h
        by_cases hKO : K ∈ getDisequalClassesIn DM Other
        · rw [if_pos hKO] at h
          rcases h with h | h
          · exact hKT h
          · exact hself K h.1
        · rw [if_neg hKO] at h
          by_cases hKOt : K = Other
          · rw [if_pos hKOt] at h
            exact h
          · rw [if_neg hKOt] at h
            exact hself K h
/-- Marking two different classes disequal keeps the disequalities symmetric
and without empty sets, and makes no class disequal to itself. -/
theorem symmetric_markDisequal {DM : List (EquivalenceClass × ClassSet)}
    {This Other : EquivalenceClass} (hS : SymmetricDisequalities DM) (hne : This ≠ Other) :
    SymmetricDisequalities
      (mapAdd (mapAdd DM This (setAdd ((mapLookup DM This).getD []) Other)) Other
        (setAdd ((mapLookup (mapAdd DM This (setAdd ((mapLookup DM This).getD []) Other))
          Other).getD []) This)) ∧
    ((∀ K, K ∉ getDisequalClassesIn DM K) →
      ∀ K, K ∉ getDisequalClassesIn
        (mapAdd (mapAdd DM This (setAdd ((mapLookup DM This).getD []) Other)) Other
          (setAdd ((mapLookup (mapAdd DM This (setAdd ((mapLookup DM This).getD []) Other))
            Other).getD []) This)) K) := by
  obtain ⟨hne1, hsym⟩ := (symmetricDisequalities_iff DM).mp hS
  rw [mapLookup_mapAdd_of_ne _ _ (Ne.symm hne)]
  have hlook : ∀ K, mapLookup
      (mapAdd (mapAdd DM This (setAdd ((mapLookup DM This).getD []) Other)) Other
        (setAdd ((mapLookup DM Other).getD []) This)) K =
      if K = Other then some (setAdd ((mapLookup DM Other).getD []) This)
      else if K = This then some (setAdd ((mapLookup DM This).getD []) Other)
      else mapLookup DM K := by
    intro K
    rw [mapLookup_mapAdd, mapLookup_mapAdd]
  have hmem : ∀ K D, D ∈ getDisequalClassesIn
      (mapAdd (mapAdd DM This (setAdd ((mapLookup DM This).getD []) Other)) Other
        (setAdd ((mapLookup DM Other).getD []) This)) K ↔
      if K = Other then D = This ∨ D ∈ getDisequalClassesIn DM Other
      else if K = This then D = Other ∨ D ∈ getDisequalClassesIn DM This
      else D ∈ getDisequalClassesIn DM K := by
    intro K D
    rw [getDisequalClassesIn_eq, hlook]
    by_cases hKO : K = Other
    · rw [if_pos hKO, if_pos hKO]
      simp only [Option.getD_some]
      rw [mem_setAdd, ← getDisequalClassesIn_eq]
    · rw [if_neg hKO, if_neg hKO]
      by_cases hKT : K = This
      · rw [if_pos hKT, if_pos hKT]
        simp only [Option.getD_some]
        rw [mem_setAdd, ← getDisequalClassesIn_eq]
      · rw [if_neg hKT, if_neg hKT, ← getDisequalClassesIn_eq]
  refine ⟨(symmetricDisequalities_iff _).mpr ⟨?_, ?_⟩, ?_⟩
  · intro K Ds hK
    rw [hlook] at hK
    by_cases hKO : K = Other
    · rw [if_pos hKO] at hK
      cases hK
      intro hnil
      have : This ∈ setAdd ((mapLookup DM Other).getD []) This := mem_setAdd.mpr (Or.inl rfl)
      rw [hnil] at this
      cases this
    · rw [if_neg hKO] at hK
      by_cases hKT : K = This
      · rw [if_pos hKT] at hK
        cases hK
        intro hnil
        have : Other ∈ setAdd ((mapLookup DM This).getD []) Other :=
          mem_setAdd.mpr (Or.inl rfl)
        rw [hnil] at this
        cases this
      · rw [if_neg hKT] at hK
        exact hne1 K Ds hK
  · intro K D h
    rw [hmem] at h ⊢
    by_cases hKO : K = Other
    · rw [if_pos hKO] at h
      by_cases hDO : D = Other
      · rw [if_pos hDO, hKO]
        rw [hDO] at h
        exact h
      · rw [if_neg hDO]
        by_cases hDT : D = This
        · rw [if_pos hDT]
          exact Or.inl hKO
        · rw [if_neg hDT, hKO]
          exact hsym _ _ (h.resolve_left hDT)
    · rw [if_neg hKO] at h
      by_cases hKT : K = This
      · rw [if_pos hKT] at h
        by_cases hDO : D = Other
        · rw [if_pos hDO]
          exact Or.inl hKT
        · rw [if_neg hDO]
          by_cases hDT : D = This
          · rw [if_pos hDT, hKT]
            rw [hDT] at h
            exact h
          · rw [if_neg hDT, hKT]
            exact hsym _ _ (h.resolve_left hDO)
      · rw [if_neg hKT] at h
        by_cases hDO : D = Other
        · rw [if_pos hDO]
          rw [hDO] at h
          exact Or.inr (hsym _ _ h)
        · rw [if_neg hDO]
          by_cases hDT : D = This
          · rw [if_pos hDT]
            rw [hDT] at h
            exact Or.inr (hsym _ _ h)
          · rw [if_neg hDT]
            exact hsym _ _ h
  · intro hself K h
    rw [hmem] at h
    by_cases hKO : K = Other
    · rw [if_pos hKO] at h
      rcases h with h | h
      · exact hne (h.symm.trans hKO)
      · exact hself Other (hKO ▸ h)
    · rw [if_neg hKO] at h
      by_cases hKT : K = This
      · rw [if_pos hKT] at h
        rcases h with h | h
        · exact hKO h
        · exact hself This (hKT ▸ h)
      · rw [if_neg hKT] at h
        exact hself K h

/-- The members of a class that is its own class map back to it, in a state
whose stored member sets map back to their classes. -/
theorem getClassMembers_find_of {State : ProgramState}
    (hM : ∀ K M, mapLookup State.ClassMembers K = some M → ∀ m ∈ M, find State m = K)
    {K : EquivalenceClass} (hK : find State K = K) :
    ∀ m ∈ getClassMembers State K, find State m = K := by
  intro m hm
  unfold getClassMembers at hm
  cases hl : mapLookup State.ClassMembers K with
  | none =>
    rw [hl] at hm
    simp only [setAdd, List.mem_singleton] at hm
    rw [hm]
    exact hK
  | some M' =>
    rw [hl] at hm
    exact hM K M' hl m hm

/-- After `mergeImpl` on two classes that are their own classes, the stored
member sets map back to their classes. -/
theorem mergeImpl_members_back {State S' : ProgramState} {This Other : EquivalenceClass}
    (hM : ∀ K M, mapLookup State.ClassMembers K = some M → ∀ m ∈ M, find State m = K)
    (hne : This ≠ Other)
    (hfT : find State This = This) (hfO : find State Other = Other)
    (h : mergeImpl State This (getClassMembers State This) Other
      (getClassMembers State Other) = some S') :
    ∀ K M, mapLookup S'.ClassMembers K = some M → ∀ m ∈ M, find S' m = K := by
  obtain ⟨hfind, _, hmem, _⟩ := mergeImpl_lookups hne h
  have hOM := getClassMembers_find_of hM hfO
  have hTM := getClassMembers_find_of hM hfT
  intro K M hK m hm
  rw [hmem] at hK
  rw [hfind]
  by_cases hKT : K = This
  · rw [if_pos hKT] at hK
    cases hK
    by_cases hmO : m ∈ getClassMembers State Other
    · rw [if_pos hmO, hKT]
    · rw [if_neg hmO, hKT]
      rcases mem_foldl_setAdd.mp hm with hm | hm
      · exact hTM m hm
      · exact absurd hm hmO
  · rw [if_neg hKT] at hK
    by_cases hKO : K = Other
    · rw [if_pos hKO] at hK
      cases hK
    · rw [if_neg hKO] at hK
      have hfm := hM K M hK m hm
      by_cases hmO : m ∈ getClassMembers State Other
      · exact absurd ((hOM m hmO).symm.trans hfm).symm hKO
      · rw [if_neg hmO]
        exact hfm
/-- The function `mergeImpl` on two different classes that are their own classes,
the dissolved one not disequal to itself, keeps the class data consistent. -/
theorem mergeImpl_keeps_consistent {State S' : ProgramState} {This Other : EquivalenceClass}
    (hM : KeysOrdered State.ClassMembers) (hD : KeysOrdered State.DisequalityMap)
    (hC : isClassDataConsistent State = true) (hne : This ≠ Other)
    (hfT : find State This = This) (hfO : find State Other = Other)
    (hOO : Other ∉ getDisequalClasses State Other)
    (h : mergeImpl State This (getClassMembers State This) Other
      (getClassMembers State Other) = some S') :
    isClassDataConsistent S' = true ∧
    mapLookup S'.ClassMembers Other = none ∧
    mapLookup S'.DisequalityMap Other = none ∧
    (∀ K, Other ∉ getDisequalClasses S' K) ∧
    (∀ D ∈ getDisequalClasses State Other,
      This ∈ getDisequalClasses S' D ∧ D ∈ getDisequalClasses S' This) ∧
    ((∀ K, K ∉ getDisequalClasses State K) → ∀ K, K ∉ getDisequalClasses S' K) := by
  obtain ⟨hmem, hsym⟩ := (isClassDataConsistent_iff hM hD).mp hC
  have hback := mergeImpl_members_back hmem hne hfT hfO h
  obtain ⟨_, _, hlookM, _⟩ := mergeImpl_lookups hne h
  obtain ⟨C, _, hTO, hS'⟩ := mergeImpl_eq_some.mp h
  have hDM : S'.DisequalityMap = mergeImplDisequalities State.DisequalityMap This Other := by
    rw [hS']
  have hCM : S'.ClassMembers =
      mapAdd (mapRemove State.ClassMembers Other) This
        ((getClassMembers State Other).foldl setAdd (getClassMembers State This)) := by
    rw [hS']
  obtain ⟨h1, h2, h3, h4, h5⟩ :=
    @symmetric_mergeImplDisequalities State.DisequalityMap This Other hsym hne hTO hOO
  have hM' : KeysOrdered S'.ClassMembers := by
    rw [hCM]
    exact keysOrdered_mapAdd _ _ (keysOrdered_mapRemove _ hM)
  have hD' : KeysOrdered S'.DisequalityMap := by
    rw [hDM]
    exact keysOrdered_mergeImplDisequalities _ _ _ hD
  refine ⟨(isClassDataConsistent_iff hM' hD').mpr ⟨hback, ?_⟩, ?_, ?_, ?_, ?_, ?_⟩
  · rw [hDM]
    exact h1
  · rw [hlookM, if_neg (Ne.symm hne), if_pos rfl]
  · rw [hDM]
    exact h2
  · intro K
    unfold getDisequalClasses
    rw [hDM]
    exact h3 K
  · intro D hDm
    unfold getDisequalClasses
    rw [hDM]
    exact h4 D hDm
  · intro hself K
    unfold getDisequalClasses
    rw [hDM]
    exact h5 hself K

/-- C39: `merge` and `markDisequal` keep the class data consistent: for every
state that satisfies `isClassDataConsistent` (its maps in key order), every
non-null state returned by `markDisequal` satisfies `isClassDataConsistent`,
and so does every non-null state returned by `merge`, in a state where the
classes of the two symbols are their own classes and no class is disequal to
itself, as in every state that the manager builds; after the merge no class is
disequal to itself, and when the two classes differ and have the same type, so
that one is dissolved into the other, the dissolved class has no member set,
is not a key of `DisequalityMap` nor an element of any disequality set, and
each of its former disequal classes lists the surviving class and is listed by
it. -/
theorem merge_markDisequal_keep_consistent
    (getType : SymbolRef → QualType) (getHeight : SymbolSet → Nat)
    (rangeType : SymbolRef → APSIntType) (inferRange : ProgramState → SymbolRef → RangeSet)
    (State : ProgramState) (A B : SymbolRef)
    (hM : KeysOrdered State.ClassMembers) (hD : KeysOrdered State.DisequalityMap)
    (hC : isClassDataConsistent State = true) :
    (∀ S', markDisequal rangeType inferRange State A B = some S' →
      isClassDataConsistent S' = true ∧
      ((∀ K, K ∉ getDisequalClasses State K) → ∀ K, K ∉ getDisequalClasses S' K)) ∧
    (find State (find State A) = find State A → find State (find State B) = find State B →
      (∀ K, K ∉ getDisequalClasses State K) →
      ∀ S', merge getType getHeight State A B = some S' →
        isClassDataConsistent S' = true ∧ (∀ K, K ∉ getDisequalClasses S' K) ∧
        (find State A ≠ find State B → getType (find State A) = getType (find State B) →
          ∃ This Other,
            ((This = find State A ∧ Other = find State B) ∨
              (This = find State B ∧ Other = find State A)) ∧
            mapLookup S'.ClassMembers Other = none ∧
            mapLookup S'.DisequalityMap Other = none ∧
            (∀ K, Other ∉ getDisequalClasses S' K) ∧
            (∀ D ∈ getDisequalClasses State Other,
              This ∈ getDisequalClasses S' D ∧ D ∈ getDisequalClasses S' This))) := by
  obtain ⟨hmem, hsym⟩ := (isClassDataConsistent_iff hM hD).mp hC
  constructor
  · intro S' h
    unfold markDisequal at h
    obtain ⟨hne, I1, C1, I2, C2, h1, h2, hS'⟩ := markDisequalClasses_some h
    have e1 := addToDisequalityInfo_info h1
    have e2 := addToDisequalityInfo_info h2
    rw [e1] at e2
    obtain ⟨hs1, hs2⟩ := @symmetric_markDisequal State.DisequalityMap (find State A)
      (find State B) hsym hne
    have hDM : S'.DisequalityMap = I2 := by rw [hS']
    have hCM : S'.ClassMembers = State.ClassMembers := by rw [hS']
    have hfind : ∀ m, find S' m = find State m := by
      intro m
      rw [hS']
      rfl
    have hM' : KeysOrdered S'.ClassMembers := by
      rw [hCM]
      exact hM
    have hD' : KeysOrdered S'.DisequalityMap := by
      rw [hDM, e2]
      exact keysOrdered_mapAdd _ _ (keysOrdered_mapAdd _ _ hD)
    refine ⟨(isClassDataConsistent_iff hM' hD').mpr ⟨?_, ?_⟩, ?_⟩
    · intro K M hK m hm
      rw [hCM] at hK
      rw [hfind]
      exact hmem K M hK m hm
    · rw [hDM, e2]
      exact hs1
    · intro hself K
      unfold getDisequalClasses
      rw [hDM, e2]
      exact hs2 hself K
  · intro hfA hfB hself S' h
    by_cases hne : find State A = find State B
    · have : S' = State := by
        unfold merge mergeClasses at h
        rw [if_pos hne] at h
        cases h
        rfl
      rw [this]
      exact ⟨hC, hself, fun h' => absurd hne h'⟩
    · by_cases hty : getType (find State A) = getType (find State B)
      · obtain ⟨This, Other, hor, heq⟩ :=
          merge_eq_mergeImpl getType getHeight State A B hne hty
        rw [heq] at h
        have hTO : This ≠ Other := by
          rcases hor with ⟨rfl, rfl⟩ | ⟨rfl, rfl⟩
          · exact hne
          · exact Ne.symm hne
        have hfT : find State This = This := by
          rcases hor with ⟨rfl, _⟩ | ⟨rfl, _⟩
          · exact hfA
          · exact hfB
        have hfO : find State Other = Other := by
          rcases hor with ⟨_, rfl⟩ | ⟨_, rfl⟩
          · exact hfB
          · exact hfA
        obtain ⟨c1, c2, c3, c4, c5, c6⟩ :=
          mergeImpl_keeps_consistent hM hD hC hTO hfT hfO (hself Other) h
        exact ⟨c1, c6 hself, fun _ _ => ⟨This, Other, hor, c2, c3, c4, c5⟩⟩
      · have : S' = State := by
          unfold merge mergeClasses at h
          rw [if_neg hne, if_pos hty] at h
          cases h
          rfl
        rw [this]
        exact ⟨hC, hself, fun _ h' => absurd h' hty⟩

/-- A state whose only disequality is between two different classes has no
class disequal to itself. -/
theorem no_self_disequality_of_pair (X Y : EquivalenceClass) (hXY : X ≠ Y)
    (CM : List (SymbolRef × EquivalenceClass)) (M : List (EquivalenceClass × SymbolSet))
    (C : List (EquivalenceClass × RangeSet)) :
    ∀ K, K ∉ getDisequalClasses ⟨CM, M, C, [(X, [Y]), (Y, [X])]⟩ K := by
  intro K
  show K ∉ getDisequalClassesIn [(X, [Y]), (Y, [X])] K
  rw [mem_getDisequalClassesIn]
  rintro ⟨Ds, hK, hmem⟩
  change (if K = X then some [Y] else if K = Y then some [X] else none) = some Ds at hK
  split_ifs at hK with h1 h2
  · cases hK
    rw [List.mem_singleton] at hmem
    exact hXY (h1.symm.trans hmem)
  · cases hK
    rw [List.mem_singleton] at hmem
    exact hXY (hmem.symm.trans h2)

theorem merge_markDisequal_keep_consistent_witness :
    KeysOrdered (⟨[(3, 1)], [(1, [1, 3])], [], [(1, [7]), (7, [1])]⟩ :
      ProgramState).ClassMembers ∧
    isClassDataConsistent ⟨[(3, 1)], [(1, [1, 3])], [], [(1, [7]), (7, [1])]⟩ = true ∧
    merge sampleContext.getType sampleContext.getHeight
        ⟨[(3, 1)], [(1, [1, 3])], [], [(1, [7]), (7, [1])]⟩ 4 7 =
      some ⟨[(3, 1), (7, 4)], [(1, [1, 3]), (4, [4, 7])], [], [(1, [4]), (4, [1])]⟩ ∧
    isClassDataConsistent
        ⟨[(3, 1), (7, 4)], [(1, [1, 3]), (4, [4, 7])], [], [(1, [4]), (4, [1])]⟩ = true ∧
    (∀ K, K ∉ getDisequalClasses
        ⟨[(3, 1), (7, 4)], [(1, [1, 3]), (4, [4, 7])], [], [(1, [4]), (4, [1])]⟩ K) :=
  ⟨by decide, by decide, by decide, by decide,
    ((merge_markDisequal_keep_consistent sampleContext.getType sampleContext.getHeight
      (rangeTypeOf sampleContext) (inferRange sampleContext)
      ⟨[(3, 1)], [(1, [1, 3])], [], [(1, [7]), (7, [1])]⟩ 4 7
      (by decide) (by decide) (by decide)).2 (by decide) (by decide)
      (no_self_disequality_of_pair 1 7 (by decide) _ _ _) _ (by decide)).2.1⟩

/-- The remainder truncated toward zero: it has the sign of the dividend, is
smaller in absolute value than the divisor and no larger than the dividend. -/
theorem tmod_bounds (a b : Int) (hb : b ≠ 0) :
    (0 ≤ a → 0 ≤ a.tmod b ∧ a.tmod b ≤ a ∧ a.tmod b < b.natAbs) ∧
    (a ≤ 0 → a.tmod b ≤ 0 ∧ a ≤ a.tmod b ∧ -(b.natAbs : Int) < a.tmod b) := by
  have hpos : 0 < b.natAbs := Int.natAbs_pos.mpr hb
  have key : a.tmod b = if 0 ≤ a then ((a.natAbs % b.natAbs : Nat) : Int)
      else -((a.natAbs % b.natAbs : Nat) : Int) := by
    cases a with
    | ofNat m =>
      cases b with
      | ofNat n => simp [Int.tmod]
      | negSucc n =>
        simp only [Int.tmod, Int.ofNat_eq_coe, Int.natAbs_ofNat, Int.natAbs_negSucc,
          Nat.succ_eq_add_one]
        rw [if_pos (Int.ofNat_nonneg m)]
    | negSucc m =>
      have hneg : ¬(0 ≤ Int.negSucc m) := by
        have := Int.negSucc_lt_zero m
        omega
      cases b with
      | ofNat n =>
        simp only [Int.tmod, Int.ofNat_eq_coe, Int.natAbs_ofNat, Int.natAbs_negSucc,
          Nat.succ_eq_add_one]
        rw [if_neg hneg]
      | negSucc n =>
        simp only [Int.tmod, Int.ofNat_eq_coe, Int.natAbs_negSucc, Nat.succ_eq_add_one]
        rw [if_neg hneg]
  have h1 : a.natAbs % b.natAbs < b.natAbs := Nat.mod_lt _ hpos
  have h2 : a.natAbs % b.natAbs ≤ a.natAbs := Nat.mod_le _ _
  rw [key]
  constructor
  · intro ha
    rw [if_pos ha]
    omega
  · intro ha
    by_cases h0 : 0 ≤ a
    · have : a = 0 := by omega
      subst this
      simp
      exact hb
    · rw [if_neg h0]
      omega

/-- Away from the minimum of a signed type the rule for the remainder is
sound: for a result type of at least one bit and coarse operand ranges of that
type, the divisor range not starting at the minimum of a signed type, the
remainder (truncated toward zero) of every `a` in `LHS` by every non-zero `b`
in `RHS` is contained in the range returned by `VisitBinaryOperator<BO_Rem>`. -/
theorem rem_rule_sound_away_from_minimum (Ctx : Context) (T : QualType) (LHS RHS : Range)
    (a b : Int) (hT : 0 < (Ctx.getAPSIntType T).BitWidth)
    (hL : (Ctx.getAPSIntType T).getMinValue ≤ LHS.From ∧
      LHS.To ≤ (Ctx.getAPSIntType T).getMaxValue)
    (hR : (Ctx.getAPSIntType T).getMinValue ≤ RHS.From ∧
      RHS.To ≤ (Ctx.getAPSIntType T).getMaxValue)
    (ha : LHS.From ≤ a ∧ a ≤ LHS.To) (hb : RHS.From ≤ b ∧ b ≤ RHS.To) (hb0 : b ≠ 0)
    (hmin : (Ctx.getAPSIntType T).IsUnsigned = true ∨
      RHS.From ≠ (Ctx.getAPSIntType T).getMinValue) :
    Covers (VisitBinaryOperatorRem Ctx LHS RHS T) (Int.tmod a b) := by
  have hmm := (Ctx.getAPSIntType T).min_nonpos_max_nonneg hT
  have hlt := (Ctx.getAPSIntType T).min_lt_max hT
  obtain ⟨hpos, hneg⟩ := tmod_bounds a b hb0
  have hsmall : 0 ≤ a → a < b → Int.tmod a b = a := fun h1 h2 => Int.tmod_eq_of_lt h1 h2
  generalize Int.tmod a b = r at hpos hneg hsmall ⊢
  have happly : ∀ v, (Ctx.getAPSIntType T).getMinValue ≤ v →
      v ≤ (Ctx.getAPSIntType T).getMaxValue → (Ctx.getAPSIntType T).apply v = v :=
    fun v h1 h2 => (Ctx.getAPSIntType T).apply_of_inRange hT h1 h2
  unfold VisitBinaryOperatorRem getSymmetricalRange
  simp only []
  by_cases hu : (Ctx.getAPSIntType T).IsUnsigned = true
  · have h0 := (Ctx.getAPSIntType T).unsigned_min hu
    rw [if_pos hu]
    simp only [hu, Bool.not_true, Bool.false_eq_true, if_false]
    have hTo : RHS.To ≠ 0 := by omega
    rw [if_neg hTo, happly (RHS.To - 1) (by omega) (by omega)]
    have hc : (decide (LHS.From ≥ 0) && decide (RHS.From ≥ 0)) = true := by
      simp only [Bool.and_eq_true, decide_eq_true_eq]
      omega
    rw [if_pos hc, covers_singleton]
    have := hpos (by omega)
    by_cases hsep : LHS.To < RHS.From
    · rw [if_pos hsep]
      have := hsmall (by omega) (by omega)
      omega
    · rw [if_neg hsep]
      omega
  · have hs : (Ctx.getAPSIntType T).IsUnsigned = false := by
      cases h : (Ctx.getAPSIntType T).IsUnsigned
      · rfl
      · exact absurd h hu
    have hsum := (Ctx.getAPSIntType T).signed_sum hs
    have hne : RHS.From ≠ (Ctx.getAPSIntType T).getMinValue := hmin.resolve_left hu
    rw [if_neg hu, if_neg hne]
    simp only [hs, Bool.not_false, if_true]
    have hn1 : neg (Ctx.getAPSIntType T) RHS.From = -RHS.From := by
      rw [neg_eq _ hT (by omega) (by omega)]
      omega
    rw [hn1]
    have hA1 : (Ctx.getAPSIntType T).getMinValue < max (-RHS.From) RHS.To := by omega
    have hA2 : max (-RHS.From) RHS.To ≤ (Ctx.getAPSIntType T).getMaxValue := by omega
    have hn2 : neg (Ctx.getAPSIntType T) (max (-RHS.From) RHS.To) =
        -(max (-RHS.From) RHS.To) := by
      rw [neg_eq _ hT hA1 hA2]
      omega
    rw [hn2]
    have hM : max (-RHS.From) RHS.To ≠ 0 := by omega
    rw [if_neg hM, happly (max (-RHS.From) RHS.To - 1) (by omega) (by omega),
      happly (-(max (-RHS.From) RHS.To) + 1) (by omega) (by omega)]
    by_cases hc : (decide (LHS.From ≥ 0) && decide (RHS.From ≥ 0)) = true
    · rw [if_pos hc, covers_singleton]
      simp only [Bool.and_eq_true, decide_eq_true_eq] at hc
      have := hpos (by omega)
      by_cases hsep : LHS.To < RHS.From
      · rw [if_pos hsep]
        have := hsmall (by omega) (by omega)
        omega
      · rw [if_neg hsep]
        omega
    · rw [if_neg hc, covers_singleton]
      by_cases ha0 : 0 ≤ a
      · have := hpos ha0
        omega
      · have := hneg (by omega)
        omega

end RangeConstraint
